import Mathlib

/-!
# Nelobin: a shallow embedding of the registry library

The development follows the C++ sources of the library:

* `Types.hpp`   : the fixed-width types, the header constants, the type aliases;
* `Order.cpp`   : `checkEndian`, `swapBytes`, `encodeFloat`, `decodeFloat`;
* `Buffer.cpp`  : the byte buffer with its read cursor;
* `Entry.hpp`   : the typed entries and their binary layout;
* `Key.hpp`, `Key.cpp` : the key tree, its mutations, `serialize` and the
  three `deserialize*` methods;
* `Registry.cpp`: `loadFromBuffer`, `loadFromFile`, `saveToBuffer`, `saveToFile`.

Conventions of the embedding.

* A `char` (and a `U8`) is a `Fin 256`; a `std::string` and the `ByteArray`
  are lists of them.
* The values stored in entries are bit patterns of their width (`Fin (2 ^ w)`);
  signed types are kept as their two's complement pattern and `Float` as its
  IEEE-754 pattern.
* Words in flight (what `swapBytes`, `writeData`, `readData` exchange) are
  natural numbers; wherever the C++ narrows a value the model reduces it
  modulo `2 ^ w`.
* The counter of `Key::getInstanceCount`, the instance ids and the read cursor
  are unbounded naturals: the counter is incremented once per sibling key that
  is alive in one vector, and the cursor once per byte.
* A method that mutates `*this` is a function from the old object to the new
  one; a reference returned by a method is returned as a position in the
  owning list, or as the constructor that stands for the shared sentinel.
* `mp_parent` is not stored: the parent of a key is the key whose `m_keys`
  holds it, and the key at the top of a tree is the one whose `mp_parent` is
  `nullptr`.
* Writes into the shared sentinels (`Key::s_null`, `Entry<T>::s_null`) never
  reach a registry tree; the tree functions below return the tree and the
  buffer only.
  The values the objects `Entry<T>::s_null` hold are kept in a record of their
  own (`Sentinels`), for the calls of `set` and `get` that go through them.
* The recursion of `Key::deserializeNext` through `Key::deserializeKey` carries
  a bound on its nesting; `Key.deserializeNextTotal` is the function with the
  bound discharged, and `Key.LoopCalls` lists the calls a decoding loop makes.
-/

namespace Nelobin

/-! ## Types.hpp -/

/-- One `char` of a `std::string` or of the `ByteArray`. -/
abbrev Byte := Fin 256

/-- The type `String` (`std::string`): a sequence of bytes. -/
abbrev Str := List Byte

/-- The type `U8`. -/
abbrev U8 := Fin 256

/-- The type `U16`; also the bit patterns of `S16`. -/
abbrev U16 := Fin 65536

/-- The type `U32`; also the bit patterns of `S32` and of `Float`. -/
abbrev U32 := Fin 4294967296

/-- Conversion of a natural number to `U8` (reduction modulo `2 ^ 8`). -/
def U8.ofNat (n : Nat) : U8 := ⟨n % 256, Nat.mod_lt _ (by decide)⟩

/-- Conversion of a natural number to `U16` (reduction modulo `2 ^ 16`). -/
def U16.ofNat (n : Nat) : U16 := ⟨n % 65536, Nat.mod_lt _ (by decide)⟩

/-- Conversion of a natural number to `U32` (reduction modulo `2 ^ 32`). -/
def U32.ofNat (n : Nat) : U32 := ⟨n % 4294967296, Nat.mod_lt _ (by decide)⟩

/-- The bytes of an ASCII string literal. -/
def ascii (s : String) : Str := s.toList.map (fun c => U8.ofNat c.toNat)

/-- The reserved name of the root key. -/
def rootName : Str := ascii "root"

/-- The reserved name of the sentinels. -/
def nullName : Str := ascii "null"

def G_ENTRY_HEADER : Nat := 0x9E708199

def G_KEY_HEADER : Nat := 0x9E70819E

def G_REGISTRY_HEADER : Nat := 0x9E70819F

def G_VERSION : Nat := 0x0100

/-- The valid template arguments of `Entry<T>`: the types for which
`TT_Type<T>::Valid` is true. -/
inductive Datatype
  | S8
  | S16
  | S32
  | U8
  | U16
  | U32
  | Float
  | String
  deriving DecidableEq, Repr

/-- The enumerator `Datatypes::Unknown`. -/
def Datatypes.Unknown : Nat := 0

/-- The constant `TT_Type<T>::Alias`, an enumerator of `Datatypes`. -/
def Datatype.Alias : Datatype → Nat
  | .S8 => 1
  | .S16 => 2
  | .S32 => 3
  | .U8 => 4
  | .U16 => 5
  | .U32 => 6
  | .Float => 7
  | .String => 8

/-- The `switch (l_alias)` of `Key::deserializeEntry`: the type an alias byte
selects, `none` on the `Unknown` and `default` labels. -/
def Datatype.ofAlias : Nat → Option Datatype
  | 1 => some .S8
  | 2 => some .S16
  | 3 => some .S32
  | 4 => some .U8
  | 5 => some .U16
  | 6 => some .U32
  | 7 => some .Float
  | 8 => some .String
  | _ => none

/-- The enumeration `Status` of `Error.hpp`. -/
inductive Status
  | OK
  | NoName
  | FileLoadError
  | FileSaveError
  | FileParseError
  deriving DecidableEq, Repr

/-! ## The host machine -/

/-- What the code observes of the machine it runs on. -/
structure Host where
  /-- The byte order of the object representation of integers. -/
  bigEndian : Bool
  /-- The content of a local variable that was declared without initialiser
  (`a_type l_data;` in `Key::deserializeEntry`). -/
  uninit : Nat
  /-- The byte found at an index at or past the end of the byte array, when a
  read runs over the end (`Buffer::readData<String>`). -/
  oob : Nat → Byte

/-- The object representation of a 16-bit integer (what `memcpy` sees). -/
def Host.bytes16 (host : Host) (v : Nat) : List Byte :=
  if host.bigEndian then [U8.ofNat (v / 2 ^ 8), U8.ofNat v]
  else [U8.ofNat v, U8.ofNat (v / 2 ^ 8)]

/-- The object representation of a 32-bit integer (what `memcpy` sees). -/
def Host.bytes32 (host : Host) (v : Nat) : List Byte :=
  if host.bigEndian then
    [U8.ofNat (v / 2 ^ 24), U8.ofNat (v / 2 ^ 16), U8.ofNat (v / 2 ^ 8), U8.ofNat v]
  else
    [U8.ofNat v, U8.ofNat (v / 2 ^ 8), U8.ofNat (v / 2 ^ 16), U8.ofNat (v / 2 ^ 24)]

/-- The 16-bit integer whose object representation is `b0 b1`
(`*reinterpret_cast<U16*>(p)`). -/
def Host.word16 (host : Host) (b0 b1 : Byte) : Nat :=
  if host.bigEndian then b0.val * 2 ^ 8 + b1.val
  else b1.val * 2 ^ 8 + b0.val

/-- The 32-bit integer whose object representation is `b0 b1 b2 b3`
(`*reinterpret_cast<U32*>(p)`). -/
def Host.word32 (host : Host) (b0 b1 b2 b3 : Byte) : Nat :=
  if host.bigEndian then b0.val * 2 ^ 24 + b1.val * 2 ^ 16 + b2.val * 2 ^ 8 + b3.val
  else b3.val * 2 ^ 24 + b2.val * 2 ^ 16 + b1.val * 2 ^ 8 + b0.val

/-! ## Order.cpp -/

def Private.G_UNKNOWN_ENDIAN : Nat := 0x00

def Private.G_LITTLE_ENDIAN : Nat := 0x01

def Private.G_BIG_ENDIAN : Nat := 0x02

/-- The function `Private::checkEndian`: looks at the first byte of the object
representation of the 32-bit integer 1. (The static cache holds the value the
first call computed, which every later call would compute again.) -/
def Private.checkEndian (host : Host) : Nat :=
  match host.bytes32 1 with
  | b :: _ =>
    if b.val = 0x00 then Private.G_BIG_ENDIAN
    else if b.val = 0x01 then Private.G_LITTLE_ENDIAN
    else Private.G_UNKNOWN_ENDIAN
  | [] => Private.G_UNKNOWN_ENDIAN

/-- Integral promotion of an `S16` bit pattern to the pattern of a 32-bit
`int` (sign extension). -/
def promoteS16 (a : Nat) : Nat :=
  if a % 2 ^ 16 < 2 ^ 15 then a % 2 ^ 16 else a % 2 ^ 16 + 0xFFFF0000

/-- The specialisation `swapBytes<S16>`, on bit patterns. -/
def swapBytes_S16 (host : Host) (a_data : Nat) : Nat :=
  if Private.checkEndian host = Private.G_BIG_ENDIAN then a_data
  else
    (((promoteS16 a_data &&& 0xFF) <<< 8) |||
     ((promoteS16 a_data &&& 0xFF00) >>> 8)) % 2 ^ 16

/-- The specialisation `swapBytes<S32>`, on bit patterns. -/
def swapBytes_S32 (host : Host) (a_data : Nat) : Nat :=
  if Private.checkEndian host = Private.G_BIG_ENDIAN then a_data
  else
    (((a_data &&& 0xFF) <<< 24) |||
     ((a_data &&& 0xFF00) <<< 8) |||
     ((a_data &&& 0xFF0000) >>> 8) |||
     ((a_data &&& 0xFF000000) >>> 24)) % 2 ^ 32

/-- The specialisation `swapBytes<U16>`. -/
def swapBytes_U16 (host : Host) (a_data : Nat) : Nat :=
  if Private.checkEndian host = Private.G_BIG_ENDIAN then a_data
  else
    (((a_data &&& 0xFF) <<< 8) |||
     ((a_data &&& 0xFF00) >>> 8)) % 2 ^ 16

/-- The specialisation `swapBytes<U32>`. -/
def swapBytes_U32 (host : Host) (a_data : Nat) : Nat :=
  if Private.checkEndian host = Private.G_BIG_ENDIAN then a_data
  else
    (((a_data &&& 0xFF) <<< 24) |||
     ((a_data &&& 0xFF00) <<< 8) |||
     ((a_data &&& 0xFF0000) >>> 8) |||
     ((a_data &&& 0xFF000000) >>> 24)) % 2 ^ 32

/-- The function `encodeFloat`; the argument is the bit pattern of the float. -/
def encodeFloat (host : Host) (a_float : Nat) : Nat :=
  swapBytes_U32 host a_float

/-- The function `decodeFloat`; the result is the bit pattern of the float. -/
def decodeFloat (host : Host) (a_integer : Nat) : Nat :=
  swapBytes_U32 host a_integer

/-! ## Buffer.cpp -/

/-- The class `Buffer`. -/
structure Buffer where
  m_bytes : List Byte
  m_read : Nat

/-- The constructor `Buffer::Buffer ()`. -/
def Buffer.empty : Buffer := ⟨[], 0⟩

/-- The method `Buffer::canRead`. -/
def Buffer.canRead (b : Buffer) (a_size : Nat) : Bool :=
  decide (a_size + b.m_read ≤ b.m_bytes.length)

/-- The byte at index `i` of `m_bytes.data()`. -/
def Buffer.peek (host : Host) (b : Buffer) (i : Nat) : Byte :=
  b.m_bytes.getD i (host.oob i)

/-- The method `Buffer::clear`. -/
def Buffer.clear (_b : Buffer) : Buffer := ⟨[], 0⟩

/-- The method `Buffer::writeRaw`; `ap_data` is given as the bytes it points
to, `a_size` is their number. -/
def Buffer.writeRaw (b : Buffer) (ap_data : List Byte) : Buffer :=
  if ap_data.length > 0 then { b with m_bytes := b.m_bytes ++ ap_data } else b

def Buffer.writeData_S8 (b : Buffer) (a_data : Nat) : Buffer :=
  b.writeRaw [U8.ofNat a_data]

def Buffer.writeData_S16 (host : Host) (b : Buffer) (a_data : Nat) : Buffer :=
  b.writeRaw (host.bytes16 (swapBytes_S16 host a_data))

def Buffer.writeData_S32 (host : Host) (b : Buffer) (a_data : Nat) : Buffer :=
  b.writeRaw (host.bytes32 (swapBytes_S32 host a_data))

def Buffer.writeData_U8 (b : Buffer) (a_data : Nat) : Buffer :=
  b.writeRaw [U8.ofNat a_data]

def Buffer.writeData_U16 (host : Host) (b : Buffer) (a_data : Nat) : Buffer :=
  b.writeRaw (host.bytes16 (swapBytes_U16 host a_data))

def Buffer.writeData_U32 (host : Host) (b : Buffer) (a_data : Nat) : Buffer :=
  b.writeRaw (host.bytes32 (swapBytes_U32 host a_data))

def Buffer.writeData_Float (host : Host) (b : Buffer) (a_data : Nat) : Buffer :=
  b.writeRaw (host.bytes32 (encodeFloat host a_data))

/-- The specialisation `Buffer::writeData<String>`: the length is narrowed to
`U32`, and that many bytes of the string are written. -/
def Buffer.writeData_String (host : Host) (b : Buffer) (a_data : Str) : Buffer :=
  let l_length := a_data.length % 2 ^ 32
  let b1 := b.writeData_U32 host l_length
  if l_length ≠ 0 then b1.writeRaw (a_data.take l_length) else b1

/-- The method `Buffer::readRaw`: the bytes copied out (none when the guard
fails) and the buffer afterwards. -/
def Buffer.readRaw (host : Host) (b : Buffer) (a_size : Nat) : Option (List Byte) × Buffer :=
  if a_size > 0 && b.canRead a_size then
    (some ((List.range a_size).map (fun i => b.peek host (b.m_read + i))),
     { b with m_read := b.m_read + a_size })
  else (none, b)

/-- The specialisation `Buffer::readData<S8>`. The last argument is the value
the reference parameter holds on entry; it is returned when nothing is read. -/
def Buffer.readData_S8 (host : Host) (b : Buffer) (a_data : Nat) : Nat × Buffer :=
  if b.canRead 1 then
    ((b.peek host b.m_read).val, { b with m_read := b.m_read + 1 })
  else (a_data, b)

def Buffer.readData_S16 (host : Host) (b : Buffer) (a_data : Nat) : Nat × Buffer :=
  if b.canRead 2 then
    (swapBytes_S16 host (host.word16 (b.peek host b.m_read) (b.peek host (b.m_read + 1))),
     { b with m_read := b.m_read + 2 })
  else (a_data, b)

def Buffer.readData_S32 (host : Host) (b : Buffer) (a_data : Nat) : Nat × Buffer :=
  if b.canRead 4 then
    (swapBytes_S32 host (host.word32 (b.peek host b.m_read) (b.peek host (b.m_read + 1))
        (b.peek host (b.m_read + 2)) (b.peek host (b.m_read + 3))),
     { b with m_read := b.m_read + 4 })
  else (a_data, b)

def Buffer.readData_U8 (host : Host) (b : Buffer) (a_data : Nat) : Nat × Buffer :=
  if b.canRead 1 then
    ((b.peek host b.m_read).val, { b with m_read := b.m_read + 1 })
  else (a_data, b)

def Buffer.readData_U16 (host : Host) (b : Buffer) (a_data : Nat) : Nat × Buffer :=
  if b.canRead 2 then
    (swapBytes_U16 host (host.word16 (b.peek host b.m_read) (b.peek host (b.m_read + 1))),
     { b with m_read := b.m_read + 2 })
  else (a_data, b)

def Buffer.readData_U32 (host : Host) (b : Buffer) (a_data : Nat) : Nat × Buffer :=
  if b.canRead 4 then
    (swapBytes_U32 host (host.word32 (b.peek host b.m_read) (b.peek host (b.m_read + 1))
        (b.peek host (b.m_read + 2)) (b.peek host (b.m_read + 3))),
     { b with m_read := b.m_read + 4 })
  else (a_data, b)

def Buffer.readData_Float (host : Host) (b : Buffer) (a_data : Nat) : Nat × Buffer :=
  if b.canRead 4 then
    (decodeFloat host (host.word32 (b.peek host b.m_read) (b.peek host (b.m_read + 1))
        (b.peek host (b.m_read + 2)) (b.peek host (b.m_read + 3))),
     { b with m_read := b.m_read + 4 })
  else (a_data, b)

/-- The specialisation `Buffer::readData<String>`: the string is cleared, the
length is read into a local that starts at 0, and when it is positive that
many bytes are appended from the cursor on, without a bounds check. -/
def Buffer.readData_String (host : Host) (b : Buffer) : Str × Buffer :=
  let r := b.readData_U32 host 0
  let l_length := r.1
  let b1 := r.2
  if l_length > 0 then
    ((List.range l_length).map (fun i => b1.peek host (b1.m_read + i)),
     { b1 with m_read := b1.m_read + l_length })
  else ([], b1)

/-! ## Entry.hpp, EntryBase.hpp -/

/-- The member `m_data` of an `Entry<T>`, for the eight valid types `T`. -/
inductive Value
  | s8 (bits : U8)
  | s16 (bits : U16)
  | s32 (bits : U32)
  | u8 (v : U8)
  | u16 (v : U16)
  | u32 (v : U32)
  | float (bits : U32)
  | string (s : Str)
  deriving DecidableEq, Repr

/-- The template argument `T` of the `Entry<T>` that holds the value. -/
def Value.type : Value → Datatype
  | .s8 _ => .S8
  | .s16 _ => .S16
  | .s32 _ => .S32
  | .u8 _ => .U8
  | .u16 _ => .U16
  | .u32 _ => .U32
  | .float _ => .Float
  | .string _ => .String

/-- The value-initialised `T()`. -/
def Value.default : Datatype → Value
  | .S8 => .s8 (U8.ofNat 0)
  | .S16 => .s16 (U16.ofNat 0)
  | .S32 => .s32 (U32.ofNat 0)
  | .U8 => .u8 (U8.ofNat 0)
  | .U16 => .u16 (U16.ofNat 0)
  | .U32 => .u32 (U32.ofNat 0)
  | .Float => .float (U32.ofNat 0)
  | .String => .string []

/-- An object of class `Entry<T>`: the name of its `EntryBase` and the value.
The member `m_alias` is fixed by the constructor to `TT_Type<T>::Alias`; it is
read off the value (`Entry.getAlias`). -/
structure Entry where
  m_name : Str
  m_data : Value
  deriving DecidableEq, Repr

/-- The constructor `Entry<T> (a_name, a_data = T())`. -/
def Entry.new (T : Datatype) (a_name : Str) : Entry := ⟨a_name, Value.default T⟩

/-- The method `EntryBase::getAlias`. -/
def Entry.getAlias (e : Entry) : Nat := e.m_data.type.Alias

/-- The method `EntryBase::isNull`. -/
def Entry.isNull (e : Entry) : Bool := decide (e.m_name = nullName)

/-- The call `a_buffer.writeData<T>(m_data)`. -/
def Buffer.writeValue (host : Host) (b : Buffer) : Value → Buffer
  | .s8 x => b.writeData_S8 x.val
  | .s16 x => b.writeData_S16 host x.val
  | .s32 x => b.writeData_S32 host x.val
  | .u8 x => b.writeData_U8 x.val
  | .u16 x => b.writeData_U16 host x.val
  | .u32 x => b.writeData_U32 host x.val
  | .float x => b.writeData_Float host x.val
  | .string s => b.writeData_String host s

/-- The two statements `a_type l_data; a_buffer.readData<a_type>(l_data);` of
the macro in `Key::deserializeEntry`: a numeric local starts with whatever the
stack holds, a string local starts empty. -/
def Buffer.readValue (host : Host) (b : Buffer) : Datatype → Value × Buffer
  | .S8 => let r := b.readData_S8 host (host.uninit % 2 ^ 8); (.s8 (U8.ofNat r.1), r.2)
  | .S16 => let r := b.readData_S16 host (host.uninit % 2 ^ 16); (.s16 (U16.ofNat r.1), r.2)
  | .S32 => let r := b.readData_S32 host (host.uninit % 2 ^ 32); (.s32 (U32.ofNat r.1), r.2)
  | .U8 => let r := b.readData_U8 host (host.uninit % 2 ^ 8); (.u8 (U8.ofNat r.1), r.2)
  | .U16 => let r := b.readData_U16 host (host.uninit % 2 ^ 16); (.u16 (U16.ofNat r.1), r.2)
  | .U32 => let r := b.readData_U32 host (host.uninit % 2 ^ 32); (.u32 (U32.ofNat r.1), r.2)
  | .Float => let r := b.readData_Float host (host.uninit % 2 ^ 32); (.float (U32.ofNat r.1), r.2)
  | .String => let r := b.readData_String host; (.string r.1, r.2)

/-- The method `Entry<T>::serialize`. -/
def Entry.serialize (host : Host) (e : Entry) (a_buffer : Buffer) : Buffer :=
  (((a_buffer.writeData_U32 host G_ENTRY_HEADER).writeData_String host e.m_name).writeData_U8
    e.getAlias).writeValue host e.m_data

/-! ## Key.hpp, Key.cpp -/

/-- The class `Key`. -/
structure Key where
  m_name : Str
  m_instance : Nat
  m_entries : List Entry
  m_keys : List Key

/-- The constructor `Key (a_name, a_instance, ap_parent)` with empty
containers. -/
def Key.new (a_name : Str) (a_instance : Nat) : Key := ⟨a_name, a_instance, [], []⟩

/-- The static member `Key::s_null`, as constructed. -/
def Key.s_null : Key := Key.new nullName 0

/-- A reference to an entry as a method returns it: the shared
`Entry<T>::s_null`, or the entry at a position of `m_entries`. -/
inductive EntryRef
  | s_null
  | elem (idx : Nat)
  deriving DecidableEq, Repr

/-- A reference to a key as a method returns it: the shared `Key::s_null`, or
the subkey at a position of `m_keys`. -/
inductive KeyRef
  | s_null
  | sub (idx : Nat)
  deriving DecidableEq, Repr

/-- The algorithm `std::find_if`: the position of the first element that
satisfies the predicate together with that element, `none` for `end()`. -/
def find_if {α : Type} (p : α → Bool) : List α → Option (Nat × α)
  | [] => none
  | a :: as => if p a then some (0, a) else (find_if p as).map (fun r => (r.1 + 1, r.2))

/-- Assignment through an iterator: the element at a position is replaced by
its image. -/
def modifyNth {α : Type} (f : α → α) : Nat → List α → List α
  | _, [] => []
  | 0, a :: as => f a :: as
  | n + 1, a :: as => a :: modifyNth f n as

/-- The method `Key::seekEntry` (and `cseekEntry`). -/
def Key.seekEntry (k : Key) (a_name : Str) : Option (Nat × Entry) :=
  find_if (fun a_entry => decide (a_name = a_entry.m_name)) k.m_entries

/-- The method `Key::seekKey` (and `cseekKey`). -/
def Key.seekKey (k : Key) (a_name : Str) (a_instance : Nat) : Option (Nat × Key) :=
  find_if (fun a_key => decide (a_name = a_key.m_name) && decide (a_instance = a_key.m_instance))
    k.m_keys

/-- The loop of `Key::getInstanceCount` over the keys from `l_iter` on, with
the counter `l_return`: `seekKeyFrom` skips the keys that bear another name,
each key that bears the name receives the counter as its instance id. -/
def getInstanceCountLoop (a_name : Str) : List Key → Nat → List Key × Nat
  | [], l_return => ([], l_return)
  | k :: rest, l_return =>
    if a_name = k.m_name then
      let r := getInstanceCountLoop a_name rest (l_return + 1)
      ({ k with m_instance := l_return } :: r.1, r.2)
    else
      let r := getInstanceCountLoop a_name rest l_return
      (k :: r.1, r.2)

/-- The method `Key::getInstanceCount`: the key afterwards and the count. -/
def Key.getInstanceCount (k : Key) (a_name : Str) : Key × Nat :=
  let r := getInstanceCountLoop a_name k.m_keys 0
  ({ k with m_keys := r.1 }, r.2)

/-- The method `Key::addKey`: the key afterwards and the reference returned. -/
def Key.addKey (k : Key) (a_name : Str) : Key × KeyRef :=
  if a_name = [] then (k, .s_null)
  else if a_name = rootName ∨ a_name = nullName then (k, .s_null)
  else
    let r := k.getInstanceCount a_name
    let l_instance := r.2
    ({ r.1 with m_keys := r.1.m_keys ++ [Key.new a_name l_instance] }, .sub r.1.m_keys.length)

/-- The method `Key::removeKey`. -/
def Key.removeKey (k : Key) (a_name : Str) (a_instance : Nat) : Key :=
  match k.seekKey a_name a_instance with
  | none => k
  | some l_find => ({ k with m_keys := k.m_keys.eraseIdx l_find.1 }.getInstanceCount a_name).1

/-- The method `Key::rename`, called on the subkey at position `idx` of `k`
(so that `mp_parent` is `k`): the parent afterwards. A position that holds no
subkey leaves the parent as it is. -/
def Key.renameSub (k : Key) (idx : Nat) (a_name : Str) : Key :=
  match k.m_keys[idx]? with
  | none => k
  | some this =>
    let l_oldName := this.m_name
    if a_name = [] then k
    else if a_name = rootName ∨ a_name = nullName then k
    else
      let k1 := { k with m_keys := modifyNth (fun c => { c with m_name := a_name }) idx k.m_keys }
      ((k1.getInstanceCount l_oldName).1.getInstanceCount a_name).1

/-- The method `Key::rename`, called on a key whose `mp_parent` is `nullptr`
(a registry, or `Key::s_null`): it returns before the name is touched. -/
def Key.renameTop (k : Key) (_a_name : Str) : Key := k

/-- The method `Key::getKey (a_name, a_instance)`. -/
def Key.getKey (k : Key) (a_name : Str) (a_instance : Nat) : KeyRef :=
  if a_name = [] then .s_null
  else if a_name = rootName ∨ a_name = nullName then .s_null
  else
    match k.seekKey a_name a_instance with
    | none => .s_null
    | some l_find => .sub l_find.1

/-- The method `Key::getKey (a_index)`. -/
def Key.getKeyAt (k : Key) (a_index : Nat) : KeyRef :=
  if a_index ≥ k.m_keys.length then .s_null else .sub a_index

/-- The method `Key::clear`. -/
def Key.clear (k : Key) : Key := { k with m_keys := [], m_entries := [] }

/-- The method `Key::isNull`. -/
def Key.isNull (k : Key) : Bool := decide (k.m_name = nullName)

/-- The method `Key::getEntry<T>`. -/
def Key.getEntry (k : Key) (T : Datatype) (a_name : Str) : EntryRef :=
  if a_name = [] then .s_null
  else
    match k.seekEntry a_name with
    | none => .s_null
    | some l_find => if l_find.2.getAlias ≠ T.Alias then .s_null else .elem l_find.1

/-- The method `Key::addEntry<T>`: the key afterwards and the reference
returned. -/
def Key.addEntry (k : Key) (T : Datatype) (a_name : Str) : Key × EntryRef :=
  if a_name = [] then (k, .s_null)
  else
    match k.seekEntry a_name with
    | some l_find => if l_find.2.getAlias ≠ T.Alias then (k, .s_null) else (k, .elem l_find.1)
    | none => ({ k with m_entries := k.m_entries ++ [Entry.new T a_name] }, .elem k.m_entries.length)

/-- The method `Entry<T>::set`, called through a reference that `getEntry<T>`
or `addEntry<T>` returned on `k`: the key afterwards. A call on the sentinel
leaves the key as it is. -/
def Key.setEntry (k : Key) (a_ref : EntryRef) (a_data : Value) : Key :=
  match a_ref with
  | .s_null => k
  | .elem idx => { k with m_entries := modifyNth (fun e => { e with m_data := a_data }) idx k.m_entries }

/-- The method `Entry<T>::get`, called through a reference that `getEntry<T>`
or `addEntry<T>` returned on `k`; the value the sentinel holds is not kept,
so a call on the sentinel gives `none`. -/
def Key.getData (k : Key) : EntryRef → Option Value
  | .s_null => none
  | .elem idx => (k.m_entries[idx]?).map (fun e => e.m_data)

/-- The static members `Entry<T>::s_null`, one for each valid type `T`: the
value each of them holds. Every one of them bears the name `"null"`. -/
abbrev Sentinels := Datatype → Value

/-- The sentinels as `Entry<T> Entry<T>::s_null { "null" }` constructs them. -/
def Sentinels.new : Sentinels := fun T => Value.default T

/-- The method `Entry<T>::set`, called through a reference that `getEntry<T>`
or `addEntry<T>` returned on `k`, the sentinels being tracked: a call on
`Entry<T>::s_null` assigns the member of that object. -/
def EntryRef.set (r : EntryRef) (T : Datatype) (a_data : Value) (k : Key) (s : Sentinels) :
    Key × Sentinels :=
  match r with
  | .s_null => (k, fun U => if U = T then a_data else s U)
  | .elem _ => (k.setEntry r a_data, s)

/-- The method `Entry<T>::get`, called through a reference that `getEntry<T>`
or `addEntry<T>` returned on `k`, the sentinels being tracked; `none` for a
position that holds no entry. -/
def EntryRef.get (r : EntryRef) (T : Datatype) (k : Key) (s : Sentinels) : Option Value :=
  match r with
  | .s_null => some (s T)
  | .elem _ => k.getData r

/-- The static member `Entry<T>::s_null`, as
`Entry<T> Entry<T>::s_null { "null" }` constructs it: the constructor of
`Entry<T>` gives it the alias `TT_Type<T>::Alias` and the value `T ()`. -/
def Entry.s_null (T : Datatype) : Entry := Entry.new T nullName

/-- The static member `EntryBase::s_null` of `EntryBase.cpp`, which
`getEntryBaseAt` returns: its name and its alias. -/
def EntryBase.s_null : Str × Nat := (nullName, Datatypes.Unknown)

/-- The object a reference denotes that `getEntry<T>` or `addEntry<T>`
returned on `k`, the sentinels being tracked: `Entry<T>::s_null` with the
value it holds, or the entry at the position; `none` for a position that holds
no entry. -/
def EntryRef.deref (r : EntryRef) (T : Datatype) (k : Key) (s : Sentinels) : Option Entry :=
  match r with
  | .s_null => some ⟨nullName, s T⟩
  | .elem idx => k.m_entries[idx]?

/-- The method `Key::renameEntry`. -/
def Key.renameEntry (k : Key) (a_name a_newName : Str) : Key :=
  if a_name = [] then k
  else if a_newName = [] then k
  else if a_newName = rootName ∨ a_newName = nullName then k
  else if (k.seekEntry a_newName).isSome then k
  else
    match k.seekEntry a_name with
    | none => k
    | some l_find =>
      { k with m_entries := modifyNth (fun e => { e with m_name := a_newName }) l_find.1 k.m_entries }

/-- The method `Key::removeEntry`. -/
def Key.removeEntry (k : Key) (a_name : Str) : Key :=
  match k.seekEntry a_name with
  | none => k
  | some l_find => { k with m_entries := k.m_entries.eraseIdx l_find.1 }

/-- The key a reference denotes, seen from the key that returned it. -/
def Key.deref (k : Key) : KeyRef → Key
  | .s_null => Key.s_null
  | .sub idx => k.m_keys.getD idx Key.s_null

/-- The subkey a reference denotes is replaced by its state after calls that
mutated it; the state of the sentinel is not kept. -/
def Key.assign (k : Key) (a_ref : KeyRef) (a_key : Key) : Key :=
  match a_ref with
  | .s_null => k
  | .sub idx => { k with m_keys := modifyNth (fun _ => a_key) idx k.m_keys }

mutual
/-- The method `Key::serialize`. -/
def Key.serialize (host : Host) : Key → Buffer → Buffer
  | ⟨m_name, _, m_entries, m_keys⟩, a_buffer =>
    if m_name = nullName then a_buffer
    else
      let b1 :=
        if m_name ≠ rootName then
          (a_buffer.writeData_U32 host G_KEY_HEADER).writeData_String host m_name
        else a_buffer
      let l_entryCount := m_entries.length % 2 ^ 32
      let l_keyCount := m_keys.length % 2 ^ 32
      let b2 := b1.writeData_U32 host ((l_entryCount + l_keyCount) % 2 ^ 32)
      let b3 := m_entries.foldl (fun b l_entry => l_entry.serialize host b) b2
      Key.serializeKeys host m_keys b3
/-- The loop `for (const auto& l_key : m_keys) l_key->serialize(a_buffer)`. -/
def Key.serializeKeys (host : Host) : List Key → Buffer → Buffer
  | [], a_buffer => a_buffer
  | l_key :: rest, a_buffer => Key.serializeKeys host rest (Key.serialize host l_key a_buffer)
end

/-- The method `Key::deserializeEntry`: the return value, the key afterwards
and the buffer afterwards. -/
def Key.deserializeEntry (host : Host) (k : Key) (a_buffer : Buffer) : Bool × Key × Buffer :=
  let r1 := a_buffer.readData_String host
  let l_name := r1.1
  let r2 := r1.2.readData_U8 host 0
  let l_alias := r2.1
  if l_name = [] then (false, k, r2.2)
  else
    match Datatype.ofAlias l_alias with
    | some a_type =>
      let r3 := k.addEntry a_type l_name
      let r4 := r2.2.readValue host a_type
      (true, r3.1.setEntry r3.2 r4.1, r4.2)
    | none => (false, k, r2.2)

/-- The loops `for (U32 i = 0; i < l_entityCount; ++i)` of `Key::deserializeKey`
and of `Registry::loadFromBuffer`: `next` is called on the same key until it
has succeeded `l_entityCount` times or has failed once. The result is `none`
when `next` gives `none`. -/
def decodeLoop (next : Key → Buffer → Option (Bool × Key × Buffer)) :
    Nat → Key → Buffer → Option (Bool × Key × Buffer)
  | 0, k, a_buffer => some (true, k, a_buffer)
  | n + 1, k, a_buffer =>
    match next k a_buffer with
    | none => none
    | some (false, k1, b1) => some (false, k1, b1)
    | some (true, k1, b1) => decodeLoop next n k1 b1

/-- The method `Key::deserializeKey`; `next` stands for `deserializeNext`,
which it calls on the subkey it has added. -/
def Key.deserializeKey (host : Host) (next : Key → Buffer → Option (Bool × Key × Buffer))
    (k : Key) (a_buffer : Buffer) : Option (Bool × Key × Buffer) :=
  let r1 := a_buffer.readData_String host
  let l_name := r1.1
  let r2 := r1.2.readData_U32 host 0
  let l_entityCount := r2.1
  if l_name = [] then some (false, k, r2.2)
  else
    let r3 := k.addKey l_name
    let l_key := r3.1.deref r3.2
    if l_key.isNull then some (false, r3.1, r2.2)
    else
      match decodeLoop next l_entityCount l_key r2.2 with
      | none => none
      | some (ok, l_key1, b) => some (ok, r3.1.assign r3.2 l_key1, b)

/-- The method `Key::deserializeNext`. The first argument bounds the nesting
of the calls `deserializeNext` → `deserializeKey` → `deserializeNext`; the
result is `none` when the bound is used up, and otherwise the return value,
the key afterwards and the buffer afterwards. -/
def Key.deserializeNext (host : Host) : Nat → Key → Buffer → Option (Bool × Key × Buffer)
  | 0, _, _ => none
  | depth + 1, k, a_buffer =>
    let r := a_buffer.readData_U32 host 0
    let l_header := r.1
    if l_header = G_ENTRY_HEADER then some (k.deserializeEntry host r.2)
    else if l_header = G_KEY_HEADER then
      k.deserializeKey host (Key.deserializeNext host depth) r.2
    else some (false, k, r.2)

/-- The method `Key::deserializeNext` with the bound on the nesting chosen
from the buffer: every nested call has read a 4-byte header of its own, so
this bound is not used up (`deserializeNext_isSome`) and the default is not
taken; any bound under which the call returns gives the same result
(`deserializeNext_total`). -/
def Key.deserializeNextTotal (host : Host) (k : Key) (a_buffer : Buffer) : Bool × Key × Buffer :=
  (Key.deserializeNext host (a_buffer.m_bytes.length + 1) k a_buffer).getD (false, k, a_buffer)

/-- The calls of `deserializeNext` that a loop
`for (U32 i = 0; i < n; ++i) if (k0.deserializeNext (a_buffer) == false) return ...`
makes, directly or through the loops of `deserializeKey` nested in it, when it
starts on the key `k0` with the buffer `b0`: each call is given by the key it
is made on and the buffer it finds. -/
inductive Key.LoopCalls (host : Host) : Nat → Key → Buffer → Key → Buffer → Prop
  /-- The call of iteration `i`, made when the `i` calls before it returned
  true and left the key `ki` and the buffer `bi`. -/
  | iter (n : Nat) (k0 : Key) (b0 : Buffer) (i : Nat) (ki : Key) (bi : Buffer) :
      i < n →
      decodeLoop (fun k b => some (Key.deserializeNextTotal host k b)) i k0 b0
        = some (true, ki, bi) →
      Key.LoopCalls host n k0 b0 ki bi
  /-- A call made by the loop of `deserializeKey`, when a call `(k, b)` of the
  outer loop finds the key header, a name `l_name` that `addKey` accepts and
  the count `l_entityCount`: the loop runs on the subkey just added, whose
  instance id is the number of subkeys of `k` that bear the name. -/
  | nested (n : Nat) (k0 : Key) (b0 : Buffer) (k : Key) (b b1 b2 b3 : Buffer) (l_name : Str)
      (l_entityCount : Nat) (k4 : Key) (b4 : Buffer) :
      Key.LoopCalls host n k0 b0 k b →
      b.readData_U32 host 0 = (G_KEY_HEADER, b1) →
      b1.readData_String host = (l_name, b2) →
      b2.readData_U32 host 0 = (l_entityCount, b3) →
      l_name ≠ [] → l_name ≠ rootName → l_name ≠ nullName →
      Key.LoopCalls host l_entityCount
        (Key.new l_name (k.m_keys.countP (fun c => decide (c.m_name = l_name)))) b3 k4 b4 →
      Key.LoopCalls host n k0 b0 k4 b4

/-- The method `Key::deserializeEntry` with the sentinels tracked: the call
`l_entry.set (l_data)` of the macro goes through the reference that
`addEntry<a_type>` returned, which is `Entry<a_type>::s_null` when the name is
taken by an entry of another type. -/
def Key.deserializeEntryTracked (host : Host) (k : Key) (s : Sentinels) (a_buffer : Buffer) :
    Bool × Key × Sentinels × Buffer :=
  let r1 := a_buffer.readData_String host
  let l_name := r1.1
  let r2 := r1.2.readData_U8 host 0
  let l_alias := r2.1
  if l_name = [] then (false, k, s, r2.2)
  else
    match Datatype.ofAlias l_alias with
    | some a_type =>
      let r3 := k.addEntry a_type l_name
      let r4 := r2.2.readValue host a_type
      let w := r3.2.set a_type r4.1 r3.1 s
      (true, w.1, w.2, r4.2)
    | none => (false, k, s, r2.2)

/-- The constructor `Registry::Registry ()`, which is `Key {}`. -/
def Registry.new : Key := Key.new rootName 0

/-- The method `Registry::loadFromBuffer`: the status, the registry afterwards
and the buffer afterwards. Every nested call of `deserializeNext` has read a
4-byte header of its own, so the nesting stays below the bound given here
(`deserializeNext_isSome`) and the last case of the `match` does not occur. -/
def Registry.loadFromBuffer (host : Host) (R : Key) (a_buffer : Buffer) (a_append : Bool) :
    Status × Key × Buffer :=
  let R1 := if a_append = false then { R with m_entries := [], m_keys := [] } else R
  let r := a_buffer.readData_U32 host 0
  let l_entityCount := r.1
  match decodeLoop (Key.deserializeNext host (r.2.m_bytes.length + 1)) l_entityCount R1 r.2 with
  | some (true, R2, b) => (Status.OK, R2, b)
  | some (false, R2, b) => (Status.FileParseError, R2, b)
  | none => (Status.FileParseError, R1, r.2)

/-- The method `Registry::saveToBuffer`. -/
def Registry.saveToBuffer (host : Host) (R : Key) (a_buffer : Buffer) : Status × Buffer :=
  (Status.OK, Key.serialize host R a_buffer)

/-- The files the program can see: the content of each file that can be opened
for reading, and the names that can be opened for writing. -/
structure FileStore where
  content : Str → Option (List Byte)
  writable : Str → Bool

/-- The method `Buffer::loadFromFile`. -/
def Buffer.loadFromFile (fs : FileStore) (b : Buffer) (a_filename : Str) : Status × Buffer :=
  if a_filename = [] then (Status.NoName, b)
  else
    match fs.content a_filename with
    | none => (Status.FileLoadError, b)
    | some l_file => (Status.OK, ⟨l_file, 0⟩)

/-- The method `Buffer::saveToFile`. -/
def Buffer.saveToFile (fs : FileStore) (b : Buffer) (a_filename : Str) : Status × FileStore :=
  if a_filename = [] then (Status.NoName, fs)
  else if fs.writable a_filename = false then (Status.FileSaveError, fs)
  else
    (Status.OK,
     { fs with content := fun n => if n = a_filename then some b.m_bytes else fs.content n })

/-- The method `Registry::loadFromFile`: the status and the registry
afterwards. -/
def Registry.loadFromFile (host : Host) (fs : FileStore) (R : Key) (a_filename : Str)
    (a_append : Bool) : Status × Key :=
  if a_filename = [] then (Status.NoName, R)
  else
    let l := Buffer.empty.loadFromFile fs a_filename
    if l.1 ≠ Status.OK then (Status.FileLoadError, R)
    else
      let r1 := l.2.readData_U32 host 0
      let l_fileHeader := r1.1
      let r2 := r1.2.readData_U16 host 0
      let l_fileVersion := r2.1
      if l_fileHeader ≠ G_REGISTRY_HEADER then (Status.FileParseError, R)
      else if l_fileVersion ≠ G_VERSION then (Status.FileParseError, R)
      else
        let r3 := Registry.loadFromBuffer host R r2.2 a_append
        if r3.1 ≠ Status.OK then (Status.FileParseError, r3.2.1)
        else (Status.OK, r3.2.1)

/-- The method `Registry::saveToFile`: the status and the files afterwards. -/
def Registry.saveToFile (host : Host) (fs : FileStore) (R : Key) (a_filename : Str) :
    Status × FileStore :=
  if a_filename = [] then (Status.NoName, fs)
  else
    let l_buffer := (Buffer.empty.writeData_U32 host G_REGISTRY_HEADER).writeData_U16 host G_VERSION
    let s := Registry.saveToBuffer host R l_buffer
    if s.1 ≠ Status.OK then (Status.FileSaveError, fs)
    else
      let w := s.2.saveToFile fs a_filename
      if w.1 ≠ Status.OK then (Status.FileSaveError, fs)
      else (Status.OK, w.2)

/-! ## Equality and properties of trees -/

/-- Equality of buffers is decidable. -/
instance : DecidableEq Buffer := fun a b =>
  decidable_of_iff (a.m_bytes = b.m_bytes ∧ a.m_read = b.m_read)
    (by cases a; cases b; simp)

mutual
/-- Equality of keys is decidable. -/
def Key.decEq : (a b : Key) → Decidable (a = b)
  | ⟨n1, i1, e1, k1⟩, ⟨n2, i2, e2, k2⟩ =>
    if hn : n1 = n2 then
      if hi : i1 = i2 then
        if he : e1 = e2 then
          match Key.decEqList k1 k2 with
          | isTrue hk => isTrue (by rw [hn, hi, he, hk])
          | isFalse hk => isFalse (fun h => hk (Key.mk.inj h).2.2.2)
        else isFalse (fun h => he (Key.mk.inj h).2.2.1)
      else isFalse (fun h => hi (Key.mk.inj h).2.1)
    else isFalse (fun h => hn (Key.mk.inj h).1)
/-- Equality of lists of keys is decidable. -/
def Key.decEqList : (a b : List Key) → Decidable (a = b)
  | [], [] => isTrue rfl
  | [], _ :: _ => isFalse (fun h => List.noConfusion h)
  | _ :: _, [] => isFalse (fun h => List.noConfusion h)
  | a :: as, b :: bs =>
    match Key.decEq a b with
    | isTrue h1 =>
      match Key.decEqList as bs with
      | isTrue h2 => isTrue (by rw [h1, h2])
      | isFalse h2 => isFalse (fun h => h2 (List.cons.inj h).2)
    | isFalse h1 => isFalse (fun h => h1 (List.cons.inj h).1)
end

instance : DecidableEq Key := Key.decEq

mutual
/-- The property holds of the key and of every key below it. -/
def Key.All (P : Key → Prop) : Key → Prop
  | ⟨n, i, es, ks⟩ => P ⟨n, i, es, ks⟩ ∧ Key.AllList P ks
/-- The property holds of every key of the list and of every key below them. -/
def Key.AllList (P : Key → Prop) : List Key → Prop
  | [] => True
  | k :: ks => Key.All P k ∧ Key.AllList P ks
end

mutual
/-- A decidable property can be checked on a whole tree. -/
def Key.decAll (P : Key → Prop) [DecidablePred P] : (k : Key) → Decidable (Key.All P k)
  | ⟨n, i, es, ks⟩ =>
    match (inferInstance : Decidable (P ⟨n, i, es, ks⟩)), Key.decAllList P ks with
    | isTrue h1, isTrue h2 => isTrue (by unfold Key.All; exact ⟨h1, h2⟩)
    | isFalse h1, _ => isFalse (by unfold Key.All; exact fun h => h1 h.1)
    | _, isFalse h2 => isFalse (by unfold Key.All; exact fun h => h2 h.2)
/-- A decidable property can be checked on a list of trees. -/
def Key.decAllList (P : Key → Prop) [DecidablePred P] :
    (ks : List Key) → Decidable (Key.AllList P ks)
  | [] => isTrue (by unfold Key.AllList; trivial)
  | k :: ks =>
    match Key.decAll P k, Key.decAllList P ks with
    | isTrue h1, isTrue h2 => isTrue (by unfold Key.AllList; exact ⟨h1, h2⟩)
    | isFalse h1, _ => isFalse (by unfold Key.AllList; exact fun h => h1 h.1)
    | _, isFalse h2 => isFalse (by unfold Key.AllList; exact fun h => h2 h.2)
end

instance (P : Key → Prop) [DecidablePred P] (k : Key) : Decidable (Key.All P k) :=
  Key.decAll P k

/-- The number of siblings before position `i` that bear the name. -/
def rankBefore (ks : List Key) (i : Nat) (a_name : Str) : Nat :=
  (ks.take i).countP (fun c => decide (c.m_name = a_name))

/-- The instance-id invariant of a list of sibling keys: the instance id of
each key is the number of earlier siblings that bear its name. -/
def InstanceOKList (ks : List Key) : Prop :=
  ∀ i : Fin ks.length, (ks.get i).m_instance = rankBefore ks i.val (ks.get i).m_name

instance (ks : List Key) : Decidable (InstanceOKList ks) := by
  unfold InstanceOKList; infer_instance

/-- The instance-id invariant of one key: it holds of its direct subkeys. -/
def Key.InstanceOK (k : Key) : Prop := InstanceOKList k.m_keys

instance : DecidablePred Key.InstanceOK := fun k => by
  unfold Key.InstanceOK; infer_instance

/-- The instance ids of the keys of a list that bear the name, in list order. -/
def idsOf (a_name : Str) (ks : List Key) : List Nat :=
  (ks.filter (fun c => decide (c.m_name = a_name))).map (fun c => c.m_instance)

/-- No two direct subkeys of the key share both name and instance id. -/
def Key.SubkeysDistinct (k : Key) : Prop :=
  (k.m_keys.map (fun c => (c.m_name, c.m_instance))).Nodup

/-- A name a subkey may bear: not empty and not reserved. -/
def validKeyName (a_name : Str) : Prop :=
  a_name ≠ [] ∧ a_name ≠ rootName ∧ a_name ≠ nullName

instance (a_name : Str) : Decidable (validKeyName a_name) := by
  unfold validKeyName; infer_instance

/-- The key-name invariant of one key: its direct subkeys bear valid names. -/
def Key.SubNamesOK (k : Key) : Prop := ∀ c ∈ k.m_keys, validKeyName c.m_name

instance : DecidablePred Key.SubNamesOK := fun k => by
  unfold Key.SubNamesOK; infer_instance

/-- The entry-name invariant of one key: the names of its entries are not
empty and pairwise distinct. -/
def Key.EntryNamesOK (k : Key) : Prop :=
  (∀ e ∈ k.m_entries, e.m_name ≠ []) ∧ (k.m_entries.map (fun e => e.m_name)).Nodup

instance : DecidablePred Key.EntryNamesOK := fun k => by
  unfold Key.EntryNamesOK; infer_instance

/-- The number of bytes of a string value, 0 for the other types. -/
def Value.stringSize : Value → Nat
  | .string s => s.length
  | _ => 0

/-- The size bounds of one key: every name and every string value is shorter
than `2 ^ 32` bytes, and the key has fewer than `2 ^ 32` children (entries and
direct subkeys together). -/
def Key.SizesOK (k : Key) : Prop :=
  (∀ e ∈ k.m_entries, e.m_name.length < 2 ^ 32 ∧ e.m_data.stringSize < 2 ^ 32) ∧
  (∀ c ∈ k.m_keys, c.m_name.length < 2 ^ 32) ∧
  k.m_entries.length + k.m_keys.length < 2 ^ 32

instance : DecidablePred Key.SizesOK := fun k => by
  unfold Key.SizesOK; infer_instance

/-- The data-model invariants of one key. -/
def Key.WellFormed (k : Key) : Prop :=
  k.EntryNamesOK ∧ k.SubNamesOK ∧ k.InstanceOK ∧ k.SizesOK

instance : DecidablePred Key.WellFormed := fun k => by
  unfold Key.WellFormed; infer_instance

/-- The data-model invariants of a registry tree: the root bears the name
`"root"` and the instance id 0, and every key of the tree satisfies the
invariants. -/
def Registry.WellFormed (R : Key) : Prop :=
  R.m_name = rootName ∧ R.m_instance = 0 ∧ Key.All Key.WellFormed R

instance (R : Key) : Decidable (Registry.WellFormed R) := by
  unfold Registry.WellFormed; infer_instance

/-- The keys of a list as they stand when they are appended one by one, by
`addKey`, behind the keys `pre`: each receives as instance id the number of
keys before it, in `pre` and in the list, that bear its name. -/
def rankFrom (pre : List Key) : List Key → List Key
  | [] => []
  | c :: cs =>
    { c with m_instance := pre.countP (fun x => decide (x.m_name = c.m_name)) } ::
      rankFrom (pre ++ [c]) cs

/-! ## The byte layout -/

/-- The two bytes of a 16-bit value, most significant first. -/
def be16 (n : Nat) : List Byte := [U8.ofNat (n / 2 ^ 8), U8.ofNat n]

/-- The four bytes of a 32-bit value, most significant first. -/
def be32 (n : Nat) : List Byte :=
  [U8.ofNat (n / 2 ^ 24), U8.ofNat (n / 2 ^ 16), U8.ofNat (n / 2 ^ 8), U8.ofNat n]

/-- The bytes `Buffer::writeData<String>` appends. -/
def encString (s : Str) : List Byte :=
  be32 (s.length % 2 ^ 32) ++ s.take (s.length % 2 ^ 32)

/-- The bytes `Buffer::writeData<T>` appends for the value of an entry. -/
def encValue : Value → List Byte
  | .s8 x => [x]
  | .s16 x => be16 x.val
  | .s32 x => be32 x.val
  | .u8 x => [x]
  | .u16 x => be16 x.val
  | .u32 x => be32 x.val
  | .float x => be32 x.val
  | .string s => encString s

/-- The bytes of an entry after its header. -/
def encEntryBody (e : Entry) : List Byte :=
  encString e.m_name ++ [U8.ofNat e.getAlias] ++ encValue e.m_data

/-- The bytes `Entry<T>::serialize` appends. -/
def encEntry (e : Entry) : List Byte := be32 G_ENTRY_HEADER ++ encEntryBody e

mutual
/-- The bytes `Key::serialize` appends. -/
def encKey : Key → List Byte
  | ⟨m_name, _, m_entries, m_keys⟩ =>
    if m_name = nullName then []
    else
      (if m_name ≠ rootName then be32 G_KEY_HEADER ++ encString m_name else []) ++
      be32 ((m_entries.length % 2 ^ 32 + m_keys.length % 2 ^ 32) % 2 ^ 32) ++
      (m_entries.map encEntry).flatten ++ encKeys m_keys
/-- The bytes the subkeys of a key contribute, in list order. -/
def encKeys : List Key → List Byte
  | [] => []
  | k :: ks => encKey k ++ encKeys ks
end

mutual
/-- The reference encoding `enc (K)` of a key, in the words of the
specification: a key named `"null"` contributes no bytes; the root (the key
named `"root"`) is the count, the entries and the subkeys; any other key is
the bytes `9E 70 81 9E`, the length-prefixed name, the count, the entries and
the subkeys. The count is the 4-byte big-endian value of the number of entries
plus the number of direct subkeys, the entries are the entry encodings in list
order and the subkeys are `enc` of each direct subkey in list order. -/
def enc : Key → List Byte
  | ⟨m_name, _, m_entries, m_keys⟩ =>
    if m_name = ascii "null" then []
    else if m_name = ascii "root" then
      be32 (m_entries.length + m_keys.length) ++ (m_entries.map encEntry).flatten ++ encList m_keys
    else
      [0x9E, 0x70, 0x81, 0x9E] ++ encString m_name ++
        be32 (m_entries.length + m_keys.length) ++ (m_entries.map encEntry).flatten ++
        encList m_keys
/-- The reference encodings of the keys of a list, one after the other. -/
def encList : List Key → List Byte
  | [] => []
  | k :: ks => enc k ++ encList ks
end

mutual
/-- The tree with every instance id replaced by 0: two trees differ in
instance ids only when this gives the same tree for both. -/
def Key.eraseIds : Key → Key
  | ⟨m_name, _, m_entries, m_keys⟩ => ⟨m_name, 0, m_entries, Key.eraseIdsList m_keys⟩
/-- The trees of a list with every instance id replaced by 0. -/
def Key.eraseIdsList : List Key → List Key
  | [] => []
  | k :: ks => Key.eraseIds k :: Key.eraseIdsList ks
end

/-- The places at which a stream is cut short among the records of the
entities of a key (the entries `es`, then the subkeys `ks`), given by the
bytes that are left of these records: the stream ends between two records or
inside the 4-byte header of a record, inside the 4-byte length of the name of
an entry record or of a subkey record, directly behind the complete name of
an entry record (before its tag), or at such a place among the records of the
entities of a subkey. No such place lies inside the bytes of a name or inside
a value. -/
inductive CutBody : List Entry → List Key → List Byte → Prop
  /-- Before the record of the entry `e` or inside its header. -/
  | entryHeader (es1 : List Entry) (e : Entry) (es2 : List Entry) (ks : List Key)
      (t : List Byte) :
      t.length < 4 → t <+: encEntry e →
      CutBody (es1 ++ e :: es2) ks ((es1.map encEntry).flatten ++ t)
  /-- Behind the header of the record of the entry `e`, inside the length of
  its name. -/
  | entryNameLength (es1 : List Entry) (e : Entry) (es2 : List Entry) (ks : List Key)
      (u : List Byte) :
      u.length < 4 → u <+: encString e.m_name →
      CutBody (es1 ++ e :: es2) ks ((es1.map encEntry).flatten ++ (be32 G_ENTRY_HEADER ++ u))
  /-- Directly behind the complete name of the record of the entry `e`, before
  its tag. -/
  | entryTag (es1 : List Entry) (e : Entry) (es2 : List Entry) (ks : List Key) :
      CutBody (es1 ++ e :: es2) ks
        ((es1.map encEntry).flatten ++ (be32 G_ENTRY_HEADER ++ encString e.m_name))
  /-- Before the record of the subkey `c` or inside its header. -/
  | keyHeader (es : List Entry) (ks1 : List Key) (c : Key) (ks2 : List Key) (t : List Byte) :
      t.length < 4 → t <+: encKey c →
      CutBody es (ks1 ++ c :: ks2) ((es.map encEntry).flatten ++ (encKeys ks1 ++ t))
  /-- Behind the header of the record of the subkey `c`, inside the length of
  its name. -/
  | keyNameLength (es : List Entry) (ks1 : List Key) (c : Key) (ks2 : List Key)
      (u : List Byte) :
      u.length < 4 → u <+: encString c.m_name →
      CutBody es (ks1 ++ c :: ks2)
        ((es.map encEntry).flatten ++ (encKeys ks1 ++ (be32 G_KEY_HEADER ++ u)))
  /-- Behind the header, the name and the count of the record of the subkey
  `c`, at one of these places among the records of its entities. -/
  | nested (es : List Entry) (ks1 : List Key) (c : Key) (ks2 : List Key) (q : List Byte) :
      CutBody c.m_entries c.m_keys q →
      CutBody es (ks1 ++ c :: ks2)
        ((es.map encEntry).flatten ++ (encKeys ks1 ++ (be32 G_KEY_HEADER ++
          (encString c.m_name ++ (be32 (c.m_entries.length + c.m_keys.length) ++ q)))))

mutual
/-- A bound on the nesting of `deserializeNext` that decodes the key. -/
def Key.depth : Key → Nat
  | ⟨_, _, _, ks⟩ => Key.depthList ks + 1
/-- A bound on the nesting of `deserializeNext` that decodes the keys. -/
def Key.depthList : List Key → Nat
  | [] => 1
  | k :: ks => max (Key.depth k) (Key.depthList ks)
end

/-- The bytes of the buffer from the read cursor on. -/
def Buffer.rest (b : Buffer) : List Byte := b.m_bytes.drop b.m_read

/-- The second buffer holds the bytes of the first and its cursor is not
before the cursor of the first. -/
def Buffer.Later (b b2 : Buffer) : Prop := b2.m_bytes = b.m_bytes ∧ b.m_read ≤ b2.m_read

/-- The buffer with the read cursor moved on by `n` bytes. -/
def Buffer.advance (b : Buffer) (n : Nat) : Buffer := { b with m_read := b.m_read + n }

/-- What makes a property of single keys an invariant of whole trees: it only
looks at the entries of the key and at the names and instance ids of its
direct subkeys, it holds of a key without entries and subkeys, and each
method that mutates a key keeps it. -/
structure OpInv (P : Key → Prop) : Prop where
  loc : ∀ k k2 : Key, k2.m_entries = k.m_entries →
    k2.m_keys.map (fun c => (c.m_name, c.m_instance)) =
      k.m_keys.map (fun c => (c.m_name, c.m_instance)) → P k → P k2
  leaf : ∀ k : Key, k.m_entries = [] → k.m_keys = [] → P k
  addEntry : ∀ (k : Key) (T : Datatype) (n : Str), P k → P (k.addEntry T n).1
  setEntry : ∀ (k : Key) (r : EntryRef) (v : Value), P k → P (k.setEntry r v)
  renameEntry : ∀ (k : Key) (n m : Str), P k → P (k.renameEntry n m)
  removeEntry : ∀ (k : Key) (n : Str), P k → P (k.removeEntry n)
  addKey : ∀ (k : Key) (n : Str), P k → P (k.addKey n).1
  removeKey : ∀ (k : Key) (n : Str) (i : Nat), P k → P (k.removeKey n i)
  renameSub : ∀ (k : Key) (idx : Nat) (n : Str), P k → P (k.renameSub idx n)
  getInstanceCount : ∀ (k : Key) (n : Str), P k → P (k.getInstanceCount n).1

/-- The second key has the entries and the subkeys of the first. -/
def SameBody (c c2 : Key) : Prop := c2.m_entries = c.m_entries ∧ c2.m_keys = c.m_keys

/-- Every subkey of the second key is a subkey of the first, up to its name
and instance id, or has neither entries nor subkeys. -/
def ChildrenFrom (k k2 : Key) : Prop :=
  ∀ c2 ∈ k2.m_keys, (∃ c ∈ k.m_keys, SameBody c c2) ∨ (c2.m_entries = [] ∧ c2.m_keys = [])

/-! ## Programs over a registry -/

/-- The key reached from `k` by following positions in `m_keys`. -/
def Key.getAt : List Nat → Key → Option Key
  | [], k => some k
  | i :: path, k =>
    match k.m_keys[i]? with
    | none => none
    | some c => Key.getAt path c

/-- A method is called on the key reached from `k` by following positions in
`m_keys`, which is how a caller holds a reference to a key of the tree; a path
that leads to no key leaves the tree as it is. -/
def Key.modifyAt (f : Key → Key) : List Nat → Key → Key
  | [], k => f k
  | i :: path, k => { k with m_keys := modifyNth (Key.modifyAt f path) i k.m_keys }

/-- One call of the public interface on a registry. The target key of a `Key`
method is given by its path from the root; a call whose target is the
sentinel `Key::s_null` does not touch the registry and is not listed. -/
inductive Op
  /-- The call `addKey (a_name)` on the key at `path`. -/
  | addKey (path : List Nat) (a_name : Str)
  /-- The call `removeKey (a_name, a_instance)` on the key at `path`. -/
  | removeKey (path : List Nat) (a_name : Str) (a_instance : Nat)
  /-- The call `rename (a_name)` on the subkey at position `idx` of the key at
  `path`. -/
  | rename (path : List Nat) (idx : Nat) (a_name : Str)
  /-- The call `rename (a_name)` on the registry itself. -/
  | renameRegistry (a_name : Str)
  /-- The call `getInstanceCount (a_name)` on the key at `path`. -/
  | getInstanceCount (path : List Nat) (a_name : Str)
  /-- The call `addEntry<T> (a_name)` on the key at `path`. -/
  | addEntry (path : List Nat) (T : Datatype) (a_name : Str)
  /-- The call `getEntry<T> (a_name).set (a_data)` on the key at `path`, where
  `a_data` is a value of type `T`. -/
  | setEntry (path : List Nat) (a_name : Str) (a_data : Value)
  /-- The call `renameEntry (a_name, a_newName)` on the key at `path`. -/
  | renameEntry (path : List Nat) (a_name a_newName : Str)
  /-- The call `removeEntry (a_name)` on the key at `path`. -/
  | removeEntry (path : List Nat) (a_name : Str)
  /-- The call `clear ()` on the key at `path`. -/
  | clear (path : List Nat)
  /-- The call `loadFromBuffer (a_buffer, a_append)` on the registry. -/
  | loadFromBuffer (host : Host) (a_buffer : Buffer) (a_append : Bool)

/-- The registry after one call. -/
def Op.apply : Op → Key → Key
  | .addKey path a_name, R => Key.modifyAt (fun k => (k.addKey a_name).1) path R
  | .removeKey path a_name a_instance, R =>
    Key.modifyAt (fun k => k.removeKey a_name a_instance) path R
  | .rename path idx a_name, R => Key.modifyAt (fun k => k.renameSub idx a_name) path R
  | .renameRegistry a_name, R => R.renameTop a_name
  | .getInstanceCount path a_name, R => Key.modifyAt (fun k => (k.getInstanceCount a_name).1) path R
  | .addEntry path T a_name, R => Key.modifyAt (fun k => (k.addEntry T a_name).1) path R
  | .setEntry path a_name a_data, R =>
    Key.modifyAt (fun k => k.setEntry (k.getEntry a_data.type a_name) a_data) path R
  | .renameEntry path a_name a_newName, R =>
    Key.modifyAt (fun k => k.renameEntry a_name a_newName) path R
  | .removeEntry path a_name, R => Key.modifyAt (fun k => k.removeEntry a_name) path R
  | .clear path, R => Key.modifyAt Key.clear path R
  | .loadFromBuffer host a_buffer a_append, R =>
    (Registry.loadFromBuffer host R a_buffer a_append).2.1

/-- The registry after a sequence of calls, the first call first. -/
def run (ops : List Op) (R : Key) : Key := ops.foldl (fun R op => op.apply R) R

/-- A registry tree with entries of several types and with same-named sibling
keys on two levels, used to instantiate the theorems. -/
def sampleTree : Key :=
  ⟨rootName, 0,
    [⟨ascii "title", .string (ascii "demo")⟩, ⟨ascii "ratio", .float ⟨0x3FC00000, by decide⟩⟩],
    [⟨ascii "A", 0, [⟨ascii "x", .s16 ⟨0xFFFE, by decide⟩⟩, ⟨ascii "y", .u32 ⟨70000, by decide⟩⟩],
        [⟨ascii "B", 0, [], []⟩, ⟨ascii "B", 1, [⟨ascii "z", .s8 ⟨0x80, by decide⟩⟩], []⟩]⟩,
     ⟨ascii "C", 0, [], []⟩,
     ⟨ascii "A", 1, [⟨ascii "x", .u8 ⟨7, by decide⟩⟩, ⟨ascii "w", .u16 ⟨513, by decide⟩⟩,
        ⟨ascii "v", .s32 ⟨0x80000001, by decide⟩⟩], []⟩]⟩

/-- A little-endian host. -/
def hostLE : Host := ⟨false, 0xCCCCCCCC, fun _ => 0⟩

/-- A big-endian host. -/
def hostBE : Host := ⟨true, 0, fun i => U8.ofNat i⟩

/-- The calls of the scenario `R.addKey ("graphics").addEntry<Int32> ("width").set (1920)`
followed by `addEntry<Int32> ("height").set (1080)` on the same key. -/
def graphicsOps : List Op :=
  [Op.addKey [] (ascii "graphics"),
   Op.addEntry [0] Datatype.S32 (ascii "width"),
   Op.setEntry [0] (ascii "width") (Value.s32 ⟨1920, by decide⟩),
   Op.addEntry [0] Datatype.S32 (ascii "height"),
   Op.setEntry [0] (ascii "height") (Value.s32 ⟨1080, by decide⟩)]

/-! ## Lists: `find_if` and `modifyNth` -/

theorem find_if_none {α : Type} (p : α → Bool) (l : List α) :
    find_if p l = none ↔ ∀ a ∈ l, p a = false := by
  induction l with
  | nil => simp [find_if]
  | cons a as ih =>
    by_cases h : p a = true
    · simp [find_if, h]
    · simp [find_if, h, ih]

theorem find_if_some {α : Type} (p : α → Bool) (l : List α) (i : Nat) (a : α)
    (h : find_if p l = some (i, a)) :
    l[i]? = some a ∧ p a = true ∧ ∀ j b, j < i → l[j]? = some b → p b = false := by
  induction l generalizing i with
  | nil => simp [find_if] at h
  | cons x xs ih =>
    by_cases hx : p x = true
    · simp [find_if, hx] at h
      obtain ⟨rfl, rfl⟩ := h
      simp [hx]
    · simp only [find_if, hx, Bool.false_eq_true, if_false, Option.map_eq_some'] at h
      obtain ⟨⟨i0, a0⟩, h0, h1⟩ := h
      simp only [Prod.mk.injEq] at h1
      obtain ⟨rfl, rfl⟩ := h1
      obtain ⟨g1, g2, g3⟩ := ih i0 h0
      refine ⟨by simpa using g1, g2, ?_⟩
      intro j b hj hb
      cases j with
      | zero => simp at hb; subst hb; simpa using hx
      | succ j => exact g3 j b (by omega) (by simpa using hb)

theorem length_modifyNth {α : Type} (f : α → α) (i : Nat) (l : List α) :
    (modifyNth f i l).length = l.length := by
  induction l generalizing i with
  | nil => cases i <;> simp [modifyNth]
  | cons a as ih => cases i <;> simp [modifyNth, ih]

theorem map_modifyNth {α β : Type} (g : α → β) (f : α → α) (hf : ∀ a, g (f a) = g a)
    (i : Nat) (l : List α) : (modifyNth f i l).map g = l.map g := by
  induction l generalizing i with
  | nil => cases i <;> simp [modifyNth]
  | cons a as ih => cases i <;> simp [modifyNth, ih, hf]

theorem mem_modifyNth {α : Type} (f : α → α) (i : Nat) (l : List α) (b : α)
    (h : b ∈ modifyNth f i l) : b ∈ l ∨ ∃ a ∈ l, b = f a := by
  induction l generalizing i with
  | nil => cases i <;> simp [modifyNth] at h
  | cons a as ih =>
    cases i with
    | zero =>
      simp only [modifyNth, List.mem_cons] at h
      rcases h with h | h
      · exact Or.inr ⟨a, by simp, h⟩
      · exact Or.inl (by simp [h])
    | succ i =>
      simp only [modifyNth, List.mem_cons] at h
      rcases h with h | h
      · exact Or.inl (by simp [h])
      · rcases ih i h with h | ⟨a0, h1, h2⟩
        · exact Or.inl (by simp [h])
        · exact Or.inr ⟨a0, by simp [h1], h2⟩

theorem modifyNth_of_length_le {α : Type} (f : α → α) (i : Nat) (l : List α)
    (h : l.length ≤ i) : modifyNth f i l = l := by
  induction l generalizing i with
  | nil => cases i <;> simp [modifyNth]
  | cons a as ih =>
    cases i with
    | zero => simp at h
    | succ i => simp [modifyNth, ih i (by simpa using h)]

theorem modifyNth_append_length {α : Type} (f : α → α) (l : List α) (a : α) (r : List α) :
    modifyNth f l.length (l ++ a :: r) = l ++ f a :: r := by
  induction l with
  | nil => simp [modifyNth]
  | cons x xs ih => simp [modifyNth, ih]

theorem getElem?_modifyNth {α : Type} (f : α → α) (i j : Nat) (l : List α) :
    (modifyNth f i l)[j]? = if i = j then l[j]?.map f else l[j]? := by
  induction l generalizing i j with
  | nil => cases i <;> simp [modifyNth]
  | cons a as ih =>
    cases i with
    | zero => cases j <;> simp [modifyNth]
    | succ i => cases j <;> simp [modifyNth, ih]

/-! ## The renumbering loop -/

theorem idsOf_length (m : Str) (ks : List Key) :
    (idsOf m ks).length = ks.countP (fun c => decide (c.m_name = m)) := by
  simp [idsOf, List.countP_eq_length_filter]

theorem loop_cons_eq (k : Key) (rest : List Key) (c : Nat) :
    getInstanceCountLoop k.m_name (k :: rest) c
      = ({ k with m_instance := c } :: (getInstanceCountLoop k.m_name rest (c + 1)).1,
         (getInstanceCountLoop k.m_name rest (c + 1)).2) := by
  simp [getInstanceCountLoop]

theorem loop_cons_ne (n : Str) (k : Key) (rest : List Key) (c : Nat) (h : n ≠ k.m_name) :
    getInstanceCountLoop n (k :: rest) c
      = (k :: (getInstanceCountLoop n rest c).1, (getInstanceCountLoop n rest c).2) := by
  simp [getInstanceCountLoop, h]

theorem loop_length (n : Str) (ks : List Key) (c : Nat) :
    (getInstanceCountLoop n ks c).1.length = ks.length := by
  induction ks generalizing c with
  | nil => simp [getInstanceCountLoop]
  | cons k rest ih =>
    by_cases h : n = k.m_name
    · subst h; simp [loop_cons_eq, ih]
    · simp [loop_cons_ne n k rest c h, ih]

theorem loop_count (n : Str) (ks : List Key) (c : Nat) :
    (getInstanceCountLoop n ks c).2 = c + ks.countP (fun k => decide (k.m_name = n)) := by
  induction ks generalizing c with
  | nil => simp [getInstanceCountLoop]
  | cons k rest ih =>
    by_cases h : n = k.m_name
    · subst h
      simp [loop_cons_eq, ih, List.countP_cons]
      omega
    · have h' : ¬ k.m_name = n := fun e => h e.symm
      simp [loop_cons_ne n k rest c h, h', ih, List.countP_cons]

theorem loop_map_name (n : Str) (ks : List Key) (c : Nat) :
    (getInstanceCountLoop n ks c).1.map (fun k => k.m_name) = ks.map (fun k => k.m_name) := by
  induction ks generalizing c with
  | nil => simp [getInstanceCountLoop]
  | cons k rest ih =>
    by_cases h : n = k.m_name
    · subst h; simp [loop_cons_eq, ih]
    · simp [loop_cons_ne n k rest c h, ih]

theorem loop_map_content (n : Str) (ks : List Key) (c : Nat) :
    (getInstanceCountLoop n ks c).1.map (fun k => (k.m_name, k.m_entries, k.m_keys))
      = ks.map (fun k => (k.m_name, k.m_entries, k.m_keys)) := by
  induction ks generalizing c with
  | nil => simp [getInstanceCountLoop]
  | cons k rest ih =>
    by_cases h : n = k.m_name
    · subst h; simp [loop_cons_eq, ih]
    · simp [loop_cons_ne n k rest c h, ih]

theorem loop_idsOf_self (n : Str) (ks : List Key) (c : Nat) :
    idsOf n (getInstanceCountLoop n ks c).1
      = List.range' c (ks.countP (fun k => decide (k.m_name = n))) := by
  induction ks generalizing c with
  | nil => simp [getInstanceCountLoop, idsOf]
  | cons k rest ih =>
    by_cases h : n = k.m_name
    · subst h
      have := ih (c + 1)
      simp only [idsOf] at this ⊢
      simp [loop_cons_eq, List.countP_cons, List.filter_cons, this, List.range'_succ]
    · have h' : ¬ k.m_name = n := fun e => h e.symm
      have := ih c
      simp only [idsOf] at this ⊢
      simp [loop_cons_ne n k rest c h, h', List.countP_cons, List.filter_cons, this]

theorem loop_filter_other (n m : Str) (hm : m ≠ n) (ks : List Key) (c : Nat) :
    (getInstanceCountLoop n ks c).1.filter (fun k => decide (k.m_name = m))
      = ks.filter (fun k => decide (k.m_name = m)) := by
  induction ks generalizing c with
  | nil => simp [getInstanceCountLoop]
  | cons k rest ih =>
    by_cases h : n = k.m_name
    · subst h
      have h' : ¬ k.m_name = m := fun e => hm e.symm
      simp [loop_cons_eq, List.filter_cons, ih, h']
    · simp [loop_cons_ne n k rest c h, List.filter_cons, ih]

theorem loop_idsOf_other (n m : Str) (hm : m ≠ n) (ks : List Key) (c : Nat) :
    idsOf m (getInstanceCountLoop n ks c).1 = idsOf m ks := by
  simp [idsOf, loop_filter_other n m hm]

theorem loop_eq_self (n : Str) (ks : List Key) (c : Nat)
    (h : idsOf n ks = List.range' c (ks.countP (fun k => decide (k.m_name = n)))) :
    (getInstanceCountLoop n ks c).1 = ks := by
  induction ks generalizing c with
  | nil => simp [getInstanceCountLoop]
  | cons k rest ih =>
    by_cases hk : n = k.m_name
    · subst hk
      simp only [idsOf] at h ih
      simp [List.filter_cons, List.countP_cons, List.range'_succ] at h
      obtain ⟨h1, h2⟩ := h
      have := ih (c + 1) (by simpa using h2)
      simp [loop_cons_eq, this]
      cases k; simp_all
    · have h' : ¬ k.m_name = n := fun e => hk e.symm
      simp only [idsOf] at h ih
      simp [List.filter_cons, h', List.countP_cons] at h
      have := ih c (by simpa using h)
      simp [loop_cons_ne n k rest c hk, this]

/-! ## The instance-id invariant -/

theorem instanceOK_iff_getElem? (ks : List Key) :
    InstanceOKList ks ↔ ∀ i c, ks[i]? = some c → c.m_instance = rankBefore ks i c.m_name := by
  constructor
  · intro h i c hc
    obtain ⟨hi, rfl⟩ := List.getElem?_eq_some_iff.mp hc
    exact h ⟨i, hi⟩
  · intro h i
    exact h i.val (ks.get i) (by simp)

theorem rankBefore_append_left (ks r : List Key) (i : Nat) (m : Str) (hi : i ≤ ks.length) :
    rankBefore (ks ++ r) i m = rankBefore ks i m := by
  simp [rankBefore, List.take_append_of_le_length hi]

theorem rankBefore_length (ks : List Key) (r : List Key) (m : Str) :
    rankBefore (ks ++ r) ks.length m = ks.countP (fun c => decide (c.m_name = m)) := by
  simp [rankBefore]

theorem instanceOK_snoc (ks : List Key) (x : Key) :
    InstanceOKList (ks ++ [x]) ↔
      InstanceOKList ks ∧ x.m_instance = ks.countP (fun c => decide (c.m_name = x.m_name)) := by
  rw [instanceOK_iff_getElem?, instanceOK_iff_getElem?]
  constructor
  · intro h
    refine ⟨?_, ?_⟩
    · intro i c hc
      have hi : i < ks.length := (List.getElem?_eq_some_iff.mp hc).1
      have := h i c (by rw [List.getElem?_append_left hi]; exact hc)
      rwa [rankBefore_append_left ks [x] i _ (by omega)] at this
    · have := h ks.length x (by simp)
      rwa [rankBefore_length] at this
  · rintro ⟨h1, h2⟩ i c hc
    by_cases hi : i < ks.length
    · rw [List.getElem?_append_left hi] at hc
      rw [rankBefore_append_left ks [x] i _ (by omega)]
      exact h1 i c hc
    · have hlen : i < (ks ++ [x]).length := (List.getElem?_eq_some_iff.mp hc).1
      simp at hlen
      have hi' : i = ks.length := by omega
      subst hi'
      simp at hc
      subst hc
      rw [rankBefore_length]; exact h2

theorem idsOf_snoc (m : Str) (ks : List Key) (x : Key) :
    idsOf m (ks ++ [x]) = idsOf m ks ++ (if x.m_name = m then [x.m_instance] else []) := by
  by_cases h : x.m_name = m <;> simp [idsOf, List.filter_append, List.filter_cons, h]

/-- The invariant says that for every name the ids of the keys that bear it
count up from 0 in list order. -/
theorem instanceOK_iff_idsOf (ks : List Key) :
    InstanceOKList ks ↔ ∀ m, idsOf m ks = List.range (idsOf m ks).length := by
  induction ks using List.reverseRecOn with
  | nil =>
    constructor
    · intro _ m; simp [idsOf]
    · intro _ i; exact i.elim0
  | append_singleton ks x ih =>
    rw [instanceOK_snoc, ih]
    constructor
    · rintro ⟨h1, h2⟩ m
      rw [idsOf_snoc]
      by_cases hx : x.m_name = m
      · subst hx
        have e := h1 x.m_name
        have l := idsOf_length x.m_name ks
        simp only [if_true, List.length_append, List.length_singleton, List.range_succ]
        rw [← e, l, h2]
      · simp only [hx, if_false, List.append_nil]; exact h1 m
    · intro h
      refine ⟨?_, ?_⟩
      · intro m
        have := h m
        rw [idsOf_snoc] at this
        by_cases hx : x.m_name = m
        · simp only [hx, if_true, List.length_append, List.length_singleton,
            List.range_succ] at this
          exact List.append_inj_left' this (by simp)
        · simpa [hx] using this
      · have := h x.m_name
        rw [idsOf_snoc] at this
        simp only [if_true, List.length_append, List.length_singleton, List.range_succ] at this
        have := List.append_inj_right' this (by simp)
        rw [← idsOf_length]
        simpa using this

theorem instanceOK_idsOf (ks : List Key) (h : InstanceOKList ks) (m : Str) :
    idsOf m ks = List.range' 0 (ks.countP (fun c => decide (c.m_name = m))) := by
  have := (instanceOK_iff_idsOf ks).mp h m
  rw [idsOf_length] at this
  rw [this, List.range_eq_range']

/-- Under the invariant `getInstanceCount` changes no instance id. -/
theorem loop_eq_self_of_instanceOK (n : Str) (ks : List Key) (h : InstanceOKList ks) :
    (getInstanceCountLoop n ks 0).1 = ks :=
  loop_eq_self n ks 0 (instanceOK_idsOf ks h n)

theorem instanceOK_distinct (ks : List Key) (h : InstanceOKList ks) :
    (ks.map (fun c => (c.m_name, c.m_instance))).Nodup := by
  induction ks using List.reverseRecOn with
  | nil => simp
  | append_singleton ks x ih =>
    rw [instanceOK_snoc] at h
    obtain ⟨h1, h2⟩ := h
    rw [List.map_append, List.nodup_append]
    refine ⟨ih h1, by simp, ?_⟩
    intro p hp hq
    simp only [List.map_cons, List.map_nil, List.mem_singleton] at hq
    subst hq
    obtain ⟨c, hc, hce⟩ := List.mem_map.mp hp
    simp only [Prod.mk.injEq] at hce
    obtain ⟨i, hi, rfl⟩ := List.getElem_of_mem hc
    have hr := (instanceOK_iff_getElem? ks).mp h1 i ks[i] (by simp [hi])
    have hlt : rankBefore ks i ks[i].m_name < ks.countP (fun c => decide (c.m_name = x.m_name)) := by
      rw [hce.1]
      unfold rankBefore
      have hsplit : ks = ks.take i ++ ks[i] :: ks.drop (i + 1) := by
        simp
      conv_rhs => rw [hsplit]
      rw [List.countP_append, List.countP_cons]
      simp [hce.1]
    omega

theorem rankBefore_zero (ks : List Key) (m : Str) : rankBefore ks 0 m = 0 := by
  simp [rankBefore]

theorem rankBefore_cons_succ (k : Key) (ks : List Key) (p : Nat) (m : Str) :
    rankBefore (k :: ks) (p + 1) m = rankBefore ks p m + (if k.m_name = m then 1 else 0) := by
  simp [rankBefore, List.countP_cons]

theorem rankBefore_congr (ks ks' : List Key)
    (h : ks.map (fun k => k.m_name) = ks'.map (fun k => k.m_name)) (p : Nat) (m : Str) :
    rankBefore ks p m = rankBefore ks' p m := by
  have e : ∀ l : List Key, rankBefore l p m
      = ((l.map (fun k => k.m_name)).take p).countP (fun s => decide (s = m)) := by
    intro l
    simp [rankBefore, ← List.map_take, List.countP_map, Function.comp_def]
  rw [e, e, h]

/-- What the loop of `getInstanceCount` leaves at each position. -/
theorem loop_getElem? (n : Str) (ks : List Key) (c0 p : Nat) :
    (getInstanceCountLoop n ks c0).1[p]? =
      ks[p]?.map (fun k =>
        if n = k.m_name then { k with m_instance := c0 + rankBefore ks p n } else k) := by
  induction ks generalizing c0 p with
  | nil => simp [getInstanceCountLoop]
  | cons k rest ih =>
    by_cases h : n = k.m_name
    · subst h
      cases p with
      | zero => simp [loop_cons_eq, rankBefore_zero]
      | succ p =>
        simp only [loop_cons_eq, List.getElem?_cons_succ, ih, rankBefore_cons_succ, if_true]
        congr 1
        funext c
        by_cases hc : k.m_name = c.m_name
        · simp [hc]; omega
        · simp [hc]
    · have h' : ¬ k.m_name = n := fun e => h e.symm
      cases p with
      | zero => simp [loop_cons_ne n k rest c0 h, h]
      | succ p =>
        simp only [loop_cons_ne n k rest c0 h, List.getElem?_cons_succ, ih, rankBefore_cons_succ,
          h', if_false, Nat.add_zero]

theorem loop_getElem?_other (n : Str) (ks : List Key) (c0 p : Nat) (c : Key)
    (h : (getInstanceCountLoop n ks c0).1[p]? = some c) (hc : c.m_name ≠ n) :
    ks[p]? = some c := by
  rw [loop_getElem?] at h
  cases hk : ks[p]? with
  | none => simp [hk] at h
  | some k =>
    simp only [hk, Option.map_some', Option.some.injEq] at h
    by_cases hn : n = k.m_name
    · simp only [hn, if_true] at h
      subst h
      exact absurd hn.symm hc
    · simp only [hn, if_false] at h
      rw [h]

theorem loop_getElem?_self (n : Str) (ks : List Key) (c0 p : Nat) (c : Key)
    (h : (getInstanceCountLoop n ks c0).1[p]? = some c) (hc : c.m_name = n) :
    c.m_instance = c0 + rankBefore ks p n := by
  rw [loop_getElem?] at h
  cases hk : ks[p]? with
  | none => simp [hk] at h
  | some k =>
    simp only [hk, Option.map_some', Option.some.injEq] at h
    by_cases hn : n = k.m_name
    · simp only [hn, if_true] at h
      subst h
      simp [hn]
    · simp only [hn, if_false] at h
      subst h
      exact absurd hc.symm hn

theorem idsOf_eraseIdx_other (m : Str) (ks : List Key) (j : Nat) (c : Key)
    (hj : ks[j]? = some c) (hc : c.m_name ≠ m) : idsOf m (ks.eraseIdx j) = idsOf m ks := by
  induction ks generalizing j with
  | nil => simp at hj
  | cons k rest ih =>
    cases j with
    | zero =>
      simp at hj; subst hj
      simp [idsOf, List.filter_cons, hc]
    | succ j =>
      simp at hj
      have := ih j hj
      simp only [idsOf] at this ⊢
      by_cases hk : k.m_name = m <;> simp [List.eraseIdx, List.filter_cons, hk, this]

theorem instanceOK_unique (ks : List Key) (h : InstanceOKList ks) (i j : Nat) (a b : Key)
    (ha : ks[i]? = some a) (hb : ks[j]? = some b) (hn : a.m_name = b.m_name)
    (hi : a.m_instance = b.m_instance) : i = j := by
  have hd := instanceOK_distinct ks h
  obtain ⟨hil, rfl⟩ := List.getElem?_eq_some_iff.mp ha
  obtain ⟨hjl, rfl⟩ := List.getElem?_eq_some_iff.mp hb
  exact (@List.Nodup.getElem_inj_iff _ _ hd i (by simpa using hil) j (by simpa using hjl)).mp
    (by simp [hn, hi])

theorem addKey_eq (K : Key) (n : Str) (hK : K.InstanceOK) (hn : validKeyName n) :
    K.addKey n =
      ({ K with m_keys := K.m_keys ++
          [Key.new n (K.m_keys.countP (fun c => decide (c.m_name = n)))] },
       KeyRef.sub K.m_keys.length) := by
  obtain ⟨h1, h2, h3⟩ := hn
  simp only [Key.addKey, h1, h2, h3, if_false, or_self, Key.getInstanceCount]
  rw [loop_eq_self_of_instanceOK n K.m_keys hK, loop_count]
  simp

theorem addKey_instanceOK (K : Key) (n : Str) (hK : K.InstanceOK) (hn : validKeyName n) :
    (K.addKey n).1.InstanceOK := by
  rw [addKey_eq K n hK hn]
  simp only [Key.InstanceOK]
  rw [instanceOK_snoc]
  exact ⟨hK, by simp [Key.new]⟩

/-! ## Claims C4 and C7: `addKey` -/

/-- C4. `addKey` on a valid name: when the subkeys of `K` satisfy the
instance-id invariant and `n` is not empty and not reserved, `K.addKey (n)`
returns a reference to a new last subkey that bears the name `n`, has no
entries and no subkeys and carries as instance id the number of subkeys of `K`
that already bear the name `n`; the entries and the earlier subkeys of `K` are
as before. Hence three calls on a key without a subkey named `n` append
subkeys with the instance ids 0, 1, 2 in this order. -/
theorem addKey_appends (K : Key) (n : Str) (hK : K.InstanceOK)
    (hn : n ≠ [] ∧ n ≠ rootName ∧ n ≠ nullName) :
    K.addKey n =
        ({ K with m_keys := K.m_keys ++
            [⟨n, K.m_keys.countP (fun c => decide (c.m_name = n)), [], []⟩] },
         KeyRef.sub K.m_keys.length) ∧
      ((∀ c ∈ K.m_keys, c.m_name ≠ n) →
        (((K.addKey n).1.addKey n).1.addKey n).1 =
          { K with m_keys := K.m_keys ++ [⟨n, 0, [], []⟩, ⟨n, 1, [], []⟩, ⟨n, 2, [], []⟩] }) := by
  have e1 := addKey_eq K n hK hn
  refine ⟨by simpa [Key.new] using e1, ?_⟩
  intro hno
  have c0 : K.m_keys.countP (fun c => decide (c.m_name = n)) = 0 := by
    rw [List.countP_eq_zero]
    intro c hc
    simpa using hno c hc
  have hK1 := addKey_instanceOK K n hK hn
  have e2 := addKey_eq (K.addKey n).1 n hK1 hn
  have hK2 := addKey_instanceOK (K.addKey n).1 n hK1 hn
  have e3 := addKey_eq ((K.addKey n).1.addKey n).1 n hK2 hn
  rw [e3, e2, e1]
  simp [Key.new, c0, List.countP_append, List.countP_cons]

/-- C4, at a registry that holds one subkey `"A"` and one subkey `"B"`. -/
theorem addKey_appends_witness :
    let K : Key := ⟨rootName, 0, [], [⟨ascii "A", 0, [], []⟩, ⟨ascii "B", 0, [], []⟩]⟩
    (K.InstanceOK ∧ (ascii "A" ≠ [] ∧ ascii "A" ≠ rootName ∧ ascii "A" ≠ nullName)) ∧
    (K.addKey (ascii "A") =
        ({ K with m_keys := K.m_keys ++
            [⟨ascii "A", K.m_keys.countP (fun c => decide (c.m_name = ascii "A")), [], []⟩] },
         KeyRef.sub K.m_keys.length) ∧
      ((∀ c ∈ K.m_keys, c.m_name ≠ ascii "A") →
        (((K.addKey (ascii "A")).1.addKey (ascii "A")).1.addKey (ascii "A")).1 =
          { K with m_keys := K.m_keys ++
            [⟨ascii "A", 0, [], []⟩, ⟨ascii "A", 1, [], []⟩, ⟨ascii "A", 2, [], []⟩] })) :=
  ⟨by decide,
   addKey_appends ⟨rootName, 0, [], [⟨ascii "A", 0, [], []⟩, ⟨ascii "B", 0, [], []⟩]⟩ (ascii "A")
     (by decide) (by decide)⟩

/-- C7. Reserved names are rejected without mutation: on every key `addKey`
with the empty name, with `"root"` and with `"null"` returns the sentinel key
and leaves the key as it is, and `renameEntry` to the new name `"root"` or
`"null"` leaves the key as it is, whatever entry is named. -/
theorem reserved_names_rejected (K : Key) :
    K.addKey [] = (K, KeyRef.s_null) ∧
    K.addKey (ascii "root") = (K, KeyRef.s_null) ∧
    K.addKey (ascii "null") = (K, KeyRef.s_null) ∧
    ∀ x : Str, K.renameEntry x (ascii "root") = K ∧ K.renameEntry x (ascii "null") = K := by
  have r1 : ascii "root" ≠ [] := by decide
  have r2 : ascii "null" ≠ [] := by decide
  refine ⟨by simp [Key.addKey], by simp [Key.addKey, rootName, r1],
    by simp [Key.addKey, nullName, r2], ?_⟩
  intro x
  constructor
  · by_cases hx : x = [] <;> simp [Key.renameEntry, hx, rootName, r1]
  · by_cases hx : x = [] <;> simp [Key.renameEntry, hx, nullName, r2]

/-! ## Claims C5 and C6: `removeKey` and `rename` -/

theorem seekKey_none (K : Key) (n : Str) (i : Nat) :
    K.seekKey n i = none ↔ ∀ c ∈ K.m_keys, ¬ (c.m_name = n ∧ c.m_instance = i) := by
  unfold Key.seekKey
  rw [find_if_none]
  constructor
  · intro h c hc hni
    have := h c hc
    simp [hni.1, hni.2] at this
  · intro h c hc
    have := h c hc
    by_cases h1 : n = c.m_name
    · by_cases h2 : i = c.m_instance
      · exact absurd ⟨h1.symm, h2.symm⟩ this
      · simp [h2]
    · simp [h1]

theorem seekKey_some (K : Key) (n : Str) (i j : Nat) (c : Key) (h : K.seekKey n i = some (j, c)) :
    K.m_keys[j]? = some c ∧ c.m_name = n ∧ c.m_instance = i := by
  unfold Key.seekKey at h
  obtain ⟨h1, h2, _⟩ := find_if_some _ _ _ _ h
  simp only [Bool.and_eq_true, decide_eq_true_eq] at h2
  exact ⟨h1, h2.1.symm, h2.2.symm⟩

theorem loop_countP (n m : Str) (ks : List Key) (c : Nat) :
    (getInstanceCountLoop n ks c).1.countP (fun k => decide (k.m_name = m))
      = ks.countP (fun k => decide (k.m_name = m)) := by
  have e : ∀ l : List Key, l.countP (fun k => decide (k.m_name = m))
      = (l.map (fun k => k.m_name)).countP (fun s => decide (s = m)) := by
    intro l
    simp [List.countP_map, Function.comp_def]
  rw [e, e, loop_map_name]

/-- What `removeKey` does when it finds the key at position `j`. -/
theorem removeKey_found (K : Key) (n : Str) (i j : Nat) (c : Key) (hK : K.InstanceOK)
    (hj : K.m_keys[j]? = some c) (hn : c.m_name = n) (hi : c.m_instance = i) :
    K.removeKey n i =
      { K with m_keys := (getInstanceCountLoop n (K.m_keys.eraseIdx j) 0).1 } := by
  unfold Key.removeKey
  cases hs : K.seekKey n i with
  | none =>
    have := (seekKey_none K n i).mp hs c (List.getElem?_mem hj)
    exact absurd ⟨hn, hi⟩ this
  | some r =>
    obtain ⟨j0, c0⟩ := r
    obtain ⟨g1, g2, g3⟩ := seekKey_some K n i j0 c0 hs
    have : j0 = j :=
      instanceOK_unique K.m_keys hK j0 j c0 c g1 hj (g2.trans hn.symm) (g3.trans hi.symm)
    subst this
    simp [Key.getInstanceCount]

theorem removeKey_instanceOK (K : Key) (n : Str) (i : Nat) (hK : K.InstanceOK) :
    (K.removeKey n i).InstanceOK := by
  unfold Key.removeKey
  cases hs : K.seekKey n i with
  | none => exact hK
  | some r =>
    obtain ⟨j0, c0⟩ := r
    obtain ⟨g1, g2, g3⟩ := seekKey_some K n i j0 c0 hs
    simp only [Key.getInstanceCount, Key.InstanceOK]
    rw [instanceOK_iff_idsOf]
    intro m
    by_cases hm : m = n
    · subst hm
      rw [idsOf_length, loop_idsOf_self, ← List.range_eq_range', loop_countP]
    · rw [loop_idsOf_other n m hm,
        idsOf_eraseIdx_other m K.m_keys j0 c0 g1 (by rw [g2]; exact fun e => hm e.symm)]
      exact (instanceOK_iff_idsOf K.m_keys).mp hK m

/-- C5. `removeKey`, for a key whose subkeys satisfy the instance-id invariant.
When no subkey bears the name `n` with the instance id `i` the key is left as
it is. When the subkey at position `j` does, the result differs from `K` in
`m_keys` only; its subkeys are those of `K` without the one at position `j`,
in the same order and with the same names and contents; the ones named `n`
carry the instance ids 0, 1, ... in list order; the others are the same
objects as before, ids included; and the invariant holds again. Hence removing
instance 1 of three siblings `n` with the ids 0, 1, 2 leaves the first and
the third, with the ids 0 and 1. -/
theorem removeKey_spec (K : Key) (n : Str) (i : Nat) (hK : K.InstanceOK) :
    ((∀ c ∈ K.m_keys, ¬ (c.m_name = n ∧ c.m_instance = i)) → K.removeKey n i = K) ∧
    (∀ j c, K.m_keys[j]? = some c → c.m_name = n → c.m_instance = i →
      (K.removeKey n i).m_name = K.m_name ∧
      (K.removeKey n i).m_instance = K.m_instance ∧
      (K.removeKey n i).m_entries = K.m_entries ∧
      (K.removeKey n i).m_keys.map (fun s => (s.m_name, s.m_entries, s.m_keys)) =
        (K.m_keys.eraseIdx j).map (fun s => (s.m_name, s.m_entries, s.m_keys)) ∧
      idsOf n (K.removeKey n i).m_keys = List.range (idsOf n (K.removeKey n i).m_keys).length ∧
      (∀ (p : Nat) (s : Key), (K.removeKey n i).m_keys[p]? = some s → s.m_name ≠ n →
        (K.m_keys.eraseIdx j)[p]? = some s) ∧
      (K.removeKey n i).InstanceOK) ∧
    (∀ (pre : List Key) (e1 e2 e3 : List Entry) (k1 k2 k3 : List Key),
      i = 1 → (∀ c ∈ pre, c.m_name ≠ n) →
      K.m_keys = pre ++ [⟨n, 0, e1, k1⟩, ⟨n, 1, e2, k2⟩, ⟨n, 2, e3, k3⟩] →
      (K.removeKey n i).m_keys = pre ++ [⟨n, 0, e1, k1⟩, ⟨n, 1, e3, k3⟩]) := by
  refine ⟨?_, ?_, ?_⟩
  · intro h
    have := (seekKey_none K n i).mpr h
    simp [Key.removeKey, this]
  · intro j c hj hn hi
    have hok := removeKey_instanceOK K n i hK
    rw [removeKey_found K n i j c hK hj hn hi] at hok ⊢
    refine ⟨rfl, rfl, rfl, loop_map_content _ _ _,
      (instanceOK_iff_idsOf _).mp hok n, ?_, hok⟩
    intro p s hp hs
    exact loop_getElem?_other n _ 0 p s hp hs
  · intro pre e1 e2 e3 k1 k2 k3 hi hpre hks
    subst hi
    have hj : K.m_keys[pre.length + 1]? = some ⟨n, 1, e2, k2⟩ := by
      rw [hks, List.getElem?_append_right (by omega)]; simp
    rw [removeKey_found K n 1 (pre.length + 1) _ hK hj rfl rfl]
    have herase : K.m_keys.eraseIdx (pre.length + 1) = pre ++ [⟨n, 0, e1, k1⟩, ⟨n, 2, e3, k3⟩] := by
      rw [hks, List.eraseIdx_append_of_length_le (by omega)]
      simp [List.eraseIdx]
    simp only [herase]
    have hcount : pre.countP (fun c => decide (c.m_name = n)) = 0 := by
      rw [List.countP_eq_zero]
      intro c hc
      simpa using hpre c hc
    apply List.ext_getElem?
    intro p
    rw [loop_getElem?]
    by_cases hp : p < pre.length
    · have hpn : ∀ x, pre[p]? = some x → ¬ n = x.m_name := by
        intro x hx e
        exact hpre x (List.getElem?_mem hx) e.symm
      rw [List.getElem?_append_left hp, List.getElem?_append_left hp]
      cases hx : pre[p]? with
      | none => simp
      | some x => simp [hpn x hx]
    · have hp' : pre.length ≤ p := by omega
      rw [List.getElem?_append_right hp', List.getElem?_append_right hp']
      obtain ⟨q, rfl⟩ : ∃ q, p = pre.length + q := ⟨p - pre.length, by omega⟩
      simp only [Nat.add_sub_cancel_left]
      match q with
      | 0 => simp [rankBefore, hcount]
      | 1 => simp [rankBefore, List.take_append, hcount, List.countP_cons]
      | q + 2 => simp

theorem idsOf_modifyNth_other (m n : Str) (ks : List Key) (idx : Nat) (k : Key)
    (hk : ks[idx]? = some k) (h1 : m ≠ k.m_name) (h2 : m ≠ n) :
    idsOf m (modifyNth (fun c => { c with m_name := n }) idx ks) = idsOf m ks := by
  induction ks generalizing idx with
  | nil => simp at hk
  | cons x xs ih =>
    cases idx with
    | zero =>
      simp at hk; subst hk
      have a1 : ¬ x.m_name = m := fun e => h1 e.symm
      have a2 : ¬ n = m := fun e => h2 e.symm
      simp [modifyNth, idsOf, List.filter_cons, a1, a2]
    | succ idx =>
      simp at hk
      have := ih idx hk
      simp only [idsOf] at this ⊢
      by_cases hx : x.m_name = m <;> simp [modifyNth, List.filter_cons, hx, this]

/-- What `rename` does to the parent when the new name is valid. -/
theorem renameSub_eq (P : Key) (idx : Nat) (k : Key) (n : Str) (hk : P.m_keys[idx]? = some k)
    (hn : validKeyName n) :
    P.renameSub idx n =
      { P with m_keys :=
          (getInstanceCountLoop n
            (getInstanceCountLoop k.m_name
              (modifyNth (fun c => { c with m_name := n }) idx P.m_keys) 0).1 0).1 } := by
  obtain ⟨h1, h2, h3⟩ := hn
  simp [Key.renameSub, hk, h1, h2, h3, Key.getInstanceCount]

theorem renameSub_invalid (P : Key) (idx : Nat) (n : Str)
    (hn : n = [] ∨ n = rootName ∨ n = nullName) : P.renameSub idx n = P := by
  unfold Key.renameSub
  cases P.m_keys[idx]? with
  | none => rfl
  | some k =>
    rcases hn with h | h | h
    · simp [h]
    · simp [h]
    · simp [h]

theorem renameSub_instanceOK (P : Key) (idx : Nat) (n : Str) (hP : P.InstanceOK) :
    (P.renameSub idx n).InstanceOK := by
  by_cases hn : validKeyName n
  · cases hk : P.m_keys[idx]? with
    | none => simp [Key.renameSub, hk]; exact hP
    | some k =>
      rw [renameSub_eq P idx k n hk hn]
      simp only [Key.InstanceOK]
      rw [instanceOK_iff_idsOf]
      intro m
      by_cases hm : m = n
      · subst hm
        rw [idsOf_length, loop_idsOf_self, ← List.range_eq_range']
        simp only [loop_countP]
      · rw [loop_idsOf_other n m hm]
        by_cases hm2 : m = k.m_name
        · subst hm2
          rw [idsOf_length, loop_idsOf_self, ← List.range_eq_range', loop_countP]
        · rw [loop_idsOf_other k.m_name m hm2, idsOf_modifyNth_other m n P.m_keys idx k hk hm2 hm]
          exact (instanceOK_iff_idsOf P.m_keys).mp hP m
  · have : n = [] ∨ n = rootName ∨ n = nullName := by
      unfold validKeyName at hn
      by_cases h1 : n = []
      · exact Or.inl h1
      · by_cases h2 : n = rootName
        · exact Or.inr (Or.inl h2)
        · by_cases h3 : n = nullName
          · exact Or.inr (Or.inr h3)
          · exact absurd ⟨h1, h2, h3⟩ hn
    rw [renameSub_invalid P idx n this]; exact hP

theorem modifyNth_id {α : Type} (f : α → α) (hf : ∀ a, f a = a) (i : Nat) (l : List α) :
    modifyNth f i l = l := by
  induction l generalizing i with
  | nil => cases i <;> simp [modifyNth]
  | cons a as ih => cases i <;> simp [modifyNth, ih, hf]

theorem modifyAt_id (f : Key → Key) (hf : ∀ k, f k = k) (path : List Nat) (R : Key) :
    Key.modifyAt f path R = R := by
  induction path generalizing R with
  | nil => simp [Key.modifyAt, hf]
  | cons i path ih =>
    simp only [Key.modifyAt]
    rw [modifyNth_id _ ih]
    cases R
    rfl

/-- C6. `Key::rename`. Called on the registry itself, or with a new name that
is empty, `"root"` or `"null"`, it leaves the whole tree as it is. Called with
a valid name `n` on the subkey `k` at position `idx` of a key `P` whose
subkeys satisfy the instance-id invariant, it changes `m_keys` of `P` only:
the subkeys keep their order, entries and subkeys, the one at `idx` bears the
name `n` and the others their old names; every subkey that then bears the old
name of `k` or the name `n` has as instance id its rank among the siblings of
the same name; every other subkey is the same object as before, id included;
and the invariant holds again. -/
theorem rename_spec (P : Key) (idx : Nat) (k : Key) (n : Str) (hP : P.InstanceOK)
    (hk : P.m_keys[idx]? = some k) :
    (∀ R : Key, (Op.renameRegistry n).apply R = R) ∧
    (n = [] ∨ n = rootName ∨ n = nullName →
      P.renameSub idx n = P ∧
      ∀ (R : Key) (path : List Nat) (i : Nat), (Op.rename path i n).apply R = R) ∧
    (n ≠ [] ∧ n ≠ rootName ∧ n ≠ nullName →
      (P.renameSub idx n).m_name = P.m_name ∧
      (P.renameSub idx n).m_instance = P.m_instance ∧
      (P.renameSub idx n).m_entries = P.m_entries ∧
      (P.renameSub idx n).m_keys.map (fun s => (s.m_name, s.m_entries, s.m_keys)) =
        (modifyNth (fun s => { s with m_name := n }) idx P.m_keys).map
          (fun s => (s.m_name, s.m_entries, s.m_keys)) ∧
      (∀ (p : Nat) (s : Key), (P.renameSub idx n).m_keys[p]? = some s →
        s.m_name = k.m_name ∨ s.m_name = n →
        s.m_instance = rankBefore (P.renameSub idx n).m_keys p s.m_name) ∧
      (∀ (p : Nat) (s : Key), (P.renameSub idx n).m_keys[p]? = some s →
        s.m_name ≠ k.m_name → s.m_name ≠ n → P.m_keys[p]? = some s) ∧
      (P.renameSub idx n).InstanceOK) := by
  refine ⟨fun R => rfl, ?_, ?_⟩
  · intro hn
    refine ⟨renameSub_invalid P idx n hn, ?_⟩
    intro R path i
    exact modifyAt_id _ (fun q => renameSub_invalid q i n hn) path R
  · intro hn
    have hok := renameSub_instanceOK P idx n hP
    rw [renameSub_eq P idx k n hk hn] at hok ⊢
    refine ⟨rfl, rfl, rfl, ?_, ?_, ?_, hok⟩
    · simp only
      rw [loop_map_content, loop_map_content]
    · intro p s hp hs
      exact (instanceOK_iff_getElem? _).mp hok p s hp
    · intro p s hp h1 h2
      have a1 := loop_getElem?_other n _ 0 p s hp h2
      have a2 := loop_getElem?_other k.m_name _ 0 p s a1 h1
      rw [getElem?_modifyNth] at a2
      by_cases hip : idx = p
      · subst hip
        simp only [if_true, hk, Option.map_some', Option.some.injEq] at a2
        subst a2
        exact absurd rfl h2
      · simpa [hip] using a2

/-- C6, at a registry with the subkeys `"A"`, `"B"`, `"A"`, of which the first
is renamed to `"B"`. -/
theorem rename_spec_witness :
    let P : Key :=
      ⟨rootName, 0, [], [⟨ascii "A", 0, [], []⟩, ⟨ascii "B", 0, [], []⟩, ⟨ascii "A", 1, [], []⟩]⟩
    (P.InstanceOK ∧ P.m_keys[0]? = some ⟨ascii "A", 0, [], []⟩) ∧
    (P.renameSub 0 (ascii "B")).m_keys =
      [⟨ascii "B", 0, [], []⟩, ⟨ascii "B", 1, [], []⟩, ⟨ascii "A", 0, [], []⟩] ∧
    (P.renameSub 0 (ascii "B")).InstanceOK :=
  ⟨by decide, by decide,
   ((rename_spec
      ⟨rootName, 0, [], [⟨ascii "A", 0, [], []⟩, ⟨ascii "B", 0, [], []⟩, ⟨ascii "A", 1, [], []⟩]⟩
      0 ⟨ascii "A", 0, [], []⟩ (ascii "B") (by decide) (by decide)).2.2 (by decide)).2.2.2.2.2.2⟩

/-- C5, at a registry with the subkeys `"A"`, `"A"`, `"A"`, the second of which
is removed. -/
theorem removeKey_spec_witness :
    let K : Key :=
      ⟨rootName, 0, [],
        [⟨ascii "A", 0, [⟨ascii "x", .u8 1⟩], []⟩, ⟨ascii "A", 1, [⟨ascii "x", .u8 2⟩], []⟩,
         ⟨ascii "A", 2, [⟨ascii "x", .u8 3⟩], []⟩]⟩
    K.InstanceOK ∧
    (K.removeKey (ascii "A") 1).m_keys =
      [] ++ [⟨ascii "A", 0, [⟨ascii "x", .u8 1⟩], []⟩, ⟨ascii "A", 1, [⟨ascii "x", .u8 3⟩], []⟩] :=
  ⟨by decide,
   (removeKey_spec
      ⟨rootName, 0, [],
        [⟨ascii "A", 0, [⟨ascii "x", .u8 1⟩], []⟩, ⟨ascii "A", 1, [⟨ascii "x", .u8 2⟩], []⟩,
         ⟨ascii "A", 2, [⟨ascii "x", .u8 3⟩], []⟩]⟩
      (ascii "A") 1 (by decide)).2.2 [] _ _ _ _ _ _ rfl (by simp) rfl⟩

/-! ## Invariants of whole trees -/

theorem allList_iff (P : Key → Prop) (ks : List Key) :
    Key.AllList P ks ↔ ∀ c ∈ ks, Key.All P c := by
  induction ks with
  | nil => simp [Key.AllList]
  | cons k ks ih => simp [Key.AllList, ih]

theorem all_iff (P : Key → Prop) (k : Key) :
    Key.All P k ↔ P k ∧ ∀ c ∈ k.m_keys, Key.All P c := by
  cases k with
  | mk n i es ks => simp [Key.All, allList_iff]

theorem all_mono (P Q : Key → Prop) (h : ∀ k, P k → Q k) (k : Key) (hk : Key.All P k) :
    Key.All Q k := by
  have aux : ∀ d (k : Key), sizeOf k ≤ d → Key.All P k → Key.All Q k := by
    intro d
    induction d with
    | zero =>
      intro k hs
      cases k
      simp at hs
    | succ d ih =>
      intro k hs hk
      rw [all_iff] at hk ⊢
      refine ⟨h k hk.1, ?_⟩
      intro c hc
      apply ih c _ (hk.2 c hc)
      have : sizeOf c < sizeOf k := by
        cases k with
        | mk n i es ks =>
          have := List.sizeOf_lt_of_mem hc
          simp at this ⊢
          omega
      omega
  exact aux (sizeOf k) k (Nat.le_refl _) hk

theorem all_of_forall (P : Key → Prop) (h : ∀ k, P k) (k : Key) : Key.All P k := by
  have aux : ∀ d (k : Key), sizeOf k ≤ d → Key.All P k := by
    intro d
    induction d with
    | zero =>
      intro k hs
      cases k
      simp at hs
    | succ d ih =>
      intro k hs
      rw [all_iff]
      refine ⟨h k, ?_⟩
      intro c hc
      apply ih c
      have : sizeOf c < sizeOf k := by
        cases k with
        | mk n i es ks =>
          have := List.sizeOf_lt_of_mem hc
          simp at this ⊢
          omega
      omega
  exact aux (sizeOf k) k (Nat.le_refl _)

theorem all_of_sameBody (P : Key → Prop) (h : OpInv P) (c c2 : Key) (hb : SameBody c c2)
    (hc : Key.All P c) : Key.All P c2 := by
  rw [all_iff] at hc ⊢
  refine ⟨h.loc c c2 hb.1 (by rw [hb.2]) hc.1, ?_⟩
  rw [hb.2]; exact hc.2

theorem all_of_leaf (P : Key → Prop) (h : OpInv P) (c : Key) (h1 : c.m_entries = [])
    (h2 : c.m_keys = []) : Key.All P c := by
  rw [all_iff]
  exact ⟨h.leaf c h1 h2, by simp [h2]⟩

theorem all_of_childrenFrom (P : Key → Prop) (h : OpInv P) (k k2 : Key) (hk : Key.All P k)
    (hP : P k2) (hc : ChildrenFrom k k2) : Key.All P k2 := by
  rw [all_iff] at hk ⊢
  refine ⟨hP, ?_⟩
  intro c2 hc2
  rcases hc c2 hc2 with ⟨c, hcm, hb⟩ | ⟨h1, h2⟩
  · exact all_of_sameBody P h c c2 hb (hk.2 c hcm)
  · exact all_of_leaf P h c2 h1 h2

theorem childrenFrom_of_eq (k k2 : Key) (h : k2.m_keys = k.m_keys) : ChildrenFrom k k2 := by
  intro c2 hc2
  exact Or.inl ⟨c2, by rw [← h]; exact hc2, rfl, rfl⟩

theorem childrenFrom_trans (a b c : Key) (h1 : ChildrenFrom a b) (h2 : ChildrenFrom b c) :
    ChildrenFrom a c := by
  intro x hx
  rcases h2 x hx with ⟨y, hy, hyx⟩ | hleaf
  · rcases h1 y hy with ⟨z, hz, hzy⟩ | ⟨l1, l2⟩
    · exact Or.inl ⟨z, hz, hyx.1.trans hzy.1, hyx.2.trans hzy.2⟩
    · exact Or.inr ⟨hyx.1.trans l1, hyx.2.trans l2⟩
  · exact Or.inr hleaf

theorem loop_mem (n : Str) (ks : List Key) (c0 : Nat) (x : Key)
    (hx : x ∈ (getInstanceCountLoop n ks c0).1) : ∃ c ∈ ks, SameBody c x := by
  obtain ⟨p, hp⟩ := List.mem_iff_getElem?.mp hx
  rw [loop_getElem?] at hp
  cases hk : ks[p]? with
  | none => simp [hk] at hp
  | some k =>
    simp only [hk, Option.map_some', Option.some.injEq] at hp
    refine ⟨k, List.getElem?_mem hk, ?_⟩
    by_cases hn : n = k.m_name
    · simp only [hn, if_true] at hp
      subst hp
      exact ⟨rfl, rfl⟩
    · simp only [hn, if_false] at hp
      subst hp
      exact ⟨rfl, rfl⟩

theorem childrenFrom_getInstanceCount (k : Key) (n : Str) :
    ChildrenFrom k (k.getInstanceCount n).1 := by
  intro c2 hc2
  exact Or.inl (loop_mem n k.m_keys 0 c2 hc2)

theorem childrenFrom_addKey (k : Key) (n : Str) : ChildrenFrom k (k.addKey n).1 := by
  unfold Key.addKey
  by_cases h1 : n = []
  · simp only [h1, if_true]; exact childrenFrom_of_eq k k rfl
  · by_cases h2 : n = rootName ∨ n = nullName
    · simp only [h1, h2, if_true, if_false]; exact childrenFrom_of_eq k k rfl
    · simp only [h1, h2, if_false]
      intro c2 hc2
      simp only [Key.getInstanceCount, List.mem_append, List.mem_singleton] at hc2
      rcases hc2 with hc2 | hc2
      · exact Or.inl (loop_mem n k.m_keys 0 c2 hc2)
      · subst hc2
        exact Or.inr ⟨rfl, rfl⟩

theorem childrenFrom_removeKey (k : Key) (n : Str) (i : Nat) :
    ChildrenFrom k (k.removeKey n i) := by
  unfold Key.removeKey
  cases k.seekKey n i with
  | none => exact childrenFrom_of_eq k k rfl
  | some r =>
    intro c2 hc2
    simp only [Key.getInstanceCount] at hc2
    obtain ⟨c, hc, hb⟩ := loop_mem n _ 0 c2 hc2
    exact Or.inl ⟨c, List.mem_of_mem_eraseIdx hc, hb⟩

theorem childrenFrom_renameSub (k : Key) (idx : Nat) (n : Str) :
    ChildrenFrom k (k.renameSub idx n) := by
  unfold Key.renameSub
  cases k.m_keys[idx]? with
  | none => exact childrenFrom_of_eq k k rfl
  | some this =>
    by_cases h1 : n = []
    · simp only [h1, if_true]; exact childrenFrom_of_eq k k rfl
    · by_cases h2 : n = rootName ∨ n = nullName
      · simp only [h1, h2, if_true, if_false]; exact childrenFrom_of_eq k k rfl
      · simp only [h1, h2, if_false]
        intro c2 hc2
        simp only [Key.getInstanceCount] at hc2
        obtain ⟨c, hc, hb⟩ := loop_mem n _ 0 c2 hc2
        obtain ⟨d, hd, hdb⟩ := loop_mem this.m_name _ 0 c hc
        rcases mem_modifyNth _ _ _ _ hd with hd | ⟨e, he, rfl⟩
        · exact Or.inl ⟨d, hd, hb.1.trans hdb.1, hb.2.trans hdb.2⟩
        · exact Or.inl ⟨e, he, hb.1.trans hdb.1, hb.2.trans hdb.2⟩

theorem modifyAt_head (f : Key → Key)
    (hhead : ∀ k, (f k).m_name = k.m_name ∧ (f k).m_instance = k.m_instance)
    (path : List Nat) (k : Key) :
    (Key.modifyAt f path k).m_name = k.m_name ∧
      (Key.modifyAt f path k).m_instance = k.m_instance := by
  cases path with
  | nil => exact hhead k
  | cons i path => exact ⟨rfl, rfl⟩

/-- A method that keeps the invariant on the key it is called on keeps it on
the whole tree, wherever in the tree that key lies. -/
theorem all_modifyAt (P : Key → Prop) (h : OpInv P) (f : Key → Key)
    (hhead : ∀ k, (f k).m_name = k.m_name ∧ (f k).m_instance = k.m_instance)
    (hf : ∀ k, Key.All P k → Key.All P (f k)) (path : List Nat) (R : Key)
    (hR : Key.All P R) : Key.All P (Key.modifyAt f path R) := by
  induction path generalizing R with
  | nil => exact hf R hR
  | cons i path ih =>
    simp only [Key.modifyAt]
    rw [all_iff] at hR ⊢
    refine ⟨?_, ?_⟩
    · refine h.loc R _ rfl ?_ hR.1
      exact map_modifyNth _ _
        (fun a => by
          have := modifyAt_head f hhead path a
          simp [this.1, this.2]) i R.m_keys
    · intro c hc
      rcases mem_modifyNth _ _ _ _ hc with hc | ⟨a, ha, rfl⟩
      · exact hR.2 c hc
      · exact ih a (hR.2 a ha)

theorem all_addKey (P : Key → Prop) (h : OpInv P) (k : Key) (n : Str) (hk : Key.All P k) :
    Key.All P (k.addKey n).1 :=
  all_of_childrenFrom P h k _ hk (h.addKey k n ((all_iff P k).mp hk).1) (childrenFrom_addKey k n)

theorem all_removeKey (P : Key → Prop) (h : OpInv P) (k : Key) (n : Str) (i : Nat)
    (hk : Key.All P k) : Key.All P (k.removeKey n i) :=
  all_of_childrenFrom P h k _ hk (h.removeKey k n i ((all_iff P k).mp hk).1)
    (childrenFrom_removeKey k n i)

theorem all_renameSub (P : Key → Prop) (h : OpInv P) (k : Key) (idx : Nat) (n : Str)
    (hk : Key.All P k) : Key.All P (k.renameSub idx n) :=
  all_of_childrenFrom P h k _ hk (h.renameSub k idx n ((all_iff P k).mp hk).1)
    (childrenFrom_renameSub k idx n)

theorem all_getInstanceCount (P : Key → Prop) (h : OpInv P) (k : Key) (n : Str)
    (hk : Key.All P k) : Key.All P (k.getInstanceCount n).1 :=
  all_of_childrenFrom P h k _ hk (h.getInstanceCount k n ((all_iff P k).mp hk).1)
    (childrenFrom_getInstanceCount k n)

theorem addEntry_keys (k : Key) (T : Datatype) (n : Str) :
    (k.addEntry T n).1.m_keys = k.m_keys ∧ (k.addEntry T n).1.m_name = k.m_name ∧
      (k.addEntry T n).1.m_instance = k.m_instance := by
  unfold Key.addEntry
  by_cases h1 : n = []
  · simp [h1]
  · simp only [h1, if_false]
    cases k.seekEntry n with
    | none => simp
    | some r => by_cases h2 : r.2.getAlias ≠ T.Alias <;> simp [h2]

theorem setEntry_keys (k : Key) (r : EntryRef) (v : Value) :
    (k.setEntry r v).m_keys = k.m_keys ∧ (k.setEntry r v).m_name = k.m_name ∧
      (k.setEntry r v).m_instance = k.m_instance := by
  cases r <;> simp [Key.setEntry]

theorem renameEntry_keys (k : Key) (n m : Str) :
    (k.renameEntry n m).m_keys = k.m_keys ∧ (k.renameEntry n m).m_name = k.m_name ∧
      (k.renameEntry n m).m_instance = k.m_instance := by
  unfold Key.renameEntry
  by_cases h1 : n = []
  · simp [h1]
  by_cases h2 : m = []
  · simp [h1, h2]
  by_cases h3 : m = rootName ∨ m = nullName
  · simp [h1, h2, h3]
  by_cases h4 : (k.seekEntry m).isSome = true
  · simp [h1, h2, h3, h4]
  simp only [h1, h2, h3, h4, if_false]
  cases k.seekEntry n <;> simp

theorem removeEntry_keys (k : Key) (n : Str) :
    (k.removeEntry n).m_keys = k.m_keys ∧ (k.removeEntry n).m_name = k.m_name ∧
      (k.removeEntry n).m_instance = k.m_instance := by
  unfold Key.removeEntry
  cases k.seekEntry n <;> simp

theorem addKey_head (k : Key) (n : Str) :
    (k.addKey n).1.m_name = k.m_name ∧ (k.addKey n).1.m_instance = k.m_instance ∧
      (k.addKey n).1.m_entries = k.m_entries := by
  unfold Key.addKey
  by_cases h1 : n = []
  · simp [h1]
  by_cases h2 : n = rootName ∨ n = nullName
  · simp [h1, h2]
  simp [h1, h2, Key.getInstanceCount]

theorem removeKey_head (k : Key) (n : Str) (i : Nat) :
    (k.removeKey n i).m_name = k.m_name ∧ (k.removeKey n i).m_instance = k.m_instance ∧
      (k.removeKey n i).m_entries = k.m_entries := by
  unfold Key.removeKey
  cases k.seekKey n i <;> simp [Key.getInstanceCount]

theorem renameSub_head (k : Key) (idx : Nat) (n : Str) :
    (k.renameSub idx n).m_name = k.m_name ∧ (k.renameSub idx n).m_instance = k.m_instance ∧
      (k.renameSub idx n).m_entries = k.m_entries := by
  unfold Key.renameSub
  cases k.m_keys[idx]? with
  | none => simp
  | some this =>
    by_cases h1 : n = []
    · simp [h1]
    by_cases h2 : n = rootName ∨ n = nullName
    · simp [h1, h2]
    simp [h1, h2, Key.getInstanceCount]

theorem all_of_keys_eq (P : Key → Prop) (k k2 : Key) (hk : Key.All P k) (hP : P k2)
    (he : k2.m_keys = k.m_keys) : Key.All P k2 := by
  rw [all_iff] at hk ⊢
  exact ⟨hP, by rw [he]; exact hk.2⟩

/-- Each call of the public interface keeps an invariant of whole trees and
the name and instance id of the registry; the call `loadFromBuffer` is dealt
with through the hypothesis `hload`. -/
theorem all_apply (P : Key → Prop) (h : OpInv P)
    (hload : ∀ host R b a, Key.All P R → Key.All P (Registry.loadFromBuffer host R b a).2.1)
    (op : Op) (R : Key) (hR : Key.All P R) : Key.All P (op.apply R) := by
  cases op with
  | addKey path n =>
    exact all_modifyAt P h _ (fun k => ⟨(addKey_head k n).1, (addKey_head k n).2.1⟩)
      (fun k hk => all_addKey P h k n hk) path R hR
  | removeKey path n i =>
    exact all_modifyAt P h _ (fun k => ⟨(removeKey_head k n i).1, (removeKey_head k n i).2.1⟩)
      (fun k hk => all_removeKey P h k n i hk) path R hR
  | rename path idx n =>
    exact all_modifyAt P h _ (fun k => ⟨(renameSub_head k idx n).1, (renameSub_head k idx n).2.1⟩)
      (fun k hk => all_renameSub P h k idx n hk) path R hR
  | renameRegistry n => exact hR
  | getInstanceCount path n =>
    exact all_modifyAt P h (fun k => (k.getInstanceCount n).1) (fun k => ⟨rfl, rfl⟩)
      (fun k hk => all_getInstanceCount P h k n hk) path R hR
  | addEntry path T n =>
    exact all_modifyAt P h _ (fun k => ⟨(addEntry_keys k T n).2.1, (addEntry_keys k T n).2.2⟩)
      (fun k hk => all_of_keys_eq P k _ hk (h.addEntry k T n ((all_iff P k).mp hk).1)
        (addEntry_keys k T n).1) path R hR
  | setEntry path n v =>
    exact all_modifyAt P h _
      (fun k => ⟨(setEntry_keys k _ v).2.1, (setEntry_keys k _ v).2.2⟩)
      (fun k hk => all_of_keys_eq P k _ hk (h.setEntry k _ v ((all_iff P k).mp hk).1)
        (setEntry_keys k _ v).1) path R hR
  | renameEntry path n m =>
    exact all_modifyAt P h _
      (fun k => ⟨(renameEntry_keys k n m).2.1, (renameEntry_keys k n m).2.2⟩)
      (fun k hk => all_of_keys_eq P k _ hk (h.renameEntry k n m ((all_iff P k).mp hk).1)
        (renameEntry_keys k n m).1) path R hR
  | removeEntry path n =>
    exact all_modifyAt P h _
      (fun k => ⟨(removeEntry_keys k n).2.1, (removeEntry_keys k n).2.2⟩)
      (fun k hk => all_of_keys_eq P k _ hk (h.removeEntry k n ((all_iff P k).mp hk).1)
        (removeEntry_keys k n).1) path R hR
  | clear path =>
    exact all_modifyAt P h Key.clear (fun k => ⟨rfl, rfl⟩)
      (fun k _ => all_of_leaf P h k.clear rfl rfl) path R hR
  | loadFromBuffer host b a => exact hload host R b a hR

/-! ## Decoding keeps the invariants -/

theorem map_modifyNth_const {α β : Type} (g : α → β) (x d : α) (i : Nat) (l : List α)
    (hx : g x = g (l.getD i d)) : (modifyNth (fun _ => x) i l).map g = l.map g := by
  induction l generalizing i with
  | nil => cases i <;> simp [modifyNth]
  | cons a as ih =>
    cases i with
    | zero => simp at hx; simp [modifyNth, hx]
    | succ i => simp at hx; simp [modifyNth, ih i (by simpa using hx)]

theorem deserializeEntry_all (P : Key → Prop) (h : OpInv P) (host : Host) (k : Key) (b : Buffer)
    (hk : Key.All P k) :
    Key.All P (k.deserializeEntry host b).2.1 ∧
      (k.deserializeEntry host b).2.1.m_name = k.m_name ∧
      (k.deserializeEntry host b).2.1.m_instance = k.m_instance := by
  unfold Key.deserializeEntry
  simp only
  split
  · exact ⟨hk, rfl, rfl⟩
  · split
    · rename_i T _
      refine ⟨?_, ?_, ?_⟩
      · apply all_of_keys_eq P k _ hk
        · exact h.setEntry _ _ _ (h.addEntry k _ _ ((all_iff P k).mp hk).1)
        · simp only [(setEntry_keys _ _ _).1, (addEntry_keys _ _ _).1]
      · simp only [(setEntry_keys _ _ _).2.1, (addEntry_keys _ _ _).2.1]
      · simp only [(setEntry_keys _ _ _).2.2, (addEntry_keys _ _ _).2.2]
    · exact ⟨hk, rfl, rfl⟩

theorem decodeLoop_all (P : Key → Prop) (next : Key → Buffer → Option (Bool × Key × Buffer))
    (hnext : ∀ k b r, Key.All P k → next k b = some r →
      Key.All P r.2.1 ∧ r.2.1.m_name = k.m_name ∧ r.2.1.m_instance = k.m_instance)
    (n : Nat) (k : Key) (b : Buffer) (r : Bool × Key × Buffer) (hk : Key.All P k)
    (hr : decodeLoop next n k b = some r) :
    Key.All P r.2.1 ∧ r.2.1.m_name = k.m_name ∧ r.2.1.m_instance = k.m_instance := by
  induction n generalizing k b with
  | zero =>
    simp only [decodeLoop, Option.some.injEq] at hr
    subst hr
    exact ⟨hk, rfl, rfl⟩
  | succ n ih =>
    simp only [decodeLoop] at hr
    cases hn : next k b with
    | none => simp [hn] at hr
    | some r1 =>
      obtain ⟨ok, k1, b1⟩ := r1
      have g := hnext k b _ hk hn
      cases ok with
      | false =>
        simp only [hn, Option.some.injEq] at hr
        subst hr
        exact g
      | true =>
        simp only [hn] at hr
        have g2 := ih k1 b1 g.1 hr
        exact ⟨g2.1, g2.2.1.trans g.2.1, g2.2.2.trans g.2.2⟩

theorem addKey_deref (k : Key) (n : Str) :
    ((k.addKey n).1.deref (k.addKey n).2).m_entries = [] ∧
      ((k.addKey n).1.deref (k.addKey n).2).m_keys = [] := by
  unfold Key.addKey
  by_cases h1 : n = []
  · simp [h1, Key.deref, Key.s_null, Key.new]
  by_cases h2 : n = rootName ∨ n = nullName
  · simp [h1, h2, Key.deref, Key.s_null, Key.new]
  simp only [h1, h2, if_false, Key.deref, Key.getInstanceCount]
  rw [List.getD_eq_getElem?_getD, List.getElem?_append_right (Nat.le_refl _)]
  simp [Key.new]

theorem all_assign (P : Key → Prop) (h : OpInv P) (k : Key) (ref : KeyRef) (c : Key)
    (hk : Key.All P k) (hc : Key.All P c)
    (hn : c.m_name = (k.deref ref).m_name) (hi : c.m_instance = (k.deref ref).m_instance) :
    Key.All P (k.assign ref c) ∧ (k.assign ref c).m_name = k.m_name ∧
      (k.assign ref c).m_instance = k.m_instance := by
  cases ref with
  | s_null => exact ⟨hk, rfl, rfl⟩
  | sub idx =>
    refine ⟨?_, rfl, rfl⟩
    simp only [Key.assign]
    rw [all_iff] at hk ⊢
    refine ⟨?_, ?_⟩
    · refine h.loc k _ rfl ?_ hk.1
      apply map_modifyNth_const _ _ Key.s_null
      simp only [Key.deref] at hn hi
      simp [hn, hi]
    · intro x hx
      rcases mem_modifyNth _ _ _ _ hx with hx | ⟨a, _, rfl⟩
      · exact hk.2 x hx
      · exact hc

theorem deserializeKey_all (P : Key → Prop) (h : OpInv P) (host : Host)
    (next : Key → Buffer → Option (Bool × Key × Buffer))
    (hnext : ∀ k b r, Key.All P k → next k b = some r →
      Key.All P r.2.1 ∧ r.2.1.m_name = k.m_name ∧ r.2.1.m_instance = k.m_instance)
    (k : Key) (b : Buffer) (r : Bool × Key × Buffer) (hk : Key.All P k)
    (hr : k.deserializeKey host next b = some r) :
    Key.All P r.2.1 ∧ r.2.1.m_name = k.m_name ∧ r.2.1.m_instance = k.m_instance := by
  unfold Key.deserializeKey at hr
  simp only at hr
  split at hr
  · simp only [Option.some.injEq] at hr
    subst hr
    exact ⟨hk, rfl, rfl⟩
  · have hk1 := all_addKey P h k (b.readData_String host).1 hk
    have hh := addKey_head k (b.readData_String host).1
    split at hr
    · simp only [Option.some.injEq] at hr
      subst hr
      exact ⟨hk1, hh.1, hh.2.1⟩
    · split at hr
      · simp at hr
      · rename_i ok l_key1 b1 hloop
        simp only [Option.some.injEq] at hr
        subst hr
        have hleaf := addKey_deref k (b.readData_String host).1
        have g := decodeLoop_all P next hnext _ _ _ _
          (all_of_leaf P h _ hleaf.1 hleaf.2) hloop
        have a := all_assign P h _ (k.addKey (b.readData_String host).1).2 l_key1 hk1 g.1
          g.2.1 g.2.2
        exact ⟨a.1, a.2.1.trans hh.1, a.2.2.trans hh.2.1⟩

theorem deserializeNext_all (P : Key → Prop) (h : OpInv P) (host : Host) (depth : Nat)
    (k : Key) (b : Buffer) (r : Bool × Key × Buffer) (hk : Key.All P k)
    (hr : Key.deserializeNext host depth k b = some r) :
    Key.All P r.2.1 ∧ r.2.1.m_name = k.m_name ∧ r.2.1.m_instance = k.m_instance := by
  induction depth generalizing k b r with
  | zero => simp [Key.deserializeNext] at hr
  | succ depth ih =>
    simp only [Key.deserializeNext] at hr
    split at hr
    · simp only [Option.some.injEq] at hr
      subst hr
      exact deserializeEntry_all P h host k _ hk
    · split at hr
      · exact deserializeKey_all P h host _ (fun k b r hk hr => ih k b r hk hr) k _ r hk hr
      · simp only [Option.some.injEq] at hr
        subst hr
        exact ⟨hk, rfl, rfl⟩

theorem loadFromBuffer_all (P : Key → Prop) (h : OpInv P) (host : Host) (R : Key) (b : Buffer)
    (a : Bool) (hR : Key.All P R) :
    Key.All P (Registry.loadFromBuffer host R b a).2.1 ∧
      (Registry.loadFromBuffer host R b a).2.1.m_name = R.m_name ∧
      (Registry.loadFromBuffer host R b a).2.1.m_instance = R.m_instance := by
  have hR1 : Key.All P (if a = false then { R with m_entries := [], m_keys := [] } else R) ∧
      (if a = false then { R with m_entries := [], m_keys := [] } else R).m_name = R.m_name ∧
      (if a = false then { R with m_entries := [], m_keys := [] } else R).m_instance
        = R.m_instance := by
    cases a with
    | false => exact ⟨all_of_leaf P h _ rfl rfl, rfl, rfl⟩
    | true => exact ⟨hR, rfl, rfl⟩
  unfold Registry.loadFromBuffer
  simp only
  split
  · rename_i R2 b2 hloop
    have g := decodeLoop_all P _ (fun k b r hk hr => deserializeNext_all P h host _ k b r hk hr)
      _ _ _ _ hR1.1 hloop
    exact ⟨g.1, g.2.1.trans hR1.2.1, g.2.2.trans hR1.2.2⟩
  · rename_i R2 b2 hloop
    have g := decodeLoop_all P _ (fun k b r hk hr => deserializeNext_all P h host _ k b r hk hr)
      _ _ _ _ hR1.1 hloop
    exact ⟨g.1, g.2.1.trans hR1.2.1, g.2.2.trans hR1.2.2⟩
  · exact hR1

/-- An invariant of whole trees holds after every sequence of calls. -/
theorem all_run (P : Key → Prop) (h : OpInv P) (ops : List Op) (R : Key) (hR : Key.All P R) :
    Key.All P (run ops R) := by
  induction ops generalizing R with
  | nil => exact hR
  | cons op ops ih =>
    simp only [run, List.foldl_cons]
    exact ih _ (all_apply P h (fun host R b a hR => (loadFromBuffer_all P h host R b a hR).1)
      op R hR)

theorem apply_head (op : Op) (R : Key) :
    (op.apply R).m_name = R.m_name ∧ (op.apply R).m_instance = R.m_instance := by
  cases op with
  | addKey path n =>
    exact modifyAt_head _ (fun k => ⟨(addKey_head k n).1, (addKey_head k n).2.1⟩) path R
  | removeKey path n i =>
    exact modifyAt_head _ (fun k => ⟨(removeKey_head k n i).1, (removeKey_head k n i).2.1⟩) path R
  | rename path idx n =>
    exact modifyAt_head _ (fun k => ⟨(renameSub_head k idx n).1, (renameSub_head k idx n).2.1⟩)
      path R
  | renameRegistry n => exact ⟨rfl, rfl⟩
  | getInstanceCount path n =>
    exact modifyAt_head (fun k => (k.getInstanceCount n).1) (fun k => ⟨rfl, rfl⟩) path R
  | addEntry path T n =>
    exact modifyAt_head _ (fun k => ⟨(addEntry_keys k T n).2.1, (addEntry_keys k T n).2.2⟩) path R
  | setEntry path n v =>
    exact modifyAt_head _ (fun k => ⟨(setEntry_keys k _ v).2.1, (setEntry_keys k _ v).2.2⟩) path R
  | renameEntry path n m =>
    exact modifyAt_head _ (fun k => ⟨(renameEntry_keys k n m).2.1, (renameEntry_keys k n m).2.2⟩)
      path R
  | removeEntry path n =>
    exact modifyAt_head _ (fun k => ⟨(removeEntry_keys k n).2.1, (removeEntry_keys k n).2.2⟩)
      path R
  | clear path => exact modifyAt_head Key.clear (fun k => ⟨rfl, rfl⟩) path R
  | loadFromBuffer host b a =>
    have g := loadFromBuffer_all (fun _ => True)
      ⟨fun _ _ _ _ _ => trivial, fun _ _ _ => trivial, fun _ _ _ _ => trivial,
       fun _ _ _ _ => trivial, fun _ _ _ _ => trivial, fun _ _ _ => trivial,
       fun _ _ _ => trivial, fun _ _ _ _ => trivial, fun _ _ _ _ => trivial,
       fun _ _ _ => trivial⟩ host R b a
      (all_of_forall (fun _ => True) (fun _ => trivial) R)
    exact ⟨g.2.1, g.2.2⟩

theorem run_head (ops : List Op) (R : Key) :
    (run ops R).m_name = R.m_name ∧ (run ops R).m_instance = R.m_instance := by
  induction ops generalizing R with
  | nil => exact ⟨rfl, rfl⟩
  | cons op ops ih =>
    simp only [run, List.foldl_cons]
    have g := ih (op.apply R)
    simp only [run] at g
    exact ⟨g.1.trans (apply_head op R).1, g.2.trans (apply_head op R).2⟩

/-! ## The three invariants are kept by every method -/

theorem idsOf_eq_heads (m : Str) (ks : List Key) :
    idsOf m ks =
      ((ks.map (fun c => (c.m_name, c.m_instance))).filter (fun p => decide (p.1 = m))).map
        (fun p => p.2) := by
  simp [idsOf, List.filter_map, Function.comp_def]

theorem instanceOK_opInv : OpInv Key.InstanceOK where
  loc := by
    intro k k2 _ hh hk
    simp only [Key.InstanceOK] at hk ⊢
    rw [instanceOK_iff_idsOf] at hk ⊢
    intro m
    rw [idsOf_eq_heads, hh, ← idsOf_eq_heads]
    exact hk m
  leaf := by
    intro k _ h2
    simp only [Key.InstanceOK, h2]
    intro i
    exact i.elim0
  addEntry := by
    intro k T n hk
    simp only [Key.InstanceOK, (addEntry_keys k T n).1]
    exact hk
  setEntry := by
    intro k r v hk
    simp only [Key.InstanceOK, (setEntry_keys k r v).1]
    exact hk
  renameEntry := by
    intro k n m hk
    simp only [Key.InstanceOK, (renameEntry_keys k n m).1]
    exact hk
  removeEntry := by
    intro k n hk
    simp only [Key.InstanceOK, (removeEntry_keys k n).1]
    exact hk
  addKey := by
    intro k n hk
    by_cases hn : validKeyName n
    · exact addKey_instanceOK k n hk hn
    · unfold Key.addKey
      unfold validKeyName at hn
      by_cases h1 : n = []
      · simp only [h1, if_true]; exact hk
      · by_cases h2 : n = rootName ∨ n = nullName
        · simp only [h1, h2, if_true, if_false]; exact hk
        · exact absurd ⟨h1, fun e => h2 (Or.inl e), fun e => h2 (Or.inr e)⟩ hn
  removeKey := fun k n i hk => removeKey_instanceOK k n i hk
  renameSub := fun k idx n hk => renameSub_instanceOK k idx n hk
  getInstanceCount := by
    intro k n hk
    simp only [Key.InstanceOK, Key.getInstanceCount]
    rw [loop_eq_self_of_instanceOK n k.m_keys hk]
    exact hk

theorem subNamesOK_iff (k : Key) :
    k.SubNamesOK ↔ ∀ n ∈ k.m_keys.map (fun c => c.m_name), validKeyName n := by
  simp [Key.SubNamesOK]

theorem map_name_modifyNth_rename (n : Str) (idx : Nat) (ks : List Key) :
    ∀ x ∈ (modifyNth (fun c : Key => { c with m_name := n }) idx ks).map (fun c => c.m_name),
      x = n ∨ x ∈ ks.map (fun c => c.m_name) := by
  intro x hx
  obtain ⟨c, hc, rfl⟩ := List.mem_map.mp hx
  rcases mem_modifyNth _ _ _ _ hc with hc | ⟨a, _, rfl⟩
  · exact Or.inr (List.mem_map.mpr ⟨c, hc, rfl⟩)
  · exact Or.inl rfl

theorem subNamesOK_opInv : OpInv Key.SubNamesOK where
  loc := by
    intro k k2 _ hh hk
    rw [subNamesOK_iff] at hk ⊢
    have : k2.m_keys.map (fun c => c.m_name) = k.m_keys.map (fun c => c.m_name) := by
      have := congrArg (List.map Prod.fst) hh
      simpa [Function.comp_def] using this
    rw [this]; exact hk
  leaf := by
    intro k _ h2
    simp [Key.SubNamesOK, h2]
  addEntry := by
    intro k T n hk
    simp only [Key.SubNamesOK, (addEntry_keys k T n).1]
    exact hk
  setEntry := by
    intro k r v hk
    simp only [Key.SubNamesOK, (setEntry_keys k r v).1]
    exact hk
  renameEntry := by
    intro k n m hk
    simp only [Key.SubNamesOK, (renameEntry_keys k n m).1]
    exact hk
  removeEntry := by
    intro k n hk
    simp only [Key.SubNamesOK, (removeEntry_keys k n).1]
    exact hk
  addKey := by
    intro k n hk
    unfold Key.addKey
    by_cases h1 : n = []
    · simp only [h1, if_true]; exact hk
    · by_cases h2 : n = rootName ∨ n = nullName
      · simp only [h1, h2, if_true, if_false]; exact hk
      · simp only [h1, h2, if_false]
        rw [subNamesOK_iff] at hk ⊢
        simp only [Key.getInstanceCount, List.map_append, loop_map_name, List.map_cons,
          List.map_nil, List.mem_append, List.mem_singleton]
        intro x hx
        rcases hx with hx | hx
        · exact hk x hx
        · subst hx
          exact ⟨h1, fun e => h2 (Or.inl e), fun e => h2 (Or.inr e)⟩
  removeKey := by
    intro k n i hk
    unfold Key.removeKey
    cases k.seekKey n i with
    | none => exact hk
    | some r =>
      rw [subNamesOK_iff] at hk ⊢
      simp only [Key.getInstanceCount, loop_map_name]
      intro x hx
      obtain ⟨c, hc, rfl⟩ := List.mem_map.mp hx
      exact hk _ (List.mem_map.mpr ⟨c, List.mem_of_mem_eraseIdx hc, rfl⟩)
  renameSub := by
    intro k idx n hk
    by_cases hn : validKeyName n
    · cases hs : k.m_keys[idx]? with
      | none => simp only [Key.renameSub, hs]; exact hk
      | some c =>
        rw [renameSub_eq k idx c n hs hn]
        rw [subNamesOK_iff] at hk ⊢
        simp only [loop_map_name]
        intro x hx
        rcases map_name_modifyNth_rename n idx k.m_keys x hx with rfl | hx
        · exact hn
        · exact hk x hx
    · have : n = [] ∨ n = rootName ∨ n = nullName := by
        unfold validKeyName at hn
        by_cases h1 : n = []
        · exact Or.inl h1
        · by_cases h2 : n = rootName
          · exact Or.inr (Or.inl h2)
          · by_cases h3 : n = nullName
            · exact Or.inr (Or.inr h3)
            · exact absurd ⟨h1, h2, h3⟩ hn
      rw [renameSub_invalid k idx n this]; exact hk
  getInstanceCount := by
    intro k n hk
    rw [subNamesOK_iff] at hk ⊢
    simp only [Key.getInstanceCount, loop_map_name]
    exact hk

theorem entryNamesOK_iff (k : Key) :
    k.EntryNamesOK ↔
      (∀ n ∈ k.m_entries.map (fun e => e.m_name), n ≠ []) ∧
      (k.m_entries.map (fun e => e.m_name)).Nodup := by
  simp [Key.EntryNamesOK]

theorem seekEntry_none (k : Key) (n : Str) :
    k.seekEntry n = none ↔ n ∉ k.m_entries.map (fun e => e.m_name) := by
  unfold Key.seekEntry
  rw [find_if_none]
  simp only [decide_eq_false_iff_not, List.mem_map, not_exists, not_and]
  constructor
  · intro h e he hn; exact h e he hn.symm
  · intro h e he hn; exact h e he hn.symm

theorem map_name_modifyNth_set (m : Str) (idx : Nat) (es : List Entry) :
    (modifyNth (fun e : Entry => { e with m_name := m }) idx es).map (fun e => e.m_name)
      = modifyNth (fun _ => m) idx (es.map (fun e => e.m_name)) := by
  induction es generalizing idx with
  | nil => cases idx <;> simp [modifyNth]
  | cons a as ih => cases idx <;> simp [modifyNth, ih]

theorem nodup_modifyNth_const {α : Type} (m : α) (idx : Nat) (l : List α) (hl : l.Nodup)
    (hm : m ∉ l) : (modifyNth (fun _ => m) idx l).Nodup := by
  induction l generalizing idx with
  | nil => cases idx <;> simp [modifyNth]
  | cons a as ih =>
    simp only [List.nodup_cons, List.mem_cons, not_or] at hl hm
    cases idx with
    | zero => simp [modifyNth, hl.2, hm.2]
    | succ idx =>
      simp only [modifyNth, List.nodup_cons]
      refine ⟨?_, ih idx hl.2 hm.2⟩
      intro ha
      rcases mem_modifyNth _ _ _ _ ha with ha | ⟨_, _, rfl⟩
      · exact hl.1 ha
      · exact hm.1 rfl

theorem entryNamesOK_opInv : OpInv Key.EntryNamesOK where
  loc := by
    intro k k2 he _ hk
    simp only [Key.EntryNamesOK, he]
    exact hk
  leaf := by
    intro k h1 _
    simp [Key.EntryNamesOK, h1]
  addEntry := by
    intro k T n hk
    unfold Key.addEntry
    by_cases h1 : n = []
    · simp only [h1, if_true]; exact hk
    · simp only [h1, if_false]
      cases hs : k.seekEntry n with
      | some r =>
        by_cases h2 : r.2.getAlias = T.Alias
        · simp only [h2, ne_eq, not_true_eq_false, if_false]; exact hk
        · simp only [h2, ne_eq, not_false_eq_true, if_true]; exact hk
      | none =>
        have hnot := (seekEntry_none k n).mp hs
        rw [entryNamesOK_iff] at hk ⊢
        simp only [List.map_append, List.map_cons, List.map_nil, List.mem_append,
          List.mem_singleton, Entry.new]
        refine ⟨?_, ?_⟩
        · intro x hx
          rcases hx with hx | hx
          · exact hk.1 x hx
          · subst hx; exact h1
        · rw [List.nodup_append]
          refine ⟨hk.2, by simp, ?_⟩
          intro x hx hx2
          simp only [List.mem_singleton] at hx2
          subst hx2
          exact hnot hx
  setEntry := by
    intro k r v hk
    cases r with
    | s_null => exact hk
    | elem idx =>
      rw [entryNamesOK_iff] at hk ⊢
      simp only [Key.setEntry]
      rw [map_modifyNth (fun e : Entry => e.m_name)
        (fun e : Entry => { e with m_data := v }) (fun _ => rfl)]
      exact hk
  renameEntry := by
    intro k n m hk
    unfold Key.renameEntry
    by_cases h1 : n = []
    · simp only [h1, if_true]; exact hk
    by_cases h2 : m = []
    · simp only [h1, h2, if_true, if_false]; exact hk
    by_cases h3 : m = rootName ∨ m = nullName
    · simp only [h1, h2, h3, if_true, if_false]; exact hk
    cases h4 : k.seekEntry m with
    | some r => simp only [h1, h2, h3, Option.isSome_some, if_true, if_false]; exact hk
    | none =>
      simp only [h1, h2, h3, Option.isSome_none, Bool.false_eq_true, if_false]
      cases k.seekEntry n with
      | none => exact hk
      | some l_find =>
        have hnot := (seekEntry_none k m).mp h4
        rw [entryNamesOK_iff] at hk ⊢
        simp only [map_name_modifyNth_set]
        refine ⟨?_, nodup_modifyNth_const m _ _ hk.2 hnot⟩
        intro x hx
        rcases mem_modifyNth _ _ _ _ hx with hx | ⟨_, _, rfl⟩
        · exact hk.1 x hx
        · exact h2
  removeEntry := by
    intro k n hk
    unfold Key.removeEntry
    cases k.seekEntry n with
    | none => exact hk
    | some l_find =>
      simp only [Key.EntryNamesOK] at hk ⊢
      refine ⟨fun e he => hk.1 e (List.mem_of_mem_eraseIdx he), ?_⟩
      exact hk.2.sublist ((List.eraseIdx_sublist _ _).map _)
  addKey := by
    intro k n hk
    simp only [Key.EntryNamesOK, (addKey_head k n).2.2]
    exact hk
  removeKey := by
    intro k n i hk
    simp only [Key.EntryNamesOK, (removeKey_head k n i).2.2]
    exact hk
  renameSub := by
    intro k idx n hk
    simp only [Key.EntryNamesOK, (renameSub_head k idx n).2.2]
    exact hk
  getInstanceCount := fun k n hk => hk

/-! ## Claims C3, C8, C9, C10: what holds in every reachable tree -/

theorem all_getAt (P : Key → Prop) (path : List Nat) (R k : Key) (hR : Key.All P R)
    (hk : Key.getAt path R = some k) : P k := by
  induction path generalizing R with
  | nil =>
    simp only [Key.getAt, Option.some.injEq] at hk
    subst hk
    exact ((all_iff P R).mp hR).1
  | cons i path ih =>
    simp only [Key.getAt] at hk
    cases hc : R.m_keys[i]? with
    | none => simp [hc] at hk
    | some c =>
      simp only [hc] at hk
      exact ih c (((all_iff P R).mp hR).2 c (List.getElem?_mem hc)) hk

theorem subNames_getAt (path : List Nat) (R k : Key) (hR : Key.All Key.SubNamesOK R)
    (hk : Key.getAt path R = some k) (hp : path ≠ []) : validKeyName k.m_name := by
  induction path generalizing R with
  | nil => exact absurd rfl hp
  | cons i path ih =>
    simp only [Key.getAt] at hk
    cases hc : R.m_keys[i]? with
    | none => simp [hc] at hk
    | some c =>
      simp only [hc] at hk
      have hmem := List.getElem?_mem hc
      cases path with
      | nil =>
        simp only [Key.getAt, Option.some.injEq] at hk
        subst hk
        exact ((all_iff _ R).mp hR).1 c hmem
      | cons j rest =>
        exact ih c (((all_iff _ R).mp hR).2 c hmem) hk (by simp)

theorem all_new (P : Key → Prop) (h : OpInv P) : Key.All P Registry.new :=
  all_of_leaf P h _ rfl rfl

/-- C3. The instance-id invariant. After every sequence of calls of `addKey`,
`removeKey`, `rename`, `getInstanceCount`, `addEntry`, `set`, `renameEntry`,
`removeEntry`, `clear` and `loadFromBuffer` (on any buffer, with or without
`append`, whether it succeeds or fails) on a registry that started empty,
each key `k` of the tree, reached by any path, is such that the instance id
of each of its direct subkeys is the number of earlier siblings that bear the
same name; consequently no two direct subkeys of `k` share both name and
instance id. -/
theorem instance_invariant (ops : List Op) (path : List Nat) (k : Key)
    (hk : Key.getAt path (run ops Registry.new) = some k) :
    (∀ i : Fin k.m_keys.length,
      (k.m_keys.get i).m_instance =
        (k.m_keys.take i.val).countP (fun c => decide (c.m_name = (k.m_keys.get i).m_name))) ∧
    (∀ i j : Fin k.m_keys.length,
      (k.m_keys.get i).m_name = (k.m_keys.get j).m_name →
      (k.m_keys.get i).m_instance = (k.m_keys.get j).m_instance → i = j) := by
  have hall := all_run Key.InstanceOK instanceOK_opInv ops Registry.new
    (all_new _ instanceOK_opInv)
  have hkOK : InstanceOKList k.m_keys := all_getAt Key.InstanceOK path _ k hall hk
  refine ⟨hkOK, ?_⟩
  intro i j hn hi
  apply Fin.ext
  exact instanceOK_unique k.m_keys hkOK i.val j.val _ _ (by simp) (by simp) hn hi

/-- C3, for the registry after `addKey ("A")`, `addKey ("A")`, `removeKey ("A", 0)`
and at its root. -/
theorem instance_invariant_witness :
    let ops := [Op.addKey [] (ascii "A"), Op.addKey [] (ascii "A"), Op.removeKey [] (ascii "A") 0]
    Key.getAt [] (run ops Registry.new) = some ⟨rootName, 0, [], [⟨ascii "A", 0, [], []⟩]⟩ ∧
    ∀ i : Fin (run ops Registry.new).m_keys.length,
      ((run ops Registry.new).m_keys.get i).m_instance =
        ((run ops Registry.new).m_keys.take i.val).countP
          (fun c => decide (c.m_name = ((run ops Registry.new).m_keys.get i).m_name)) :=
  ⟨by decide,
   (instance_invariant
      [Op.addKey [] (ascii "A"), Op.addKey [] (ascii "A"), Op.removeKey [] (ascii "A") 0]
      [] _ rfl).1⟩

/-- C8, at the failing input: `addEntry<S32> ("null")` on an empty registry
creates an entry that bears the reserved name `"null"`, for which `isNull ()`
is true, although `renameEntry` refuses that name for an entry. -/
theorem addEntry_accepts_null :
    (run [Op.addEntry [] Datatype.S32 (ascii "null")] Registry.new).m_entries =
        [⟨ascii "null", Value.s32 0⟩] ∧
    (Entry.isNull ⟨ascii "null", Value.s32 0⟩ = true) ∧
    (run [Op.addEntry [] Datatype.S32 (ascii "x"), Op.renameEntry [] (ascii "x") (ascii "null")]
        Registry.new).m_entries = [⟨ascii "x", Value.s32 0⟩] := by
  decide

/-- C9. The key-name invariant. After every sequence of calls (the same calls
as in C3) on a registry that started empty, the root bears the name `"root"`
and the instance id 0, and every other key of the tree, reached by any
non-empty path, bears a name that is not empty, not `"root"` and not `"null"`.
The root is the key no other key holds: it has no parent. -/
theorem key_name_invariant (ops : List Op) :
    (run ops Registry.new).m_name = ascii "root" ∧
    (run ops Registry.new).m_instance = 0 ∧
    ∀ (path : List Nat) (k : Key), path ≠ [] →
      Key.getAt path (run ops Registry.new) = some k →
      k.m_name ≠ [] ∧ k.m_name ≠ ascii "root" ∧ k.m_name ≠ ascii "null" := by
  refine ⟨(run_head ops Registry.new).1, (run_head ops Registry.new).2, ?_⟩
  intro path k hp hk
  have hall := all_run Key.SubNamesOK subNamesOK_opInv ops Registry.new
    (all_new _ subNamesOK_opInv)
  exact subNames_getAt path _ k hall hk hp

/-- C9, for the registry after `addKey ("A")` and `rename ("B")` on that
subkey, at the subkey. -/
theorem key_name_invariant_witness :
    let ops := [Op.addKey [] (ascii "A"), Op.rename [] 0 (ascii "B")]
    (([0] : List Nat) ≠ [] ∧
      Key.getAt [0] (run ops Registry.new) = some ⟨ascii "B", 0, [], []⟩) ∧
    ((⟨ascii "B", 0, [], []⟩ : Key).m_name ≠ [] ∧
      (⟨ascii "B", 0, [], []⟩ : Key).m_name ≠ ascii "root" ∧
      (⟨ascii "B", 0, [], []⟩ : Key).m_name ≠ ascii "null") :=
  ⟨by decide,
   (key_name_invariant [Op.addKey [] (ascii "A"), Op.rename [] 0 (ascii "B")]).2.2
     [0] ⟨ascii "B", 0, [], []⟩ (by decide) (by decide)⟩

/-- C10. The entry-name invariant. After every sequence of calls (the same
calls as in C3) on a registry that started empty, in each key of the tree the
names of the entries are not empty and pairwise distinct. -/
theorem entry_name_invariant (ops : List Op) (path : List Nat) (k : Key)
    (hk : Key.getAt path (run ops Registry.new) = some k) :
    (∀ e ∈ k.m_entries, e.m_name ≠ []) ∧ (k.m_entries.map (fun e => e.m_name)).Nodup :=
  all_getAt Key.EntryNamesOK path _ k
    (all_run Key.EntryNamesOK entryNamesOK_opInv ops Registry.new (all_new _ entryNamesOK_opInv)) hk

/-- C10, for the registry after `addEntry<U8> ("a")` twice and
`addEntry<U8> ("b")`, at its root. -/
theorem entry_name_invariant_witness :
    let ops := [Op.addEntry [] Datatype.U8 (ascii "a"), Op.addEntry [] Datatype.U8 (ascii "a"),
      Op.addEntry [] Datatype.U8 (ascii "b")]
    Key.getAt [] (run ops Registry.new) =
        some ⟨rootName, 0, [⟨ascii "a", Value.u8 0⟩, ⟨ascii "b", Value.u8 0⟩], []⟩ ∧
    ((run ops Registry.new).m_entries.map (fun e => e.m_name)).Nodup :=
  ⟨by decide,
   (entry_name_invariant
      [Op.addEntry [] Datatype.U8 (ascii "a"), Op.addEntry [] Datatype.U8 (ascii "a"),
        Op.addEntry [] Datatype.U8 (ascii "b")] [] _ rfl).2⟩

/-! ## Byte order -/

theorem and_mask (x k : Nat) : x &&& (255 <<< k) = ((x >>> k) % 256) <<< k := by
  apply Nat.eq_of_testBit_eq
  intro i
  have h255 : (255 : Nat) = 2 ^ 8 - 1 := by norm_num
  have h256 : (256 : Nat) = 2 ^ 8 := by norm_num
  rw [h255, h256]
  simp only [Nat.testBit_and, Nat.testBit_shiftLeft, Nat.testBit_two_pow_sub_one,
    Nat.testBit_mod_two_pow, Nat.testBit_shiftRight]
  by_cases h : k ≤ i
  · have : k + (i - k) = i := by omega
    simp [h, this, Bool.and_comm]
  · simp [h]

theorem or_eq_add (a i b : Nat) (h : b < 2 ^ i) : (a * 2 ^ i) ||| b = a * 2 ^ i + b := by
  rw [Nat.mul_comm a, Nat.mul_add_lt_is_or h]

theorem swap32_arith (x : Nat) :
    (((x &&& 0xFF) <<< 24) ||| ((x &&& 0xFF00) <<< 8) ||| ((x &&& 0xFF0000) >>> 8) |||
        ((x &&& 0xFF000000) >>> 24))
      = (x % 256) * 2 ^ 24 + (x / 2 ^ 8 % 256) * 2 ^ 16 + (x / 2 ^ 16 % 256) * 2 ^ 8
          + (x / 2 ^ 24 % 256) := by
  have e0 : x &&& 0xFF = x % 256 := by
    have := and_mask x 0; simpa using this
  have e1 : x &&& 0xFF00 = ((x >>> 8) % 256) <<< 8 := and_mask x 8
  have e2 : x &&& 0xFF0000 = ((x >>> 16) % 256) <<< 16 := and_mask x 16
  have e3 : x &&& 0xFF000000 = ((x >>> 24) % 256) <<< 24 := and_mask x 24
  rw [e0, e1, e2, e3]
  simp only [Nat.shiftLeft_eq, Nat.shiftRight_eq_div_pow]
  generalize x % 256 = p
  generalize hq : x / 2 ^ 8 % 256 = q
  generalize hr : x / 2 ^ 16 % 256 = r
  generalize hs : x / 2 ^ 24 % 256 = s
  have hq1 : q < 256 := by omega
  have hr1 : r < 256 := by omega
  have hs1 : s < 256 := by omega
  have c1 : q * 2 ^ 8 * 2 ^ 8 = q * 2 ^ 16 := by ring
  have c2 : r * 2 ^ 16 / 2 ^ 8 = r * 2 ^ 8 := by omega
  have c3 : s * 2 ^ 24 / 2 ^ 24 = s := by omega
  rw [c1, c2, c3]
  rw [or_eq_add p 24 _ (by omega)]
  have c4 : p * 2 ^ 24 + q * 2 ^ 16 = (p * 2 ^ 8 + q) * 2 ^ 16 := by ring
  rw [c4, or_eq_add _ 16 _ (by omega)]
  have c5 : (p * 2 ^ 8 + q) * 2 ^ 16 + r * 2 ^ 8 = (p * 2 ^ 16 + q * 2 ^ 8 + r) * 2 ^ 8 := by
    ring
  rw [c5, or_eq_add _ 8 _ (by omega)]

theorem swap16_arith (x : Nat) :
    (((x &&& 0xFF) <<< 8) ||| ((x &&& 0xFF00) >>> 8)) = (x % 256) * 2 ^ 8 + (x / 2 ^ 8 % 256) := by
  have e0 : x &&& 0xFF = x % 256 := by
    have := and_mask x 0; simpa using this
  have e1 : x &&& 0xFF00 = ((x >>> 8) % 256) <<< 8 := and_mask x 8
  rw [e0, e1]
  simp only [Nat.shiftLeft_eq, Nat.shiftRight_eq_div_pow]
  generalize x % 256 = p
  generalize hq : x / 2 ^ 8 % 256 = q
  have hq1 : q < 256 := by omega
  have c2 : q * 2 ^ 8 / 2 ^ 8 = q := by omega
  rw [c2, or_eq_add p 8 _ (by omega)]

theorem digits4 (p q r t : Nat) (hq : q < 256) (hr : r < 256) (ht : t < 256) :
    (p * 2 ^ 24 + q * 2 ^ 16 + r * 2 ^ 8 + t) % 256 = t ∧
    (p * 2 ^ 24 + q * 2 ^ 16 + r * 2 ^ 8 + t) / 2 ^ 8 % 256 = r ∧
    (p * 2 ^ 24 + q * 2 ^ 16 + r * 2 ^ 8 + t) / 2 ^ 16 % 256 = q ∧
    (p * 2 ^ 24 + q * 2 ^ 16 + r * 2 ^ 8 + t) / 2 ^ 24 = p := by
  have e1 : (p * 2 ^ 24 + q * 2 ^ 16 + r * 2 ^ 8 + t) / 2 ^ 8 = p * 2 ^ 16 + q * 2 ^ 8 + r := by
    omega
  have e2 : (p * 2 ^ 24 + q * 2 ^ 16 + r * 2 ^ 8 + t) / 2 ^ 16 = p * 2 ^ 8 + q := by omega
  have e3 : (p * 2 ^ 24 + q * 2 ^ 16 + r * 2 ^ 8 + t) / 2 ^ 24 = p := by omega
  rw [e1, e2, e3]
  refine ⟨?_, ?_, ?_, rfl⟩ <;> omega

theorem digits2 (p q : Nat) (hq : q < 256) :
    (p * 2 ^ 8 + q) % 256 = q ∧ (p * 2 ^ 8 + q) / 2 ^ 8 = p := by
  constructor <;> omega

theorem be32_sum (x : Nat) (hx : x < 2 ^ 32) :
    (x / 2 ^ 24 % 256) * 2 ^ 24 + (x / 2 ^ 16 % 256) * 2 ^ 16 + (x / 2 ^ 8 % 256) * 2 ^ 8
      + x % 256 = x := by
  have h1 : x / 2 ^ 16 % 256 = x / 2 ^ 16 - 256 * (x / 2 ^ 24) := by
    have : x / 2 ^ 16 / 256 = x / 2 ^ 24 := by
      rw [Nat.div_div_eq_div_mul]; norm_num
    omega
  have h2 : x / 2 ^ 8 % 256 = x / 2 ^ 8 - 256 * (x / 2 ^ 16) := by
    have : x / 2 ^ 8 / 256 = x / 2 ^ 16 := by
      rw [Nat.div_div_eq_div_mul]; norm_num
    omega
  have h3 : x / 2 ^ 24 % 256 = x / 2 ^ 24 := by
    apply Nat.mod_eq_of_lt
    omega
  rw [h1, h2, h3]
  omega

theorem be16_sum (x : Nat) (hx : x < 2 ^ 16) : (x / 2 ^ 8 % 256) * 2 ^ 8 + x % 256 = x := by
  omega

theorem promoteS16_low (x : Nat) : promoteS16 x % 256 = x % 256 := by
  unfold promoteS16
  split <;> omega

theorem promoteS16_high (x : Nat) : promoteS16 x / 2 ^ 8 % 256 = x / 2 ^ 8 % 256 := by
  have e : x / 2 ^ 8 % 256 = x % 2 ^ 16 / 2 ^ 8 := by
    have := Nat.mod_mul_right_div_self x (2 ^ 8) 256
    rw [← this]
    norm_num
  rw [e]
  unfold promoteS16
  have hy : x % 2 ^ 16 < 2 ^ 16 := Nat.mod_lt _ (by decide)
  generalize x % 2 ^ 16 = y at hy ⊢
  split
  · omega
  · have : (y + 4294901760) / 2 ^ 8 = y / 2 ^ 8 + 16776960 := by omega
    rw [this]
    omega

theorem checkEndian_big (host : Host) :
    Private.checkEndian host = Private.G_BIG_ENDIAN ↔ host.bigEndian = true := by
  cases h : host.bigEndian <;>
    simp [Private.checkEndian, Host.bytes32, h, U8.ofNat, Private.G_BIG_ENDIAN,
      Private.G_LITTLE_ENDIAN]

theorem swapBytes_U32_eq (host : Host) (x : Nat) :
    swapBytes_U32 host x =
      if host.bigEndian then x
      else (x % 256) * 2 ^ 24 + (x / 2 ^ 8 % 256) * 2 ^ 16 + (x / 2 ^ 16 % 256) * 2 ^ 8
        + (x / 2 ^ 24 % 256) := by
  unfold swapBytes_U32
  cases h : host.bigEndian
  · have : ¬ Private.checkEndian host = Private.G_BIG_ENDIAN := by
      rw [checkEndian_big]; simp [h]
    simp only [this, if_false, Bool.false_eq_true]
    rw [swap32_arith]
    omega
  · have : Private.checkEndian host = Private.G_BIG_ENDIAN := by
      rw [checkEndian_big]; exact h
    simp [this]

theorem swapBytes_S32_eq (host : Host) (x : Nat) : swapBytes_S32 host x = swapBytes_U32 host x :=
  rfl

theorem swapBytes_U16_eq (host : Host) (x : Nat) :
    swapBytes_U16 host x =
      if host.bigEndian then x else (x % 256) * 2 ^ 8 + (x / 2 ^ 8 % 256) := by
  unfold swapBytes_U16
  cases h : host.bigEndian
  · have : ¬ Private.checkEndian host = Private.G_BIG_ENDIAN := by
      rw [checkEndian_big]; simp [h]
    simp only [this, if_false, Bool.false_eq_true]
    rw [swap16_arith]
    omega
  · have : Private.checkEndian host = Private.G_BIG_ENDIAN := by
      rw [checkEndian_big]; exact h
    simp [this]

theorem swapBytes_S16_eq (host : Host) (x : Nat) :
    swapBytes_S16 host x =
      if host.bigEndian then x else (x % 256) * 2 ^ 8 + (x / 2 ^ 8 % 256) := by
  unfold swapBytes_S16
  cases h : host.bigEndian
  · have : ¬ Private.checkEndian host = Private.G_BIG_ENDIAN := by
      rw [checkEndian_big]; simp [h]
    simp only [this, if_false, Bool.false_eq_true]
    rw [swap16_arith]
    rw [promoteS16_low, promoteS16_high]
    apply Nat.mod_eq_of_lt
    have hp : x % 256 < 256 := Nat.mod_lt _ (by decide)
    have hq : x / 2 ^ 8 % 256 < 256 := Nat.mod_lt _ (by decide)
    omega
  · have : Private.checkEndian host = Private.G_BIG_ENDIAN := by
      rw [checkEndian_big]; exact h
    simp [this]

theorem U8_ofNat_eq (a b : Nat) : U8.ofNat a = U8.ofNat b ↔ a % 256 = b % 256 := by
  simp [U8.ofNat, Fin.ext_iff]

theorem U8_ofNat_val (x : U8) : U8.ofNat x.val = x := by
  apply Fin.ext
  simp [U8.ofNat, Nat.mod_eq_of_lt x.isLt]

theorem U16_ofNat_val (x : U16) : U16.ofNat x.val = x := by
  apply Fin.ext
  simp [U16.ofNat, Nat.mod_eq_of_lt x.isLt]

theorem U32_ofNat_val (x : U32) : U32.ofNat x.val = x := by
  apply Fin.ext
  simp [U32.ofNat, Nat.mod_eq_of_lt x.isLt]

/-- On either host the bytes written for a 32-bit value are its four bytes,
most significant first. -/
theorem bytes32_swap (host : Host) (x : Nat) : host.bytes32 (swapBytes_U32 host x) = be32 x := by
  rw [swapBytes_U32_eq]
  cases h : host.bigEndian
  · simp only [Host.bytes32, h, be32, Bool.false_eq_true, if_false, List.cons.injEq, and_true,
      U8_ofNat_eq]
    have hp : x % 256 < 256 := Nat.mod_lt _ (by decide)
    generalize x % 256 = p at hp ⊢
    generalize hq : x / 2 ^ 8 % 256 = q
    generalize hr : x / 2 ^ 16 % 256 = r
    generalize ht : x / 2 ^ 24 % 256 = t
    have hq1 : q < 256 := by omega
    have hr1 : r < 256 := by omega
    have ht1 : t < 256 := by omega
    obtain ⟨d1, d2, d3, d4⟩ := digits4 p q r t hq1 hr1 ht1
    rw [d4]
    refine ⟨?_, ?_, ?_, ?_⟩ <;> omega
  · simp [Host.bytes32, h, be32]

theorem bytes16_swap_U16 (host : Host) (x : Nat) :
    host.bytes16 (swapBytes_U16 host x) = be16 x := by
  rw [swapBytes_U16_eq]
  cases h : host.bigEndian
  · simp only [Host.bytes16, h, be16, Bool.false_eq_true, if_false, List.cons.injEq, and_true,
      U8_ofNat_eq]
    have hp : x % 256 < 256 := Nat.mod_lt _ (by decide)
    generalize x % 256 = p at hp ⊢
    generalize hq : x / 2 ^ 8 % 256 = q
    have hq1 : q < 256 := by omega
    obtain ⟨d1, d2⟩ := digits2 p q hq1
    rw [d2]
    refine ⟨?_, ?_⟩ <;> omega
  · simp [Host.bytes16, h, be16]

theorem bytes16_swap_S16 (host : Host) (x : Nat) :
    host.bytes16 (swapBytes_S16 host x) = be16 x := by
  rw [swapBytes_S16_eq, ← swapBytes_U16_eq]
  exact bytes16_swap_U16 host x

/-- On either host the value read from four bytes is the one they spell, most
significant byte first. -/
theorem swap_word32 (host : Host) (a0 a1 a2 a3 : Byte) :
    swapBytes_U32 host (host.word32 a0 a1 a2 a3)
      = a0.val * 2 ^ 24 + a1.val * 2 ^ 16 + a2.val * 2 ^ 8 + a3.val := by
  rw [swapBytes_U32_eq]
  have h0 := a0.isLt
  have h1 := a1.isLt
  have h2 := a2.isLt
  have h3 := a3.isLt
  cases h : host.bigEndian
  · simp only [Host.word32, h, Bool.false_eq_true, if_false]
    omega
  · simp [Host.word32, h]

theorem swap_word16_U16 (host : Host) (a0 a1 : Byte) :
    swapBytes_U16 host (host.word16 a0 a1) = a0.val * 2 ^ 8 + a1.val := by
  rw [swapBytes_U16_eq]
  have h0 := a0.isLt
  have h1 := a1.isLt
  cases h : host.bigEndian
  · simp only [Host.word16, h, Bool.false_eq_true, if_false]
    omega
  · simp [Host.word16, h]

theorem swap_word16_S16 (host : Host) (a0 a1 : Byte) :
    swapBytes_S16 host (host.word16 a0 a1) = a0.val * 2 ^ 8 + a1.val := by
  rw [swapBytes_S16_eq, ← swapBytes_U16_eq]
  exact swap_word16_U16 host a0 a1

/-! ## Writing appends the byte layout -/

theorem writeRaw_eq (b : Buffer) (data : List Byte) :
    b.writeRaw data = { b with m_bytes := b.m_bytes ++ data } := by
  unfold Buffer.writeRaw
  cases data with
  | nil => simp
  | cons a as => simp

theorem writeData_U32_eq (host : Host) (b : Buffer) (x : Nat) :
    b.writeData_U32 host x = { b with m_bytes := b.m_bytes ++ be32 x } := by
  simp [Buffer.writeData_U32, writeRaw_eq, bytes32_swap]

theorem writeData_S32_eq (host : Host) (b : Buffer) (x : Nat) :
    b.writeData_S32 host x = { b with m_bytes := b.m_bytes ++ be32 x } := by
  simp [Buffer.writeData_S32, writeRaw_eq, swapBytes_S32_eq, bytes32_swap]

theorem writeData_Float_eq (host : Host) (b : Buffer) (x : Nat) :
    b.writeData_Float host x = { b with m_bytes := b.m_bytes ++ be32 x } := by
  simp [Buffer.writeData_Float, writeRaw_eq, encodeFloat, bytes32_swap]

theorem writeData_U16_eq (host : Host) (b : Buffer) (x : Nat) :
    b.writeData_U16 host x = { b with m_bytes := b.m_bytes ++ be16 x } := by
  simp [Buffer.writeData_U16, writeRaw_eq, bytes16_swap_U16]

theorem writeData_S16_eq (host : Host) (b : Buffer) (x : Nat) :
    b.writeData_S16 host x = { b with m_bytes := b.m_bytes ++ be16 x } := by
  simp [Buffer.writeData_S16, writeRaw_eq, bytes16_swap_S16]

theorem writeData_U8_eq (b : Buffer) (x : Nat) :
    b.writeData_U8 x = { b with m_bytes := b.m_bytes ++ [U8.ofNat x] } := by
  simp [Buffer.writeData_U8, writeRaw_eq]

theorem writeData_S8_eq (b : Buffer) (x : Nat) :
    b.writeData_S8 x = { b with m_bytes := b.m_bytes ++ [U8.ofNat x] } := by
  simp [Buffer.writeData_S8, writeRaw_eq]

theorem writeData_String_eq (host : Host) (b : Buffer) (s : Str) :
    b.writeData_String host s = { b with m_bytes := b.m_bytes ++ encString s } := by
  unfold Buffer.writeData_String encString
  simp only [writeData_U32_eq, writeRaw_eq]
  by_cases h : s.length % 2 ^ 32 = 0
  · simp only [h, ne_eq, not_true_eq_false, if_false, List.take_zero, List.append_nil]
  · simp only [h, ne_eq, not_false_eq_true, if_true, List.append_assoc]

theorem writeValue_eq (host : Host) (b : Buffer) (v : Value) :
    b.writeValue host v = { b with m_bytes := b.m_bytes ++ encValue v } := by
  cases v <;>
    simp [Buffer.writeValue, encValue, writeData_S8_eq, writeData_U8_eq, writeData_S16_eq,
      writeData_U16_eq, writeData_S32_eq, writeData_U32_eq, writeData_Float_eq,
      writeData_String_eq, U8_ofNat_val]

theorem entry_serialize_eq (host : Host) (e : Entry) (b : Buffer) :
    e.serialize host b = { b with m_bytes := b.m_bytes ++ encEntry e } := by
  simp [Entry.serialize, encEntry, encEntryBody, writeData_U32_eq, writeData_String_eq,
    writeData_U8_eq, writeValue_eq]

theorem foldl_serialize_eq (host : Host) (es : List Entry) (b : Buffer) :
    es.foldl (fun b l_entry => l_entry.serialize host b) b
      = { b with m_bytes := b.m_bytes ++ (es.map encEntry).flatten } := by
  induction es generalizing b with
  | nil => simp
  | cons e es ih =>
    simp only [List.foldl_cons, List.map_cons, List.flatten_cons]
    rw [ih, entry_serialize_eq]
    simp

mutual
/-- The bytes `Key::serialize` appends are `encKey`; the bytes that were in
the buffer and the read cursor stay. -/
theorem key_serialize_eq (host : Host) :
    ∀ (k : Key) (b : Buffer), Key.serialize host k b = { b with m_bytes := b.m_bytes ++ encKey k }
  | ⟨n, i, es, ks⟩, b => by
    unfold Key.serialize encKey
    by_cases h1 : n = nullName
    · simp [h1]
    · by_cases h2 : n = rootName
      · simp only [h1, h2, if_false, ne_eq, not_true_eq_false]
        rw [keys_serialize_eq host ks]
        have hrn : ¬ rootName = nullName := by decide
        simp [foldl_serialize_eq, writeData_U32_eq, hrn]
      · simp only [h1, h2, if_false, ne_eq, not_false_eq_true, if_true]
        rw [keys_serialize_eq host ks]
        simp [foldl_serialize_eq, writeData_U32_eq, writeData_String_eq]
theorem keys_serialize_eq (host : Host) :
    ∀ (ks : List Key) (b : Buffer),
      Key.serializeKeys host ks b = { b with m_bytes := b.m_bytes ++ encKeys ks }
  | [], b => by simp [Key.serializeKeys, encKeys]
  | k :: ks, b => by
    unfold Key.serializeKeys encKeys
    rw [key_serialize_eq host k, keys_serialize_eq host ks]
    simp
end

/-! ## Reading what was written -/

theorem rest_length (b : Buffer) : b.rest.length = b.m_bytes.length - b.m_read := by
  simp [Buffer.rest]

theorem canRead_of_rest (b : Buffer) (n : Nat) (h0 : 0 < n) (h : n ≤ b.rest.length) :
    b.canRead n = true := by
  rw [rest_length] at h
  simp only [Buffer.canRead, decide_eq_true_eq]
  omega

theorem peek_rest (host : Host) (b : Buffer) (i : Nat) (x : Byte) (h : b.rest[i]? = some x) :
    b.peek host (b.m_read + i) = x := by
  simp only [Buffer.rest, List.getElem?_drop] at h
  simp [Buffer.peek, List.getD_eq_getElem?_getD, h]

theorem advance_rest (b : Buffer) (X tl : List Byte) (h : b.rest = X ++ tl) :
    (b.advance X.length).rest = tl := by
  simp only [Buffer.rest, Buffer.advance] at h ⊢
  rw [← List.drop_drop, h]
  simp

theorem advance_advance (b : Buffer) (m n : Nat) :
    (b.advance m).advance n = b.advance (m + n) := by
  simp [Buffer.advance, Nat.add_assoc]

theorem advance_zero (b : Buffer) : b.advance 0 = b := by
  simp [Buffer.advance]

theorem be32_val (x : Nat) (hx : x < 2 ^ 32) :
    (U8.ofNat (x / 2 ^ 24)).val * 2 ^ 24 + (U8.ofNat (x / 2 ^ 16)).val * 2 ^ 16
      + (U8.ofNat (x / 2 ^ 8)).val * 2 ^ 8 + (U8.ofNat x).val = x := by
  simp only [U8.ofNat]
  exact be32_sum x hx

theorem be16_val (x : Nat) (hx : x < 2 ^ 16) :
    (U8.ofNat (x / 2 ^ 8)).val * 2 ^ 8 + (U8.ofNat x).val = x := by
  simp only [U8.ofNat]
  exact be16_sum x hx

theorem peek4 (host : Host) (b : Buffer) (a0 a1 a2 a3 : Byte) (tl : List Byte)
    (h : b.rest = a0 :: a1 :: a2 :: a3 :: tl) :
    b.peek host b.m_read = a0 ∧ b.peek host (b.m_read + 1) = a1 ∧
      b.peek host (b.m_read + 2) = a2 ∧ b.peek host (b.m_read + 3) = a3 := by
  refine ⟨?_, peek_rest host b 1 a1 (by simp [h]), peek_rest host b 2 a2 (by simp [h]),
    peek_rest host b 3 a3 (by simp [h])⟩
  have := peek_rest host b 0 a0 (by simp [h])
  simpa using this

theorem readData_U32_rest (host : Host) (b : Buffer) (x init : Nat) (tl : List Byte)
    (hx : x < 2 ^ 32) (h : b.rest = be32 x ++ tl) :
    b.readData_U32 host init = (x, b.advance 4) := by
  have hc : b.canRead 4 = true := canRead_of_rest b 4 (by decide) (by simp [h, be32])
  obtain ⟨p0, p1, p2, p3⟩ := peek4 host b _ _ _ _ tl (by simpa [be32] using h)
  simp only [Buffer.readData_U32, hc, if_true, p0, p1, p2, p3, swap_word32]
  exact Prod.ext (by simpa using be32_val x hx) rfl

theorem readData_S32_rest (host : Host) (b : Buffer) (x init : Nat) (tl : List Byte)
    (hx : x < 2 ^ 32) (h : b.rest = be32 x ++ tl) :
    b.readData_S32 host init = (x, b.advance 4) :=
  readData_U32_rest host b x init tl hx h

theorem readData_Float_rest (host : Host) (b : Buffer) (x init : Nat) (tl : List Byte)
    (hx : x < 2 ^ 32) (h : b.rest = be32 x ++ tl) :
    b.readData_Float host init = (x, b.advance 4) :=
  readData_U32_rest host b x init tl hx h

theorem peek2 (host : Host) (b : Buffer) (a0 a1 : Byte) (tl : List Byte)
    (h : b.rest = a0 :: a1 :: tl) :
    b.peek host b.m_read = a0 ∧ b.peek host (b.m_read + 1) = a1 := by
  refine ⟨?_, peek_rest host b 1 a1 (by simp [h])⟩
  have := peek_rest host b 0 a0 (by simp [h])
  simpa using this

theorem readData_U16_rest (host : Host) (b : Buffer) (x init : Nat) (tl : List Byte)
    (hx : x < 2 ^ 16) (h : b.rest = be16 x ++ tl) :
    b.readData_U16 host init = (x, b.advance 2) := by
  have hc : b.canRead 2 = true := canRead_of_rest b 2 (by decide) (by simp [h, be16])
  obtain ⟨p0, p1⟩ := peek2 host b _ _ tl (by simpa [be16] using h)
  simp only [Buffer.readData_U16, hc, if_true, p0, p1, swap_word16_U16]
  exact Prod.ext (by simpa using be16_val x hx) rfl

theorem readData_S16_rest (host : Host) (b : Buffer) (x init : Nat) (tl : List Byte)
    (hx : x < 2 ^ 16) (h : b.rest = be16 x ++ tl) :
    b.readData_S16 host init = (x, b.advance 2) := by
  have hc : b.canRead 2 = true := canRead_of_rest b 2 (by decide) (by simp [h, be16])
  obtain ⟨p0, p1⟩ := peek2 host b _ _ tl (by simpa [be16] using h)
  simp only [Buffer.readData_S16, hc, if_true, p0, p1, swap_word16_S16]
  exact Prod.ext (by simpa using be16_val x hx) rfl

theorem readData_U8_rest (host : Host) (b : Buffer) (x : Byte) (init : Nat) (tl : List Byte)
    (h : b.rest = x :: tl) : b.readData_U8 host init = (x.val, b.advance 1) := by
  have hc : b.canRead 1 = true := canRead_of_rest b 1 (by decide) (by simp [h])
  have p0 := peek_rest host b 0 x (by simp [h])
  simp only [Nat.add_zero] at p0
  simp only [Buffer.readData_U8, hc, if_true, p0]
  rfl

theorem readData_S8_rest (host : Host) (b : Buffer) (x : Byte) (init : Nat) (tl : List Byte)
    (h : b.rest = x :: tl) : b.readData_S8 host init = (x.val, b.advance 1) :=
  readData_U8_rest host b x init tl h

theorem map_peek (host : Host) (b : Buffer) (s tl : List Byte) (h : b.rest = s ++ tl) :
    (List.range s.length).map (fun i => b.peek host (b.m_read + i)) = s := by
  apply List.ext_getElem?
  intro i
  by_cases hi : i < s.length
  · rw [List.getElem?_map, List.getElem?_range hi, List.getElem?_eq_getElem hi]
    simp only [Option.map_some', Option.some.injEq]
    exact peek_rest host b i _ (by rw [h, List.getElem?_append_left hi, List.getElem?_eq_getElem hi])
  · rw [List.getElem?_eq_none (by simpa using hi), List.getElem?_eq_none (by simpa using hi)]

theorem encString_of_lt (s : Str) (hs : s.length < 2 ^ 32) :
    encString s = be32 s.length ++ s := by
  have e : s.length % 2 ^ 32 = s.length := Nat.mod_eq_of_lt hs
  unfold encString
  rw [e]
  simp

theorem readData_String_rest (host : Host) (b : Buffer) (s : Str) (tl : List Byte)
    (hs : s.length < 2 ^ 32) (h : b.rest = encString s ++ tl) :
    b.readData_String host = (s, b.advance (4 + s.length)) := by
  rw [encString_of_lt s hs, List.append_assoc] at h
  have h1 := readData_U32_rest host b s.length 0 (s ++ tl) hs h
  have h2 : (b.advance 4).rest = s ++ tl := by
    have := advance_rest b (be32 s.length) (s ++ tl) h
    simpa [be32] using this
  unfold Buffer.readData_String
  simp only [h1]
  by_cases h0 : s.length > 0
  · simp only [h0, if_true]
    rw [map_peek host (b.advance 4) s tl h2]
    simp [Buffer.advance, Nat.add_assoc]
  · have : s = [] := List.eq_nil_of_length_eq_zero (by omega)
    subst this
    simp [Buffer.advance]

theorem encValue_length_pos (v : Value) : 0 < (encValue v).length := by
  cases v <;> simp [encValue, be16, be32, encString]

theorem readValue_rest (host : Host) (b : Buffer) (v : Value) (tl : List Byte)
    (hv : v.stringSize < 2 ^ 32) (h : b.rest = encValue v ++ tl) :
    b.readValue host v.type = (v, b.advance (encValue v).length) := by
  cases v with
  | s8 x =>
    simp only [encValue] at h ⊢
    simp [Buffer.readValue, Value.type, readData_S8_rest host b x _ tl (by simpa using h),
      U8_ofNat_val]
  | u8 x =>
    simp only [encValue] at h ⊢
    simp [Buffer.readValue, Value.type, readData_U8_rest host b x _ tl (by simpa using h),
      U8_ofNat_val]
  | s16 x =>
    simp only [encValue] at h ⊢
    simp [Buffer.readValue, Value.type, readData_S16_rest host b x.val _ tl x.isLt h,
      U16_ofNat_val, be16]
  | u16 x =>
    simp only [encValue] at h ⊢
    simp [Buffer.readValue, Value.type, readData_U16_rest host b x.val _ tl x.isLt h,
      U16_ofNat_val, be16]
  | s32 x =>
    simp only [encValue] at h ⊢
    simp [Buffer.readValue, Value.type, readData_S32_rest host b x.val _ tl x.isLt h,
      U32_ofNat_val, be32]
  | u32 x =>
    simp only [encValue] at h ⊢
    simp [Buffer.readValue, Value.type, readData_U32_rest host b x.val _ tl x.isLt h,
      U32_ofNat_val, be32]
  | float x =>
    simp only [encValue] at h ⊢
    simp [Buffer.readValue, Value.type, readData_Float_rest host b x.val _ tl x.isLt h,
      U32_ofNat_val, be32]
  | string s =>
    simp only [encValue, Value.stringSize] at h hv ⊢
    simp only [Buffer.readValue, Value.type, readData_String_rest host b s tl hv h,
      encString_of_lt s hv, be32]
    refine Prod.ext rfl ?_
    simp only [Buffer.advance, List.length_append, List.length_cons, List.length_nil]

/-! ## Decoding what was encoded -/

theorem ofAlias_alias (T : Datatype) : Datatype.ofAlias T.Alias = some T := by
  cases T <;> rfl

theorem alias_byte (e : Entry) : (U8.ofNat e.getAlias).val = e.getAlias := by
  unfold Entry.getAlias
  cases e.m_data.type <;> rfl

theorem encString_length (s : Str) (hs : s.length < 2 ^ 32) :
    (encString s).length = 4 + s.length := by
  rw [encString_of_lt s hs]
  simp [be32]
  omega

theorem advance_rest_string (b : Buffer) (s : Str) (tl : List Byte) (hs : s.length < 2 ^ 32)
    (h : b.rest = encString s ++ tl) : (b.advance (4 + s.length)).rest = tl := by
  have := advance_rest b (encString s) tl h
  rwa [encString_length s hs] at this

/-- Decoding the body of an entry record appends the entry, when the key holds
no entry of that name. -/
theorem deserializeEntry_rest (host : Host) (k : Key) (b : Buffer) (e : Entry)
    (tl : List Byte) (hn : e.m_name ≠ []) (hl : e.m_name.length < 2 ^ 32)
    (hv : e.m_data.stringSize < 2 ^ 32) (hs : k.seekEntry e.m_name = none)
    (h : b.rest = encEntryBody e ++ tl) :
    k.deserializeEntry host b =
      (true, { k with m_entries := k.m_entries ++ [e] }, b.advance (encEntryBody e).length) := by
  have h0 : b.rest = encString e.m_name ++ (U8.ofNat e.getAlias :: (encValue e.m_data ++ tl)) := by
    rw [h]; simp [encEntryBody]
  have r1 := readData_String_rest host b e.m_name _ hl h0
  have h1 := advance_rest_string b e.m_name _ hl h0
  have r2 := readData_U8_rest host (b.advance (4 + e.m_name.length)) (U8.ofNat e.getAlias) 0 _ h1
  have h2 : ((b.advance (4 + e.m_name.length)).advance 1).rest = encValue e.m_data ++ tl := by
    have := advance_rest (b.advance (4 + e.m_name.length)) [U8.ofNat e.getAlias] _ h1
    simpa using this
  have r3 := readValue_rest host _ e.m_data tl hv h2
  have elen : (encEntryBody e).length = 4 + e.m_name.length + 1 + (encValue e.m_data).length := by
    simp [encEntryBody, encString_length e.m_name hl]
    omega
  unfold Key.deserializeEntry
  simp only [r1, r2, hn, if_false, alias_byte]
  have ha : Datatype.ofAlias e.getAlias = some e.m_data.type := ofAlias_alias _
  simp only [ha, r3, Key.addEntry, hn, if_false, hs, Key.setEntry]
  rw [modifyNth_append_length, advance_advance, advance_advance, elen]
  cases e
  simp only [Entry.new, Nat.add_assoc]

theorem deserializeNext_entry (host : Host) (d : Nat) (k : Key) (b : Buffer) (e : Entry)
    (tl : List Byte) (hn : e.m_name ≠ []) (hl : e.m_name.length < 2 ^ 32)
    (hv : e.m_data.stringSize < 2 ^ 32) (hs : k.seekEntry e.m_name = none)
    (h : b.rest = encEntry e ++ tl) :
    Key.deserializeNext host (d + 1) k b =
      some (true, { k with m_entries := k.m_entries ++ [e] }, b.advance (encEntry e).length) := by
  have h0 : b.rest = be32 G_ENTRY_HEADER ++ (encEntryBody e ++ tl) := by
    rw [h]; simp [encEntry]
  have r1 := readData_U32_rest host b G_ENTRY_HEADER 0 _ (by decide) h0
  have h1 : (b.advance 4).rest = encEntryBody e ++ tl := by
    have := advance_rest b (be32 G_ENTRY_HEADER) _ h0
    simpa [be32] using this
  have r2 := deserializeEntry_rest host k (b.advance 4) e tl hn hl hv hs h1
  simp only [Key.deserializeNext, r1, if_true, r2, advance_advance]
  simp [encEntry, be32]
  congr 1
  omega

theorem key_with_entries_nil (k : Key) : { k with m_entries := k.m_entries ++ [] } = k := by
  cases k; simp

theorem key_with_keys_nil (k : Key) : { k with m_keys := k.m_keys ++ [] } = k := by
  cases k; simp

theorem decodeLoop_succ (next : Key → Buffer → Option (Bool × Key × Buffer)) (n : Nat)
    (k k1 : Key) (b b1 : Buffer) (h : next k b = some (true, k1, b1)) :
    decodeLoop next (n + 1) k b = decodeLoop next n k1 b1 := by
  simp [decodeLoop, h]

/-- Decoding a run of entry records appends the entries in order. -/
theorem decodeLoop_entries (host : Host) (d : Nat) (es : List Entry) (k : Key) (b : Buffer)
    (tl : List Byte) (m : Nat)
    (hvalid : ∀ e ∈ es,
      e.m_name ≠ [] ∧ e.m_name.length < 2 ^ 32 ∧ e.m_data.stringSize < 2 ^ 32)
    (hnodup : ((k.m_entries ++ es).map (fun e => e.m_name)).Nodup)
    (h : b.rest = (es.map encEntry).flatten ++ tl) :
    decodeLoop (Key.deserializeNext host (d + 1)) (es.length + m) k b =
      decodeLoop (Key.deserializeNext host (d + 1)) m
        { k with m_entries := k.m_entries ++ es }
        (b.advance ((es.map encEntry).flatten).length) := by
  induction es generalizing k b with
  | nil =>
    cases k
    simp [advance_zero]
  | cons e es ih =>
    obtain ⟨hn, hl, hv⟩ := hvalid e (by simp)
    have hs : k.seekEntry e.m_name = none := by
      rw [seekEntry_none]
      intro hmem
      rw [List.map_append, List.nodup_append] at hnodup
      exact hnodup.2.2 hmem (by simp)
    have h0 : b.rest = encEntry e ++ ((es.map encEntry).flatten ++ tl) := by
      rw [h]; simp
    have r := deserializeNext_entry host d k b e _ hn hl hv hs h0
    have hrest := advance_rest b (encEntry e) _ h0
    have e1 : (e :: es).length + m = (es.length + m) + 1 := by simp; omega
    rw [e1, decodeLoop_succ _ _ _ _ _ _ r]
    rw [ih _ _ (fun x hx => hvalid x (by simp [hx])) (by simpa using hnodup) hrest]
    simp [advance_advance]

theorem instanceOK_append_left (l r : List Key) (h : InstanceOKList (l ++ r)) :
    InstanceOKList l := by
  induction r using List.reverseRecOn with
  | nil => simpa using h
  | append_singleton r x ih =>
    rw [← List.append_assoc, instanceOK_snoc] at h
    exact ih h.1

/-- Decoding a run of key records appends the keys in order, when each of
them decodes to itself. -/
theorem decodeLoop_keys (host : Host) (d : Nat) (cs : List Key)
    (hP : ∀ c ∈ cs, ∀ (k : Key) (b : Buffer) (tl : List Byte),
      InstanceOKList (k.m_keys ++ [c]) → b.rest = encKey c ++ tl →
      Key.deserializeNext host d k b =
        some (true, { k with m_keys := k.m_keys ++ [c] }, b.advance (encKey c).length))
    (k : Key) (b : Buffer) (tl : List Byte) (m : Nat)
    (hinst : InstanceOKList (k.m_keys ++ cs)) (h : b.rest = encKeys cs ++ tl) :
    decodeLoop (Key.deserializeNext host d) (cs.length + m) k b =
      decodeLoop (Key.deserializeNext host d) m { k with m_keys := k.m_keys ++ cs }
        (b.advance (encKeys cs).length) := by
  induction cs generalizing k b with
  | nil =>
    cases k
    simp [advance_zero, encKeys]
  | cons c cs ih =>
    have h0 : b.rest = encKey c ++ (encKeys cs ++ tl) := by
      rw [h]; simp [encKeys]
    have hi1 : InstanceOKList (k.m_keys ++ [c]) := by
      apply instanceOK_append_left _ cs
      simpa using hinst
    have r := hP c (by simp) k b _ hi1 h0
    have hrest := advance_rest b (encKey c) _ h0
    have e1 : (c :: cs).length + m = (cs.length + m) + 1 := by simp; omega
    rw [e1, decodeLoop_succ _ _ _ _ _ _ r]
    rw [ih (fun x hx => hP x (by simp [hx])) _ _ (by simpa using hinst) hrest]
    simp [advance_advance, encKeys]

theorem depth_le_of_mem (ks : List Key) (c : Key) (hc : c ∈ ks) : c.depth ≤ Key.depthList ks := by
  induction ks with
  | nil => simp at hc
  | cons k ks ih =>
    simp only [Key.depthList]
    rcases List.mem_cons.mp hc with rfl | hc
    · exact Nat.le_max_left _ _
    · exact Nat.le_trans (ih hc) (Nat.le_max_right _ _)

theorem depthList_pos (ks : List Key) : 1 ≤ Key.depthList ks := by
  induction ks with
  | nil => simp [Key.depthList]
  | cons k ks ih =>
    simp only [Key.depthList]
    exact Nat.le_trans ih (Nat.le_max_right _ _)

theorem wellFormed_count (es : List Entry) (ks : List Key) (h : es.length + ks.length < 2 ^ 32) :
    (es.length % 2 ^ 32 + ks.length % 2 ^ 32) % 2 ^ 32 = es.length + ks.length := by
  omega

theorem encKey_of_valid (n : Str) (i : Nat) (es : List Entry) (ks : List Key)
    (hn : validKeyName n) (hc : es.length + ks.length < 2 ^ 32) :
    encKey ⟨n, i, es, ks⟩ =
      be32 G_KEY_HEADER ++ (encString n ++ (be32 (es.length + ks.length) ++
        ((es.map encEntry).flatten ++ encKeys ks))) := by
  unfold encKey
  simp only [hn.2.2, hn.2.1, if_false, ne_eq, not_false_eq_true, if_true,
    wellFormed_count es ks hc, List.append_assoc]

theorem encKey_of_root (i : Nat) (es : List Entry) (ks : List Key)
    (hc : es.length + ks.length < 2 ^ 32) :
    encKey ⟨rootName, i, es, ks⟩ =
      be32 (es.length + ks.length) ++ ((es.map encEntry).flatten ++ encKeys ks) := by
  unfold encKey
  have hrn : ¬ rootName = nullName := by decide
  simp only [hrn, if_false, ne_eq, not_true_eq_false, wellFormed_count es ks hc,
    List.nil_append, List.append_assoc]

theorem decodeLoop_zero (next : Key → Buffer → Option (Bool × Key × Buffer)) (k : Key)
    (b : Buffer) : decodeLoop next 0 k b = some (true, k, b) := rfl

theorem deserializeNext_succ (host : Host) (depth : Nat) (k : Key) (b : Buffer) :
    Key.deserializeNext host (depth + 1) k b =
      if (b.readData_U32 host 0).1 = G_ENTRY_HEADER then
        some (k.deserializeEntry host (b.readData_U32 host 0).2)
      else if (b.readData_U32 host 0).1 = G_KEY_HEADER then
        k.deserializeKey host (Key.deserializeNext host depth) (b.readData_U32 host 0).2
      else some (false, k, (b.readData_U32 host 0).2) := rfl

/-- Decoding the record of a well-formed key appends that key, instance id
included, when the id is the one its position among the siblings gives it. -/
theorem deserializeNext_key (host : Host) (n : Nat) :
    ∀ (c : Key), sizeOf c ≤ n → ∀ (d : Nat) (k : Key) (b : Buffer) (tl : List Byte),
      c.depth ≤ d → Key.All Key.WellFormed c → validKeyName c.m_name →
      c.m_name.length < 2 ^ 32 → InstanceOKList (k.m_keys ++ [c]) →
      b.rest = encKey c ++ tl →
      Key.deserializeNext host d k b =
        some (true, { k with m_keys := k.m_keys ++ [c] }, b.advance (encKey c).length) := by
  induction n with
  | zero =>
    intro c hs
    cases c
    simp at hs
  | succ n ih =>
    intro c hs d k b tl hd hwf hname hlen hinst h
    obtain ⟨name, inst, es, ks⟩ := c
    rw [all_iff] at hwf
    obtain ⟨⟨hE, hS, hI, hZ⟩, hsub⟩ := hwf
    simp only at hname hlen hsub
    have hcount : es.length + ks.length < 2 ^ 32 := hZ.2.2
    rw [encKey_of_valid name inst es ks hname hcount] at h ⊢
    have h0 : b.rest = be32 G_KEY_HEADER ++ (encString name ++ (be32 (es.length + ks.length) ++
        ((es.map encEntry).flatten ++ (encKeys ks ++ tl)))) := by
      rw [h]; simp only [List.append_assoc]
    -- the nesting bound
    simp only [Key.depth] at hd
    have hdl := depthList_pos ks
    obtain ⟨d1, rfl⟩ : ∃ d1, d = d1 + 1 := ⟨d - 1, by omega⟩
    obtain ⟨d2, rfl⟩ : ∃ d2, d1 = d2 + 1 := ⟨d1 - 1, by omega⟩
    -- the header
    have r1 := readData_U32_rest host b G_KEY_HEADER 0 _ (by decide) h0
    have h1 : (b.advance 4).rest = encString name ++ (be32 (es.length + ks.length) ++
        ((es.map encEntry).flatten ++ (encKeys ks ++ tl))) :=
      advance_rest b (be32 G_KEY_HEADER) _ h0
    -- the name
    have r2 := readData_String_rest host (b.advance 4) name _ hlen h1
    have h2 := advance_rest_string (b.advance 4) name _ hlen h1
    -- the count
    have r3 := readData_U32_rest host _ (es.length + ks.length) 0 _ hcount h2
    have h3 : (((b.advance 4).advance (4 + name.length)).advance 4).rest =
        (es.map encEntry).flatten ++ (encKeys ks ++ tl) :=
      advance_rest _ (be32 (es.length + ks.length)) _ h2
    -- the new subkey
    have hik : InstanceOKList k.m_keys := instanceOK_append_left _ _ hinst
    have hid : inst = k.m_keys.countP (fun x => decide (x.m_name = name)) :=
      ((instanceOK_snoc k.m_keys _).mp hinst).2
    have ra := addKey_eq k name hik hname
    -- the entries
    have he := decodeLoop_entries host d2 es (Key.new name inst) _ _ ks.length
      (fun e he => ⟨hE.1 e he, (hZ.1 e he).1, (hZ.1 e he).2⟩)
      (by simpa [Key.new] using hE.2) h3
    have h4 := advance_rest _ ((es.map encEntry).flatten) _ h3
    -- the subkeys
    have hP : ∀ c ∈ ks, ∀ (k0 : Key) (b0 : Buffer) (tl0 : List Byte),
        InstanceOKList (k0.m_keys ++ [c]) → b0.rest = encKey c ++ tl0 →
        Key.deserializeNext host (d2 + 1) k0 b0 =
          some (true, { k0 with m_keys := k0.m_keys ++ [c] }, b0.advance (encKey c).length) := by
      intro c hc k0 b0 tl0 hi0 hb0
      have hsz : sizeOf c ≤ n := by
        have := List.sizeOf_lt_of_mem hc
        simp at hs
        omega
      exact ih c hsz (d2 + 1) k0 b0 tl0
        (Nat.le_trans (depth_le_of_mem ks c hc) (by omega))
        (hsub c hc) (hS c hc) (hZ.2.1 c hc) hi0 hb0
    have hk := decodeLoop_keys host (d2 + 1) ks hP
      { Key.new name inst with m_entries := (Key.new name inst).m_entries ++ es }
      ((((b.advance 4).advance (4 + name.length)).advance 4).advance
        ((es.map encEntry).flatten).length) tl 0
      (by simpa [Key.new] using hI) h4
    simp only [Nat.add_zero] at hk
    rw [deserializeNext_succ]
    simp only [r1, if_true]
    have hne : ¬ G_KEY_HEADER = G_ENTRY_HEADER := by decide
    simp only [hne, if_false, Key.deserializeKey, r2, r3, hname.1, ra, Key.deref,
      List.getD_eq_getElem?_getD, List.getElem?_append_right (Nat.le_refl _), Nat.sub_self]
    simp only [List.getElem?_cons_zero, Option.getD_some, Key.isNull, Key.new, hname.2.2,
      decide_False, Bool.false_eq_true, if_false, ← hid]
    simp only [Key.new] at he hk
    rw [he, hk, decodeLoop_zero]
    simp only [Key.assign, modifyNth_append_length, advance_advance, List.nil_append,
      Option.some.injEq, Prod.mk.injEq, true_and]
    congr 1
    simp only [List.length_append, encString_length name hlen, be32, List.length_cons,
      List.length_nil]
    omega

theorem depthList_le (ks : List Key) (h : ∀ c ∈ ks, c.depth ≤ (encKey c).length) :
    Key.depthList ks ≤ (encKeys ks).length + 1 := by
  induction ks with
  | nil => simp [Key.depthList]
  | cons k ks ih =>
    have h1 := h k (by simp)
    have h2 := ih (fun c hc => h c (by simp [hc]))
    simp only [Key.depthList, encKeys, List.length_append]
    omega

theorem depth_le (n : Nat) :
    ∀ (c : Key), sizeOf c ≤ n → Key.All Key.WellFormed c → validKeyName c.m_name →
      c.depth ≤ (encKey c).length := by
  induction n with
  | zero =>
    intro c hs
    cases c
    simp at hs
  | succ n ih =>
    intro c hs hwf hname
    obtain ⟨name, inst, es, ks⟩ := c
    rw [all_iff] at hwf
    obtain ⟨⟨_, hS, _, hZ⟩, hsub⟩ := hwf
    simp only at hname hsub
    rw [encKey_of_valid name inst es ks hname hZ.2.2]
    have hl := depthList_le ks (fun c hc =>
      ih c (by
          have := List.sizeOf_lt_of_mem hc
          simp at hs
          omega)
        (hsub c hc) (hS c hc))
    simp only [Key.depth, List.length_append, be32, List.length_cons, List.length_nil]
    omega

/-- Loading the bytes that `serialize` wrote for a well-formed registry tree
`T`, from a buffer whose cursor stands at their first byte: the status is
`OK`, the registry holds the entries and subkeys of `T`, and the cursor stands
behind the last of these bytes. -/
theorem loadFromBuffer_encKey (host : Host) (T R : Key) (b : Buffer) (tl : List Byte)
    (hT : Registry.WellFormed T) (h : b.rest = encKey T ++ tl) :
    Registry.loadFromBuffer host R b false =
      (Status.OK, { R with m_entries := T.m_entries, m_keys := T.m_keys },
        b.advance (encKey T).length) := by
  obtain ⟨name, inst, es, ks⟩ := T
  obtain ⟨hroot, _, hwf⟩ := hT
  simp only at hroot
  subst hroot
  rw [all_iff] at hwf
  obtain ⟨⟨hE, hS, hI, hZ⟩, hsub⟩ := hwf
  simp only at hsub
  have hcount : es.length + ks.length < 2 ^ 32 := hZ.2.2
  rw [encKey_of_root inst es ks hcount] at h ⊢
  have h0 : b.rest = be32 (es.length + ks.length) ++
      ((es.map encEntry).flatten ++ (encKeys ks ++ tl)) := by
    rw [h]; simp only [List.append_assoc]
  have r1 := readData_U32_rest host b (es.length + ks.length) 0 _ hcount h0
  have h1 : (b.advance 4).rest = (es.map encEntry).flatten ++ (encKeys ks ++ tl) :=
    advance_rest b (be32 (es.length + ks.length)) _ h0
  have hfuel : Key.depthList ks ≤ (b.advance 4).m_bytes.length := by
    have hl := depthList_le ks (fun c hc => depth_le (sizeOf c) c (Nat.le_refl _) (hsub c hc)
      (hS c hc))
    have hlen : b.rest.length = b.m_bytes.length - b.m_read := rest_length b
    rw [h0] at hlen
    simp only [List.length_append, be32, List.length_cons, List.length_nil] at hlen
    simp only [Buffer.advance]
    omega
  obtain ⟨d2, hd2⟩ : ∃ d2, (b.advance 4).m_bytes.length = d2 + 1 :=
    ⟨(b.advance 4).m_bytes.length - 1, by have := depthList_pos ks; omega⟩
  have he := decodeLoop_entries host (d2 + 1) es
    { R with m_entries := [], m_keys := [] } (b.advance 4) _ ks.length
    (fun e he => ⟨hE.1 e he, (hZ.1 e he).1, (hZ.1 e he).2⟩)
    (by simpa using hE.2) h1
  have h2 := advance_rest _ ((es.map encEntry).flatten) _ h1
  have hP : ∀ c ∈ ks, ∀ (k0 : Key) (b0 : Buffer) (tl0 : List Byte),
      InstanceOKList (k0.m_keys ++ [c]) → b0.rest = encKey c ++ tl0 →
      Key.deserializeNext host (d2 + 1 + 1) k0 b0 =
        some (true, { k0 with m_keys := k0.m_keys ++ [c] }, b0.advance (encKey c).length) := by
    intro c hc k0 b0 tl0 hi0 hb0
    exact deserializeNext_key host (sizeOf c) c (Nat.le_refl _) (d2 + 1 + 1) k0 b0 tl0
      (Nat.le_trans (depth_le_of_mem ks c hc) (by omega))
      (hsub c hc) (hS c hc) (hZ.2.1 c hc) hi0 hb0
  have hk := decodeLoop_keys host (d2 + 1 + 1) ks hP
    { R with m_entries := ([] : List Entry) ++ es, m_keys := [] }
    ((b.advance 4).advance ((es.map encEntry).flatten).length) tl 0
    (by simpa using hI) h2
  simp only [Nat.add_zero] at hk
  unfold Registry.loadFromBuffer
  simp only [r1, if_true, hd2]
  rw [he, hk, decodeLoop_zero]
  simp only [advance_advance, List.nil_append]
  have e : (be32 (es.length + ks.length) ++ ((es.map encEntry).flatten ++ encKeys ks)).length
      = 4 + ((es.map encEntry).flatten).length + (encKeys ks).length := by
    simp only [List.length_append, be32, List.length_cons, List.length_nil]
    omega
  rw [e]

/-! ## Decoding terminates: the nesting bound of `loadFromBuffer` is never used up -/

theorem later_refl (b : Buffer) : b.Later b := ⟨rfl, Nat.le_refl _⟩

theorem later_trans (a b c : Buffer) (h1 : a.Later b) (h2 : b.Later c) : a.Later c :=
  ⟨h2.1.trans h1.1, Nat.le_trans h1.2 h2.2⟩

theorem readData_U32_later (host : Host) (b : Buffer) (init : Nat) :
    b.Later (b.readData_U32 host init).2 := by
  unfold Buffer.readData_U32
  split
  · exact ⟨rfl, Nat.le_add_right _ _⟩
  · exact later_refl b

theorem readData_U32_fail (host : Host) (b : Buffer) (init : Nat)
    (h : b.m_bytes.length < b.m_read + 4) : b.readData_U32 host init = (init, b) := by
  have : b.canRead 4 = false := by
    simp only [Buffer.canRead, decide_eq_false_iff_not]
    omega
  simp [Buffer.readData_U32, this]

theorem readData_U32_step (host : Host) (b : Buffer) (init : Nat)
    (h : b.m_read + 4 ≤ b.m_bytes.length) :
    (b.readData_U32 host init).2.m_read = b.m_read + 4 := by
  have : b.canRead 4 = true := by
    simp only [Buffer.canRead, decide_eq_true_eq]
    omega
  simp [Buffer.readData_U32, this]

theorem readData_S32_later (host : Host) (b : Buffer) (init : Nat) :
    b.Later (b.readData_S32 host init).2 := readData_U32_later host b init

theorem readData_Float_later (host : Host) (b : Buffer) (init : Nat) :
    b.Later (b.readData_Float host init).2 := readData_U32_later host b init

theorem readData_U16_later (host : Host) (b : Buffer) (init : Nat) :
    b.Later (b.readData_U16 host init).2 := by
  unfold Buffer.readData_U16
  split
  · exact ⟨rfl, Nat.le_add_right _ _⟩
  · exact later_refl b

theorem readData_S16_later (host : Host) (b : Buffer) (init : Nat) :
    b.Later (b.readData_S16 host init).2 := by
  unfold Buffer.readData_S16
  split
  · exact ⟨rfl, Nat.le_add_right _ _⟩
  · exact later_refl b

theorem readData_U8_later (host : Host) (b : Buffer) (init : Nat) :
    b.Later (b.readData_U8 host init).2 := by
  unfold Buffer.readData_U8
  split
  · exact ⟨rfl, Nat.le_add_right _ _⟩
  · exact later_refl b

theorem readData_S8_later (host : Host) (b : Buffer) (init : Nat) :
    b.Later (b.readData_S8 host init).2 := readData_U8_later host b init

theorem readData_String_later (host : Host) (b : Buffer) :
    b.Later (b.readData_String host).2 := by
  unfold Buffer.readData_String
  simp only
  split
  · exact later_trans _ _ _ (readData_U32_later host b 0) ⟨rfl, Nat.le_add_right _ _⟩
  · exact readData_U32_later host b 0

theorem readValue_later (host : Host) (b : Buffer) (T : Datatype) :
    b.Later (b.readValue host T).2 := by
  cases T
  · exact readData_S8_later host b _
  · exact readData_S16_later host b _
  · exact readData_S32_later host b _
  · exact readData_U8_later host b _
  · exact readData_U16_later host b _
  · exact readData_U32_later host b _
  · exact readData_Float_later host b _
  · exact readData_String_later host b

theorem deserializeEntry_later (host : Host) (k : Key) (b : Buffer) :
    b.Later (k.deserializeEntry host b).2.2 := by
  have l1 := readData_String_later host b
  have l2 := readData_U8_later host (b.readData_String host).2 0
  unfold Key.deserializeEntry
  simp only
  split
  · exact later_trans _ _ _ l1 l2
  · split
    · exact later_trans _ _ _ (later_trans _ _ _ l1 l2) (readValue_later host _ _)
    · exact later_trans _ _ _ l1 l2

theorem decodeLoop_later (next : Key → Buffer → Option (Bool × Key × Buffer)) (B : List Byte)
    (M : Nat)
    (hnext : ∀ k b, b.m_bytes = B → M ≤ b.m_read → ∃ r, next k b = some r ∧ b.Later r.2.2)
    (n : Nat) (k : Key) (b : Buffer) (hB : b.m_bytes = B) (hM : M ≤ b.m_read) :
    ∃ r, decodeLoop next n k b = some r ∧ b.Later r.2.2 := by
  induction n generalizing k b with
  | zero => exact ⟨_, rfl, later_refl b⟩
  | succ n ih =>
    obtain ⟨⟨ok, k1, b1⟩, hr, hl⟩ := hnext k b hB hM
    cases ok with
    | false => exact ⟨_, by simp [decodeLoop, hr], hl⟩
    | true =>
      obtain ⟨r2, hr2, hl2⟩ := ih k1 b1 (hl.1.trans hB) (Nat.le_trans hM hl.2)
      exact ⟨r2, by simp [decodeLoop, hr, hr2], later_trans _ _ _ hl hl2⟩

theorem deserializeKey_later (host : Host) (next : Key → Buffer → Option (Bool × Key × Buffer))
    (B : List Byte) (M : Nat)
    (hnext : ∀ k b, b.m_bytes = B → M ≤ b.m_read → ∃ r, next k b = some r ∧ b.Later r.2.2)
    (k : Key) (b : Buffer) (hB : b.m_bytes = B) (hM : M ≤ b.m_read) :
    ∃ r, k.deserializeKey host next b = some r ∧ b.Later r.2.2 := by
  have l1 := readData_String_later host b
  have l2 := readData_U32_later host (b.readData_String host).2 0
  have l12 := later_trans _ _ _ l1 l2
  unfold Key.deserializeKey
  simp only
  split
  · exact ⟨_, rfl, l12⟩
  · split
    · exact ⟨_, rfl, l12⟩
    · obtain ⟨⟨ok, k1, b1⟩, hr, hl⟩ := decodeLoop_later next B M hnext
        (b.readData_String host |>.2.readData_U32 host 0).1
        ((k.addKey (b.readData_String host).1).1.deref (k.addKey (b.readData_String host).1).2)
        (b.readData_String host |>.2.readData_U32 host 0).2
        (l12.1.trans hB) (Nat.le_trans hM l12.2)
      simp only [hr]
      exact ⟨_, rfl, later_trans _ _ _ l12 hl⟩

/-- `deserializeNext` gives a result whenever fewer than four bytes per level
of the nesting bound remain behind the cursor; it never moves the cursor back
and never changes the bytes. -/
theorem deserializeNext_isSome (host : Host) (depth : Nat) (k : Key) (b : Buffer)
    (h : b.m_bytes.length < b.m_read + 4 * (depth + 1)) :
    ∃ r, Key.deserializeNext host (depth + 1) k b = some r ∧ b.Later r.2.2 := by
  induction depth generalizing k b with
  | zero =>
    have hf := readData_U32_fail host b 0 (by omega)
    rw [deserializeNext_succ]
    simp only [hf]
    have h1 : ¬ (0 : Nat) = G_ENTRY_HEADER := by decide
    have h2 : ¬ (0 : Nat) = G_KEY_HEADER := by decide
    simp only [h1, h2, if_false]
    exact ⟨_, rfl, later_refl b⟩
  | succ depth ih =>
    have l0 := readData_U32_later host b 0
    rw [deserializeNext_succ]
    split
    · exact ⟨_, rfl, later_trans _ _ _ l0 (deserializeEntry_later host k _)⟩
    · split
      · by_cases hc : b.m_read + 4 ≤ b.m_bytes.length
        · have hstep := readData_U32_step host b 0 hc
          obtain ⟨r, hr, hl⟩ := deserializeKey_later host (Key.deserializeNext host (depth + 1))
            b.m_bytes (b.m_read + 4)
            (fun k0 b0 hB hM => ih k0 b0 (by rw [hB]; omega))
            k (b.readData_U32 host 0).2 l0.1 (by omega)
          exact ⟨r, hr, later_trans _ _ _ l0 hl⟩
        · rename_i hne hkey
          rw [readData_U32_fail host b 0 (by omega)] at hkey
          have h2 : ¬ (0 : Nat) = G_KEY_HEADER := by decide
          exact absurd hkey h2
      · exact ⟨_, rfl, l0⟩

/-- The last case of the `match` in `Registry.loadFromBuffer` does not occur:
the loop over the announced entities always gives a result. -/
theorem loadFromBuffer_loop_isSome (host : Host) (R : Key) (b : Buffer) (n : Nat) :
    ∃ r, decodeLoop (Key.deserializeNext host (b.m_bytes.length + 1)) n R b = some r :=
  let ⟨r, hr, _⟩ := decodeLoop_later (Key.deserializeNext host (b.m_bytes.length + 1))
    b.m_bytes 0
    (fun k0 b0 hB _ => deserializeNext_isSome host b.m_bytes.length k0 b0 (by rw [hB]; omega))
    n R b rfl (Nat.zero_le _)
  ⟨r, hr⟩

/-! ## Claims C1 and C2: the round trips -/

/-- C1. Round trip through a buffer. Let `T` be a registry tree that satisfies
the data-model invariants: the root is named `"root"` with instance id 0, and
in every key the entry names are not empty and pairwise distinct, the subkey
names are not empty and not reserved, each subkey's instance id is its rank
among the siblings of the same name, every name and string value is shorter
than `2 ^ 32` bytes and there are fewer than `2 ^ 32` children. Then
`saveToBuffer` returns `OK`, and `loadFromBuffer` with `append = false`, called
on any registry `R` and on a buffer that holds exactly the bytes written for
`T`, returns `OK` and leaves a tree equal to `T`, with the cursor at the end
of the buffer. The host that saves and the host that loads may differ. -/
theorem roundtrip_buffer (hostS hostL : Host) (T R : Key) (hT : Registry.WellFormed T)
    (hR : R.m_name = rootName ∧ R.m_instance = 0) :
    (Registry.saveToBuffer hostS T Buffer.empty).1 = Status.OK ∧
    Registry.loadFromBuffer hostL R
        ⟨(Registry.saveToBuffer hostS T Buffer.empty).2.m_bytes, 0⟩ false =
      (Status.OK, T,
        ⟨(Registry.saveToBuffer hostS T Buffer.empty).2.m_bytes,
          (Registry.saveToBuffer hostS T Buffer.empty).2.m_bytes.length⟩) := by
  refine ⟨rfl, ?_⟩
  have hb : (Registry.saveToBuffer hostS T Buffer.empty).2.m_bytes = encKey T := by
    simp [Registry.saveToBuffer, key_serialize_eq, Buffer.empty]
  rw [hb]
  have h := loadFromBuffer_encKey hostL T R ⟨encKey T, 0⟩ [] hT (by simp [Buffer.rest])
  rw [h]
  obtain ⟨h1, h2, _⟩ := hT
  cases T
  cases R
  simp only at h1 h2 hR
  simp [Buffer.advance, h1, h2, hR.1, hR.2]

/-- C1, at `sampleTree`, saved on a little-endian host and loaded on a
big-endian one into a registry that holds other content. -/
theorem roundtrip_buffer_witness :
    (Registry.WellFormed sampleTree ∧
      ((run graphicsOps Registry.new).m_name = rootName ∧
        (run graphicsOps Registry.new).m_instance = 0)) ∧
    (Registry.loadFromBuffer hostBE (run graphicsOps Registry.new)
        ⟨(Registry.saveToBuffer hostLE sampleTree Buffer.empty).2.m_bytes, 0⟩ false).2.1 =
      sampleTree :=
  ⟨by decide,
   by rw [(roundtrip_buffer hostLE hostBE sampleTree (run graphicsOps Registry.new)
     (by decide) (by decide)).2]⟩

theorem saveToFile_content (host : Host) (fs : FileStore) (R : Key) (f : Str) (hf : f ≠ [])
    (hw : fs.writable f = true) :
    (Registry.saveToFile host fs R f).1 = Status.OK ∧
    (Registry.saveToFile host fs R f).2.content f =
      some (be32 G_REGISTRY_HEADER ++ (be16 G_VERSION ++ encKey R)) := by
  simp [Registry.saveToFile, hf, Registry.saveToBuffer, Buffer.saveToFile, hw,
    key_serialize_eq, writeData_U32_eq, writeData_U16_eq, Buffer.empty]

theorem loadFromFile_encKey (host : Host) (fs : FileStore) (T R : Key) (f : Str) (hf : f ≠ [])
    (hT : Registry.WellFormed T)
    (hc : fs.content f = some (be32 G_REGISTRY_HEADER ++ (be16 G_VERSION ++ encKey T))) :
    Registry.loadFromFile host fs R f false =
      (Status.OK, { R with m_entries := T.m_entries, m_keys := T.m_keys }) := by
  have h0 : (⟨be32 G_REGISTRY_HEADER ++ (be16 G_VERSION ++ encKey T), 0⟩ : Buffer).rest =
      be32 G_REGISTRY_HEADER ++ (be16 G_VERSION ++ (encKey T ++ [])) := by
    simp [Buffer.rest]
  have r1 := readData_U32_rest host _ G_REGISTRY_HEADER 0 _ (by decide) h0
  have h1 : ((⟨be32 G_REGISTRY_HEADER ++ (be16 G_VERSION ++ encKey T), 0⟩ : Buffer).advance 4).rest
      = be16 G_VERSION ++ (encKey T ++ []) := advance_rest _ (be32 G_REGISTRY_HEADER) _ h0
  have r2 := readData_U16_rest host _ G_VERSION 0 _ (by decide) h1
  have h2 : (((⟨be32 G_REGISTRY_HEADER ++ (be16 G_VERSION ++ encKey T), 0⟩ : Buffer).advance
      4).advance 2).rest = encKey T ++ [] := advance_rest _ (be16 G_VERSION) _ h1
  have r3 := loadFromBuffer_encKey host T R _ [] hT h2
  simp only [Registry.loadFromFile, hf, if_false, Buffer.loadFromFile, hc, r1, r2, r3]
  simp

/-- C2. Round trip through a file. For a registry `R` that satisfies the
data-model invariants and a file name `f` that is not empty and can be opened
for writing, `saveToFile (f)` returns `OK`, and `loadFromFile (f)` on a fresh
registry then returns `OK` and yields a tree equal to `R`. In particular,
after the calls of `graphicsOps` and a save to `"cfg.bin"`, the fresh registry
that loads the file finds the key `"graphics"`, in it the `S32` entry
`"width"`, and its value is 1920. The host that saves and the host that loads
may differ. -/
theorem roundtrip_file (hostS hostL : Host) (fs : FileStore) (R : Key) (f : Str)
    (hR : Registry.WellFormed R) (hf : f ≠ []) (hw : fs.writable f = true) :
    ((Registry.saveToFile hostS fs R f).1 = Status.OK ∧
      Registry.loadFromFile hostL (Registry.saveToFile hostS fs R f).2 Registry.new f false =
        (Status.OK, R)) ∧
    (fs.writable (ascii "cfg.bin") = true →
      ∃ i j : Nat,
        (Registry.loadFromFile hostL
            (Registry.saveToFile hostS fs (run graphicsOps Registry.new) (ascii "cfg.bin")).2
            Registry.new (ascii "cfg.bin") false).2.getKey (ascii "graphics") 0 = KeyRef.sub i ∧
        ((Registry.loadFromFile hostL
            (Registry.saveToFile hostS fs (run graphicsOps Registry.new) (ascii "cfg.bin")).2
            Registry.new (ascii "cfg.bin") false).2.deref (KeyRef.sub i)).getEntry Datatype.S32
              (ascii "width") = EntryRef.elem j ∧
        ((Registry.loadFromFile hostL
            (Registry.saveToFile hostS fs (run graphicsOps Registry.new) (ascii "cfg.bin")).2
            Registry.new (ascii "cfg.bin") false).2.deref (KeyRef.sub i)).getData (EntryRef.elem j)
              = some (Value.s32 ⟨1920, by decide⟩)) := by
  have key : ∀ (T : Key) (g : Str), Registry.WellFormed T → g ≠ [] → fs.writable g = true →
      (Registry.saveToFile hostS fs T g).1 = Status.OK ∧
      Registry.loadFromFile hostL (Registry.saveToFile hostS fs T g).2 Registry.new g false =
        (Status.OK, T) := by
    intro T g hT hg hgw
    obtain ⟨s1, s2⟩ := saveToFile_content hostS fs T g hg hgw
    refine ⟨s1, ?_⟩
    rw [loadFromFile_encKey hostL _ T Registry.new g hg hT s2]
    obtain ⟨h1, h2, _⟩ := hT
    cases T
    simp only at h1 h2
    simp [Registry.new, Key.new, h1, h2]
  refine ⟨key R f hR hf hw, ?_⟩
  intro hcfg
  rw [(key (run graphicsOps Registry.new) (ascii "cfg.bin") (by decide) (by decide) hcfg).2]
  exact ⟨0, 0, by decide, by decide, by decide⟩

/-- C2, on a file store without files in which every name can be opened for
writing, for `sampleTree` and the file name `"cfg.bin"`. -/
theorem roundtrip_file_witness :
    (Registry.WellFormed sampleTree ∧ ascii "cfg.bin" ≠ [] ∧
      (⟨fun _ => none, fun _ => true⟩ : FileStore).writable (ascii "cfg.bin") = true) ∧
    Registry.loadFromFile hostBE
        (Registry.saveToFile hostLE ⟨fun _ => none, fun _ => true⟩ sampleTree (ascii "cfg.bin")).2
        Registry.new (ascii "cfg.bin") false = (Status.OK, sampleTree) :=
  ⟨by decide,
   (roundtrip_file hostLE hostBE ⟨fun _ => none, fun _ => true⟩ sampleTree (ascii "cfg.bin")
     (by decide) (by decide) rfl).1.2⟩

/-! ## The search for an entry -/

theorem find_if_first {α : Type} (p : α → Bool) (l : List α) (i : Nat) (a : α)
    (hi : l[i]? = some a) (hp : p a = true)
    (hlt : ∀ j b, j < i → l[j]? = some b → p b = false) : find_if p l = some (i, a) := by
  induction l generalizing i with
  | nil => simp at hi
  | cons x xs ih =>
    cases i with
    | zero =>
      simp only [List.getElem?_cons_zero, Option.some.injEq] at hi
      subst hi
      simp [find_if, hp]
    | succ i =>
      have hx : p x = false := hlt 0 x (Nat.succ_pos i) (by simp)
      simp only [List.getElem?_cons_succ] at hi
      have := ih i hi (fun j b hj hb => hlt (j + 1) b (Nat.succ_lt_succ hj) (by simpa using hb))
      simp [find_if, hx, this]

theorem seekEntry_some (k : Key) (n : Str) (i : Nat) (e : Entry)
    (h : k.seekEntry n = some (i, e)) :
    k.m_entries[i]? = some e ∧ e.m_name = n ∧
      ∀ j b, j < i → k.m_entries[j]? = some b → b.m_name ≠ n := by
  unfold Key.seekEntry at h
  obtain ⟨h1, h2, h3⟩ := find_if_some _ _ _ _ h
  refine ⟨h1, (of_decide_eq_true h2).symm, ?_⟩
  intro j b hj hb hn
  have := h3 j b hj hb
  simp [hn] at this

theorem seekEntry_first (k : Key) (n : Str) (i : Nat) (e : Entry)
    (hi : k.m_entries[i]? = some e) (hn : e.m_name = n)
    (hlt : ∀ j b, j < i → k.m_entries[j]? = some b → b.m_name ≠ n) :
    k.seekEntry n = some (i, e) := by
  unfold Key.seekEntry
  refine find_if_first _ _ _ _ hi (by simp [hn]) ?_
  intro j b hj hb
  have := hlt j b hj hb
  simp only [decide_eq_false_iff_not]
  exact fun h => this h.symm

theorem seekEntry_nodup (k : Key) (n : Str) (i : Nat) (e : Entry)
    (hd : (k.m_entries.map (fun e => e.m_name)).Nodup)
    (hi : k.m_entries[i]? = some e) (hn : e.m_name = n) :
    k.seekEntry n = some (i, e) := by
  refine seekEntry_first k n i e hi hn ?_
  intro j b hj hb hbn
  have hil : i < k.m_entries.length := (List.getElem?_eq_some.mp hi).1
  have hjl : j < k.m_entries.length := (List.getElem?_eq_some.mp hb).1
  have h1 : (k.m_entries.map (fun e => e.m_name))[i]? = some n := by
    simp [List.getElem?_map, hi, hn]
  have h2 : (k.m_entries.map (fun e => e.m_name))[j]? = some n := by
    simp [List.getElem?_map, hb, hbn]
  have hil2 : i < (k.m_entries.map (fun e => e.m_name)).length := by simpa using hil
  have hjl2 : j < (k.m_entries.map (fun e => e.m_name)).length := by simpa using hjl
  have e1 := (List.getElem?_eq_some.mp h1).2
  have e2 := (List.getElem?_eq_some.mp h2).2
  have := (@List.Nodup.getElem_inj_iff _ _ hd i hil2 j hjl2).mp (by rw [e1, e2])
  omega

theorem seekEntry_setData (k : Key) (n : Str) (i : Nat) (e : Entry) (v : Value)
    (h : k.seekEntry n = some (i, e)) :
    (k.setEntry (EntryRef.elem i) v).seekEntry n = some (i, { e with m_data := v }) := by
  obtain ⟨h1, h2, h3⟩ := seekEntry_some k n i e h
  refine seekEntry_first _ n i _ ?_ h2 ?_
  · simp [Key.setEntry, getElem?_modifyNth, h1]
  · intro j b hj hb
    simp only [Key.setEntry, getElem?_modifyNth] at hb
    have hne : ¬ i = j := by omega
    simp only [hne, if_false] at hb
    exact h3 j b hj hb

/-! ## Claims C11 to C15: typed entries -/

theorem alias_inj (T U : Datatype) (h : T.Alias = U.Alias) : T = U := by
  cases T <;> cases U <;> first | rfl | (exact absurd h (by decide))

theorem getAlias_ne (e : Entry) (T U : Datatype) (hT : e.m_data.type = T) (hTU : T ≠ U) :
    e.getAlias ≠ U.Alias := by
  intro h
  apply hTU
  rw [← hT]
  exact alias_inj _ _ h

theorem getEntry_of_seek (k : Key) (T : Datatype) (n : Str) (i : Nat) (e : Entry)
    (hn : n ≠ []) (h : k.seekEntry n = some (i, e)) :
    k.getEntry T n = if e.getAlias ≠ T.Alias then EntryRef.s_null else EntryRef.elem i := by
  simp [Key.getEntry, hn, h]

theorem addEntry_of_seek (k : Key) (T : Datatype) (n : Str) (i : Nat) (e : Entry)
    (hn : n ≠ []) (h : k.seekEntry n = some (i, e)) :
    k.addEntry T n =
      if e.getAlias ≠ T.Alias then (k, EntryRef.s_null) else (k, EntryRef.elem i) := by
  simp [Key.addEntry, hn, h]

theorem addEntry_of_none (k : Key) (T : Datatype) (n : Str)
    (hn : n ≠ []) (h : k.seekEntry n = none) :
    k.addEntry T n =
      ({ k with m_entries := k.m_entries ++ [Entry.new T n] }, EntryRef.elem k.m_entries.length) := by
  simp [Key.addEntry, hn, h]

theorem default_type (T : Datatype) : (Value.default T).type = T := by
  cases T <;> rfl

theorem seekEntry_append_new (k : Key) (n : Str) (e : Entry) (hn : e.m_name = n)
    (h : k.seekEntry n = none) :
    ({ k with m_entries := k.m_entries ++ [e] } : Key).seekEntry n
      = some (k.m_entries.length, e) := by
  refine seekEntry_first _ n _ e (by simp) hn ?_
  intro j b hj hb hbn
  rw [seekEntry_none] at h
  apply h
  simp only [List.getElem?_append_left hj] at hb
  exact List.mem_map.mpr ⟨b, List.getElem?_mem hb, hbn⟩

/-- The reference `addEntry<T>` returns is found again by `getEntry<T>` and by a
second `addEntry<T>`, which leaves the key as it is. -/
theorem addEntry_then (k : Key) (T : Datatype) (n : Str) :
    (k.addEntry T n).1.getEntry T n = (k.addEntry T n).2 ∧
    (k.addEntry T n).1.addEntry T n = ((k.addEntry T n).1, (k.addEntry T n).2) := by
  by_cases hn : n = []
  · simp [Key.addEntry, Key.getEntry, hn]
  · cases hs : k.seekEntry n with
    | none =>
      have h2 := seekEntry_append_new k n (Entry.new T n) rfl hs
      rw [addEntry_of_none k T n hn hs]
      have ha : (Entry.new T n).getAlias = T.Alias := by
        simp [Entry.getAlias, Entry.new, default_type]
      refine ⟨?_, ?_⟩
      · rw [getEntry_of_seek _ T n _ _ hn h2]; simp [ha]
      · rw [addEntry_of_seek _ T n _ _ hn h2]; simp [ha]
    | some r =>
      obtain ⟨i, e⟩ := r
      rw [addEntry_of_seek k T n i e hn hs]
      by_cases ha : e.getAlias ≠ T.Alias
      · rw [if_pos ha]
        refine ⟨?_, ?_⟩
        · rw [getEntry_of_seek k T n i e hn hs, if_pos ha]
        · rw [addEntry_of_seek k T n i e hn hs, if_pos ha]
      · rw [if_neg ha]
        refine ⟨?_, ?_⟩
        · rw [getEntry_of_seek k T n i e hn hs, if_neg ha]
        · rw [addEntry_of_seek k T n i e hn hs, if_neg ha]

theorem getEntry_elem (k : Key) (T : Datatype) (n : Str) (i : Nat)
    (h : k.getEntry T n = EntryRef.elem i) :
    n ≠ [] ∧ ∃ e, k.seekEntry n = some (i, e) ∧ e.getAlias = T.Alias := by
  by_cases hn : n = []
  · simp [Key.getEntry, hn] at h
  · refine ⟨hn, ?_⟩
    cases hs : k.seekEntry n with
    | none => simp [Key.getEntry, hn, hs] at h
    | some r =>
      obtain ⟨j, e⟩ := r
      rw [getEntry_of_seek k T n j e hn hs] at h
      by_cases ha : e.getAlias ≠ T.Alias
      · rw [if_pos ha] at h; cases h
      · rw [if_neg ha] at h
        cases h
        exact ⟨e, rfl, not_not.mp ha⟩

theorem getData_setEntry (k : Key) (i : Nat) (e : Entry) (v : Value)
    (h : k.m_entries[i]? = some e) :
    (k.setEntry (EntryRef.elem i) v).getData (EntryRef.elem i) = some v := by
  simp [Key.setEntry, Key.getData, getElem?_modifyNth, h]

/-- A value set through the reference `addEntry<T>` returned is what a second
`addEntry<T>` and `getEntry<T>` find: they return the same reference and leave
the key as it is. -/
theorem addEntry_set (k : Key) (T : Datatype) (n : Str) (v : Value) (hv : v.type = T) :
    ((k.addEntry T n).1.setEntry (k.addEntry T n).2 v).addEntry T n =
        ((k.addEntry T n).1.setEntry (k.addEntry T n).2 v, (k.addEntry T n).2) ∧
    ((k.addEntry T n).1.setEntry (k.addEntry T n).2 v).getEntry T n = (k.addEntry T n).2 ∧
    ((k.addEntry T n).2 ≠ EntryRef.s_null →
      ((k.addEntry T n).1.setEntry (k.addEntry T n).2 v).getData (k.addEntry T n).2 = some v) := by
  have key : ∀ (k1 : Key) (i : Nat) (e : Entry), k1.seekEntry n = some (i, e) → n ≠ [] →
      (k1.setEntry (EntryRef.elem i) v).addEntry T n =
          (k1.setEntry (EntryRef.elem i) v, EntryRef.elem i) ∧
      (k1.setEntry (EntryRef.elem i) v).getEntry T n = EntryRef.elem i ∧
      (k1.setEntry (EntryRef.elem i) v).getData (EntryRef.elem i) = some v := by
    intro k1 i e hs hn
    have h2 := seekEntry_setData k1 n i e v hs
    have ha : ¬ ({ e with m_data := v } : Entry).getAlias ≠ T.Alias := by
      simp [Entry.getAlias, hv]
    refine ⟨?_, ?_, getData_setEntry k1 i e v (seekEntry_some k1 n i e hs).1⟩
    · rw [addEntry_of_seek _ T n _ _ hn h2, if_neg ha]
    · rw [getEntry_of_seek _ T n _ _ hn h2, if_neg ha]
  by_cases hn : n = []
  · simp [Key.addEntry, Key.getEntry, Key.setEntry, hn]
  · cases hs : k.seekEntry n with
    | none =>
      have h2 := seekEntry_append_new k n (Entry.new T n) rfl hs
      rw [addEntry_of_none k T n hn hs]
      have := key _ _ _ h2 hn
      exact ⟨this.1, this.2.1, fun _ => this.2.2⟩
    | some r =>
      obtain ⟨i, e⟩ := r
      rw [addEntry_of_seek k T n i e hn hs]
      by_cases ha : e.getAlias ≠ T.Alias
      · rw [if_pos ha]
        refine ⟨?_, ?_, fun h => absurd rfl h⟩
        · show k.addEntry T n = (k, EntryRef.s_null)
          rw [addEntry_of_seek k T n i e hn hs, if_pos ha]
        · show k.getEntry T n = EntryRef.s_null
          rw [getEntry_of_seek k T n i e hn hs, if_pos ha]
      · rw [if_neg ha]
        have := key _ _ _ hs hn
        exact ⟨this.1, this.2.1, fun _ => this.2.2⟩

/-- In every key of a tree that calls of the interface have built from an
empty registry, the entry names are pairwise distinct. -/
theorem reachable_nodup (ops : List Op) (path : List Nat) (K : Key)
    (h : Key.getAt path (run ops Registry.new) = some K) :
    (K.m_entries.map (fun e => e.m_name)).Nodup :=
  (all_getAt Key.EntryNamesOK path _ K
    (all_run Key.EntryNamesOK entryNamesOK_opInv ops Registry.new
      (all_new _ entryNamesOK_opInv)) h).2

/-- C11. Type safety, for two distinct types `T` and `U` and a key `K`. When
`K` holds an entry named `n` of type `T`, `getEntry<U> (n)` returns the
sentinel, and `addEntry<U> (n)` returns the sentinel and leaves `K` as it is,
so the entry keeps its tag, value and position (`getEntry` returns a reference
only: it assigns no member). This holds of every key of every tree that calls
of the interface have built from an empty registry, and more generally of
every key whose entry names are pairwise distinct. Moreover, whenever
`addEntry<T> (x)` has returned an entry, a following `getEntry<U> (x)` returns
the sentinel, a following `addEntry<U> (x)` returns the sentinel and leaves the
key as it is, and the entry of type `T` is still the one `getEntry<T> (x)`
finds; the instance of the claim is `T = Int32`, `U = Float32`, `x = "x"`. -/
theorem type_safety (K : Key) (T U : Datatype) (hTU : T ≠ U) :
    (∀ (n : Str) (i : Nat) (e : Entry),
      (K.m_entries.map (fun e => e.m_name)).Nodup →
      K.m_entries[i]? = some e → e.m_name = n → e.m_data.type = T →
      K.getEntry U n = EntryRef.s_null ∧ K.addEntry U n = (K, EntryRef.s_null)) ∧
    (∀ (ops : List Op) (path : List Nat), Key.getAt path (run ops Registry.new) = some K →
      ∀ (n : Str) (i : Nat) (e : Entry),
      K.m_entries[i]? = some e → e.m_name = n → e.m_data.type = T →
      K.getEntry U n = EntryRef.s_null ∧ K.addEntry U n = (K, EntryRef.s_null)) ∧
    (∀ x : Str, (K.addEntry T x).2 ≠ EntryRef.s_null →
      (K.addEntry T x).1.getEntry U x = EntryRef.s_null ∧
      (K.addEntry T x).1.addEntry U x = ((K.addEntry T x).1, EntryRef.s_null) ∧
      (K.addEntry T x).1.getEntry T x = (K.addEntry T x).2) := by
  have main : ∀ (k : Key) (n : Str) (i : Nat) (e : Entry), k.seekEntry n = some (i, e) →
      e.m_data.type = T →
      k.getEntry U n = EntryRef.s_null ∧ k.addEntry U n = (k, EntryRef.s_null) := by
    intro k n i e hs hT
    have ha := getAlias_ne e T U hT hTU
    by_cases hn : n = []
    · simp [Key.getEntry, Key.addEntry, hn]
    · rw [getEntry_of_seek k U n i e hn hs, addEntry_of_seek k U n i e hn hs, if_pos ha, if_pos ha]
      exact ⟨rfl, rfl⟩
  refine ⟨?_, ?_, ?_⟩
  · intro n i e hd he hn hT
    exact main K n i e (seekEntry_nodup K n i e hd he hn) hT
  · intro ops path hK n i e he hn hT
    exact main K n i e (seekEntry_nodup K n i e (reachable_nodup ops path K hK) he hn) hT
  · intro x hx
    have h1 := (addEntry_then K T x).1
    cases hr : (K.addEntry T x).2 with
    | s_null => exact absurd hr hx
    | elem i =>
      rw [hr] at h1
      obtain ⟨_, e, hs, ha⟩ := getEntry_elem _ T x i h1
      have := main _ x i e hs (alias_inj _ _ ha)
      exact ⟨this.1, this.2, h1⟩

/-- C11, on a key that holds the `U8` entry `"y"` and the `S32` entry `"x"`,
and on the registry after `addEntry<S32> ("x")`. -/
theorem type_safety_witness :
    Datatype.S32 ≠ Datatype.Float ∧
    ((⟨rootName, 0, [⟨ascii "y", Value.u8 1⟩, ⟨ascii "x", Value.s32 7⟩], []⟩ : Key).getEntry
        Datatype.Float (ascii "x") = EntryRef.s_null ∧
      (⟨rootName, 0, [⟨ascii "y", Value.u8 1⟩, ⟨ascii "x", Value.s32 7⟩], []⟩ : Key).addEntry
        Datatype.Float (ascii "x") =
          (⟨rootName, 0, [⟨ascii "y", Value.u8 1⟩, ⟨ascii "x", Value.s32 7⟩], []⟩,
            EntryRef.s_null)) ∧
    (Registry.new.addEntry Datatype.S32 (ascii "x")).2 ≠ EntryRef.s_null ∧
    (Registry.new.addEntry Datatype.S32 (ascii "x")).1.m_entries
      = [⟨ascii "x", Value.s32 0⟩] ∧
    (Registry.new.addEntry Datatype.S32 (ascii "x")).1.getEntry Datatype.Float (ascii "x")
      = EntryRef.s_null :=
  ⟨by decide,
   (type_safety ⟨rootName, 0, [⟨ascii "y", Value.u8 1⟩, ⟨ascii "x", Value.s32 7⟩], []⟩
      Datatype.S32 Datatype.Float (by decide)).1 (ascii "x") 1 ⟨ascii "x", Value.s32 7⟩
      (by decide) (by decide) rfl rfl,
   by decide, by decide,
   ((type_safety Registry.new Datatype.S32 Datatype.Float (by decide)).2.2 (ascii "x")
      (by decide)).1⟩

/-- C12. The characterisation of `getEntry<T>`, for a key `K` whose entry names
are pairwise distinct. For the entry `e` named `n` at position `i`,
`getEntry<T> (n)` returns that entry exactly when `n` is not empty and the tag
of `e` is the tag of `T`; the call returns the sentinel exactly when `n` is
empty, or no entry is named `n`, or the entry named `n` bears another tag; and
an entry it returns is read with its stored value. `getEntry` returns a
reference only: it assigns no member of `K`. In particular after
`addEntry<T> (m).set (v)`, for any name `m` and any key, `getEntry<T> (m).get ()`
is `v` (when `addEntry` has returned `Entry<T>::s_null`, so does `getEntry`,
and the value was set in that object). -/
theorem getEntry_spec (K : Key) (n : Str) (T : Datatype)
    (hd : (K.m_entries.map (fun e => e.m_name)).Nodup) :
    (∀ (i : Nat) (e : Entry), K.m_entries[i]? = some e → e.m_name = n →
      (K.getEntry T n = EntryRef.elem i ↔ n ≠ [] ∧ e.getAlias = T.Alias)) ∧
    (K.getEntry T n = EntryRef.s_null ↔
      ¬ (n ≠ [] ∧ ∃ e ∈ K.m_entries, e.m_name = n ∧ e.getAlias = T.Alias)) ∧
    (∀ i : Nat, K.getEntry T n = EntryRef.elem i →
      ∃ e, K.m_entries[i]? = some e ∧ e.m_name = n ∧ e.getAlias = T.Alias ∧
        ∀ s : Sentinels, (EntryRef.elem i).get T K s = some e.m_data) ∧
    (∀ (m : Str) (s : Sentinels) (v : Value), v.type = T →
      (((K.addEntry T m).2.set T v (K.addEntry T m).1 s).1.getEntry T m).get T
          ((K.addEntry T m).2.set T v (K.addEntry T m).1 s).1
          ((K.addEntry T m).2.set T v (K.addEntry T m).1 s).2 = some v) := by
  refine ⟨?_, ?_, ?_, ?_⟩
  · intro i e he hn
    have hs := seekEntry_nodup K n i e hd he hn
    constructor
    · intro h
      obtain ⟨h1, e2, hs2, ha⟩ := getEntry_elem K T n i h
      rw [hs] at hs2
      cases hs2
      exact ⟨h1, ha⟩
    · rintro ⟨h1, ha⟩
      rw [getEntry_of_seek K T n i e h1 hs, if_neg (not_not.mpr ha)]
  · constructor
    · rintro h ⟨h1, e, he, hn, ha⟩
      obtain ⟨i, hi⟩ := List.getElem?_of_mem he
      have hs := seekEntry_nodup K n i e hd hi hn
      rw [getEntry_of_seek K T n i e h1 hs, if_neg (not_not.mpr ha)] at h
      cases h
    · intro h
      cases hg : K.getEntry T n with
      | s_null => rfl
      | elem i =>
        obtain ⟨h1, e, hs, ha⟩ := getEntry_elem K T n i hg
        obtain ⟨he, hn, _⟩ := seekEntry_some K n i e hs
        exact absurd ⟨h1, e, List.getElem?_mem he, hn, ha⟩ h
  · intro i h
    obtain ⟨_, e, hs, ha⟩ := getEntry_elem K T n i h
    obtain ⟨he, hn, _⟩ := seekEntry_some K n i e hs
    exact ⟨e, he, hn, ha, fun s => by simp [EntryRef.get, Key.getData, he]⟩
  · intro m s v hv
    obtain ⟨_, h2, h3⟩ := addEntry_set K T m v hv
    cases hr : (K.addEntry T m).2 with
    | s_null =>
      rw [hr] at h2
      simp only [EntryRef.set]
      simp only [Key.setEntry] at h2
      rw [h2]
      simp [EntryRef.get]
    | elem i =>
      rw [hr] at h2 h3
      simp only [EntryRef.set]
      rw [h2]
      simpa [EntryRef.get] using h3 (by simp)

/-- C12, on the sample tree: its `Float` entry `"ratio"`, and the calls
`addEntry<S8> ("title").set (5)` and `getEntry<S8> ("title").get ()`, which go
through `Entry<S8>::s_null` because `"title"` is a `String` entry. -/
theorem getEntry_spec_witness :
    ((sampleTree.m_entries.map (fun e => e.m_name)).Nodup ∧
      sampleTree.m_entries[1]? = some ⟨ascii "ratio", Value.float ⟨0x3FC00000, by decide⟩⟩) ∧
    (sampleTree.getEntry Datatype.Float (ascii "ratio") = EntryRef.elem 1 ↔
      ascii "ratio" ≠ [] ∧
        (⟨ascii "ratio", Value.float ⟨0x3FC00000, by decide⟩⟩ : Entry).getAlias
          = Datatype.Float.Alias) ∧
    (sampleTree.addEntry Datatype.S8 (ascii "title")).2 = EntryRef.s_null ∧
    (((sampleTree.addEntry Datatype.S8 (ascii "title")).2.set Datatype.S8 (Value.s8 5)
        (sampleTree.addEntry Datatype.S8 (ascii "title")).1 Sentinels.new).1.getEntry
      Datatype.S8 (ascii "title")).get Datatype.S8
        ((sampleTree.addEntry Datatype.S8 (ascii "title")).2.set Datatype.S8 (Value.s8 5)
          (sampleTree.addEntry Datatype.S8 (ascii "title")).1 Sentinels.new).1
        ((sampleTree.addEntry Datatype.S8 (ascii "title")).2.set Datatype.S8 (Value.s8 5)
          (sampleTree.addEntry Datatype.S8 (ascii "title")).1 Sentinels.new).2
      = some (Value.s8 5) :=
  ⟨⟨by decide, by decide⟩,
   (getEntry_spec sampleTree (ascii "ratio") Datatype.Float (by decide)).1 1
      ⟨ascii "ratio", Value.float ⟨0x3FC00000, by decide⟩⟩ (by decide) rfl,
   by decide,
   (getEntry_spec sampleTree (ascii "ratio") Datatype.S8 (by decide)).2.2.2
      (ascii "title") Sentinels.new (Value.s8 5) rfl⟩

/-- C13. `addEntry<T>` is an idempotent get-or-create, for a name `n` that is
not empty. When the key `K` holds at position `i` an entry named `n` that
bears the tag of `T`, `addEntry<T> (n)` returns that entry and leaves `K` as it
is; this holds of every key of every tree that calls of the interface have
built from an empty registry, and more generally of every key whose entry
names are pairwise distinct. On every key a second
`addEntry<T> (n)` returns what the first returned and leaves the tree the first
call made; and when a value `v` of type `T` is set through the reference the
first call returned, the second call again returns that reference, leaves the
tree as it is, and the value read through it is `v`. -/
theorem addEntry_idempotent (K : Key) (n : Str) (T : Datatype) (hn : n ≠ []) :
    (∀ (i : Nat) (e : Entry), (K.m_entries.map (fun e => e.m_name)).Nodup →
      K.m_entries[i]? = some e → e.m_name = n → e.getAlias = T.Alias →
      K.addEntry T n = (K, EntryRef.elem i)) ∧
    (∀ (ops : List Op) (path : List Nat), Key.getAt path (run ops Registry.new) = some K →
      ∀ (i : Nat) (e : Entry),
      K.m_entries[i]? = some e → e.m_name = n → e.getAlias = T.Alias →
      K.addEntry T n = (K, EntryRef.elem i)) ∧
    (K.addEntry T n).1.addEntry T n = K.addEntry T n ∧
    (∀ (s : Sentinels) (v : Value), v.type = T →
      ((K.addEntry T n).2.set T v (K.addEntry T n).1 s).1.addEntry T n =
        (((K.addEntry T n).2.set T v (K.addEntry T n).1 s).1, (K.addEntry T n).2) ∧
      (K.addEntry T n).2.get T ((K.addEntry T n).2.set T v (K.addEntry T n).1 s).1
        ((K.addEntry T n).2.set T v (K.addEntry T n).1 s).2 = some v) := by
  refine ⟨?_, ?_, (addEntry_then K T n).2, ?_⟩
  · intro i e hd he hen ha
    rw [addEntry_of_seek K T n i e hn (seekEntry_nodup K n i e hd he hen),
      if_neg (not_not.mpr ha)]
  · intro ops path hK i e he hen ha
    rw [addEntry_of_seek K T n i e hn
      (seekEntry_nodup K n i e (reachable_nodup ops path K hK) he hen),
      if_neg (not_not.mpr ha)]
  · intro s v hv
    obtain ⟨h1, _, h3⟩ := addEntry_set K T n v hv
    cases hr : (K.addEntry T n).2 with
    | s_null =>
      rw [hr] at h1
      simp only [Key.setEntry] at h1
      simp only [EntryRef.set, EntryRef.get]
      exact ⟨h1, by simp⟩
    | elem i =>
      rw [hr] at h1 h3
      simp only [EntryRef.set, EntryRef.get]
      exact ⟨h1, h3 (by simp)⟩

/-- C13, on the sample tree: the `String` entry `"title"` is found again, and
a second `addEntry<S16> ("n")` changes nothing. -/
theorem addEntry_idempotent_witness :
    ascii "title" ≠ [] ∧
    sampleTree.addEntry Datatype.String (ascii "title") = (sampleTree, EntryRef.elem 0) ∧
    (sampleTree.addEntry Datatype.S16 (ascii "n")).1.addEntry Datatype.S16 (ascii "n")
      = sampleTree.addEntry Datatype.S16 (ascii "n") ∧
    (sampleTree.addEntry Datatype.S16 (ascii "n")).2 = EntryRef.elem 2 :=
  ⟨by decide,
   (addEntry_idempotent sampleTree (ascii "title") Datatype.String (by decide)).1 0
      ⟨ascii "title", Value.string (ascii "demo")⟩ (by decide) (by decide) rfl rfl,
   (addEntry_idempotent sampleTree (ascii "n") Datatype.S16 (by decide)).2.2.1,
   by decide⟩

/-- C14. `addEntry<T>` creates a zero-valued entry. With the empty name it
returns the sentinel and leaves the key as it is. With a name `n` that is not
empty and that no entry of `K` bears, it appends one entry to the entries of
`K`, named `n`, with the tag of `T` and the value `T ()`, returns it, and
leaves the earlier entries and the subkeys as they are. The value `T ()` is the
pattern 0 for the six integer types and for `Float` (`+0.0`), and the empty
string for `String`. -/
theorem addEntry_creates (K : Key) (T : Datatype) (n : Str) :
    K.addEntry T [] = (K, EntryRef.s_null) ∧
    (n ≠ [] → (∀ e ∈ K.m_entries, e.m_name ≠ n) →
      K.addEntry T n =
        ({ K with m_entries := K.m_entries ++ [⟨n, Value.default T⟩] },
          EntryRef.elem K.m_entries.length) ∧
      (⟨n, Value.default T⟩ : Entry).getAlias = T.Alias ∧
      (K.addEntry T n).1.m_keys = K.m_keys ∧
      (K.addEntry T n).1.m_name = K.m_name ∧
      (K.addEntry T n).1.m_instance = K.m_instance) ∧
    (Value.default Datatype.S8 = Value.s8 0 ∧ Value.default Datatype.S16 = Value.s16 0 ∧
      Value.default Datatype.S32 = Value.s32 0 ∧ Value.default Datatype.U8 = Value.u8 0 ∧
      Value.default Datatype.U16 = Value.u16 0 ∧ Value.default Datatype.U32 = Value.u32 0 ∧
      Value.default Datatype.Float = Value.float 0 ∧
      Value.default Datatype.String = Value.string []) := by
  refine ⟨by simp [Key.addEntry], ?_, by decide⟩
  intro hn hfree
  have hs : K.seekEntry n = none := by
    rw [seekEntry_none]
    intro hmem
    obtain ⟨e, he, hen⟩ := List.mem_map.mp hmem
    exact hfree e he hen
  rw [addEntry_of_none K T n hn hs]
  exact ⟨rfl, by simp [Entry.getAlias, default_type], rfl, rfl, rfl⟩

/-- C14, on the sample tree, which has no entry named `"n"`. -/
theorem addEntry_creates_witness :
    (ascii "n" ≠ [] ∧ ∀ e ∈ sampleTree.m_entries, e.m_name ≠ ascii "n") ∧
    sampleTree.addEntry Datatype.Float (ascii "n") =
      ({ sampleTree with
          m_entries := sampleTree.m_entries ++ [⟨ascii "n", Value.default Datatype.Float⟩] },
        EntryRef.elem sampleTree.m_entries.length) :=
  ⟨⟨by decide, by decide⟩,
   ((addEntry_creates sampleTree Datatype.Float (ascii "n")).2.1 (by decide) (by decide)).1⟩

theorem modifyNth_eq_set {α : Type} (f : α → α) (i : Nat) (l : List α) (a : α)
    (h : l[i]? = some a) : modifyNth f i l = l.set i (f a) := by
  induction l generalizing i with
  | nil => simp at h
  | cons x xs ih =>
    cases i with
    | zero =>
      simp only [List.getElem?_cons_zero, Option.some.injEq] at h
      subst h
      simp [modifyNth]
    | succ i =>
      simp only [List.getElem?_cons_succ] at h
      simp [modifyNth, ih i h]

theorem renameEntry_found (K : Key) (a_name a_newName : Str) (i : Nat) (e : Entry)
    (h1 : a_name ≠ []) (h2 : a_newName ≠ []) (h3 : a_newName ≠ rootName)
    (h4 : a_newName ≠ nullName) (h5 : K.seekEntry a_newName = none)
    (h6 : K.seekEntry a_name = some (i, e)) :
    K.renameEntry a_name a_newName =
      { K with m_entries := K.m_entries.set i ⟨a_newName, e.m_data⟩ } := by
  have he := (seekEntry_some K a_name i e h6).1
  simp [Key.renameEntry, h1, h2, h3, h4, h5, h6, modifyNth_eq_set _ _ _ _ he]

/-- C15. `renameEntry`, for a key `K` whose entry names are pairwise distinct.
The call changes `K` exactly when the old name is not empty, the new name is
not empty and is neither `"root"` nor `"null"`, no entry of `K` bears the new
name and an entry of `K` bears the old name. In that case the entry named
`a_name`, at its position `i`, receives the new name and keeps its value (hence
its tag); the other entries, their order, the subkeys, the name and the instance
id of `K` are as before. In every other case, `a_newName = a_name`
included, `K` is left as it is. -/
theorem renameEntry_spec (K : Key) (a_name a_newName : Str)
    (hd : (K.m_entries.map (fun e => e.m_name)).Nodup) :
    (K.renameEntry a_name a_newName ≠ K ↔
      a_name ≠ [] ∧ a_newName ≠ [] ∧ a_newName ≠ ascii "root" ∧ a_newName ≠ ascii "null" ∧
        (∀ e ∈ K.m_entries, e.m_name ≠ a_newName) ∧ (∃ e ∈ K.m_entries, e.m_name = a_name)) ∧
    (∀ (i : Nat) (e : Entry), K.m_entries[i]? = some e → e.m_name = a_name →
      a_name ≠ [] → a_newName ≠ [] → a_newName ≠ ascii "root" → a_newName ≠ ascii "null" →
      (∀ e ∈ K.m_entries, e.m_name ≠ a_newName) →
      K.renameEntry a_name a_newName =
        { K with m_entries := K.m_entries.set i ⟨a_newName, e.m_data⟩ }) ∧
    (a_newName = a_name → K.renameEntry a_name a_newName = K) := by
  have hfound : ∀ (i : Nat) (e : Entry), K.m_entries[i]? = some e → e.m_name = a_name →
      a_name ≠ [] → a_newName ≠ [] → a_newName ≠ ascii "root" → a_newName ≠ ascii "null" →
      (∀ e ∈ K.m_entries, e.m_name ≠ a_newName) →
      K.renameEntry a_name a_newName =
        { K with m_entries := K.m_entries.set i ⟨a_newName, e.m_data⟩ } := by
    intro i e he hen h1 h2 h3 h4 h5
    have hs5 : K.seekEntry a_newName = none := by
      rw [seekEntry_none]
      intro hmem
      obtain ⟨x, hx, hxn⟩ := List.mem_map.mp hmem
      exact h5 x hx hxn
    exact renameEntry_found K a_name a_newName i e h1 h2 h3 h4 hs5
      (seekEntry_nodup K a_name i e hd he hen)
  have hiff : K.renameEntry a_name a_newName ≠ K ↔
      a_name ≠ [] ∧ a_newName ≠ [] ∧ a_newName ≠ ascii "root" ∧ a_newName ≠ ascii "null" ∧
        (∀ e ∈ K.m_entries, e.m_name ≠ a_newName) ∧ (∃ e ∈ K.m_entries, e.m_name = a_name) := by
    constructor
    · intro hne
      by_cases h1 : a_name = []
      · exact absurd (by simp [Key.renameEntry, h1]) hne
      by_cases h2 : a_newName = []
      · exact absurd (by simp [Key.renameEntry, h2]) hne
      by_cases h3 : a_newName = rootName ∨ a_newName = nullName
      · exact absurd (by simp [Key.renameEntry, h1, h2, h3]) hne
      cases h5 : K.seekEntry a_newName with
      | some r => exact absurd (by simp [Key.renameEntry, h1, h2, h3, h5]) hne
      | none =>
        cases h6 : K.seekEntry a_name with
        | none => exact absurd (by simp [Key.renameEntry, h1, h2, h3, h5, h6]) hne
        | some r =>
          obtain ⟨i, e⟩ := r
          obtain ⟨he, hen, _⟩ := seekEntry_some K a_name i e h6
          rw [seekEntry_none] at h5
          refine ⟨h1, h2, fun h => h3 (Or.inl h), fun h => h3 (Or.inr h), ?_,
            e, List.getElem?_mem he, hen⟩
          intro x hx hxn
          exact h5 (List.mem_map.mpr ⟨x, hx, hxn⟩)
    · rintro ⟨h1, h2, h3, h4, h5, e, he, hen⟩ heq
      obtain ⟨i, hi⟩ := List.getElem?_of_mem he
      rw [hfound i e hi hen h1 h2 h3 h4 h5] at heq
      have h7 := congrArg (fun k : Key => k.m_entries[i]?) heq
      have hil : i < K.m_entries.length := (List.getElem?_eq_some.mp hi).1
      simp only [List.getElem?_set_self hil, hi, Option.some.injEq] at h7
      apply h5 e he
      rw [← h7]
  refine ⟨hiff, hfound, ?_⟩
  intro heq
  by_contra hne
  obtain ⟨_, _, _, _, h5, e, he, hen⟩ := hiff.mp hne
  exact h5 e he (hen.trans heq.symm)

/-- C15, on the sample tree: `renameEntry ("title", "t")`. -/
theorem renameEntry_spec_witness :
    ((sampleTree.m_entries.map (fun e => e.m_name)).Nodup ∧
      sampleTree.m_entries[0]? = some ⟨ascii "title", Value.string (ascii "demo")⟩ ∧
      ascii "title" ≠ [] ∧ ascii "t" ≠ [] ∧ ascii "t" ≠ ascii "root" ∧ ascii "t" ≠ ascii "null" ∧
      ∀ e ∈ sampleTree.m_entries, e.m_name ≠ ascii "t") ∧
    sampleTree.renameEntry (ascii "title") (ascii "t") =
      { sampleTree with
          m_entries := sampleTree.m_entries.set 0 ⟨ascii "t", Value.string (ascii "demo")⟩ } :=
  ⟨⟨by decide, by decide, by decide, by decide, by decide, by decide, by decide⟩,
   (renameEntry_spec sampleTree (ascii "title") (ascii "t") (by decide)).2.1 0
      ⟨ascii "title", Value.string (ascii "demo")⟩ (by decide) rfl
      (by decide) (by decide) (by decide) (by decide) (by decide)⟩

/-! ## Claims C16 and C17: lookup and renumbering of subkeys -/

theorem filter_getElem?_rank {α : Type} (P : α → Bool) (l : List α) (p : Nat) (a : α)
    (h : l[p]? = some a) (hP : P a = true) :
    (l.filter P)[(l.take p).countP P]? = some a := by
  induction l generalizing p with
  | nil => simp at h
  | cons x xs ih =>
    cases p with
    | zero =>
      simp only [List.getElem?_cons_zero, Option.some.injEq] at h
      subst h
      simp [List.filter_cons, hP]
    | succ p =>
      simp only [List.getElem?_cons_succ] at h
      have := ih p h
      by_cases hx : P x = true
      · simp [List.filter_cons, List.take_succ_cons, List.countP_cons, hx, this]
      · simp [List.filter_cons, List.take_succ_cons, List.countP_cons, hx, this]

theorem rank_lt_count (ks : List Key) (p : Nat) (c : Key) (n : Str)
    (h : ks[p]? = some c) (hn : c.m_name = n) :
    rankBefore ks p n < ks.countP (fun c => decide (c.m_name = n)) := by
  have := filter_getElem?_rank (fun c : Key => decide (c.m_name = n)) ks p c h (by simp [hn])
  have hlt := (List.getElem?_eq_some.mp this).1
  rw [← List.countP_eq_length_filter] at hlt
  exact hlt

theorem getKey_none (K : Key) (n : Str) (i : Nat) (h : K.seekKey n i = none) :
    K.getKey n i = KeyRef.s_null := by
  simp only [Key.getKey, h]
  split_ifs <;> rfl

theorem getKey_some (K : Key) (n : Str) (i p : Nat) (c : Key) (hn : validKeyName n)
    (h : K.seekKey n i = some (p, c)) : K.getKey n i = KeyRef.sub p := by
  obtain ⟨h1, h2, h3⟩ := hn
  simp [Key.getKey, h1, h2, h3, h]

theorem getKey_invalid (K : Key) (n : Str) (i : Nat) (hn : ¬ validKeyName n) :
    K.getKey n i = KeyRef.s_null := by
  by_cases h1 : n = []
  · simp [Key.getKey, h1]
  · by_cases h2 : n = rootName ∨ n = nullName
    · simp [Key.getKey, h1, h2]
    · exact absurd ⟨h1, fun h => h2 (Or.inl h), fun h => h2 (Or.inr h)⟩ hn

/-- C16. The lookup of subkeys, for a key `K` whose subkeys satisfy the instance-id
invariant. When `n` is not empty, not `"root"` and not `"null"` and
`i` is smaller than the number of subkeys named `n`, `getKey (n, i)` returns
the subkey at the position `p` that holds the `i`-th of the subkeys named `n`,
counted from 0 in list order; in every other case it returns `Key::s_null`.
`getKey (index)` returns the subkey at that position when `index` is smaller
than the number of subkeys, and `Key::s_null` otherwise. Both return a
reference only: they assign no member of `K`. -/
theorem getKey_spec (K : Key) (n : Str) (i : Nat) (hK : K.InstanceOK) :
    (n ≠ [] ∧ n ≠ ascii "root" ∧ n ≠ ascii "null" ∧
        i < K.m_keys.countP (fun c => decide (c.m_name = n)) →
      ∃ (p : Nat) (c : Key), K.getKey n i = KeyRef.sub p ∧ K.m_keys[p]? = some c ∧
        K.deref (K.getKey n i) = c ∧ c.m_name = n ∧ c.m_instance = i ∧
        rankBefore K.m_keys p n = i ∧
        (K.m_keys.filter (fun c => decide (c.m_name = n)))[i]? = some c) ∧
    (¬ (n ≠ [] ∧ n ≠ ascii "root" ∧ n ≠ ascii "null" ∧
        i < K.m_keys.countP (fun c => decide (c.m_name = n))) →
      K.getKey n i = KeyRef.s_null) ∧
    (∀ index : Nat,
      (index < K.m_keys.length →
        K.getKeyAt index = KeyRef.sub index ∧
        K.m_keys[index]? = some (K.deref (K.getKeyAt index))) ∧
      (K.m_keys.length ≤ index → K.getKeyAt index = KeyRef.s_null)) := by
  have hOK := (instanceOK_iff_getElem? K.m_keys).mp hK
  have found : ∀ (p : Nat) (c : Key), K.seekKey n i = some (p, c) →
      K.m_keys[p]? = some c ∧ c.m_name = n ∧ c.m_instance = i ∧ rankBefore K.m_keys p n = i ∧
        (K.m_keys.filter (fun c => decide (c.m_name = n)))[i]? = some c := by
    intro p c hs
    obtain ⟨hp, hn, hi⟩ := seekKey_some K n i p c hs
    have hr : rankBefore K.m_keys p n = i := by
      have := hOK p c hp
      rw [hn] at this
      omega
    refine ⟨hp, hn, hi, hr, ?_⟩
    have := filter_getElem?_rank (fun c : Key => decide (c.m_name = n)) K.m_keys p c hp
      (by simp [hn])
    rw [← hr]
    exact this
  refine ⟨?_, ?_, ?_⟩
  · rintro ⟨h1, h2, h3, hlt⟩
    have hids := instanceOK_idsOf K.m_keys hK n
    have hlen : i < (K.m_keys.filter (fun c => decide (c.m_name = n))).length := by
      rw [← List.countP_eq_length_filter]; exact hlt
    have hmem := List.getElem_mem hlen
    have hname := (List.mem_filter.mp hmem).2
    have hinst : ((K.m_keys.filter (fun c => decide (c.m_name = n)))[i]).m_instance = i := by
      have h4 : (idsOf n K.m_keys)[i]? = some i := by
        rw [hids]
        simp [List.getElem?_range', hlt]
      simp only [idsOf, List.getElem?_map, List.getElem?_eq_getElem hlen] at h4
      simpa using h4
    cases hs : K.seekKey n i with
    | none =>
      rw [seekKey_none] at hs
      exact absurd ⟨of_decide_eq_true hname, hinst⟩ (hs _ (List.mem_filter.mp hmem).1)
    | some r =>
      obtain ⟨p, c⟩ := r
      obtain ⟨hp, hn, hi, hr, hf⟩ := found p c hs
      have hg := getKey_some K n i p c ⟨h1, h2, h3⟩ hs
      refine ⟨p, c, hg, hp, ?_, hn, hi, hr, hf⟩
      rw [hg]
      simp only [Key.deref]
      simp [List.getD_eq_getElem?_getD, hp]
  · intro hneg
    by_cases hv : validKeyName n
    · cases hs : K.seekKey n i with
      | none => exact getKey_none K n i hs
      | some r =>
        obtain ⟨p, c⟩ := r
        obtain ⟨hp, hn, _, hr, _⟩ := found p c hs
        have := rank_lt_count K.m_keys p c n hp hn
        rw [hr] at this
        exact absurd ⟨hv.1, hv.2.1, hv.2.2, this⟩ hneg
    · exact getKey_invalid K n i hv
  · intro index
    constructor
    · intro hlt
      have h1 : K.getKeyAt index = KeyRef.sub index := by
        simp [Key.getKeyAt, hlt]
      refine ⟨h1, ?_⟩
      rw [h1]
      simp [Key.deref, List.getD_eq_getElem?_getD, List.getElem?_eq_getElem hlt]
    · intro hge
      simp [Key.getKeyAt, hge]

/-- C16, on the sample tree, whose subkeys are `A` (0), `C` (0), `A` (1). -/
theorem getKey_spec_witness :
    sampleTree.InstanceOK ∧
    (∃ (p : Nat) (c : Key), sampleTree.getKey (ascii "A") 1 = KeyRef.sub p ∧
      sampleTree.m_keys[p]? = some c ∧
      sampleTree.deref (sampleTree.getKey (ascii "A") 1) = c ∧ c.m_name = ascii "A" ∧
      c.m_instance = 1 ∧ rankBefore sampleTree.m_keys p (ascii "A") = 1 ∧
      (sampleTree.m_keys.filter (fun c => decide (c.m_name = ascii "A")))[1]? = some c) ∧
    sampleTree.getKey (ascii "A") 1 = KeyRef.sub 2 ∧
    sampleTree.getKey (ascii "A") 2 = KeyRef.s_null ∧
    sampleTree.getKey (ascii "root") 0 = KeyRef.s_null :=
  ⟨by decide,
   (getKey_spec sampleTree (ascii "A") 1 (by decide)).1
      ⟨by decide, by decide, by decide, by decide⟩,
   by decide,
   (getKey_spec sampleTree (ascii "A") 2 (by decide)).2.1 (by decide),
   (getKey_spec sampleTree (ascii "root") 0 (by decide)).2.1 (by decide)⟩

/-- C17. `getInstanceCount`, for every key `K`, whatever its instance ids are,
and every name `n`. The call returns the number of direct subkeys named `n`.
Afterwards the subkey at each position is the one that stood there, with its instance
id replaced, when it is named `n`, by the number of earlier siblings
named `n`: the ids of the subkeys named `n` are 0, 1, ... in list order; order,
names and contents of all subkeys, the instance ids of the subkeys with other
names, and the name, instance id and entries of `K` are as before. A second
call returns the same count and changes nothing. -/
theorem getInstanceCount_spec (K : Key) (n : Str) :
    (K.getInstanceCount n).2 = K.m_keys.countP (fun c => decide (c.m_name = n)) ∧
    (∀ (p : Nat) (c : Key), K.m_keys[p]? = some c →
      (K.getInstanceCount n).1.m_keys[p]? =
        some (if n = c.m_name then { c with m_instance := rankBefore K.m_keys p n } else c)) ∧
    (K.getInstanceCount n).1.m_keys.length = K.m_keys.length ∧
    idsOf n (K.getInstanceCount n).1.m_keys =
      List.range (K.m_keys.countP (fun c => decide (c.m_name = n))) ∧
    (K.getInstanceCount n).1.m_keys.map (fun c => (c.m_name, c.m_entries, c.m_keys)) =
      K.m_keys.map (fun c => (c.m_name, c.m_entries, c.m_keys)) ∧
    (∀ (p : Nat) (c : Key), (K.getInstanceCount n).1.m_keys[p]? = some c → c.m_name ≠ n →
      K.m_keys[p]? = some c) ∧
    ((K.getInstanceCount n).1.m_name = K.m_name ∧
      (K.getInstanceCount n).1.m_instance = K.m_instance ∧
      (K.getInstanceCount n).1.m_entries = K.m_entries) ∧
    (K.getInstanceCount n).1.getInstanceCount n = K.getInstanceCount n := by
  have hcount : (getInstanceCountLoop n K.m_keys 0).2
      = K.m_keys.countP (fun c => decide (c.m_name = n)) := by
    rw [loop_count]; omega
  have hids : idsOf n (getInstanceCountLoop n K.m_keys 0).1
      = List.range' 0 (K.m_keys.countP (fun c => decide (c.m_name = n))) :=
    loop_idsOf_self n K.m_keys 0
  refine ⟨hcount, ?_, loop_length n K.m_keys 0, ?_, loop_map_content n K.m_keys 0, ?_,
    ⟨rfl, rfl, rfl⟩, ?_⟩
  · intro p c hp
    show (getInstanceCountLoop n K.m_keys 0).1[p]? = _
    rw [loop_getElem?, hp]
    simp
  · show idsOf n (getInstanceCountLoop n K.m_keys 0).1 = _
    rw [hids, List.range_eq_range']
  · intro p c hp hc
    exact loop_getElem?_other n K.m_keys 0 p c hp hc
  · have hself : (getInstanceCountLoop n (getInstanceCountLoop n K.m_keys 0).1 0).1
        = (getInstanceCountLoop n K.m_keys 0).1 := by
      apply loop_eq_self
      rw [hids, loop_countP]
    have hsnd : (getInstanceCountLoop n (getInstanceCountLoop n K.m_keys 0).1 0).2
        = (getInstanceCountLoop n K.m_keys 0).2 := by
      rw [loop_count, loop_count, loop_countP]
    show (({ K with m_keys := (getInstanceCountLoop n K.m_keys 0).1 } : Key).getInstanceCount n)
      = ({ K with m_keys := (getInstanceCountLoop n K.m_keys 0).1 },
          (getInstanceCountLoop n K.m_keys 0).2)
    simp only [Key.getInstanceCount, hself, hsnd]

/-- C17, on a key whose subkeys `A`, `B`, `A` all carry the instance id 5. -/
theorem getInstanceCount_spec_witness :
    ((⟨rootName, 0, [], [⟨ascii "A", 5, [], []⟩, ⟨ascii "B", 5, [], []⟩,
        ⟨ascii "A", 5, [], []⟩]⟩ : Key).getInstanceCount (ascii "A")).2 = 2 ∧
    ((⟨rootName, 0, [], [⟨ascii "A", 5, [], []⟩, ⟨ascii "B", 5, [], []⟩,
        ⟨ascii "A", 5, [], []⟩]⟩ : Key).getInstanceCount (ascii "A")).1.m_keys =
      [⟨ascii "A", 0, [], []⟩, ⟨ascii "B", 5, [], []⟩, ⟨ascii "A", 1, [], []⟩] :=
  ⟨(getInstanceCount_spec ⟨rootName, 0, [], [⟨ascii "A", 5, [], []⟩, ⟨ascii "B", 5, [], []⟩,
      ⟨ascii "A", 5, [], []⟩]⟩ (ascii "A")).1.trans (by decide),
   by decide⟩

/-! ## Claims C18 to C20: typed writes and reads -/

theorem rest_of_end (b : Buffer) (data : List Byte) (hb : b.m_read = b.m_bytes.length) :
    ({ b with m_bytes := b.m_bytes ++ data } : Buffer).rest = data ++ [] := by
  simp [Buffer.rest, hb]

theorem swapBytes_U32_twice (host : Host) (x : Nat) (hx : x < 2 ^ 32) :
    swapBytes_U32 host (swapBytes_U32 host x) = x := by
  rw [swapBytes_U32_eq, swapBytes_U32_eq]
  cases h : host.bigEndian
  · simp only [Bool.false_eq_true, if_false]
    have hq1 : x / 2 ^ 8 % 256 < 256 := Nat.mod_lt _ (by decide)
    have hr1 : x / 2 ^ 16 % 256 < 256 := Nat.mod_lt _ (by decide)
    have ht1 : x / 2 ^ 24 % 256 < 256 := Nat.mod_lt _ (by decide)
    have hp1 : x % 256 < 256 := Nat.mod_lt _ (by decide)
    obtain ⟨d1, d2, d3, d4⟩ :=
      digits4 (x % 256) (x / 2 ^ 8 % 256) (x / 2 ^ 16 % 256) (x / 2 ^ 24 % 256) hq1 hr1 ht1
    rw [d1, d2, d3, d4, Nat.mod_eq_of_lt hp1]
    exact be32_sum x hx
  · simp

/-- C18. Big-endian integer encoding. On every host, little-endian or
big-endian, `writeData` appends to the bytes of the buffer, for a 16-bit value
(`S16` or `U16`, as a bit pattern) its high byte and then its low byte, for a
32-bit value (`S32` or `U32`) its four bytes from the most significant to the
least significant, and for an 8-bit value that one byte; the read cursor is
left as it is. The two or four bytes spell the value. The `U32` value
`0x9E70819F` is appended as `9E 70 81 9F` and the `S16` value -2, whose two's
complement pattern is `0xFFFE`, as `FF FE`. -/
theorem writeData_bigEndian (host : Host) (b : Buffer) (x8 : U8) (x16 : U16) (x32 : U32) :
    (b.writeData_S16 host x16.val =
        ⟨b.m_bytes ++ [U8.ofNat (x16.val / 2 ^ 8), U8.ofNat x16.val], b.m_read⟩ ∧
      b.writeData_U16 host x16.val =
        ⟨b.m_bytes ++ [U8.ofNat (x16.val / 2 ^ 8), U8.ofNat x16.val], b.m_read⟩ ∧
      (U8.ofNat (x16.val / 2 ^ 8)).val * 2 ^ 8 + (U8.ofNat x16.val).val = x16.val) ∧
    (b.writeData_S32 host x32.val =
        ⟨b.m_bytes ++ [U8.ofNat (x32.val / 2 ^ 24), U8.ofNat (x32.val / 2 ^ 16),
          U8.ofNat (x32.val / 2 ^ 8), U8.ofNat x32.val], b.m_read⟩ ∧
      b.writeData_U32 host x32.val =
        ⟨b.m_bytes ++ [U8.ofNat (x32.val / 2 ^ 24), U8.ofNat (x32.val / 2 ^ 16),
          U8.ofNat (x32.val / 2 ^ 8), U8.ofNat x32.val], b.m_read⟩ ∧
      (U8.ofNat (x32.val / 2 ^ 24)).val * 2 ^ 24 + (U8.ofNat (x32.val / 2 ^ 16)).val * 2 ^ 16
        + (U8.ofNat (x32.val / 2 ^ 8)).val * 2 ^ 8 + (U8.ofNat x32.val).val = x32.val) ∧
    (b.writeData_S8 x8.val = ⟨b.m_bytes ++ [x8], b.m_read⟩ ∧
      b.writeData_U8 x8.val = ⟨b.m_bytes ++ [x8], b.m_read⟩) ∧
    b.writeData_U32 host 0x9E70819F = ⟨b.m_bytes ++ [0x9E, 0x70, 0x81, 0x9F], b.m_read⟩ ∧
    b.writeData_S16 host ((-2 : Int) % 2 ^ 16).toNat = ⟨b.m_bytes ++ [0xFF, 0xFE], b.m_read⟩ := by
  refine ⟨⟨?_, ?_, be16_val _ x16.isLt⟩, ⟨?_, ?_, be32_val _ x32.isLt⟩, ⟨?_, ?_⟩, ?_, ?_⟩
  · rw [writeData_S16_eq]; rfl
  · rw [writeData_U16_eq]; rfl
  · rw [writeData_S32_eq]; rfl
  · rw [writeData_U32_eq]; rfl
  · rw [writeData_S8_eq, U8_ofNat_val]
  · rw [writeData_U8_eq, U8_ofNat_val]
  · rw [writeData_U32_eq]
    have : be32 0x9E70819F = [0x9E, 0x70, 0x81, 0x9F] := by decide
    rw [this]
  · rw [writeData_S16_eq]
    have : be16 ((-2 : Int) % 2 ^ 16).toNat = [0xFF, 0xFE] := by decide
    rw [this]

theorem advance_end (b : Buffer) (data : List Byte) (n : Nat) :
    ({ b with m_bytes := b.m_bytes ++ data } : Buffer).advance n =
      ⟨b.m_bytes ++ data, b.m_read + n⟩ := rfl

/-- C19. Typed write and read round trip. Let the cursor of `b` stand at
the end of its bytes. For every value of `S8`, `S16`, `S32`, `U8`, `U16`, `U32` (a
bit pattern of its width) and every string shorter than `2 ^ 32` bytes,
`writeData<T>` on a host of either byte order followed by `readData<T>` on a
host of either byte order returns the value written, whatever the variable
read into held before; the cursor has advanced by the number of bytes written
(1, 2, 4, or 4 plus the length of the string) and stands at the end of the
buffer again. -/
theorem write_read_roundtrip (hostW hostR : Host) (b : Buffer) (init : Nat)
    (x8 : U8) (x16 : U16) (x32 : U32) (s : Str)
    (hb : b.m_read = b.m_bytes.length) (hs : s.length < 2 ^ 32) :
    ((b.writeData_S8 x8.val).readData_S8 hostR init =
        (x8.val, ⟨(b.writeData_S8 x8.val).m_bytes, b.m_read + 1⟩) ∧
      (b.writeData_U8 x8.val).readData_U8 hostR init =
        (x8.val, ⟨(b.writeData_U8 x8.val).m_bytes, b.m_read + 1⟩) ∧
      (b.writeData_S8 x8.val).m_bytes.length = b.m_read + 1 ∧
      (b.writeData_U8 x8.val).m_bytes.length = b.m_read + 1) ∧
    ((b.writeData_S16 hostW x16.val).readData_S16 hostR init =
        (x16.val, ⟨(b.writeData_S16 hostW x16.val).m_bytes, b.m_read + 2⟩) ∧
      (b.writeData_U16 hostW x16.val).readData_U16 hostR init =
        (x16.val, ⟨(b.writeData_U16 hostW x16.val).m_bytes, b.m_read + 2⟩) ∧
      (b.writeData_S16 hostW x16.val).m_bytes.length = b.m_read + 2 ∧
      (b.writeData_U16 hostW x16.val).m_bytes.length = b.m_read + 2) ∧
    ((b.writeData_S32 hostW x32.val).readData_S32 hostR init =
        (x32.val, ⟨(b.writeData_S32 hostW x32.val).m_bytes, b.m_read + 4⟩) ∧
      (b.writeData_U32 hostW x32.val).readData_U32 hostR init =
        (x32.val, ⟨(b.writeData_U32 hostW x32.val).m_bytes, b.m_read + 4⟩) ∧
      (b.writeData_S32 hostW x32.val).m_bytes.length = b.m_read + 4 ∧
      (b.writeData_U32 hostW x32.val).m_bytes.length = b.m_read + 4) ∧
    ((b.writeData_String hostW s).readData_String hostR =
        (s, ⟨(b.writeData_String hostW s).m_bytes, b.m_read + (4 + s.length)⟩) ∧
      (b.writeData_String hostW s).m_bytes.length = b.m_read + (4 + s.length)) := by
  refine ⟨⟨?_, ?_, ?_, ?_⟩, ⟨?_, ?_, ?_, ?_⟩, ⟨?_, ?_, ?_, ?_⟩, ?_, ?_⟩
  · rw [writeData_S8_eq, U8_ofNat_val]
    exact readData_S8_rest hostR _ x8 init [] (rest_of_end b [x8] hb)
  · rw [writeData_U8_eq, U8_ofNat_val]
    exact readData_U8_rest hostR _ x8 init [] (rest_of_end b [x8] hb)
  · rw [writeData_S8_eq]; simp [hb]
  · rw [writeData_U8_eq]; simp [hb]
  · rw [writeData_S16_eq]
    exact readData_S16_rest hostR _ x16.val init [] x16.isLt (rest_of_end b _ hb)
  · rw [writeData_U16_eq]
    exact readData_U16_rest hostR _ x16.val init [] x16.isLt (rest_of_end b _ hb)
  · rw [writeData_S16_eq]; simp [hb, be16]
  · rw [writeData_U16_eq]; simp [hb, be16]
  · rw [writeData_S32_eq]
    exact readData_S32_rest hostR _ x32.val init [] x32.isLt (rest_of_end b _ hb)
  · rw [writeData_U32_eq]
    exact readData_U32_rest hostR _ x32.val init [] x32.isLt (rest_of_end b _ hb)
  · rw [writeData_S32_eq]; simp [hb, be32]
  · rw [writeData_U32_eq]; simp [hb, be32]
  · rw [writeData_String_eq]
    exact readData_String_rest hostR _ s [] hs (rest_of_end b _ hb)
  · rw [writeData_String_eq, encString_of_lt s hs]
    simp [hb, be32]
    omega

/-- C19, for the `S16` value -2 written on a little-endian host and read on a
big-endian one, and for a string written and read the other way round. -/
theorem write_read_roundtrip_witness :
    ((⟨[1, 2, 3], 3⟩ : Buffer).m_read = (⟨[1, 2, 3], 3⟩ : Buffer).m_bytes.length ∧
      (ascii "demo").length < 2 ^ 32) ∧
    ((⟨[1, 2, 3], 3⟩ : Buffer).writeData_S16 hostLE (0xFFFE : U16).val).readData_S16 hostBE 7 =
      ((0xFFFE : U16).val,
        ⟨((⟨[1, 2, 3], 3⟩ : Buffer).writeData_S16 hostLE (0xFFFE : U16).val).m_bytes, 3 + 2⟩) ∧
    ((⟨[1, 2, 3], 3⟩ : Buffer).writeData_String hostBE (ascii "demo")).readData_String hostLE =
      (ascii "demo",
        ⟨((⟨[1, 2, 3], 3⟩ : Buffer).writeData_String hostBE (ascii "demo")).m_bytes,
          3 + (4 + (ascii "demo").length)⟩) :=
  ⟨⟨rfl, by decide⟩,
   (write_read_roundtrip hostLE hostBE ⟨[1, 2, 3], 3⟩ 7 0 0xFFFE 0 (ascii "demo") rfl
      (by decide)).2.1.1,
   (write_read_roundtrip hostBE hostLE ⟨[1, 2, 3], 3⟩ 7 0 0 0 (ascii "demo") rfl
      (by decide)).2.2.2.1⟩

/-- C20. `Float` is bit-exact. With a `Float` given by its 32-bit pattern `f`,
on a host of either byte order `decodeFloat (encodeFloat (f))` is the pattern
`f`; `writeData<Float>` appends the four bytes of the pattern, most significant
first, and leaves the cursor; and when the cursor stood at the end of the
buffer, a following `readData<Float>`, on a host of either byte order, returns
the pattern `f` and moves the cursor by 4 to the end. This holds of every
pattern; a NaN with a payload (`0x7FC00001`), the pattern of all ones, `-0.0`
(`0x80000000`) and `+Infinity` (`0x7F800000`) are instances, written as
`7F C0 00 01`, `FF FF FF FF`, `80 00 00 00` and `7F 80 00 00`. -/
theorem float_bit_exact (host hostR : Host) (b : Buffer) (init : Nat) (f : U32) :
    decodeFloat host (encodeFloat host f.val) = f.val ∧
    b.writeData_Float host f.val =
      ⟨b.m_bytes ++ [U8.ofNat (f.val / 2 ^ 24), U8.ofNat (f.val / 2 ^ 16),
        U8.ofNat (f.val / 2 ^ 8), U8.ofNat f.val], b.m_read⟩ ∧
    (b.m_read = b.m_bytes.length →
      (b.writeData_Float host f.val).readData_Float hostR init =
        (f.val, ⟨(b.writeData_Float host f.val).m_bytes, b.m_read + 4⟩) ∧
      (b.writeData_Float host f.val).m_bytes.length = b.m_read + 4) ∧
    (b.writeData_Float host 0x7FC00001 = ⟨b.m_bytes ++ [0x7F, 0xC0, 0x00, 0x01], b.m_read⟩ ∧
      b.writeData_Float host 0xFFFFFFFF = ⟨b.m_bytes ++ [0xFF, 0xFF, 0xFF, 0xFF], b.m_read⟩ ∧
      b.writeData_Float host 0x80000000 = ⟨b.m_bytes ++ [0x80, 0x00, 0x00, 0x00], b.m_read⟩ ∧
      b.writeData_Float host 0x7F800000 = ⟨b.m_bytes ++ [0x7F, 0x80, 0x00, 0x00], b.m_read⟩) ∧
    (decodeFloat host (encodeFloat host 0x7FC00001) = 0x7FC00001 ∧
      decodeFloat host (encodeFloat host 0xFFFFFFFF) = 0xFFFFFFFF ∧
      decodeFloat host (encodeFloat host 0x80000000) = 0x80000000 ∧
      decodeFloat host (encodeFloat host 0x7F800000) = 0x7F800000) := by
  refine ⟨swapBytes_U32_twice host f.val f.isLt, ?_, ?_, ⟨?_, ?_, ?_, ?_⟩, ⟨?_, ?_, ?_, ?_⟩⟩
  · rw [writeData_Float_eq]; rfl
  · intro hb
    constructor
    · rw [writeData_Float_eq]
      exact readData_Float_rest hostR _ f.val init [] f.isLt (rest_of_end b _ hb)
    · rw [writeData_Float_eq]; simp [hb, be32]
  · rw [writeData_Float_eq]
    have : be32 0x7FC00001 = [0x7F, 0xC0, 0x00, 0x01] := by decide
    rw [this]
  · rw [writeData_Float_eq]
    have : be32 0xFFFFFFFF = [0xFF, 0xFF, 0xFF, 0xFF] := by decide
    rw [this]
  · rw [writeData_Float_eq]
    have : be32 0x80000000 = [0x80, 0x00, 0x00, 0x00] := by decide
    rw [this]
  · rw [writeData_Float_eq]
    have : be32 0x7F800000 = [0x7F, 0x80, 0x00, 0x00] := by decide
    rw [this]
  · exact swapBytes_U32_twice host _ (by decide)
  · exact swapBytes_U32_twice host _ (by decide)
  · exact swapBytes_U32_twice host _ (by decide)
  · exact swapBytes_U32_twice host _ (by decide)

/-- C20, for `-0.0` written on a little-endian host and read on a big-endian
one. -/
theorem float_bit_exact_witness :
    (⟨[9], 1⟩ : Buffer).m_read = (⟨[9], 1⟩ : Buffer).m_bytes.length ∧
    ((⟨[9], 1⟩ : Buffer).writeData_Float hostLE (0x80000000 : U32).val).readData_Float hostBE 5 =
      ((0x80000000 : U32).val,
        ⟨((⟨[9], 1⟩ : Buffer).writeData_Float hostLE (0x80000000 : U32).val).m_bytes, 1 + 4⟩) :=
  ⟨rfl, ((float_bit_exact hostLE hostBE ⟨[9], 1⟩ 5 0x80000000).2.2.1 rfl).1⟩

/-! ## Claims C21 to C23: the layout of strings and entries -/

theorem be32_mod (n : Nat) : be32 (n % 2 ^ 32) = be32 n := by
  simp only [be32, List.cons.injEq, U8_ofNat_eq, and_true]
  refine ⟨?_, ?_, ?_, ?_⟩ <;> omega

/-- C21. The encoding of strings. For every string `s` shorter than `2 ^ 32`
bytes, on every host, `writeData<String>` appends the four bytes of the length
of `s`, most significant first, followed by the bytes of `s` and nothing else:
`4 + |s|` bytes. The four bytes spell the length. For the empty string the
bytes appended are `00 00 00 00`. The bytes that were in the buffer and the
read cursor are left as they are. -/
theorem writeData_String_layout (host : Host) (b : Buffer) (s : Str) (hs : s.length < 2 ^ 32) :
    b.writeData_String host s =
      ⟨b.m_bytes ++ ([U8.ofNat (s.length / 2 ^ 24), U8.ofNat (s.length / 2 ^ 16),
        U8.ofNat (s.length / 2 ^ 8), U8.ofNat s.length] ++ s), b.m_read⟩ ∧
    (U8.ofNat (s.length / 2 ^ 24)).val * 2 ^ 24 + (U8.ofNat (s.length / 2 ^ 16)).val * 2 ^ 16
      + (U8.ofNat (s.length / 2 ^ 8)).val * 2 ^ 8 + (U8.ofNat s.length).val = s.length ∧
    (b.writeData_String host s).m_bytes.length = b.m_bytes.length + (4 + s.length) ∧
    (b.writeData_String host s).m_bytes.take b.m_bytes.length = b.m_bytes ∧
    (b.writeData_String host s).m_read = b.m_read ∧
    b.writeData_String host [] = ⟨b.m_bytes ++ [0x00, 0x00, 0x00, 0x00], b.m_read⟩ := by
  have e : b.writeData_String host s = ⟨b.m_bytes ++ (be32 s.length ++ s), b.m_read⟩ := by
    rw [writeData_String_eq, encString_of_lt s hs]
  refine ⟨?_, be32_val _ hs, ?_, ?_, ?_, ?_⟩
  · rw [e]; rfl
  · rw [e]; simp [be32]; omega
  · rw [e]; simp
  · rw [e]
  · rw [writeData_String_eq]; rfl

/-- C21, for the string `"demo"` appended to a buffer of three bytes. -/
theorem writeData_String_layout_witness :
    (ascii "demo").length < 2 ^ 32 ∧
    (⟨[1, 2, 3], 1⟩ : Buffer).writeData_String hostLE (ascii "demo") =
      ⟨[1, 2, 3] ++ ([U8.ofNat ((ascii "demo").length / 2 ^ 24),
        U8.ofNat ((ascii "demo").length / 2 ^ 16), U8.ofNat ((ascii "demo").length / 2 ^ 8),
        U8.ofNat (ascii "demo").length] ++ ascii "demo"), 1⟩ ∧
    [1, 2, 3] ++ ([U8.ofNat ((ascii "demo").length / 2 ^ 24),
        U8.ofNat ((ascii "demo").length / 2 ^ 16), U8.ofNat ((ascii "demo").length / 2 ^ 8),
        U8.ofNat (ascii "demo").length] ++ ascii "demo") =
      [1, 2, 3, 0, 0, 0, 4, 0x64, 0x65, 0x6D, 0x6F] :=
  ⟨by decide,
   (writeData_String_layout hostLE ⟨[1, 2, 3], 1⟩ (ascii "demo") (by decide)).1,
   by decide⟩

/-- C22, at the failing input: the buffer holds `00 00 00 05 41 42` and the
cursor is at 0, so the length prefix announces 5 bytes and 2 follow.
`readData<String>` moves the cursor to 9, past the 6 bytes of the buffer, and
returns a string of 5 bytes, the last 3 of which were read from beyond the
byte array (zeros on `hostLE`, the index on `hostBE`). With fewer than 4 bytes
left the same call, like `readData<U32>` and `readRaw`, leaves the cursor
where it was. -/
theorem readData_String_overruns :
    (⟨[0, 0, 0, 5, 0x41, 0x42], 0⟩ : Buffer).readData_String hostLE =
      ([0x41, 0x42, 0, 0, 0], ⟨[0, 0, 0, 5, 0x41, 0x42], 9⟩) ∧
    (⟨[0, 0, 0, 5, 0x41, 0x42], 0⟩ : Buffer).readData_String hostBE =
      ([0x41, 0x42, 6, 7, 8], ⟨[0, 0, 0, 5, 0x41, 0x42], 9⟩) ∧
    (⟨[0, 0, 0, 5, 0x41, 0x42], 0⟩ : Buffer).canRead (4 + 5) = false ∧
    (⟨[0, 0, 5], 0⟩ : Buffer).readData_String hostLE = ([], ⟨[0, 0, 5], 0⟩) ∧
    (⟨[0, 0, 5], 0⟩ : Buffer).readData_U32 hostLE 7 = (7, ⟨[0, 0, 5], 0⟩) ∧
    (⟨[0, 0, 5], 0⟩ : Buffer).readRaw hostLE 4 = (none, ⟨[0, 0, 5], 0⟩) := by
  decide

/-- C23. The binary layout of an entry. On every host `Entry<T>::serialize`
appends, in this order, the bytes `9E 70 81 99`, the encoding of the name as
`writeData<String>` writes it, one tag byte and the encoding of the value, and
leaves the cursor. For a name shorter than `2 ^ 32` bytes the encoding of the
name is the four bytes of its length, most significant first, and its bytes.
The value is encoded by 1 byte (`S8`, `U8`), 2 bytes (`S16`, `U16`) or 4 bytes
(`S32`, `U32`, `Float`), most significant first, or as a length-prefixed
string. The tag byte is 1 for `S8`, 2 for `S16`, 3 for `S32`, 4 for `U8`, 5 for
`U16`, 6 for `U32`, 7 for `Float` and 8 for `String`: distinct types have
distinct tags and no type has the tag 0 of `Unknown`. -/
theorem entry_layout (host : Host) (b : Buffer) (e : Entry) :
    e.serialize host b =
      ⟨b.m_bytes ++ ([0x9E, 0x70, 0x81, 0x99] ++ encString e.m_name ++
        [U8.ofNat e.m_data.type.Alias] ++ encValue e.m_data), b.m_read⟩ ∧
    (e.m_name.length < 2 ^ 32 →
      encString e.m_name =
        [U8.ofNat (e.m_name.length / 2 ^ 24), U8.ofNat (e.m_name.length / 2 ^ 16),
          U8.ofNat (e.m_name.length / 2 ^ 8), U8.ofNat e.m_name.length] ++ e.m_name) ∧
    ((∀ x : U8, encValue (Value.s8 x) = [x]) ∧ (∀ x : U8, encValue (Value.u8 x) = [x]) ∧
      (∀ x : U16, encValue (Value.s16 x) = [U8.ofNat (x.val / 2 ^ 8), U8.ofNat x.val]) ∧
      (∀ x : U16, encValue (Value.u16 x) = [U8.ofNat (x.val / 2 ^ 8), U8.ofNat x.val]) ∧
      (∀ x : U32, encValue (Value.s32 x) = [U8.ofNat (x.val / 2 ^ 24),
        U8.ofNat (x.val / 2 ^ 16), U8.ofNat (x.val / 2 ^ 8), U8.ofNat x.val]) ∧
      (∀ x : U32, encValue (Value.u32 x) = [U8.ofNat (x.val / 2 ^ 24),
        U8.ofNat (x.val / 2 ^ 16), U8.ofNat (x.val / 2 ^ 8), U8.ofNat x.val]) ∧
      (∀ x : U32, encValue (Value.float x) = [U8.ofNat (x.val / 2 ^ 24),
        U8.ofNat (x.val / 2 ^ 16), U8.ofNat (x.val / 2 ^ 8), U8.ofNat x.val]) ∧
      (∀ s : Str, encValue (Value.string s) = encString s) ∧
      (∀ s : Str, s.length < 2 ^ 32 →
        encString s = [U8.ofNat (s.length / 2 ^ 24), U8.ofNat (s.length / 2 ^ 16),
          U8.ofNat (s.length / 2 ^ 8), U8.ofNat s.length] ++ s) ∧
      ∀ v : Value, b.writeValue host v = ⟨b.m_bytes ++ encValue v, b.m_read⟩) ∧
    ((U8.ofNat Datatype.S8.Alias = 1 ∧ U8.ofNat Datatype.S16.Alias = 2 ∧
        U8.ofNat Datatype.S32.Alias = 3 ∧ U8.ofNat Datatype.U8.Alias = 4 ∧
        U8.ofNat Datatype.U16.Alias = 5 ∧ U8.ofNat Datatype.U32.Alias = 6 ∧
        U8.ofNat Datatype.Float.Alias = 7 ∧ U8.ofNat Datatype.String.Alias = 8) ∧
      (∀ T U : Datatype, U8.ofNat T.Alias = U8.ofNat U.Alias → T = U) ∧
      (∀ T : Datatype, U8.ofNat T.Alias ≠ U8.ofNat Datatypes.Unknown) ∧
      U8.ofNat Datatypes.Unknown = 0) := by
  refine ⟨?_, fun h => encString_of_lt _ h, ⟨fun _ => rfl, fun _ => rfl, fun _ => rfl,
    fun _ => rfl, fun _ => rfl, fun _ => rfl, fun _ => rfl, fun _ => rfl,
    fun s h => encString_of_lt s h, fun v => writeValue_eq host b v⟩,
    ⟨by decide, ?_, ?_, by decide⟩⟩
  · rw [entry_serialize_eq]
    have : be32 G_ENTRY_HEADER = [0x9E, 0x70, 0x81, 0x99] := by decide
    simp [encEntry, encEntryBody, this, Entry.getAlias]
  · intro T U h
    cases T <;> cases U <;> first | rfl | (exact absurd h (by decide))
  · intro T
    cases T <;> decide

/-- C23, for the `S16` entry `"x"` with the value -2. -/
theorem entry_layout_witness :
    (ascii "x").length < 2 ^ 32 ∧
    (Entry.serialize hostLE ⟨ascii "x", Value.s16 0xFFFE⟩ Buffer.empty).m_bytes =
      [0x9E, 0x70, 0x81, 0x99, 0, 0, 0, 1, 0x78, 2, 0xFF, 0xFE] ∧
    encString (ascii "x") =
      [U8.ofNat ((ascii "x").length / 2 ^ 24), U8.ofNat ((ascii "x").length / 2 ^ 16),
        U8.ofNat ((ascii "x").length / 2 ^ 8), U8.ofNat (ascii "x").length] ++ ascii "x" :=
  ⟨by decide, by decide,
   (entry_layout hostLE Buffer.empty ⟨ascii "x", Value.s16 0xFFFE⟩).2.1 (by decide)⟩

/-! ## Claim C24: the encoding of a key -/

theorem be32_count (a c : Nat) : be32 ((a % 2 ^ 32 + c % 2 ^ 32) % 2 ^ 32) = be32 (a + c) := by
  rw [← Nat.add_mod, be32_mod]

mutual
/-- The bytes `Key::serialize` appends are the reference encoding. -/
theorem encKey_eq_enc : ∀ k : Key, encKey k = enc k
  | ⟨n, i, es, ks⟩ => by
    unfold encKey enc
    have hk : be32 G_KEY_HEADER = [0x9E, 0x70, 0x81, 0x9E] := by decide
    rw [encKeys_eq_encList ks, be32_count, hk]
    have e1 : ascii "null" = nullName := rfl
    have e2 : ascii "root" = rootName := rfl
    rw [e1, e2]
    by_cases h1 : n = nullName
    · rw [if_pos h1, if_pos h1]
    · rw [if_neg h1, if_neg h1]
      by_cases h2 : n = rootName
      · rw [if_pos h2, if_neg (not_not.mpr h2)]
        simp
      · rw [if_neg h2, if_pos h2]
theorem encKeys_eq_encList : ∀ ks : List Key, encKeys ks = encList ks
  | [] => by simp [encKeys, encList]
  | k :: ks => by
    unfold encKeys encList
    rw [encKey_eq_enc k, encKeys_eq_encList ks]
end

mutual
theorem enc_eraseIds : ∀ k : Key, enc k.eraseIds = enc k
  | ⟨n, i, es, ks⟩ => by
    unfold Key.eraseIds enc
    rw [encList_eraseIds ks, length_eraseIdsList ks]
theorem encList_eraseIds : ∀ ks : List Key, encList (Key.eraseIdsList ks) = encList ks
  | [] => by simp [Key.eraseIdsList, encList]
  | k :: ks => by
    unfold Key.eraseIdsList encList
    rw [enc_eraseIds k, encList_eraseIds ks]
theorem length_eraseIdsList : ∀ ks : List Key, (Key.eraseIdsList ks).length = ks.length
  | [] => by simp [Key.eraseIdsList]
  | k :: ks => by
    unfold Key.eraseIdsList
    simp [length_eraseIdsList ks]
end

/-- C24. The serialization of a key is the reference encoding. On every host
and for every key `K`, `Key::serialize` appends exactly `enc (K)` to the bytes
of the buffer and leaves the cursor, where: a key named `"null"` contributes no
bytes; for a key named `"root"`, `enc` is the count, the entry encodings in
list order and `enc` of each direct subkey in list order; for any other key it
is `9E 70 81 9E`, the name as `writeData<String>` writes it, and then the same.
The count is the four bytes, most significant first, of the number of entries
plus the number of direct subkeys (reduced modulo `2 ^ 32`, as four bytes are).
`enc` does not look at instance ids: two trees that differ in instance ids
only serialize to the same bytes. `serialize` returns the buffer only: it
assigns no member of the tree. -/
theorem serialize_eq_enc (host : Host) (b : Buffer) (K : Key) :
    Key.serialize host K b = ⟨b.m_bytes ++ enc K, b.m_read⟩ ∧
    (∀ (i : Nat) (es : List Entry) (ks : List Key), enc ⟨ascii "null", i, es, ks⟩ = []) ∧
    (∀ (i : Nat) (es : List Entry) (ks : List Key),
      enc ⟨ascii "root", i, es, ks⟩ =
        be32 (es.length + ks.length) ++ (es.map encEntry).flatten ++ (ks.map enc).flatten) ∧
    (∀ (n : Str) (i : Nat) (es : List Entry) (ks : List Key),
      n ≠ ascii "null" → n ≠ ascii "root" →
      enc ⟨n, i, es, ks⟩ =
        [0x9E, 0x70, 0x81, 0x9E] ++ encString n ++ be32 (es.length + ks.length) ++
          (es.map encEntry).flatten ++ (ks.map enc).flatten) ∧
    (∀ e : Entry, ∀ b2 : Buffer, e.serialize host b2 = ⟨b2.m_bytes ++ encEntry e, b2.m_read⟩) ∧
    (∀ n : Nat, be32 n = [U8.ofNat (n / 2 ^ 24), U8.ofNat (n / 2 ^ 16), U8.ofNat (n / 2 ^ 8),
      U8.ofNat n]) ∧
    enc K.eraseIds = enc K ∧
    (∀ K2 : Key, K2.eraseIds = K.eraseIds → Key.serialize host K2 b = Key.serialize host K b) := by
  have hl : ∀ ks : List Key, encList ks = (ks.map enc).flatten := by
    intro ks
    induction ks with
    | nil => simp [encList]
    | cons k ks ih => simp [encList, ih]
  have hser : ∀ k : Key, Key.serialize host k b = ⟨b.m_bytes ++ enc k, b.m_read⟩ := by
    intro k
    rw [key_serialize_eq, encKey_eq_enc]
  refine ⟨hser K, ?_, ?_, ?_, fun e b2 => entry_serialize_eq host e b2, fun _ => rfl,
    enc_eraseIds K, ?_⟩
  · intro i es ks
    simp [enc]
  · intro i es ks
    have h : ¬ ascii "root" = ascii "null" := by decide
    rw [← hl]
    simp [enc, h]
  · intro n i es ks h1 h2
    rw [← hl]
    simp [enc, h1, h2]
  · intro K2 h
    rw [hser K2, hser K, ← enc_eraseIds K2, ← enc_eraseIds K, h]

/-- C24, for two trees that differ in instance ids only. -/
theorem serialize_eq_enc_witness :
    (⟨rootName, 0, [], [⟨ascii "A", 7, [], []⟩, ⟨ascii "A", 3, [], []⟩]⟩ : Key).eraseIds =
      (⟨rootName, 0, [], [⟨ascii "A", 0, [], []⟩, ⟨ascii "A", 1, [], []⟩]⟩ : Key).eraseIds ∧
    Key.serialize hostLE ⟨rootName, 0, [], [⟨ascii "A", 7, [], []⟩, ⟨ascii "A", 3, [], []⟩]⟩
        Buffer.empty =
      Key.serialize hostLE ⟨rootName, 0, [], [⟨ascii "A", 0, [], []⟩, ⟨ascii "A", 1, [], []⟩]⟩
        Buffer.empty ∧
    (Key.serialize hostLE ⟨rootName, 0, [], [⟨ascii "A", 0, [], []⟩, ⟨ascii "A", 1, [], []⟩]⟩
        Buffer.empty).m_bytes =
      [0, 0, 0, 2, 0x9E, 0x70, 0x81, 0x9E, 0, 0, 0, 1, 0x41, 0, 0, 0, 0,
        0x9E, 0x70, 0x81, 0x9E, 0, 0, 0, 1, 0x41, 0, 0, 0, 0] :=
  ⟨by decide,
   (serialize_eq_enc hostLE Buffer.empty
      ⟨rootName, 0, [], [⟨ascii "A", 0, [], []⟩, ⟨ascii "A", 1, [], []⟩]⟩).2.2.2.2.2.2.2
      ⟨rootName, 0, [], [⟨ascii "A", 7, [], []⟩, ⟨ascii "A", 3, [], []⟩]⟩ (by decide),
   by decide⟩

/-! ## The result of decoding does not depend on the nesting bound -/

theorem decodeLoop_mono (next1 next2 : Key → Buffer → Option (Bool × Key × Buffer))
    (h : ∀ k b r, next1 k b = some r → next2 k b = some r)
    (n : Nat) (k : Key) (b : Buffer) (r : Bool × Key × Buffer)
    (hr : decodeLoop next1 n k b = some r) : decodeLoop next2 n k b = some r := by
  induction n generalizing k b with
  | zero => exact hr
  | succ n ih =>
    simp only [decodeLoop] at hr ⊢
    cases h1 : next1 k b with
    | none => simp [h1] at hr
    | some x =>
      obtain ⟨ok, k1, b1⟩ := x
      rw [h k b _ h1]
      rw [h1] at hr
      cases ok with
      | false => exact hr
      | true => exact ih k1 b1 hr

theorem deserializeKey_mono (host : Host)
    (next1 next2 : Key → Buffer → Option (Bool × Key × Buffer))
    (h : ∀ k b r, next1 k b = some r → next2 k b = some r)
    (k : Key) (b : Buffer) (r : Bool × Key × Buffer)
    (hr : k.deserializeKey host next1 b = some r) : k.deserializeKey host next2 b = some r := by
  unfold Key.deserializeKey at hr ⊢
  simp only at hr ⊢
  split
  · rename_i hn
    simpa [hn] using hr
  · rename_i hn
    simp only [hn, if_false] at hr
    split
    · rename_i hnull
      simpa [hnull] using hr
    · rename_i hnull
      simp only [hnull] at hr
      cases hl : decodeLoop next1 ((b.readData_String host).2.readData_U32 host 0).1
          ((k.addKey (b.readData_String host).1).1.deref (k.addKey (b.readData_String host).1).2)
          ((b.readData_String host).2.readData_U32 host 0).2 with
      | none => simp [hl] at hr
      | some x =>
        rw [decodeLoop_mono next1 next2 h _ _ _ _ hl]
        rw [hl] at hr
        exact hr

theorem deserializeNext_mono (host : Host) (d : Nat) (k : Key) (b : Buffer)
    (r : Bool × Key × Buffer) (hr : Key.deserializeNext host d k b = some r) :
    Key.deserializeNext host (d + 1) k b = some r := by
  induction d generalizing k b r with
  | zero => simp [Key.deserializeNext] at hr
  | succ d ih =>
    rw [deserializeNext_succ] at hr ⊢
    split
    · rename_i h1
      simpa [h1] using hr
    · rename_i h1
      simp only [h1, if_false] at hr
      split
      · rename_i h2
        simp only [h2, if_true] at hr
        exact deserializeKey_mono host _ _ (fun k0 b0 r0 h0 => ih k0 b0 r0 h0) k _ r hr
      · rename_i h2
        simpa [h2] using hr

theorem deserializeNext_le (host : Host) (d d2 : Nat) (hd : d ≤ d2) (k : Key) (b : Buffer)
    (r : Bool × Key × Buffer) (hr : Key.deserializeNext host d k b = some r) :
    Key.deserializeNext host d2 k b = some r := by
  induction d2 with
  | zero =>
    have : d = 0 := by omega
    subst this
    exact hr
  | succ d2 ih =>
    by_cases h : d = d2 + 1
    · subst h; exact hr
    · exact deserializeNext_mono host d2 k b r (ih (by omega))

/-- The total decoder is defined: its bound gives a result. -/
theorem deserializeNextTotal_some (host : Host) (k : Key) (b : Buffer) :
    Key.deserializeNext host (b.m_bytes.length + 1) k b
      = some (Key.deserializeNextTotal host k b) := by
  obtain ⟨r, hr, _⟩ := deserializeNext_isSome host b.m_bytes.length k b (by omega)
  simp [Key.deserializeNextTotal, hr]

/-- Whatever bound the call returns under, it returns the result of the total
decoder. -/
theorem deserializeNext_total (host : Host) (d : Nat) (k : Key) (b : Buffer)
    (r : Bool × Key × Buffer) (hr : Key.deserializeNext host d k b = some r) :
    Key.deserializeNextTotal host k b = r := by
  have h1 := deserializeNext_le host d (max d (b.m_bytes.length + 1)) (Nat.le_max_left _ _) k b r hr
  have h2 := deserializeNext_le host (b.m_bytes.length + 1) (max d (b.m_bytes.length + 1))
    (Nat.le_max_right _ _) k b _ (deserializeNextTotal_some host k b)
  rw [h1] at h2
  exact (Option.some.inj h2).symm

/-- The loop over a bounded decoder, when it returns, returns what the loop
over the total decoder returns. -/
theorem decodeLoop_total (host : Host) (d n : Nat) (k : Key) (b : Buffer)
    (r : Bool × Key × Buffer) (hr : decodeLoop (Key.deserializeNext host d) n k b = some r) :
    decodeLoop (fun k b => some (Key.deserializeNextTotal host k b)) n k b = some r :=
  decodeLoop_mono _ _
    (fun k0 b0 r0 h0 => by rw [deserializeNext_total host d k0 b0 r0 h0]) n k b r hr

/-- The equation of `Key::deserializeNext`, without bound. -/
theorem deserializeNextTotal_eq (host : Host) (k : Key) (b : Buffer) :
    some (Key.deserializeNextTotal host k b) =
      if (b.readData_U32 host 0).1 = G_ENTRY_HEADER then
        some (k.deserializeEntry host (b.readData_U32 host 0).2)
      else if (b.readData_U32 host 0).1 = G_KEY_HEADER then
        k.deserializeKey host (fun k b => some (Key.deserializeNextTotal host k b))
          (b.readData_U32 host 0).2
      else some (false, k, (b.readData_U32 host 0).2) := by
  have h := deserializeNextTotal_some host k b
  rw [deserializeNext_succ] at h
  split
  · rename_i h1
    rw [if_pos h1] at h
    exact h.symm
  · rename_i h1
    rw [if_neg h1] at h
    split
    · rename_i h2
      rw [if_pos h2] at h
      exact (deserializeKey_mono host _ _
        (fun k0 b0 r0 h0 => by rw [deserializeNext_total host _ k0 b0 r0 h0]) k _ _ h).symm
    · rename_i h2
      rw [if_neg h2] at h
      exact h.symm

/-- The loop of `Registry::loadFromBuffer`, without bound. -/
theorem loadFromBuffer_total (host : Host) (R : Key) (a_buffer : Buffer) (a_append : Bool) :
    ∃ r, decodeLoop (fun k b => some (Key.deserializeNextTotal host k b))
        (a_buffer.readData_U32 host 0).1
        (if a_append = false then { R with m_entries := [], m_keys := [] } else R)
        (a_buffer.readData_U32 host 0).2 = some r ∧
      Registry.loadFromBuffer host R a_buffer a_append =
        (if r.1 = true then Status.OK else Status.FileParseError, r.2.1, r.2.2) := by
  obtain ⟨r, hr⟩ := loadFromBuffer_loop_isSome host
    (if a_append = false then { R with m_entries := [], m_keys := [] } else R)
    (a_buffer.readData_U32 host 0).2 (a_buffer.readData_U32 host 0).1
  refine ⟨r, decodeLoop_total host _ _ _ _ r hr, ?_⟩
  unfold Registry.loadFromBuffer
  simp only [hr]
  obtain ⟨ok, k1, b1⟩ := r
  cases ok <;> simp

/-! ## A failure of `deserializeNext` ends the load -/

theorem decodeLoop_prefix_fail (next : Key → Buffer → Option (Bool × Key × Buffer))
    (i n : Nat) (k ki kf : Key) (b bi bf : Buffer) (hi : i < n)
    (h1 : decodeLoop next i k b = some (true, ki, bi))
    (h2 : next ki bi = some (false, kf, bf)) :
    decodeLoop next n k b = some (false, kf, bf) := by
  induction i generalizing k b n with
  | zero =>
    simp only [decodeLoop, Option.some.injEq, Prod.mk.injEq, true_and] at h1
    obtain ⟨rfl, rfl⟩ := h1
    obtain ⟨m, rfl⟩ : ∃ m, n = m + 1 := ⟨n - 1, by omega⟩
    simp [decodeLoop, h2]
  | succ i ih =>
    obtain ⟨m, rfl⟩ : ∃ m, n = m + 1 := ⟨n - 1, by omega⟩
    simp only [decodeLoop] at h1 ⊢
    cases hn : next k b with
    | none => simp [hn] at h1
    | some x =>
      obtain ⟨ok, k1, b1⟩ := x
      rw [hn] at h1
      cases ok with
      | false => simp at h1
      | true => exact ih m k1 b1 (by omega) h1

/-- The call `addKey` with a name that is not empty and not reserved: the
subkeys named so are renumbered, and a subkey without content is appended. -/
theorem addKey_valid (k : Key) (n : Str) (h1 : n ≠ []) (h2 : n ≠ rootName) (h3 : n ≠ nullName) :
    k.addKey n =
      ({ k with m_keys := (getInstanceCountLoop n k.m_keys 0).1 ++
          [Key.new n (k.m_keys.countP (fun c => decide (c.m_name = n)))] },
        KeyRef.sub k.m_keys.length) := by
  have hc : (getInstanceCountLoop n k.m_keys 0).2
      = k.m_keys.countP (fun c => decide (c.m_name = n)) := by
    rw [loop_count]; omega
  simp [Key.addKey, h1, h2, h3, Key.getInstanceCount, hc, loop_length]

theorem deserializeKey_reject (host : Host) (next : Key → Buffer → Option (Bool × Key × Buffer))
    (k : Key) (b : Buffer)
    (h : (b.readData_String host).1 = [] ∨ (b.readData_String host).1 = rootName ∨
      (b.readData_String host).1 = nullName) :
    k.deserializeKey host next b =
      some (false, k, ((b.readData_String host).2.readData_U32 host 0).2) := by
  unfold Key.deserializeKey
  simp only
  by_cases h1 : (b.readData_String host).1 = []
  · simp [h1]
  · have h2 : (b.readData_String host).1 = rootName ∨ (b.readData_String host).1 = nullName := by
      rcases h with h | h
      · exact absurd h h1
      · exact h
    simp [h1, Key.addKey, h2, Key.deref, Key.isNull, Key.s_null, Key.new]

theorem deserializeKey_accept (host : Host) (next : Key → Buffer → Option (Bool × Key × Buffer))
    (k : Key) (b : Buffer)
    (h1 : (b.readData_String host).1 ≠ []) (h2 : (b.readData_String host).1 ≠ rootName)
    (h3 : (b.readData_String host).1 ≠ nullName) :
    k.deserializeKey host next b =
      (decodeLoop next ((b.readData_String host).2.readData_U32 host 0).1
        (Key.new (b.readData_String host).1
          (k.m_keys.countP (fun c => decide (c.m_name = (b.readData_String host).1))))
        ((b.readData_String host).2.readData_U32 host 0).2).map
        (fun r => (r.1,
          { k with m_keys :=
              (getInstanceCountLoop (b.readData_String host).1 k.m_keys 0).1 ++ [r.2.1] },
          r.2.2)) := by
  unfold Key.deserializeKey
  simp only
  rw [addKey_valid k _ h1 h2 h3]
  have hl : (getInstanceCountLoop (b.readData_String host).1 k.m_keys 0).1.length
      = k.m_keys.length := loop_length _ _ _
  have hd : ({ k with m_keys := (getInstanceCountLoop (b.readData_String host).1 k.m_keys 0).1 ++
      [Key.new (b.readData_String host).1
        (k.m_keys.countP (fun c => decide (c.m_name = (b.readData_String host).1)))] } : Key).deref
      (KeyRef.sub k.m_keys.length) =
      Key.new (b.readData_String host).1
        (k.m_keys.countP (fun c => decide (c.m_name = (b.readData_String host).1))) := by
    simp only [Key.deref]
    rw [← hl]
    simp [List.getD_eq_getElem?_getD]
  simp only [h1, if_false, hd]
  have hnn : (Key.new (b.readData_String host).1
      (k.m_keys.countP (fun c => decide (c.m_name = (b.readData_String host).1)))).isNull
      = false := by
    simp [Key.isNull, Key.new, h3]
  simp only [hnn, Bool.false_eq_true, if_false]
  cases hdl : decodeLoop next ((b.readData_String host).2.readData_U32 host 0).1
      (Key.new (b.readData_String host).1
        (k.m_keys.countP (fun c => decide (c.m_name = (b.readData_String host).1))))
      ((b.readData_String host).2.readData_U32 host 0).2 with
  | none => rfl
  | some r =>
    obtain ⟨ok, k1, b1⟩ := r
    simp only [Option.map_some', Key.assign]
    rw [← hl, modifyNth_append_length]

theorem deserializeNextTotal_key (host : Host) (k : Key) (b b1 : Buffer)
    (h : b.readData_U32 host 0 = (G_KEY_HEADER, b1)) :
    k.deserializeKey host (fun k b => some (Key.deserializeNextTotal host k b)) b1 =
      some (Key.deserializeNextTotal host k b) := by
  have e := deserializeNextTotal_eq host k b
  rw [h] at e
  have h1 : ¬ G_KEY_HEADER = G_ENTRY_HEADER := by decide
  simp only [h1, if_false, if_true] at e
  exact e.symm

/-- When a call of `deserializeNext` made in a loop, directly or in a nested
loop, returns false, the loop stops and its last call has returned false. -/
theorem loopCalls_fail (host : Host) (n : Nat) (k0 : Key) (b0 : Buffer) (k : Key) (b : Buffer)
    (hc : Key.LoopCalls host n k0 b0 k b)
    (hf : (Key.deserializeNextTotal host k b).1 = false) :
    ∃ kf bf, decodeLoop (fun k b => some (Key.deserializeNextTotal host k b)) n k0 b0
      = some (false, kf, bf) := by
  induction hc with
  | iter n k0 b0 i ki bi hi hloop =>
    refine ⟨(Key.deserializeNextTotal host ki bi).2.1, (Key.deserializeNextTotal host ki bi).2.2,
      decodeLoop_prefix_fail _ i n k0 ki _ b0 bi _ hi hloop ?_⟩
    rw [← hf]
  | nested n k0 b0 k b b1 b2 b3 l_name l_entityCount k4 b4 _ hh hname hcount h1 h2 h3 _
      ih_outer ih_inner =>
    apply ih_outer
    obtain ⟨kf, bf, hin⟩ := ih_inner hf
    have hk := deserializeNextTotal_key host k b b1 hh
    have e1 : (b1.readData_String host).1 = l_name := by rw [hname]
    have e2 : (b1.readData_String host).2 = b2 := by rw [hname]
    rw [deserializeKey_accept host _ k b1 (by rw [e1]; exact h1) (by rw [e1]; exact h2)
      (by rw [e1]; exact h3), e1, e2, hcount] at hk
    simp only [hin, Option.map_some', Option.some.injEq] at hk
    rw [← hk]

/-- A failing call in a loop of `Registry::loadFromBuffer` makes the status
`FileParseError`. -/
theorem loadFromBuffer_fail (host : Host) (R : Key) (a_buffer : Buffer) (a_append : Bool)
    (k : Key) (b : Buffer)
    (hc : Key.LoopCalls host (a_buffer.readData_U32 host 0).1
      (if a_append = false then { R with m_entries := [], m_keys := [] } else R)
      (a_buffer.readData_U32 host 0).2 k b)
    (hf : (Key.deserializeNextTotal host k b).1 = false) :
    (Registry.loadFromBuffer host R a_buffer a_append).1 = Status.FileParseError := by
  obtain ⟨kf, bf, hfail⟩ := loopCalls_fail host _ _ _ k b hc hf
  obtain ⟨r, hr, hl⟩ := loadFromBuffer_total host R a_buffer a_append
  rw [hfail] at hr
  cases hr
  rw [hl]
  simp

theorem readData_U32_value (host : Host) (b : Buffer) (init : Nat) (a0 a1 a2 a3 : Byte)
    (tl : List Byte) (h : b.rest = a0 :: a1 :: a2 :: a3 :: tl) :
    b.readData_U32 host init =
      (a0.val * 2 ^ 24 + a1.val * 2 ^ 16 + a2.val * 2 ^ 8 + a3.val, b.advance 4) := by
  have hc : b.canRead 4 = true := canRead_of_rest b 4 (by decide) (by simp [h])
  obtain ⟨p0, p1, p2, p3⟩ := peek4 host b a0 a1 a2 a3 tl h
  simp only [Buffer.readData_U32, hc, if_true, p0, p1, p2, p3, swap_word32]
  rfl

theorem readData_U32_short (host : Host) (b : Buffer) (init : Nat) (h : b.rest.length < 4) :
    b.readData_U32 host init = (init, b) := by
  apply readData_U32_fail
  rw [rest_length] at h
  omega

theorem deserializeNextTotal_unknown (host : Host) (k : Key) (b : Buffer)
    (h1 : (b.readData_U32 host 0).1 ≠ G_ENTRY_HEADER)
    (h2 : (b.readData_U32 host 0).1 ≠ G_KEY_HEADER) :
    Key.deserializeNextTotal host k b = (false, k, (b.readData_U32 host 0).2) := by
  have e := deserializeNextTotal_eq host k b
  rw [if_neg h1, if_neg h2] at e
  exact Option.some.inj e

/-! ## Claims C25 to C27: the framing of a file -/

/-- C25. The framing of a file on save. With the empty name `saveToFile`
returns `NoName` and writes nothing. With a name that is not empty and can be
opened for writing it returns `OK`, and the bytes stored under that name are
`9E 70 81 9F 01 00` followed by the bytes `saveToBuffer` produces for the tree,
the other files being as they were; the registry without entries and subkeys
is saved as `9E 70 81 9F 01 00 00 00 00 00`. With a name that cannot be opened
for writing it returns `FileSaveError` and writes nothing. `saveToFile` returns
the status and the files only: it assigns no member of the registry. -/
theorem saveToFile_framing (host : Host) (fs : FileStore) (R : Key) (f : Str) :
    Registry.saveToFile host fs R [] = (Status.NoName, fs) ∧
    (f ≠ [] → fs.writable f = true →
      (Registry.saveToFile host fs R f).1 = Status.OK ∧
      (Registry.saveToFile host fs R f).2.content f =
        some ([0x9E, 0x70, 0x81, 0x9F, 0x01, 0x00] ++
          (Registry.saveToBuffer host R Buffer.empty).2.m_bytes) ∧
      (∀ g : Str, g ≠ f → (Registry.saveToFile host fs R f).2.content g = fs.content g) ∧
      (Registry.saveToFile host fs Registry.new f).2.content f =
        some [0x9E, 0x70, 0x81, 0x9F, 0x01, 0x00, 0x00, 0x00, 0x00, 0x00]) ∧
    (f ≠ [] → fs.writable f = false →
      Registry.saveToFile host fs R f = (Status.FileSaveError, fs)) := by
  have hh : be32 G_REGISTRY_HEADER ++ be16 G_VERSION = [0x9E, 0x70, 0x81, 0x9F, 0x01, 0x00] := by
    decide
  have hsave : ∀ T : Key, f ≠ [] → fs.writable f = true →
      Registry.saveToFile host fs T f =
        (Status.OK,
          { fs with content := fun n =>
              if n = f then some ([0x9E, 0x70, 0x81, 0x9F, 0x01, 0x00] ++ encKey T)
              else fs.content n }) := by
    intro T hf hw
    simp [Registry.saveToFile, hf, Registry.saveToBuffer, Buffer.saveToFile, hw,
      key_serialize_eq, writeData_U32_eq, writeData_U16_eq, Buffer.empty, ← hh]
  refine ⟨by simp [Registry.saveToFile], ?_, ?_⟩
  · intro hf hw
    rw [hsave R hf hw, hsave Registry.new hf hw]
    refine ⟨rfl, ?_, ?_, ?_⟩
    · simp [Registry.saveToBuffer, key_serialize_eq, Buffer.empty]
    · intro g hg
      simp [hg]
    · have : encKey Registry.new = [0x00, 0x00, 0x00, 0x00] := by decide
      simp [this]
  · intro hf hw
    simp [Registry.saveToFile, hf, Registry.saveToBuffer, Buffer.saveToFile, hw]

/-- C25, for the sample tree saved under `"cfg.bin"` where every name can be
opened, and where none can. -/
theorem saveToFile_framing_witness :
    (ascii "cfg.bin" ≠ [] ∧
      (⟨fun _ => none, fun _ => true⟩ : FileStore).writable (ascii "cfg.bin") = true ∧
      (⟨fun _ => none, fun _ => false⟩ : FileStore).writable (ascii "cfg.bin") = false) ∧
    (Registry.saveToFile hostLE ⟨fun _ => none, fun _ => true⟩ sampleTree (ascii "cfg.bin")).1 =
      Status.OK ∧
    (Registry.saveToFile hostLE ⟨fun _ => none, fun _ => false⟩ sampleTree (ascii "cfg.bin")) =
      (Status.FileSaveError, ⟨fun _ => none, fun _ => false⟩) :=
  ⟨⟨by decide, rfl, rfl⟩,
   ((saveToFile_framing hostLE ⟨fun _ => none, fun _ => true⟩ sampleTree (ascii "cfg.bin")).2.1
      (by decide) rfl).1,
   (saveToFile_framing hostLE ⟨fun _ => none, fun _ => false⟩ sampleTree (ascii "cfg.bin")).2.2
      (by decide) rfl⟩

theorem take4_eq (l : List Byte) (a0 a1 a2 a3 : Byte) (tl : List Byte)
    (h : l = a0 :: a1 :: a2 :: a3 :: tl) : l.take 4 = [a0, a1, a2, a3] := by
  subst h; rfl

theorem rest_cases4 (l : List Byte) :
    l.length < 4 ∨ ∃ a0 a1 a2 a3 tl, l = a0 :: a1 :: a2 :: a3 :: tl := by
  match l with
  | [] => left; simp
  | [_] => left; simp
  | [_, _] => left; simp
  | [_, _, _] => left; simp
  | a0 :: a1 :: a2 :: a3 :: tl => right; exact ⟨a0, a1, a2, a3, tl, rfl⟩

theorem rest_cases2 (l : List Byte) :
    l.length < 2 ∨ ∃ a0 a1 tl, l = a0 :: a1 :: tl := by
  match l with
  | [] => left; simp
  | [_] => left; simp
  | a0 :: a1 :: tl => right; exact ⟨a0, a1, tl, rfl⟩

/-- A header is read exactly when its four bytes stand at the cursor. -/
theorem readData_U32_header (host : Host) (b : Buffer) (x : Nat)
    (h0 : x ≠ 0) (h : (b.readData_U32 host 0).1 = x) :
    b.rest.take 4 = be32 x ∧ (b.readData_U32 host 0).2 = b.advance 4 := by
  rcases rest_cases4 b.rest with hs | ⟨a0, a1, a2, a3, tl, hr⟩
  · rw [readData_U32_short host b 0 hs] at h
    exact absurd h.symm h0
  · rw [readData_U32_value host b 0 a0 a1 a2 a3 tl hr] at h ⊢
    refine ⟨?_, rfl⟩
    rw [take4_eq _ _ _ _ _ _ hr]
    simp only at h
    have l0 := a0.isLt
    have l1 := a1.isLt
    have l2 := a2.isLt
    have l3 := a3.isLt
    obtain ⟨d1, d2, d3, d4⟩ := digits4 a0.val a1.val a2.val a3.val l1 l2 l3
    rw [h] at d1 d2 d3 d4
    simp only [be32, U8.ofNat, d4, d3, d2, d1, Nat.mod_eq_of_lt l0]

theorem readData_U16_value (host : Host) (b : Buffer) (init : Nat) (a0 a1 : Byte)
    (tl : List Byte) (h : b.rest = a0 :: a1 :: tl) :
    b.readData_U16 host init = (a0.val * 2 ^ 8 + a1.val, b.advance 2) := by
  have hc : b.canRead 2 = true := canRead_of_rest b 2 (by decide) (by simp [h])
  obtain ⟨p0, p1⟩ := peek2 host b a0 a1 tl h
  simp only [Buffer.readData_U16, hc, if_true, p0, p1, swap_word16_U16]
  rfl

theorem readData_U16_short (host : Host) (b : Buffer) (init : Nat) (h : b.rest.length < 2) :
    b.readData_U16 host init = (init, b) := by
  have : b.canRead 2 = false := by
    rw [rest_length] at h
    simp only [Buffer.canRead, decide_eq_false_iff_not]
    omega
  simp [Buffer.readData_U16, this]

theorem readData_U16_header (host : Host) (b : Buffer) (x : Nat)
    (h0 : x ≠ 0) (h : (b.readData_U16 host 0).1 = x) :
    b.rest.take 2 = be16 x ∧ (b.readData_U16 host 0).2 = b.advance 2 := by
  rcases rest_cases2 b.rest with hs | ⟨a0, a1, tl, hr⟩
  · rw [readData_U16_short host b 0 hs] at h
    exact absurd h.symm h0
  · rw [readData_U16_value host b 0 a0 a1 tl hr] at h ⊢
    refine ⟨?_, rfl⟩
    rw [hr]
    simp only at h
    have l0 := a0.isLt
    have l1 := a1.isLt
    obtain ⟨d1, d2⟩ := digits2 a0.val a1.val l1
    rw [h] at d1 d2
    simp only [be16, U8.ofNat, d2, d1, Nat.mod_eq_of_lt l0, List.take_succ_cons, List.take_zero]

theorem loadFromFile_mismatch (host : Host) (fs : FileStore) (R : Key) (f : Str)
    (bytes : List Byte) (a_append : Bool) (hf : f ≠ []) (hc : fs.content f = some bytes)
    (hbad : bytes.take 4 ≠ [0x9E, 0x70, 0x81, 0x9F] ∨ (bytes.drop 4).take 2 ≠ [0x01, 0x00]) :
    Registry.loadFromFile host fs R f a_append = (Status.FileParseError, R) := by
  have hG : be32 G_REGISTRY_HEADER = [0x9E, 0x70, 0x81, 0x9F] := by decide
  have hV : be16 G_VERSION = [0x01, 0x00] := by decide
  simp only [Registry.loadFromFile, hf, if_false, Buffer.loadFromFile, hc, Buffer.empty, ne_eq,
    not_true_eq_false]
  by_cases h1 : ((⟨bytes, 0⟩ : Buffer).readData_U32 host 0).1 = G_REGISTRY_HEADER
  · obtain ⟨t1, a1⟩ := readData_U32_header host ⟨bytes, 0⟩ G_REGISTRY_HEADER (by decide) h1
    rw [hG] at t1
    have hb2 : (bytes.drop 4).take 2 ≠ [0x01, 0x00] := by
      rcases hbad with h | h
      · exact absurd (by simpa [Buffer.rest] using t1) h
      · exact h
    by_cases h2 : (((⟨bytes, 0⟩ : Buffer).readData_U32 host 0).2.readData_U16 host 0).1 = G_VERSION
    · rw [a1] at h2
      obtain ⟨t2, _⟩ := readData_U16_header host _ G_VERSION (by decide) h2
      rw [hV] at t2
      exact absurd (by simpa [Buffer.rest, Buffer.advance] using t2) hb2
    · simp [h1, h2]
  · simp [h1]

theorem loadFromFile_validated (host : Host) (fs : FileStore) (R : Key) (f : Str)
    (bytes : List Byte) (a_append : Bool) (hf : f ≠ []) (hc : fs.content f = some bytes)
    (h1 : bytes.take 4 = [0x9E, 0x70, 0x81, 0x9F]) (h2 : (bytes.drop 4).take 2 = [0x01, 0x00]) :
    Registry.loadFromFile host fs R f a_append =
      ((Registry.loadFromBuffer host R ⟨bytes, 6⟩ a_append).1,
        (Registry.loadFromBuffer host R ⟨bytes, 6⟩ a_append).2.1) := by
  have hG : be32 G_REGISTRY_HEADER = [0x9E, 0x70, 0x81, 0x9F] := by decide
  have hV : be16 G_VERSION = [0x01, 0x00] := by decide
  have e1 : (⟨bytes, 0⟩ : Buffer).rest = be32 G_REGISTRY_HEADER ++ bytes.drop 4 := by
    rw [hG, ← h1]
    simp [Buffer.rest]
  have r1 : (⟨bytes, 0⟩ : Buffer).readData_U32 host 0 = (G_REGISTRY_HEADER, ⟨bytes, 4⟩) :=
    readData_U32_rest host ⟨bytes, 0⟩ G_REGISTRY_HEADER 0 _ (by decide) e1
  have e2 : (⟨bytes, 4⟩ : Buffer).rest = be16 G_VERSION ++ (bytes.drop 4).drop 2 := by
    have : (⟨bytes, 4⟩ : Buffer).rest = bytes.drop 4 := rfl
    rw [this, hV, ← h2, List.take_append_drop]
  have r2 : (⟨bytes, 4⟩ : Buffer).readData_U16 host 0 = (G_VERSION, ⟨bytes, 6⟩) :=
    readData_U16_rest host ⟨bytes, 4⟩ G_VERSION 0 _ (by decide) e2
  obtain ⟨r, _, hl⟩ := loadFromBuffer_total host R ⟨bytes, 6⟩ a_append
  simp only [Registry.loadFromFile, hf, if_false, Buffer.loadFromFile, hc, Buffer.empty, ne_eq,
    not_true_eq_false, r1, r2]
  rw [hl]
  cases r.1 <;> simp

/-- C26. A malformed file header. Let the file named `f` exist with the
content `bytes`. When `bytes` does not start with `9E 70 81 9F` (which
includes a content of fewer than four bytes and the empty file), or when the
two bytes that follow are not `01 00` (which includes the case where they are
missing), `loadFromFile` returns `FileParseError`, with `append = false` and
with `append = true`, and the registry is as it was: no entity is decoded. -/
theorem loadFromFile_malformed (host : Host) (fs : FileStore) (R : Key) (f : Str)
    (bytes : List Byte) (hf : f ≠ []) (hc : fs.content f = some bytes)
    (hbad : bytes.take 4 ≠ [0x9E, 0x70, 0x81, 0x9F] ∨ (bytes.drop 4).take 2 ≠ [0x01, 0x00]) :
    Registry.loadFromFile host fs R f false = (Status.FileParseError, R) ∧
    Registry.loadFromFile host fs R f true = (Status.FileParseError, R) :=
  ⟨loadFromFile_mismatch host fs R f bytes false hf hc hbad,
   loadFromFile_mismatch host fs R f bytes true hf hc hbad⟩

/-- C26, for the empty file, a file of three bytes, a file with another header
and a file whose version bytes are missing. -/
theorem loadFromFile_malformed_witness :
    (ascii "f" ≠ [] ∧ ([] : List Byte).take 4 ≠ [0x9E, 0x70, 0x81, 0x9F] ∧
      ([0x9E, 0x70, 0x81] : List Byte).take 4 ≠ [0x9E, 0x70, 0x81, 0x9F] ∧
      ([0x9E, 0x70, 0x81, 0x9E, 1, 0, 0, 0, 0, 0] : List Byte).take 4 ≠ [0x9E, 0x70, 0x81, 0x9F] ∧
      (([0x9E, 0x70, 0x81, 0x9F, 1] : List Byte).drop 4).take 2 ≠ [0x01, 0x00]) ∧
    Registry.loadFromFile hostLE ⟨fun _ => some [], fun _ => true⟩ sampleTree (ascii "f") false =
      (Status.FileParseError, sampleTree) ∧
    Registry.loadFromFile hostLE ⟨fun _ => some [0x9E, 0x70, 0x81], fun _ => true⟩ sampleTree
      (ascii "f") true = (Status.FileParseError, sampleTree) ∧
    Registry.loadFromFile hostBE
      ⟨fun _ => some [0x9E, 0x70, 0x81, 0x9E, 1, 0, 0, 0, 0, 0], fun _ => true⟩ sampleTree
      (ascii "f") false = (Status.FileParseError, sampleTree) ∧
    Registry.loadFromFile hostBE ⟨fun _ => some [0x9E, 0x70, 0x81, 0x9F, 1], fun _ => true⟩
      sampleTree (ascii "f") true = (Status.FileParseError, sampleTree) :=
  ⟨⟨by decide, by decide, by decide, by decide, by decide⟩,
   (loadFromFile_malformed hostLE ⟨fun _ => some [], fun _ => true⟩ sampleTree (ascii "f") []
      (by decide) rfl (Or.inl (by decide))).1,
   (loadFromFile_malformed hostLE ⟨fun _ => some [0x9E, 0x70, 0x81], fun _ => true⟩ sampleTree
      (ascii "f") [0x9E, 0x70, 0x81] (by decide) rfl (Or.inl (by decide))).2,
   (loadFromFile_malformed hostBE
      ⟨fun _ => some [0x9E, 0x70, 0x81, 0x9E, 1, 0, 0, 0, 0, 0], fun _ => true⟩ sampleTree
      (ascii "f") [0x9E, 0x70, 0x81, 0x9E, 1, 0, 0, 0, 0, 0] (by decide) rfl
      (Or.inl (by decide))).1,
   (loadFromFile_malformed hostBE ⟨fun _ => some [0x9E, 0x70, 0x81, 0x9F, 1], fun _ => true⟩
      sampleTree (ascii "f") [0x9E, 0x70, 0x81, 0x9F, 1] (by decide) rfl
      (Or.inr (by decide))).2⟩

/-- C27, as stated, fails: the registry holds the entry `"a"` and the subkey
`"K"`, the file holds six zero bytes (or a right header with the version
`02 00`), and `loadFromFile` with `append = false` returns `FileParseError`
with the registry as it was, not empty. -/
theorem loadFromFile_mismatch_keeps_content :
    Registry.loadFromFile hostLE ⟨fun _ => some [0, 0, 0, 0, 0, 0], fun _ => true⟩
        ⟨rootName, 0, [⟨ascii "a", Value.u8 1⟩], [⟨ascii "K", 0, [], []⟩]⟩ (ascii "f") false =
      (Status.FileParseError,
        ⟨rootName, 0, [⟨ascii "a", Value.u8 1⟩], [⟨ascii "K", 0, [], []⟩]⟩) ∧
    Registry.loadFromFile hostLE
        ⟨fun _ => some [0x9E, 0x70, 0x81, 0x9F, 2, 0, 0, 0, 0, 0], fun _ => true⟩
        ⟨rootName, 0, [⟨ascii "a", Value.u8 1⟩], [⟨ascii "K", 0, [], []⟩]⟩ (ascii "f") false =
      (Status.FileParseError,
        ⟨rootName, 0, [⟨ascii "a", Value.u8 1⟩], [⟨ascii "K", 0, [], []⟩]⟩) ∧
    (⟨rootName, 0, [⟨ascii "a", Value.u8 1⟩], [⟨ascii "K", 0, [], []⟩]⟩ : Key).m_entries ≠ [] ∧
    (⟨rootName, 0, [⟨ascii "a", Value.u8 1⟩], [⟨ascii "K", 0, [], []⟩]⟩ : Key).m_keys ≠ [] := by
  decide

/-- C27, amended. `loadFromFile` validates the header and the version before
it calls `loadFromBuffer`, and `loadFromBuffer` is what clears the registry.
So on a file whose header or version does not match, `loadFromFile` with
`append = false` returns `FileParseError` and the registry keeps its content.
On a file whose header and version match, the status and the registry
afterwards are those of `loadFromBuffer` on the bytes from the seventh on;
with `append = false` they are the same as for the registry without its
entries and subkeys: the content the registry had is gone, also when the
decoding then fails with `FileParseError`. -/
theorem loadFromFile_clears_after_validation (host : Host) (fs : FileStore) (R : Key) (f : Str)
    (bytes : List Byte) (hf : f ≠ []) (hc : fs.content f = some bytes) :
    (bytes.take 4 ≠ [0x9E, 0x70, 0x81, 0x9F] ∨ (bytes.drop 4).take 2 ≠ [0x01, 0x00] →
      Registry.loadFromFile host fs R f false = (Status.FileParseError, R)) ∧
    (bytes.take 4 = [0x9E, 0x70, 0x81, 0x9F] → (bytes.drop 4).take 2 = [0x01, 0x00] →
      Registry.loadFromFile host fs R f false =
        ((Registry.loadFromBuffer host R ⟨bytes, 6⟩ false).1,
          (Registry.loadFromBuffer host R ⟨bytes, 6⟩ false).2.1) ∧
      Registry.loadFromFile host fs R f false =
        Registry.loadFromFile host fs { R with m_entries := [], m_keys := [] } f false) := by
  refine ⟨fun hbad => loadFromFile_mismatch host fs R f bytes false hf hc hbad, ?_⟩
  intro h1 h2
  refine ⟨loadFromFile_validated host fs R f bytes false hf hc h1 h2, ?_⟩
  rw [loadFromFile_validated host fs R f bytes false hf hc h1 h2,
    loadFromFile_validated host fs _ f bytes false hf hc h1 h2]
  simp [Registry.loadFromBuffer]

/-- C27, amended, for a registry with an entry and a subkey: a file of six
zero bytes leaves it as it was, and a file with the right header and version
that announces one entity and ends there leaves it empty. -/
theorem loadFromFile_clears_after_validation_witness :
    (ascii "f" ≠ [] ∧
      ([0x9E, 0x70, 0x81, 0x9F, 1, 0, 0, 0, 0, 1] : List Byte).take 4 = [0x9E, 0x70, 0x81, 0x9F] ∧
      (([0x9E, 0x70, 0x81, 0x9F, 1, 0, 0, 0, 0, 1] : List Byte).drop 4).take 2 = [0x01, 0x00]) ∧
    Registry.loadFromFile hostLE ⟨fun _ => some [0, 0, 0, 0, 0, 0], fun _ => true⟩
        ⟨rootName, 0, [⟨ascii "a", Value.u8 1⟩], [⟨ascii "K", 0, [], []⟩]⟩ (ascii "f") false =
      (Status.FileParseError,
        ⟨rootName, 0, [⟨ascii "a", Value.u8 1⟩], [⟨ascii "K", 0, [], []⟩]⟩) ∧
    Registry.loadFromFile hostLE
        ⟨fun _ => some [0x9E, 0x70, 0x81, 0x9F, 1, 0, 0, 0, 0, 1], fun _ => true⟩
        ⟨rootName, 0, [⟨ascii "a", Value.u8 1⟩], [⟨ascii "K", 0, [], []⟩]⟩ (ascii "f") false =
      Registry.loadFromFile hostLE
        ⟨fun _ => some [0x9E, 0x70, 0x81, 0x9F, 1, 0, 0, 0, 0, 1], fun _ => true⟩
        { (⟨rootName, 0, [⟨ascii "a", Value.u8 1⟩], [⟨ascii "K", 0, [], []⟩]⟩ : Key) with
          m_entries := [], m_keys := [] } (ascii "f") false ∧
    Registry.loadFromFile hostLE
        ⟨fun _ => some [0x9E, 0x70, 0x81, 0x9F, 1, 0, 0, 0, 0, 1], fun _ => true⟩
        ⟨rootName, 0, [⟨ascii "a", Value.u8 1⟩], [⟨ascii "K", 0, [], []⟩]⟩ (ascii "f") false =
      (Status.FileParseError, ⟨rootName, 0, [], []⟩) :=
  ⟨⟨by decide, by decide, by decide⟩,
   (loadFromFile_clears_after_validation hostLE ⟨fun _ => some [0, 0, 0, 0, 0, 0], fun _ => true⟩
      ⟨rootName, 0, [⟨ascii "a", Value.u8 1⟩], [⟨ascii "K", 0, [], []⟩]⟩ (ascii "f")
      [0, 0, 0, 0, 0, 0] (by decide) rfl).1 (Or.inl (by decide)),
   ((loadFromFile_clears_after_validation hostLE
      ⟨fun _ => some [0x9E, 0x70, 0x81, 0x9F, 1, 0, 0, 0, 0, 1], fun _ => true⟩
      ⟨rootName, 0, [⟨ascii "a", Value.u8 1⟩], [⟨ascii "K", 0, [], []⟩]⟩ (ascii "f")
      [0x9E, 0x70, 0x81, 0x9F, 1, 0, 0, 0, 0, 1] (by decide) rfl).2 (by decide) (by decide)).2,
   by decide⟩

/-! ## Claims C28 to C30: the three decoders -/

/-- C28. An unknown entity header is fatal. `deserializeNext` reads the header
into a variable that starts at 0: with fewer than four bytes left it finds 0
and leaves the cursor, otherwise it finds the four bytes at the cursor read
most significant first and moves the cursor by 4. When the value found is
neither `0x9E708199` nor `0x9E70819E`, in particular with fewer than four bytes
left, `deserializeNext` returns false and the key is as it was: no entry and no
subkey is added. And when this happens to a call made for one of the entities
that the count of the root or the count of an enclosing key announces (a call
of `Key.LoopCalls`), `loadFromBuffer` returns `FileParseError`. The result of
`deserializeNext` is the one the bounded function gives under any bound it
returns under. -/
theorem unknown_header_fatal (host : Host) (k : Key) (b : Buffer) :
    ((b.rest.length < 4 → b.readData_U32 host 0 = (0, b)) ∧
      ∀ (a0 a1 a2 a3 : Byte) (tl : List Byte), b.rest = a0 :: a1 :: a2 :: a3 :: tl →
        b.readData_U32 host 0 =
          (a0.val * 2 ^ 24 + a1.val * 2 ^ 16 + a2.val * 2 ^ 8 + a3.val, b.advance 4)) ∧
    ((b.readData_U32 host 0).1 ≠ 0x9E708199 → (b.readData_U32 host 0).1 ≠ 0x9E70819E →
      Key.deserializeNextTotal host k b = (false, k, (b.readData_U32 host 0).2)) ∧
    (b.rest.length < 4 → Key.deserializeNextTotal host k b = (false, k, b)) ∧
    (∀ (R : Key) (a_buffer : Buffer) (a_append : Bool),
      Key.LoopCalls host (a_buffer.readData_U32 host 0).1
        (if a_append = false then { R with m_entries := [], m_keys := [] } else R)
        (a_buffer.readData_U32 host 0).2 k b →
      (b.readData_U32 host 0).1 ≠ 0x9E708199 → (b.readData_U32 host 0).1 ≠ 0x9E70819E →
      (Registry.loadFromBuffer host R a_buffer a_append).1 = Status.FileParseError) ∧
    (∀ (d : Nat) (r : Bool × Key × Buffer), Key.deserializeNext host d k b = some r →
      r = Key.deserializeNextTotal host k b) := by
  have hu : (b.readData_U32 host 0).1 ≠ 0x9E708199 → (b.readData_U32 host 0).1 ≠ 0x9E70819E →
      Key.deserializeNextTotal host k b = (false, k, (b.readData_U32 host 0).2) :=
    fun h1 h2 => deserializeNextTotal_unknown host k b h1 h2
  refine ⟨⟨readData_U32_short host b 0, fun a0 a1 a2 a3 tl h =>
    readData_U32_value host b 0 a0 a1 a2 a3 tl h⟩, hu, ?_, ?_, ?_⟩
  · intro hs
    have e := readData_U32_short host b 0 hs
    have n1 : (0 : Nat) ≠ 0x9E708199 := by decide
    have n2 : (0 : Nat) ≠ 0x9E70819E := by decide
    have := hu (by rw [e]; exact n1) (by rw [e]; exact n2)
    rw [e] at this
    exact this
  · intro R a_buffer a_append hc h1 h2
    apply loadFromBuffer_fail host R a_buffer a_append k b hc
    rw [hu h1 h2]
  · intro d r hr
    exact (deserializeNext_total host d k b r hr).symm

/-- C28, for the stream `00 00 00 01`, `9E 70 81 9E`, `00 00 00 01 41`,
`00 00 00 01`, `DE AD BE EF`: one entity at the root, the key `"A"`, which
announces one entity and holds an unknown header. -/
theorem unknown_header_fatal_witness :
    Key.LoopCalls hostLE
      ((⟨[0, 0, 0, 1, 0x9E, 0x70, 0x81, 0x9E, 0, 0, 0, 1, 0x41, 0, 0, 0, 1,
          0xDE, 0xAD, 0xBE, 0xEF], 0⟩ : Buffer).readData_U32 hostLE 0).1
      (if false = false then { Registry.new with m_entries := [], m_keys := [] } else Registry.new)
      ((⟨[0, 0, 0, 1, 0x9E, 0x70, 0x81, 0x9E, 0, 0, 0, 1, 0x41, 0, 0, 0, 1,
          0xDE, 0xAD, 0xBE, 0xEF], 0⟩ : Buffer).readData_U32 hostLE 0).2
      (Key.new (ascii "A") 0)
      ⟨[0, 0, 0, 1, 0x9E, 0x70, 0x81, 0x9E, 0, 0, 0, 1, 0x41, 0, 0, 0, 1,
          0xDE, 0xAD, 0xBE, 0xEF], 17⟩ ∧
    (Registry.loadFromBuffer hostLE Registry.new
      ⟨[0, 0, 0, 1, 0x9E, 0x70, 0x81, 0x9E, 0, 0, 0, 1, 0x41, 0, 0, 0, 1,
          0xDE, 0xAD, 0xBE, 0xEF], 0⟩ false).1 = Status.FileParseError :=
  have hc : Key.LoopCalls hostLE
      ((⟨[0, 0, 0, 1, 0x9E, 0x70, 0x81, 0x9E, 0, 0, 0, 1, 0x41, 0, 0, 0, 1,
          0xDE, 0xAD, 0xBE, 0xEF], 0⟩ : Buffer).readData_U32 hostLE 0).1
      (if false = false then { Registry.new with m_entries := [], m_keys := [] } else Registry.new)
      ((⟨[0, 0, 0, 1, 0x9E, 0x70, 0x81, 0x9E, 0, 0, 0, 1, 0x41, 0, 0, 0, 1,
          0xDE, 0xAD, 0xBE, 0xEF], 0⟩ : Buffer).readData_U32 hostLE 0).2
      (Key.new (ascii "A") 0)
      ⟨[0, 0, 0, 1, 0x9E, 0x70, 0x81, 0x9E, 0, 0, 0, 1, 0x41, 0, 0, 0, 1,
          0xDE, 0xAD, 0xBE, 0xEF], 17⟩ :=
    Key.LoopCalls.nested _ _ _ Registry.new
      ⟨[0, 0, 0, 1, 0x9E, 0x70, 0x81, 0x9E, 0, 0, 0, 1, 0x41, 0, 0, 0, 1,
          0xDE, 0xAD, 0xBE, 0xEF], 4⟩
      ⟨[0, 0, 0, 1, 0x9E, 0x70, 0x81, 0x9E, 0, 0, 0, 1, 0x41, 0, 0, 0, 1,
          0xDE, 0xAD, 0xBE, 0xEF], 8⟩
      ⟨[0, 0, 0, 1, 0x9E, 0x70, 0x81, 0x9E, 0, 0, 0, 1, 0x41, 0, 0, 0, 1,
          0xDE, 0xAD, 0xBE, 0xEF], 13⟩
      ⟨[0, 0, 0, 1, 0x9E, 0x70, 0x81, 0x9E, 0, 0, 0, 1, 0x41, 0, 0, 0, 1,
          0xDE, 0xAD, 0xBE, 0xEF], 17⟩
      (ascii "A") 1 _ _
      (Key.LoopCalls.iter _ _ _ 0 _ _ (by decide) (by decide))
      (by decide) (by decide) (by decide) (by decide) (by decide) (by decide)
      (Key.LoopCalls.iter _ _ _ 0 _ _ (by decide) (by decide))
  ⟨hc,
   (unknown_header_fatal hostLE (Key.new (ascii "A") 0)
      ⟨[0, 0, 0, 1, 0x9E, 0x70, 0x81, 0x9E, 0, 0, 0, 1, 0x41, 0, 0, 0, 1,
          0xDE, 0xAD, 0xBE, 0xEF], 17⟩).2.2.2.1 Registry.new _ false hc
      (by decide) (by decide)⟩

theorem readValue_type (host : Host) (b : Buffer) (T : Datatype) :
    (b.readValue host T).1.type = T := by
  cases T <;> rfl

theorem ofAlias_none_iff (t : Nat) : Datatype.ofAlias t = none ↔ ¬ (1 ≤ t ∧ t ≤ 8) := by
  constructor
  · rintro h ⟨h1, h2⟩
    interval_cases t <;> simp [Datatype.ofAlias] at h
  · intro h
    match t, h with
    | 0, _ => rfl
    | 1, h | 2, h | 3, h | 4, h | 5, h | 6, h | 7, h | 8, h => exact absurd (by omega) h
    | _ + 9, _ => rfl

/-- C29. Decode-entry. After an entry header `deserializeEntry` reads the name
(as `readData<String>` does) and then the tag byte, into a variable that
starts at 0. When the name is empty or the tag is not one of 1..8, it returns
false and the key is as it was. Otherwise, with `T` the type of the tag, when
the key has no entry of that name, it returns true and the key has gained one
entry, at the end of its entries, with the decoded name, the type `T` and the
value that `readData<T>` gives; the subkeys, the name and the instance id of
the key are as before. When the bytes of a value `v` of type `T` are all there
(for a string, of fewer than `2 ^ 32` bytes), that value is `v` and the cursor
stands behind them. Each tag from 1 to 8 is the tag of one type. -/
theorem deserializeEntry_spec (host : Host) (k : Key) (b : Buffer) :
    ((b.readData_String host).1 = [] ∨
        ¬ (1 ≤ ((b.readData_String host).2.readData_U8 host 0).1 ∧
          ((b.readData_String host).2.readData_U8 host 0).1 ≤ 8) →
      k.deserializeEntry host b =
        (false, k, ((b.readData_String host).2.readData_U8 host 0).2)) ∧
    (∀ T : Datatype, (b.readData_String host).1 ≠ [] →
      ((b.readData_String host).2.readData_U8 host 0).1 = T.Alias →
      (∀ e ∈ k.m_entries, e.m_name ≠ (b.readData_String host).1) →
      k.deserializeEntry host b =
        (true,
          { k with m_entries := k.m_entries ++
            [⟨(b.readData_String host).1,
              (((b.readData_String host).2.readData_U8 host 0).2.readValue host T).1⟩] },
          (((b.readData_String host).2.readData_U8 host 0).2.readValue host T).2) ∧
      (((b.readData_String host).2.readData_U8 host 0).2.readValue host T).1.type = T ∧
      ∀ (v : Value) (tl : List Byte), v.type = T → v.stringSize < 2 ^ 32 →
        ((b.readData_String host).2.readData_U8 host 0).2.rest = encValue v ++ tl →
        ((b.readData_String host).2.readData_U8 host 0).2.readValue host T =
          (v, ((b.readData_String host).2.readData_U8 host 0).2.advance (encValue v).length)) ∧
    (∀ t : Nat, 1 ≤ t ∧ t ≤ 8 → ∃ T : Datatype, t = T.Alias) := by
  refine ⟨?_, ?_, ?_⟩
  · intro h
    unfold Key.deserializeEntry
    simp only
    by_cases hn : (b.readData_String host).1 = []
    · simp [hn]
    · have ht := (ofAlias_none_iff _).mpr (h.resolve_left hn)
      simp [hn, ht]
  · intro T hn htag hfree
    have hs : k.seekEntry (b.readData_String host).1 = none := by
      rw [seekEntry_none]
      intro hmem
      obtain ⟨e, he, hen⟩ := List.mem_map.mp hmem
      exact hfree e he hen
    refine ⟨?_, readValue_type host _ T, ?_⟩
    · unfold Key.deserializeEntry
      simp only [hn, if_false, htag, ofAlias_alias]
      rw [addEntry_of_none k T _ hn hs]
      simp only [Key.setEntry]
      rw [modifyNth_append_length]
      rfl
    · intro v tl hv hsz hrest
      subst hv
      exact readValue_rest host _ v tl hsz hrest
  · rintro t ⟨h1, h2⟩
    interval_cases t
    · exact ⟨Datatype.S8, rfl⟩
    · exact ⟨Datatype.S16, rfl⟩
    · exact ⟨Datatype.S32, rfl⟩
    · exact ⟨Datatype.U8, rfl⟩
    · exact ⟨Datatype.U16, rfl⟩
    · exact ⟨Datatype.U32, rfl⟩
    · exact ⟨Datatype.Float, rfl⟩
    · exact ⟨Datatype.String, rfl⟩

/-- C29, for the record of the `U16` entry `"n"` with the value 513 decoded
into the sample tree. -/
theorem deserializeEntry_spec_witness :
    (((⟨[0, 0, 0, 1, 0x6E, 5, 2, 1], 0⟩ : Buffer).readData_String hostLE).1 ≠ [] ∧
      (((⟨[0, 0, 0, 1, 0x6E, 5, 2, 1], 0⟩ : Buffer).readData_String hostLE).2.readData_U8
        hostLE 0).1 = Datatype.U16.Alias ∧
      ∀ e ∈ sampleTree.m_entries,
        e.m_name ≠ ((⟨[0, 0, 0, 1, 0x6E, 5, 2, 1], 0⟩ : Buffer).readData_String hostLE).1) ∧
    sampleTree.deserializeEntry hostLE ⟨[0, 0, 0, 1, 0x6E, 5, 2, 1], 0⟩ =
      (true,
        { sampleTree with m_entries := sampleTree.m_entries ++
          [⟨((⟨[0, 0, 0, 1, 0x6E, 5, 2, 1], 0⟩ : Buffer).readData_String hostLE).1,
            ((((⟨[0, 0, 0, 1, 0x6E, 5, 2, 1], 0⟩ : Buffer).readData_String hostLE).2.readData_U8
              hostLE 0).2.readValue hostLE Datatype.U16).1⟩] },
        ((((⟨[0, 0, 0, 1, 0x6E, 5, 2, 1], 0⟩ : Buffer).readData_String hostLE).2.readData_U8
          hostLE 0).2.readValue hostLE Datatype.U16).2) ∧
    (sampleTree.deserializeEntry hostLE ⟨[0, 0, 0, 1, 0x6E, 5, 2, 1], 0⟩).2.1.m_entries =
      sampleTree.m_entries ++ [⟨ascii "n", Value.u16 513⟩] :=
  ⟨⟨by decide, by decide, by decide⟩,
   ((deserializeEntry_spec hostLE sampleTree ⟨[0, 0, 0, 1, 0x6E, 5, 2, 1], 0⟩).2.1 Datatype.U16
      (by decide) (by decide) (by decide)).1,
   by decide⟩

/-- C30. Decode-key. After a key header `deserializeKey` reads the name and
then the count, into a variable that starts at 0. When the name is empty,
`"root"` or `"null"`, it returns false and the key is as it was. Otherwise it
appends one subkey with that name, whose instance id is the number of subkeys
of `K` that bear the name (the subkeys of `K` keep their order, names and
contents, and their instance ids too when they satisfy the instance-id
invariant), and runs the loop of `count` calls of `deserializeNext` on that
subkey: the subkey afterwards is what the loop leaves, and `deserializeKey`
returns what the loop returns, so false as soon as one of the calls returns
false. `deserializeNext` on a key header returns what `deserializeKey`
returns. And whenever a call of `deserializeNext` made for one of the entities
that the count of the root or the count of an enclosing key announces returns
false, `loadFromBuffer` returns `FileParseError`. -/
theorem deserializeKey_spec (host : Host) (K : Key) (b : Buffer) :
    ((b.readData_String host).1 = [] ∨ (b.readData_String host).1 = ascii "root" ∨
        (b.readData_String host).1 = ascii "null" →
      K.deserializeKey host (fun k b => some (Key.deserializeNextTotal host k b)) b =
        some (false, K, ((b.readData_String host).2.readData_U32 host 0).2)) ∧
    ((b.readData_String host).1 ≠ [] → (b.readData_String host).1 ≠ ascii "root" →
        (b.readData_String host).1 ≠ ascii "null" →
      K.deserializeKey host (fun k b => some (Key.deserializeNextTotal host k b)) b =
        (decodeLoop (fun k b => some (Key.deserializeNextTotal host k b))
          ((b.readData_String host).2.readData_U32 host 0).1
          (Key.new (b.readData_String host).1
            (K.m_keys.countP (fun c => decide (c.m_name = (b.readData_String host).1))))
          ((b.readData_String host).2.readData_U32 host 0).2).map
          (fun r => (r.1,
            { K with m_keys :=
                (K.getInstanceCount (b.readData_String host).1).1.m_keys ++ [r.2.1] },
            r.2.2)) ∧
      (K.getInstanceCount (b.readData_String host).1).1.m_keys.map
          (fun c => (c.m_name, c.m_entries, c.m_keys)) =
        K.m_keys.map (fun c => (c.m_name, c.m_entries, c.m_keys)) ∧
      (K.InstanceOK → (K.getInstanceCount (b.readData_String host).1).1.m_keys = K.m_keys)) ∧
    (∀ (next : Key → Buffer → Option (Bool × Key × Buffer)) (k : Key) (b2 : Buffer),
      decodeLoop next 0 k b2 = some (true, k, b2) ∧
      ∀ n : Nat, decodeLoop next (n + 1) k b2 =
        match next k b2 with
        | none => none
        | some (false, k1, b1) => some (false, k1, b1)
        | some (true, k1, b1) => decodeLoop next n k1 b1) ∧
    (∀ b0 : Buffer, b0.readData_U32 host 0 = (0x9E70819E, b) →
      some (Key.deserializeNextTotal host K b0) =
        K.deserializeKey host (fun k b => some (Key.deserializeNextTotal host k b)) b) ∧
    (∀ (R : Key) (a_buffer : Buffer) (a_append : Bool) (k2 : Key) (b2 : Buffer),
      Key.LoopCalls host (a_buffer.readData_U32 host 0).1
        (if a_append = false then { R with m_entries := [], m_keys := [] } else R)
        (a_buffer.readData_U32 host 0).2 k2 b2 →
      (Key.deserializeNextTotal host k2 b2).1 = false →
      (Registry.loadFromBuffer host R a_buffer a_append).1 = Status.FileParseError) := by
  refine ⟨?_, ?_, ?_, ?_, ?_⟩
  · intro h
    exact deserializeKey_reject host _ K b h
  · intro h1 h2 h3
    refine ⟨deserializeKey_accept host _ K b h1 h2 h3, loop_map_content _ _ _, ?_⟩
    intro hK
    exact loop_eq_self_of_instanceOK _ K.m_keys hK
  · intro next k b2
    refine ⟨rfl, fun n => ?_⟩
    simp only [decodeLoop]
  · intro b0 h0
    exact (deserializeNextTotal_key host K b0 b h0).symm
  · intro R a_buffer a_append k2 b2 hc hf
    exact loadFromBuffer_fail host R a_buffer a_append k2 b2 hc hf

/-- C30, for the bytes `00 00 00 01 41`, `00 00 00 01` and the record of the
`U8` entry `"x"` with the value 7, decoded into the sample tree, which has two
subkeys named `"A"`: the subkey `"A"` with the instance id 2 and that entry is
appended. -/
theorem deserializeKey_spec_witness :
    (((⟨[0, 0, 0, 1, 0x41, 0, 0, 0, 1, 0x9E, 0x70, 0x81, 0x99, 0, 0, 0, 1, 0x78, 4, 7],
        0⟩ : Buffer).readData_String hostLE).1 ≠ [] ∧
      ((⟨[0, 0, 0, 1, 0x41, 0, 0, 0, 1, 0x9E, 0x70, 0x81, 0x99, 0, 0, 0, 1, 0x78, 4, 7],
        0⟩ : Buffer).readData_String hostLE).1 ≠ ascii "root" ∧
      ((⟨[0, 0, 0, 1, 0x41, 0, 0, 0, 1, 0x9E, 0x70, 0x81, 0x99, 0, 0, 0, 1, 0x78, 4, 7],
        0⟩ : Buffer).readData_String hostLE).1 ≠ ascii "null") ∧
    (sampleTree.getInstanceCount ((⟨[0, 0, 0, 1, 0x41, 0, 0, 0, 1, 0x9E, 0x70, 0x81, 0x99,
        0, 0, 0, 1, 0x78, 4, 7], 0⟩ : Buffer).readData_String hostLE).1).1.m_keys.map
        (fun c => (c.m_name, c.m_entries, c.m_keys)) =
      sampleTree.m_keys.map (fun c => (c.m_name, c.m_entries, c.m_keys)) ∧
    sampleTree.deserializeKey hostLE (fun k b => some (Key.deserializeNextTotal hostLE k b))
        ⟨[0, 0, 0, 1, 0x41, 0, 0, 0, 1, 0x9E, 0x70, 0x81, 0x99, 0, 0, 0, 1, 0x78, 4, 7], 0⟩ =
      some (true,
        { sampleTree with m_keys := sampleTree.m_keys ++
            [⟨ascii "A", 2, [⟨ascii "x", Value.u8 7⟩], []⟩] },
        ⟨[0, 0, 0, 1, 0x41, 0, 0, 0, 1, 0x9E, 0x70, 0x81, 0x99, 0, 0, 0, 1, 0x78, 4, 7], 20⟩) :=
  ⟨⟨by decide, by decide, by decide⟩,
   ((deserializeKey_spec hostLE sampleTree
      ⟨[0, 0, 0, 1, 0x41, 0, 0, 0, 1, 0x9E, 0x70, 0x81, 0x99, 0, 0, 0, 1, 0x78, 4, 7], 0⟩).2.1
      (by decide) (by decide) (by decide)).2.1,
   by decide⟩

/-! ## Claims C33, C34 and C36: sentinels, an overrun, `swapBytes` -/

/-- C33, as stated, fails: `getEntry<S32>` and `addEntry<S32>` fail on a `Float`
entry and return `Entry<S32>::s_null`, whose name is `"null"` and whose alias
is 3, the alias of `S32`, not `Unknown`. -/
theorem typed_sentinel_not_unknown :
    (⟨rootName, 0, [⟨ascii "x", Value.float 0⟩], []⟩ : Key).getEntry Datatype.S32 (ascii "x") =
      EntryRef.s_null ∧
    ((⟨rootName, 0, [⟨ascii "x", Value.float 0⟩], []⟩ : Key).addEntry Datatype.S32 (ascii "x")).2 =
      EntryRef.s_null ∧
    EntryRef.s_null.deref Datatype.S32 ⟨rootName, 0, [⟨ascii "x", Value.float 0⟩], []⟩
      Sentinels.new = some (Entry.s_null Datatype.S32) ∧
    (Entry.s_null Datatype.S32).m_name = ascii "null" ∧
    (Entry.s_null Datatype.S32).getAlias = 3 ∧
    (Entry.s_null Datatype.S32).getAlias ≠ Datatypes.Unknown := by
  decide

/-- C33, amended. For every type `T` the sentinel `Entry<T>::s_null`, which a
failed `getEntry<T>` or `addEntry<T>` returns, has the name `"null"`, so that
`isNull ()` is true of it, and the alias of `T`, one of 1..8 and never
`Unknown`; it holds the value `T ()` as constructed, and keeps its name and its
alias whatever value of type `T` is set in it. Only `EntryBase::s_null` has
the alias `Unknown`, which is 0. -/
theorem typed_sentinel_shape (T : Datatype) (K : Key) (n : Str) (s : Sentinels)
    (hs : ∀ U : Datatype, (s U).type = U) :
    ((Entry.s_null T).m_name = ascii "null" ∧ (Entry.s_null T).isNull = true ∧
      (Entry.s_null T).getAlias = T.Alias ∧ (Entry.s_null T).m_data = Value.default T) ∧
    (1 ≤ T.Alias ∧ T.Alias ≤ 8 ∧ T.Alias ≠ Datatypes.Unknown) ∧
    (EntryRef.s_null.deref T K Sentinels.new = some (Entry.s_null T)) ∧
    (K.getEntry T n = EntryRef.s_null →
      ∃ e, (K.getEntry T n).deref T K s = some e ∧ e.m_name = ascii "null" ∧
        e.isNull = true ∧ e.getAlias = T.Alias) ∧
    ((K.addEntry T n).2 = EntryRef.s_null →
      ∃ e, (K.addEntry T n).2.deref T (K.addEntry T n).1 s = some e ∧ e.m_name = ascii "null" ∧
        e.isNull = true ∧ e.getAlias = T.Alias) ∧
    (∀ v : Value, v.type = T →
      ∀ U : Datatype, ((EntryRef.s_null.set T v K s).2 U).type = U) ∧
    (EntryBase.s_null = (ascii "null", Datatypes.Unknown) ∧ Datatypes.Unknown = 0) := by
  have hd : ∀ k : Key, ∃ e, EntryRef.s_null.deref T k s = some e ∧ e.m_name = ascii "null" ∧
      e.isNull = true ∧ e.getAlias = T.Alias := by
    intro k
    refine ⟨⟨nullName, s T⟩, rfl, rfl, by simp [Entry.isNull], ?_⟩
    simp [Entry.getAlias, hs T]
  refine ⟨⟨rfl, by simp [Entry.isNull, Entry.s_null, Entry.new], ?_, rfl⟩, ?_, rfl, ?_, ?_, ?_,
    ⟨rfl, rfl⟩⟩
  · simp [Entry.getAlias, Entry.s_null, Entry.new, default_type]
  · cases T <;> decide
  · intro h
    rw [h]
    exact hd K
  · intro h
    rw [h]
    exact hd _
  · intro v hv U
    simp only [EntryRef.set]
    by_cases hU : U = T
    · simp [hU, hv]
    · simp [hU, hs U]

/-- C33, amended, for `T = Float` on the sample tree, where `"title"` is a
`String` entry. -/
theorem typed_sentinel_shape_witness :
    (∀ U : Datatype, (Sentinels.new U).type = U) ∧
    sampleTree.getEntry Datatype.Float (ascii "title") = EntryRef.s_null ∧
    ∃ e, (sampleTree.getEntry Datatype.Float (ascii "title")).deref Datatype.Float sampleTree
        Sentinels.new = some e ∧ e.m_name = ascii "null" ∧ e.isNull = true ∧
      e.getAlias = Datatype.Float.Alias :=
  ⟨fun U => default_type U, by decide,
   (typed_sentinel_shape Datatype.Float sampleTree (ascii "title") Sentinels.new
      (fun U => default_type U)).2.2.2.1 (by decide)⟩

/-- C34, at the failing input: the buffer holds `00 00 00 05 41 42` with the
cursor at 0, the prefix `L = 5` is read and 2 bytes follow. The string
returned has 5 bytes, not the 2 that remain: after `41 42` come 3 bytes taken
from beyond the byte array, which depend on what lies there (zeros on
`hostLE`, `06 07 08` on `hostBE`). -/
theorem readData_String_not_truncated :
    ((⟨[0, 0, 0, 5, 0x41, 0x42], 0⟩ : Buffer).readData_U32 hostLE 0).1 = 5 ∧
    (((⟨[0, 0, 0, 5, 0x41, 0x42], 0⟩ : Buffer).readData_U32 hostLE 0).2).rest = [0x41, 0x42] ∧
    ((⟨[0, 0, 0, 5, 0x41, 0x42], 0⟩ : Buffer).readData_String hostLE).1 = [0x41, 0x42, 0, 0, 0] ∧
    ((⟨[0, 0, 0, 5, 0x41, 0x42], 0⟩ : Buffer).readData_String hostBE).1 = [0x41, 0x42, 6, 7, 8] ∧
    ((⟨[0, 0, 0, 5, 0x41, 0x42], 0⟩ : Buffer).readData_String hostLE).1 ≠ [0x41, 0x42] ∧
    ((⟨[0, 0, 0, 5, 0x41, 0x42], 0⟩ : Buffer).readData_String hostLE).1.length = 5 := by
  decide

theorem swapBytes_U16_twice (host : Host) (x : Nat) (hx : x < 2 ^ 16) :
    swapBytes_U16 host (swapBytes_U16 host x) = x := by
  rw [swapBytes_U16_eq, swapBytes_U16_eq]
  cases h : host.bigEndian
  · simp only [Bool.false_eq_true, if_false]
    have hq1 : x / 2 ^ 8 % 256 < 256 := Nat.mod_lt _ (by decide)
    obtain ⟨d1, d2⟩ := digits2 (x % 256) (x / 2 ^ 8 % 256) hq1
    have hp1 : x % 256 < 256 := Nat.mod_lt _ (by decide)
    rw [d1, d2, Nat.mod_eq_of_lt hp1]
    exact be16_sum x hx
  · simp

theorem be32_swap_reverse (x : Nat) :
    be32 ((x % 256) * 2 ^ 24 + (x / 2 ^ 8 % 256) * 2 ^ 16 + (x / 2 ^ 16 % 256) * 2 ^ 8
      + (x / 2 ^ 24 % 256)) = (be32 x).reverse := by
  have hq1 : x / 2 ^ 8 % 256 < 256 := Nat.mod_lt _ (by decide)
  have hr1 : x / 2 ^ 16 % 256 < 256 := Nat.mod_lt _ (by decide)
  have ht1 : x / 2 ^ 24 % 256 < 256 := Nat.mod_lt _ (by decide)
  obtain ⟨d1, d2, d3, d4⟩ :=
    digits4 (x % 256) (x / 2 ^ 8 % 256) (x / 2 ^ 16 % 256) (x / 2 ^ 24 % 256) hq1 hr1 ht1
  simp only [be32, List.reverse_cons, List.reverse_nil, List.nil_append, List.cons_append,
    List.cons.injEq, and_true, U8_ofNat_eq, d4]
  refine ⟨?_, ?_, ?_, ?_⟩
  · omega
  · rw [d3]
  · rw [d2]
  · rw [d1]

theorem be16_swap_reverse (x : Nat) :
    be16 ((x % 256) * 2 ^ 8 + (x / 2 ^ 8 % 256)) = (be16 x).reverse := by
  have hq1 : x / 2 ^ 8 % 256 < 256 := Nat.mod_lt _ (by decide)
  obtain ⟨d1, d2⟩ := digits2 (x % 256) (x / 2 ^ 8 % 256) hq1
  simp only [be16, List.reverse_cons, List.reverse_nil, List.nil_append, List.cons_append,
    List.cons.injEq, and_true, U8_ofNat_eq, d2]
  refine ⟨?_, ?_⟩
  · omega
  · rw [d1]

/-- C36. `swapBytes`, on the bit patterns of 16-bit and 32-bit values (signed
values in two's complement). On a little-endian host `swapBytes<T> (x)` is the
byte reversal of `x` for `S16`, `U16`, `S32` and `U32`: the value whose bytes,
most significant first, are those of `x` in reverse order. On a big-endian
host it is `x`. On both hosts `swapBytes<T> (swapBytes<T> (x))` is `x`. The
`S16` value -2, whose pattern is `0xFFFE`, is swapped to `0xFEFF`, and the
`S32` pattern `0x80000001`, whose top bit is set, to `0x01000080`. -/
theorem swapBytes_spec (host : Host) (x16 : U16) (x32 : U32) :
    (host.bigEndian = false →
      (swapBytes_S16 host x16.val = (x16.val % 256) * 2 ^ 8 + x16.val / 2 ^ 8 ∧
        swapBytes_U16 host x16.val = (x16.val % 256) * 2 ^ 8 + x16.val / 2 ^ 8 ∧
        be16 (swapBytes_S16 host x16.val) = (be16 x16.val).reverse ∧
        be16 (swapBytes_U16 host x16.val) = (be16 x16.val).reverse) ∧
      (swapBytes_S32 host x32.val =
          (x32.val % 256) * 2 ^ 24 + (x32.val / 2 ^ 8 % 256) * 2 ^ 16 +
            (x32.val / 2 ^ 16 % 256) * 2 ^ 8 + x32.val / 2 ^ 24 ∧
        swapBytes_U32 host x32.val =
          (x32.val % 256) * 2 ^ 24 + (x32.val / 2 ^ 8 % 256) * 2 ^ 16 +
            (x32.val / 2 ^ 16 % 256) * 2 ^ 8 + x32.val / 2 ^ 24 ∧
        be32 (swapBytes_S32 host x32.val) = (be32 x32.val).reverse ∧
        be32 (swapBytes_U32 host x32.val) = (be32 x32.val).reverse)) ∧
    (host.bigEndian = true →
      swapBytes_S16 host x16.val = x16.val ∧ swapBytes_U16 host x16.val = x16.val ∧
      swapBytes_S32 host x32.val = x32.val ∧ swapBytes_U32 host x32.val = x32.val) ∧
    (swapBytes_S16 host (swapBytes_S16 host x16.val) = x16.val ∧
      swapBytes_U16 host (swapBytes_U16 host x16.val) = x16.val ∧
      swapBytes_S32 host (swapBytes_S32 host x32.val) = x32.val ∧
      swapBytes_U32 host (swapBytes_U32 host x32.val) = x32.val) ∧
    (((-2 : Int) % 2 ^ 16).toNat = 0xFFFE ∧ swapBytes_S16 hostLE 0xFFFE = 0xFEFF ∧
      swapBytes_S32 hostLE 0x80000001 = 0x01000080 ∧ swapBytes_S16 hostBE 0xFFFE = 0xFFFE ∧
      swapBytes_S32 hostBE 0x80000001 = 0x80000001) := by
  have h16 := x16.isLt
  have h32 := x32.isLt
  have e16 : x16.val / 2 ^ 8 % 256 = x16.val / 2 ^ 8 := Nat.mod_eq_of_lt (by omega)
  have e32 : x32.val / 2 ^ 24 % 256 = x32.val / 2 ^ 24 := Nat.mod_eq_of_lt (by omega)
  have s16 : ∀ y : Nat, swapBytes_S16 host y = swapBytes_U16 host y := by
    intro y
    rw [swapBytes_S16_eq, swapBytes_U16_eq]
  refine ⟨?_, ?_, ⟨?_, swapBytes_U16_twice host _ h16, ?_, swapBytes_U32_twice host _ h32⟩, ?_⟩
  · intro hle
    have a16 : swapBytes_U16 host x16.val = (x16.val % 256) * 2 ^ 8 + x16.val / 2 ^ 8 := by
      rw [swapBytes_U16_eq, hle, e16]; simp
    have a32 : swapBytes_U32 host x32.val =
        (x32.val % 256) * 2 ^ 24 + (x32.val / 2 ^ 8 % 256) * 2 ^ 16 +
          (x32.val / 2 ^ 16 % 256) * 2 ^ 8 + x32.val / 2 ^ 24 := by
      rw [swapBytes_U32_eq, hle, e32]; simp
    have r16 : be16 (swapBytes_U16 host x16.val) = (be16 x16.val).reverse := by
      rw [a16, ← e16]; exact be16_swap_reverse _
    have r32 : be32 (swapBytes_U32 host x32.val) = (be32 x32.val).reverse := by
      rw [a32, ← e32]; exact be32_swap_reverse _
    refine ⟨⟨?_, a16, ?_, r16⟩, ⟨?_, a32, ?_, r32⟩⟩
    · rw [s16]; exact a16
    · rw [s16]; exact r16
    · rw [swapBytes_S32_eq]; exact a32
    · rw [swapBytes_S32_eq]; exact r32
  · intro hbe
    refine ⟨?_, ?_, ?_, ?_⟩
    · rw [swapBytes_S16_eq, hbe]; simp
    · rw [swapBytes_U16_eq, hbe]; simp
    · rw [swapBytes_S32_eq, swapBytes_U32_eq, hbe]; simp
    · rw [swapBytes_U32_eq, hbe]; simp
  · rw [s16, s16]; exact swapBytes_U16_twice host _ h16
  · rw [swapBytes_S32_eq, swapBytes_S32_eq]; exact swapBytes_U32_twice host _ h32
  · refine ⟨by decide, ?_, ?_, ?_, ?_⟩
    · rw [swapBytes_S16_eq]; decide
    · rw [swapBytes_S32_eq, swapBytes_U32_eq]; decide
    · rw [swapBytes_S16_eq]; decide
    · rw [swapBytes_S32_eq, swapBytes_U32_eq]; decide

/-- C36, for the patterns `0xFFFE` and `0x80000001` on a little-endian and on a
big-endian host. -/
theorem swapBytes_spec_witness :
    (hostLE.bigEndian = false ∧ hostBE.bigEndian = true) ∧
    (swapBytes_S16 hostLE (0xFFFE : U16).val =
        ((0xFFFE : U16).val % 256) * 2 ^ 8 + (0xFFFE : U16).val / 2 ^ 8 ∧
      ((0xFFFE : U16).val % 256) * 2 ^ 8 + (0xFFFE : U16).val / 2 ^ 8 = 0xFEFF) ∧
    swapBytes_S32 hostBE (0x80000001 : U32).val = (0x80000001 : U32).val :=
  ⟨⟨rfl, rfl⟩,
   ⟨((swapBytes_spec hostLE 0xFFFE 0x80000001).1 rfl).1.1, by decide⟩,
   ((swapBytes_spec hostBE 0xFFFE 0x80000001).2.1 rfl).2.2.1⟩

/-! ## Claim C40: trailing and missing bytes at the top level -/

theorem loadFromBuffer_short (host : Host) (R : Key) (b : Buffer) (a_append : Bool)
    (h : b.rest.length < 4) :
    Registry.loadFromBuffer host R b a_append =
      (Status.OK, if a_append = false then { R with m_entries := [], m_keys := [] } else R, b) := by
  unfold Registry.loadFromBuffer
  simp only [readData_U32_short host b 0 h, decodeLoop_zero]

/-- C40. Trailing and missing bytes at the top level. Let `T` be a registry
tree that satisfies the data-model invariants and `bytes` what `saveToBuffer`
writes for it: `bytes` starts with the count of the top-level entities of `T`,
and for every byte string `t`, `loadFromBuffer` on `bytes ++ t` returns `OK`
and leaves the entries and subkeys of `T`, as many as the count announces,
with the cursor behind `bytes`: the same status and the same tree as loading
`bytes` alone. When fewer than 4 bytes remain at the cursor of a buffer (an
empty buffer included), the count read is 0 and `loadFromBuffer` returns `OK`
with no entity decoded and the cursor where it was. -/
theorem trailing_bytes_ignored (hostS host : Host) (T R : Key) (t : List Byte)
    (hT : Registry.WellFormed T) :
    ((Registry.saveToBuffer hostS T Buffer.empty).2.m_bytes.take 4 =
        be32 (T.m_entries.length + T.m_keys.length) ∧
      T.m_entries.length + T.m_keys.length < 2 ^ 32 ∧
      Registry.loadFromBuffer host R
          ⟨(Registry.saveToBuffer hostS T Buffer.empty).2.m_bytes ++ t, 0⟩ false =
        (Status.OK, { R with m_entries := T.m_entries, m_keys := T.m_keys },
          ⟨(Registry.saveToBuffer hostS T Buffer.empty).2.m_bytes ++ t,
            (Registry.saveToBuffer hostS T Buffer.empty).2.m_bytes.length⟩) ∧
      (Registry.loadFromBuffer host R
          ⟨(Registry.saveToBuffer hostS T Buffer.empty).2.m_bytes ++ t, 0⟩ false).1 =
        (Registry.loadFromBuffer host R
          ⟨(Registry.saveToBuffer hostS T Buffer.empty).2.m_bytes, 0⟩ false).1 ∧
      (Registry.loadFromBuffer host R
          ⟨(Registry.saveToBuffer hostS T Buffer.empty).2.m_bytes ++ t, 0⟩ false).2.1 =
        (Registry.loadFromBuffer host R
          ⟨(Registry.saveToBuffer hostS T Buffer.empty).2.m_bytes, 0⟩ false).2.1) ∧
    (∀ (b : Buffer) (a_append : Bool), b.rest.length < 4 →
      (b.readData_U32 host 0).1 = 0 ∧
      Registry.loadFromBuffer host R b a_append =
        (Status.OK, if a_append = false then { R with m_entries := [], m_keys := [] } else R,
          b)) ∧
    Registry.loadFromBuffer host R Buffer.empty false =
      (Status.OK, { R with m_entries := [], m_keys := [] }, Buffer.empty) := by
  have hb : (Registry.saveToBuffer hostS T Buffer.empty).2.m_bytes = encKey T := by
    simp [Registry.saveToBuffer, key_serialize_eq, Buffer.empty]
  rw [hb]
  have h1 := loadFromBuffer_encKey host T R ⟨encKey T ++ t, 0⟩ t hT (by simp [Buffer.rest])
  have h2 := loadFromBuffer_encKey host T R ⟨encKey T, 0⟩ [] hT (by simp [Buffer.rest])
  have hc : T.m_entries.length + T.m_keys.length < 2 ^ 32 := by
    obtain ⟨_, _, hwf⟩ := hT
    rw [all_iff] at hwf
    exact hwf.1.2.2.2.2.2
  refine ⟨⟨?_, hc, ?_, ?_, ?_⟩, ?_, ?_⟩
  · obtain ⟨name, inst, es, ks⟩ := T
    obtain ⟨hroot, _, _⟩ := hT
    simp only at hroot hc
    subst hroot
    rw [encKey_of_root inst es ks hc]
    simp [be32]
  · rw [h1]; simp [Buffer.advance]
  · rw [h1, h2]
  · rw [h1, h2]
  · intro b a_append h
    exact ⟨by rw [readData_U32_short host b 0 h], loadFromBuffer_short host R b a_append h⟩
  · have := loadFromBuffer_short host R Buffer.empty false (by simp [Buffer.rest, Buffer.empty])
    simpa using this

/-- C40, at `sampleTree` with three trailing bytes, loaded into a registry that
holds other content. -/
theorem trailing_bytes_ignored_witness :
    Registry.WellFormed sampleTree ∧
    (Registry.loadFromBuffer hostBE (run graphicsOps Registry.new)
        ⟨(Registry.saveToBuffer hostLE sampleTree Buffer.empty).2.m_bytes ++ [1, 2, 3], 0⟩
        false).1 = Status.OK ∧
    (Registry.loadFromBuffer hostBE (run graphicsOps Registry.new)
        ⟨(Registry.saveToBuffer hostLE sampleTree Buffer.empty).2.m_bytes ++ [1, 2, 3], 0⟩
        false).2.1 = sampleTree ∧
    Registry.loadFromBuffer hostLE (run graphicsOps Registry.new) ⟨[0, 0, 1], 0⟩ true =
      (Status.OK, run graphicsOps Registry.new, ⟨[0, 0, 1], 0⟩) :=
  ⟨by decide,
   by rw [(trailing_bytes_ignored hostLE hostBE sampleTree (run graphicsOps Registry.new)
     [1, 2, 3] (by decide)).1.2.2.1],
   by rw [(trailing_bytes_ignored hostLE hostBE sampleTree (run graphicsOps Registry.new)
     [1, 2, 3] (by decide)).1.2.2.1]; decide,
   ((trailing_bytes_ignored hostLE hostLE sampleTree (run graphicsOps Registry.new)
     [] (by decide)).2.1 ⟨[0, 0, 1], 0⟩ true (by decide)).2⟩

/-! ## Claim C35: the encoding does not depend on the byte order of the host -/

theorem peek_host (hA hB : Host) (ho : hA.oob = hB.oob) (b : Buffer) (i : Nat) :
    b.peek hA i = b.peek hB i := by
  simp only [Buffer.peek, ho]

theorem readData_U32_host (hA hB : Host) (ho : hA.oob = hB.oob) (b : Buffer) (init : Nat) :
    b.readData_U32 hA init = b.readData_U32 hB init := by
  simp only [Buffer.readData_U32, swap_word32, peek_host hA hB ho]

theorem readData_S32_host (hA hB : Host) (ho : hA.oob = hB.oob) (b : Buffer) (init : Nat) :
    b.readData_S32 hA init = b.readData_S32 hB init :=
  readData_U32_host hA hB ho b init

theorem readData_Float_host (hA hB : Host) (ho : hA.oob = hB.oob) (b : Buffer) (init : Nat) :
    b.readData_Float hA init = b.readData_Float hB init :=
  readData_U32_host hA hB ho b init

theorem readData_U16_host (hA hB : Host) (ho : hA.oob = hB.oob) (b : Buffer) (init : Nat) :
    b.readData_U16 hA init = b.readData_U16 hB init := by
  simp only [Buffer.readData_U16, swap_word16_U16, peek_host hA hB ho]

theorem readData_S16_host (hA hB : Host) (ho : hA.oob = hB.oob) (b : Buffer) (init : Nat) :
    b.readData_S16 hA init = b.readData_S16 hB init := by
  simp only [Buffer.readData_S16, swap_word16_S16, peek_host hA hB ho]

theorem readData_U8_host (hA hB : Host) (ho : hA.oob = hB.oob) (b : Buffer) (init : Nat) :
    b.readData_U8 hA init = b.readData_U8 hB init := by
  simp only [Buffer.readData_U8, peek_host hA hB ho]

theorem readData_S8_host (hA hB : Host) (ho : hA.oob = hB.oob) (b : Buffer) (init : Nat) :
    b.readData_S8 hA init = b.readData_S8 hB init := by
  simp only [Buffer.readData_S8, peek_host hA hB ho]

theorem readData_String_host (hA hB : Host) (ho : hA.oob = hB.oob) (b : Buffer) :
    b.readData_String hA = b.readData_String hB := by
  simp only [Buffer.readData_String, readData_U32_host hA hB ho, peek_host hA hB ho]

theorem readValue_host (hA hB : Host) (hu : hA.uninit = hB.uninit) (ho : hA.oob = hB.oob)
    (b : Buffer) (T : Datatype) : b.readValue hA T = b.readValue hB T := by
  cases T
  all_goals
    simp only [Buffer.readValue, hu, readData_S8_host hA hB ho, readData_S16_host hA hB ho,
      readData_S32_host hA hB ho, readData_U8_host hA hB ho, readData_U16_host hA hB ho,
      readData_U32_host hA hB ho, readData_Float_host hA hB ho, readData_String_host hA hB ho]

theorem deserializeEntry_host (hA hB : Host) (hu : hA.uninit = hB.uninit) (ho : hA.oob = hB.oob)
    (k : Key) (b : Buffer) : k.deserializeEntry hA b = k.deserializeEntry hB b := by
  simp only [Key.deserializeEntry, readData_String_host hA hB ho, readData_U8_host hA hB ho,
    readValue_host hA hB hu ho]

theorem deserializeNext_host (hA hB : Host) (hu : hA.uninit = hB.uninit) (ho : hA.oob = hB.oob)
    (d : Nat) : Key.deserializeNext hA d = Key.deserializeNext hB d := by
  induction d with
  | zero => rfl
  | succ d ih =>
    funext k b
    simp only [deserializeNext_succ, Key.deserializeKey, readData_U32_host hA hB ho,
      readData_String_host hA hB ho, deserializeEntry_host hA hB hu ho, ih]

theorem loadFromBuffer_host (hA hB : Host) (hu : hA.uninit = hB.uninit) (ho : hA.oob = hB.oob)
    (R : Key) (b : Buffer) (a_append : Bool) :
    Registry.loadFromBuffer hA R b a_append = Registry.loadFromBuffer hB R b a_append := by
  simp only [Registry.loadFromBuffer, readData_U32_host hA hB ho,
    deserializeNext_host hA hB hu ho]

/-- C35. Host independence of the encoding. For every tree `T` and every
buffer, the bytes `saveToBuffer` appends are the same on any two hosts, so on
a little-endian and on a big-endian one. When `T` satisfies the data-model
invariants, `loadFromBuffer` with `append = false` decodes these bytes to the
entries and subkeys of `T` with status `OK` on either host, whichever host
wrote them. And for every byte content, two hosts that differ in byte order
only give the same status, the same tree and the same cursor. -/
theorem host_independence (hostA hostB : Host) (T R : Key) (b : Buffer) :
    Registry.saveToBuffer hostA T b = Registry.saveToBuffer hostB T b ∧
    (Registry.saveToBuffer hostA T Buffer.empty).2.m_bytes = encKey T ∧
    (Registry.WellFormed T →
      Registry.loadFromBuffer hostA R
          ⟨(Registry.saveToBuffer hostB T Buffer.empty).2.m_bytes, 0⟩ false =
        (Status.OK, { R with m_entries := T.m_entries, m_keys := T.m_keys },
          ⟨encKey T, (encKey T).length⟩) ∧
      Registry.loadFromBuffer hostB R
          ⟨(Registry.saveToBuffer hostA T Buffer.empty).2.m_bytes, 0⟩ false =
        (Status.OK, { R with m_entries := T.m_entries, m_keys := T.m_keys },
          ⟨encKey T, (encKey T).length⟩) ∧
      Registry.loadFromBuffer hostA R
          ⟨(Registry.saveToBuffer hostA T Buffer.empty).2.m_bytes, 0⟩ false =
        Registry.loadFromBuffer hostB R
          ⟨(Registry.saveToBuffer hostA T Buffer.empty).2.m_bytes, 0⟩ false) ∧
    (hostA.uninit = hostB.uninit → hostA.oob = hostB.oob →
      ∀ (a_append : Bool),
        Registry.loadFromBuffer hostA R b a_append = Registry.loadFromBuffer hostB R b a_append ∧
        Registry.loadFromBuffer hostA R
            ⟨(Registry.saveToBuffer hostB T Buffer.empty).2.m_bytes, 0⟩ a_append =
          Registry.loadFromBuffer hostB R
            ⟨(Registry.saveToBuffer hostA T Buffer.empty).2.m_bytes, 0⟩ a_append) := by
  have hb : ∀ h : Host, (Registry.saveToBuffer h T Buffer.empty).2.m_bytes = encKey T := by
    intro h
    simp [Registry.saveToBuffer, key_serialize_eq, Buffer.empty]
  refine ⟨?_, hb hostA, ?_, ?_⟩
  · simp only [Registry.saveToBuffer, key_serialize_eq]
  · intro hT
    have h1 := loadFromBuffer_encKey hostA T R ⟨encKey T, 0⟩ [] hT (by simp [Buffer.rest])
    have h2 := loadFromBuffer_encKey hostB T R ⟨encKey T, 0⟩ [] hT (by simp [Buffer.rest])
    simp only [Buffer.advance, Nat.zero_add] at h1 h2
    rw [hb hostA, hb hostB, h1, h2]
    exact ⟨rfl, rfl, rfl⟩
  · intro hu ho a_append
    rw [hb hostA, hb hostB]
    exact ⟨loadFromBuffer_host hostA hostB hu ho R b a_append,
      loadFromBuffer_host hostA hostB hu ho R _ a_append⟩

/-- C35, at `sampleTree`: saved on a big-endian host and loaded on a
little-endian one, and loaded in append mode on two hosts that differ in byte
order only. -/
theorem host_independence_witness :
    Registry.WellFormed sampleTree ∧
    (Registry.loadFromBuffer hostLE Registry.new
        ⟨(Registry.saveToBuffer hostBE sampleTree Buffer.empty).2.m_bytes, 0⟩ false).2.1 =
      sampleTree ∧
    Registry.loadFromBuffer hostLE sampleTree
        ⟨(Registry.saveToBuffer hostBE sampleTree Buffer.empty).2.m_bytes, 0⟩ true =
      Registry.loadFromBuffer ⟨true, hostLE.uninit, hostLE.oob⟩ sampleTree
        ⟨(Registry.saveToBuffer hostLE sampleTree Buffer.empty).2.m_bytes, 0⟩ true :=
  ⟨by decide,
   by rw [((host_independence hostLE hostBE sampleTree Registry.new Buffer.empty).2.2.1
     (by decide)).1]; decide,
   by
    have h := ((host_independence hostLE ⟨true, hostLE.uninit, hostLE.oob⟩ sampleTree sampleTree
      Buffer.empty).2.2.2 rfl rfl true).2
    have e : (Registry.saveToBuffer ⟨true, hostLE.uninit, hostLE.oob⟩ sampleTree
        Buffer.empty).2.m_bytes = (Registry.saveToBuffer hostBE sampleTree Buffer.empty).2.m_bytes :=
      congrArg (fun r => r.2.m_bytes)
        (host_independence ⟨true, hostLE.uninit, hostLE.oob⟩ hostBE sampleTree sampleTree
          Buffer.empty).1
    rw [← e]
    exact h⟩

/-! ## Claim C31: a failed load is not rolled back -/

theorem deserializeEntry_false (host : Host) (k : Key) (b : Buffer)
    (h : (k.deserializeEntry host b).1 = false) : (k.deserializeEntry host b).2.1 = k := by
  unfold Key.deserializeEntry at h ⊢
  simp only at h ⊢
  split
  · rfl
  · rename_i hn
    rw [if_neg hn] at h
    split
    · rename_i T hT
      rw [hT] at h
      simp at h
    · rfl

theorem decodeLoop_some (next : Key → Buffer → Bool × Key × Buffer) (n : Nat) (k : Key)
    (b : Buffer) : ∃ r, decodeLoop (fun k b => some (next k b)) n k b = some r := by
  induction n generalizing k b with
  | zero => exact ⟨_, rfl⟩
  | succ n ih =>
    simp only [decodeLoop]
    cases h : next k b with
    | mk ok r =>
      obtain ⟨k1, b1⟩ := r
      cases ok with
      | false => exact ⟨_, rfl⟩
      | true => exact ih k1 b1

theorem deserializeNextTotal_all (P : Key → Prop) (h : OpInv P) (host : Host) (k : Key)
    (b : Buffer) (hk : Key.All P k) :
    Key.All P (Key.deserializeNextTotal host k b).2.1 ∧
      (Key.deserializeNextTotal host k b).2.1.m_name = k.m_name ∧
      (Key.deserializeNextTotal host k b).2.1.m_instance = k.m_instance :=
  deserializeNext_all P h host _ k b _ hk (deserializeNextTotal_some host k b)

theorem decodeLoopTotal_all (P : Key → Prop) (h : OpInv P) (host : Host) (n : Nat) (k : Key)
    (b : Buffer) (r : Bool × Key × Buffer) (hk : Key.All P k)
    (hr : decodeLoop (fun k b => some (Key.deserializeNextTotal host k b)) n k b = some r) :
    Key.All P r.2.1 ∧ r.2.1.m_name = k.m_name ∧ r.2.1.m_instance = k.m_instance :=
  decodeLoop_all P _
    (fun k0 b0 r0 hk0 hr0 => by
      simp only [Option.some.injEq] at hr0
      subst hr0
      exact deserializeNextTotal_all P h host k0 b0 hk0)
    n k b r hk hr

/-- What a failing call of `deserializeNext` leaves of a key whose subkeys
satisfy the instance-id invariant: the key as it was, or the key with one
subkey appended, which holds what the loop of `deserializeKey` had decoded
when it failed. -/
theorem deserializeNextTotal_failed (host : Host) (k kf : Key) (b bf : Buffer)
    (hI : k.InstanceOK) (hf : Key.deserializeNextTotal host k b = (false, kf, bf)) :
    kf.m_name = k.m_name ∧ kf.m_instance = k.m_instance ∧ kf.m_entries = k.m_entries ∧
    (kf.m_keys = k.m_keys ∨
      ∃ (sub : Key) (n : Nat) (b2 : Buffer),
        (b.readData_U32 host 0).1 = G_KEY_HEADER ∧
        validKeyName sub.m_name ∧
        sub.m_instance = k.m_keys.countP (fun c => decide (c.m_name = sub.m_name)) ∧
        decodeLoop (fun k b => some (Key.deserializeNextTotal host k b)) n
            (Key.new sub.m_name sub.m_instance) b2 = some (false, sub, bf) ∧
        kf.m_keys = k.m_keys ++ [sub]) := by
  have e := deserializeNextTotal_eq host k b
  rw [hf] at e
  split at e
  · simp only [Option.some.injEq] at e
    have h1 : (k.deserializeEntry host (b.readData_U32 host 0).2).1 = false := by rw [← e]
    have h2 := deserializeEntry_false host k _ h1
    rw [← e] at h2
    simp only at h2
    subst h2
    exact ⟨rfl, rfl, rfl, Or.inl rfl⟩
  · split at e
    · rename_i hkey
      by_cases hname : ((b.readData_U32 host 0).2.readData_String host).1 = [] ∨
          ((b.readData_U32 host 0).2.readData_String host).1 = rootName ∨
          ((b.readData_U32 host 0).2.readData_String host).1 = nullName
      · rw [deserializeKey_reject host _ k _ hname] at e
        simp only [Option.some.injEq, Prod.mk.injEq, true_and] at e
        obtain ⟨rfl, _⟩ := e
        exact ⟨rfl, rfl, rfl, Or.inl rfl⟩
      · have h1 : ((b.readData_U32 host 0).2.readData_String host).1 ≠ [] :=
          fun h => hname (Or.inl h)
        have h2 : ((b.readData_U32 host 0).2.readData_String host).1 ≠ rootName :=
          fun h => hname (Or.inr (Or.inl h))
        have h3 : ((b.readData_U32 host 0).2.readData_String host).1 ≠ nullName :=
          fun h => hname (Or.inr (Or.inr h))
        rw [deserializeKey_accept host _ k _ h1 h2 h3] at e
        obtain ⟨r, hr⟩ := decodeLoop_some (Key.deserializeNextTotal host)
          (((b.readData_U32 host 0).2.readData_String host).2.readData_U32 host 0).1
          (Key.new ((b.readData_U32 host 0).2.readData_String host).1
            (k.m_keys.countP (fun c =>
              decide (c.m_name = ((b.readData_U32 host 0).2.readData_String host).1))))
          (((b.readData_U32 host 0).2.readData_String host).2.readData_U32 host 0).2
        have ha := decodeLoopTotal_all Key.InstanceOK instanceOK_opInv host _ _ _ r
          (all_of_leaf _ instanceOK_opInv _ rfl rfl) hr
        rw [hr] at e
        simp only [Option.map_some', Option.some.injEq, Prod.mk.injEq] at e
        obtain ⟨e1, e2, e3⟩ := e
        rw [loop_eq_self_of_instanceOK _ _ hI] at e2
        obtain ⟨ok, sub, b3⟩ := r
        simp only at e1 e2 e3 ha
        subst e1 e2 e3
        simp only [Key.new] at ha
        refine ⟨rfl, rfl, rfl, Or.inr ⟨sub,
          (((b.readData_U32 host 0).2.readData_String host).2.readData_U32 host 0).1,
          (((b.readData_U32 host 0).2.readData_String host).2.readData_U32 host 0).2,
          hkey, ?_, ?_, ?_, rfl⟩⟩
        · rw [ha.2.1]; exact ⟨h1, h2, h3⟩
        · rw [ha.2.2, ha.2.1]
        · rw [ha.2.1, ha.2.2]
          exact hr
    · simp only [Option.some.injEq, Prod.mk.injEq, true_and] at e
      obtain ⟨rfl, _⟩ := e
      exact ⟨rfl, rfl, rfl, Or.inl rfl⟩

/-- C31. No rollback on a failed load. Take any buffer whose root count
announces more than `k` entities, such that the first `k` calls of
`deserializeNext` on the root succeed and leave the root `Rk`, and the next
call fails and leaves the root `Rf`. Then `loadFromBuffer` with
`append = false` (on a fresh registry or on any other) returns
`FileParseError`, and the registry afterwards is `Rf`: it has the entries of
`Rk`, and the subkeys of `Rk`, followed, when the failing entity is a subkey
with an accepted name, by that subkey with what its own loop had decoded when
it failed. Two streams on which the load fails and leaves a tree that is not
empty are given: one with an entry in front of an unknown header, one with an
unknown header inside a subkey. -/
theorem no_rollback (host : Host) :
    (∀ (R : Key) (b : Buffer) (k : Nat) (Rk Rf : Key) (bk bf : Buffer),
      k < (b.readData_U32 host 0).1 →
      decodeLoop (fun K B => some (Key.deserializeNextTotal host K B)) k
        { R with m_entries := [], m_keys := [] } (b.readData_U32 host 0).2 =
          some (true, Rk, bk) →
      Key.deserializeNextTotal host Rk bk = (false, Rf, bf) →
      Registry.loadFromBuffer host R b false = (Status.FileParseError, Rf, bf) ∧
      Rf.m_name = R.m_name ∧ Rf.m_instance = R.m_instance ∧
      Rf.m_entries = Rk.m_entries ∧
      (Rf.m_keys = Rk.m_keys ∨
        ∃ (sub : Key) (n : Nat) (b2 : Buffer),
          (bk.readData_U32 host 0).1 = G_KEY_HEADER ∧
          validKeyName sub.m_name ∧
          sub.m_instance = Rk.m_keys.countP (fun c => decide (c.m_name = sub.m_name)) ∧
          decodeLoop (fun K B => some (Key.deserializeNextTotal host K B)) n
              (Key.new sub.m_name sub.m_instance) b2 = some (false, sub, bf) ∧
          Rf.m_keys = Rk.m_keys ++ [sub])) ∧
    Registry.loadFromBuffer hostLE Registry.new
        ⟨be32 2 ++ encEntry ⟨ascii "x", .u8 7⟩ ++ [0, 0, 0, 0], 0⟩ false =
      (Status.FileParseError,
        { Registry.new with m_entries := [⟨ascii "x", .u8 7⟩] },
        ⟨be32 2 ++ encEntry ⟨ascii "x", .u8 7⟩ ++ [0, 0, 0, 0], 19⟩) ∧
    Registry.loadFromBuffer hostLE Registry.new
        ⟨be32 1 ++ be32 G_KEY_HEADER ++ encString (ascii "A") ++ be32 2 ++
          encEntry ⟨ascii "y", .u8 7⟩ ++ [0, 0, 0, 0], 0⟩ false =
      (Status.FileParseError,
        { Registry.new with m_keys := [⟨ascii "A", 0, [⟨ascii "y", .u8 7⟩], []⟩] },
        ⟨be32 1 ++ be32 G_KEY_HEADER ++ encString (ascii "A") ++ be32 2 ++
          encEntry ⟨ascii "y", .u8 7⟩ ++ [0, 0, 0, 0], 32⟩) := by
  refine ⟨?_, by decide, by decide⟩
  intro R b k Rk Rf bk bf hk hfirst hfail
  have hloop := decodeLoop_prefix_fail
    (fun K B => some (Key.deserializeNextTotal host K B)) k _ _ Rk Rf _ bk bf hk hfirst
    (by simp only [hfail])
  obtain ⟨r, hr, hl⟩ := loadFromBuffer_total host R b false
  simp only [if_true] at hr
  rw [hloop] at hr
  have hall := decodeLoopTotal_all Key.InstanceOK instanceOK_opInv host k _ _ _
    (all_of_leaf _ instanceOK_opInv { R with m_entries := [], m_keys := [] } rfl rfl) hfirst
  simp only at hall
  have hI : Rk.InstanceOK := ((all_iff Key.InstanceOK Rk).mp hall.1).1
  obtain ⟨f1, f2, f3, f4⟩ := deserializeNextTotal_failed host Rk Rf bk bf hI hfail
  refine ⟨?_, f1.trans hall.2.1, f2.trans hall.2.2, f3, f4⟩
  rw [hl]
  cases hr
  simp

/-- C31, on the stream that announces two entities and holds an entry
followed by an unknown header, loaded into a registry with other content: the
first call succeeds, the second fails, and the entry stays in the registry. -/
theorem no_rollback_witness :
    (1 < ((⟨be32 2 ++ encEntry ⟨ascii "x", .u8 7⟩ ++ [0, 0, 0, 0], 0⟩ : Buffer).readData_U32
        hostLE 0).1 ∧
      decodeLoop (fun K B => some (Key.deserializeNextTotal hostLE K B)) 1
        { sampleTree with m_entries := [], m_keys := [] }
        ((⟨be32 2 ++ encEntry ⟨ascii "x", .u8 7⟩ ++ [0, 0, 0, 0], 0⟩ : Buffer).readData_U32
          hostLE 0).2 =
        some (true, { Registry.new with m_entries := [⟨ascii "x", .u8 7⟩] },
          ⟨be32 2 ++ encEntry ⟨ascii "x", .u8 7⟩ ++ [0, 0, 0, 0], 15⟩) ∧
      Key.deserializeNextTotal hostLE { Registry.new with m_entries := [⟨ascii "x", .u8 7⟩] }
          ⟨be32 2 ++ encEntry ⟨ascii "x", .u8 7⟩ ++ [0, 0, 0, 0], 15⟩ =
        (false, { Registry.new with m_entries := [⟨ascii "x", .u8 7⟩] },
          ⟨be32 2 ++ encEntry ⟨ascii "x", .u8 7⟩ ++ [0, 0, 0, 0], 19⟩)) ∧
    Registry.loadFromBuffer hostLE sampleTree
        ⟨be32 2 ++ encEntry ⟨ascii "x", .u8 7⟩ ++ [0, 0, 0, 0], 0⟩ false =
      (Status.FileParseError, { Registry.new with m_entries := [⟨ascii "x", .u8 7⟩] },
        ⟨be32 2 ++ encEntry ⟨ascii "x", .u8 7⟩ ++ [0, 0, 0, 0], 19⟩) :=
  ⟨⟨by decide, by decide, by decide⟩,
   ((no_rollback hostLE).1 sampleTree
      ⟨be32 2 ++ encEntry ⟨ascii "x", .u8 7⟩ ++ [0, 0, 0, 0], 0⟩ 1
      { Registry.new with m_entries := [⟨ascii "x", .u8 7⟩] }
      { Registry.new with m_entries := [⟨ascii "x", .u8 7⟩] }
      ⟨be32 2 ++ encEntry ⟨ascii "x", .u8 7⟩ ++ [0, 0, 0, 0], 15⟩
      ⟨be32 2 ++ encEntry ⟨ascii "x", .u8 7⟩ ++ [0, 0, 0, 0], 19⟩
      (by decide) (by decide) (by decide)).1⟩

/-! ## Claim C39: an entry record whose name the key already holds -/

theorem set_fst (r : EntryRef) (T : Datatype) (v : Value) (k : Key) (s : Sentinels) :
    (r.set T v k s).1 = k.setEntry r v := by
  cases r <;> rfl

/-- The decoder that tracks the sentinels returns the flag, the key and the
buffer of `deserializeEntry`. -/
theorem deserializeEntryTracked_eq (host : Host) (k : Key) (s : Sentinels) (b : Buffer) :
    k.deserializeEntry host b =
      ((k.deserializeEntryTracked host s b).1, (k.deserializeEntryTracked host s b).2.1,
        (k.deserializeEntryTracked host s b).2.2.2) := by
  unfold Key.deserializeEntry Key.deserializeEntryTracked
  simp only
  split
  · rfl
  · split
    · simp only [set_fst]
    · rfl

theorem deserializeEntryTracked_found (host : Host) (K : Key) (s : Sentinels) (b b1 b2 : Buffer)
    (n : Str) (T : Datatype) (i : Nat) (e : Entry)
    (h1 : b.readData_String host = (n, b1)) (h2 : b1.readData_U8 host 0 = (T.Alias, b2))
    (hn : n ≠ []) (hs : K.seekEntry n = some (i, e)) :
    (e.getAlias = T.Alias →
      K.deserializeEntryTracked host s b =
        (true, { K with m_entries := K.m_entries.set i ⟨n, (b2.readValue host T).1⟩ }, s,
          (b2.readValue host T).2)) ∧
    (e.getAlias ≠ T.Alias →
      K.deserializeEntryTracked host s b =
        (true, K, (fun U => if U = T then (b2.readValue host T).1 else s U),
          (b2.readValue host T).2)) := by
  obtain ⟨he, hen, _⟩ := seekEntry_some K n i e hs
  refine ⟨?_, ?_⟩
  · intro ha
    unfold Key.deserializeEntryTracked
    simp only [h1, h2, hn, if_false, ofAlias_alias]
    rw [addEntry_of_seek K T n i e hn hs, if_neg (not_not.mpr ha)]
    simp only [EntryRef.set, Key.setEntry]
    rw [modifyNth_eq_set _ _ _ _ he, hen]
  · intro ha
    unfold Key.deserializeEntryTracked
    simp only [h1, h2, hn, if_false, ofAlias_alias]
    rw [addEntry_of_seek K T n i e hn hs, if_pos ha]
    simp only [EntryRef.set]

/-- C39. Duplicate entry names while decoding. Let the entry record at the
cursor bear the name `n` and the tag of the type `T`, and let `v` be the value
`readData<T>` gives. For a key `K` that holds an entry `e` named `n`, at
position `i`: when the tag of `e` is the tag of `T`, `deserializeEntry`
returns true, the entry at position `i` bears the name `n` and the value `v`,
the other entries, their number and their order are as before, and no sentinel
is assigned; when the tag of `e` is another one, `deserializeEntry` returns
true as well, `K` is left as it is, and `v` is assigned to
`Entry<T>::s_null`, the sentinel of the decoded type, which is no part of the
tree, while the sentinels of the other types keep their values. This holds of
every key of every tree that calls of the interface have built from an empty
registry, and more generally of every key whose entry names are pairwise
distinct, for a name that is not empty. -/
theorem duplicate_entry_decode (host : Host) (K : Key) (s : Sentinels) (b b1 b2 : Buffer)
    (n : Str) (T : Datatype)
    (h1 : b.readData_String host = (n, b1)) (h2 : b1.readData_U8 host 0 = (T.Alias, b2)) :
    K.deserializeEntry host b =
      ((K.deserializeEntryTracked host s b).1, (K.deserializeEntryTracked host s b).2.1,
        (K.deserializeEntryTracked host s b).2.2.2) ∧
    (b2.readValue host T).1.type = T ∧
    (∀ (i : Nat) (e : Entry), n ≠ [] → (K.m_entries.map (fun e => e.m_name)).Nodup →
      K.m_entries[i]? = some e → e.m_name = n →
      (e.getAlias = T.Alias →
        K.deserializeEntryTracked host s b =
          (true, { K with m_entries := K.m_entries.set i ⟨n, (b2.readValue host T).1⟩ }, s,
            (b2.readValue host T).2) ∧
        (K.m_entries.set i ⟨n, (b2.readValue host T).1⟩).length = K.m_entries.length ∧
        (K.m_entries.set i ⟨n, (b2.readValue host T).1⟩)[i]? =
          some ⟨n, (b2.readValue host T).1⟩ ∧
        (∀ j, j ≠ i →
          (K.m_entries.set i ⟨n, (b2.readValue host T).1⟩)[j]? = K.m_entries[j]?) ∧
        (⟨n, (b2.readValue host T).1⟩ : Entry).getAlias = e.getAlias) ∧
      (e.getAlias ≠ T.Alias →
        K.deserializeEntryTracked host s b =
          (true, K, (fun U => if U = T then (b2.readValue host T).1 else s U),
            (b2.readValue host T).2) ∧
        (K.deserializeEntry host b).1 = true ∧ (K.deserializeEntry host b).2.1 = K ∧
        EntryRef.s_null.deref T K (K.deserializeEntryTracked host s b).2.2.1 =
          some ⟨ascii "null", (b2.readValue host T).1⟩ ∧
        (∀ U, U ≠ T → (K.deserializeEntryTracked host s b).2.2.1 U = s U))) ∧
    (∀ (ops : List Op) (path : List Nat), Key.getAt path (run ops Registry.new) = some K →
      ∀ (i : Nat) (e : Entry), K.m_entries[i]? = some e → e.m_name = n →
      (e.getAlias = T.Alias →
        K.deserializeEntryTracked host s b =
          (true, { K with m_entries := K.m_entries.set i ⟨n, (b2.readValue host T).1⟩ }, s,
            (b2.readValue host T).2)) ∧
      (e.getAlias ≠ T.Alias →
        K.deserializeEntryTracked host s b =
          (true, K, (fun U => if U = T then (b2.readValue host T).1 else s U),
            (b2.readValue host T).2))) := by
  have hagree := deserializeEntryTracked_eq host K s b
  refine ⟨hagree, readValue_type host b2 T, ?_, ?_⟩
  · intro i e hn hd he hen
    have hs := seekEntry_nodup K n i e hd he hen
    obtain ⟨f1, f2⟩ := deserializeEntryTracked_found host K s b b1 b2 n T i e h1 h2 hn hs
    have hil : i < K.m_entries.length := (List.getElem?_eq_some.mp he).1
    refine ⟨fun ha => ⟨f1 ha, by simp, ?_, ?_, ?_⟩, fun ha => ?_⟩
    · simp [List.getElem?_set, hil]
    · intro j hj
      simp [List.getElem?_set, Ne.symm hj]
    · rw [ha]
      simp [Entry.getAlias, readValue_type]
    · have g := f2 ha
      rw [hagree, g]
      refine ⟨rfl, rfl, rfl, ?_, ?_⟩
      · simp [EntryRef.deref, nullName]
      · intro U hU
        simp [hU]
  · intro ops path hK i e he hen
    have hall := all_getAt Key.EntryNamesOK path _ K
      (all_run Key.EntryNamesOK entryNamesOK_opInv ops Registry.new
        (all_new _ entryNamesOK_opInv)) hK
    have hn : n ≠ [] := by
      rw [← hen]
      exact hall.1 e (List.getElem?_mem he)
    have hs := seekEntry_nodup K n i e hall.2 he hen
    exact deserializeEntryTracked_found host K s b b1 b2 n T i e h1 h2 hn hs

/-- C39, on the key that holds the `U16` entry `"n"`: the record of a `U16`
entry `"n"` with the value 513 replaces the value, and the record of a `U8`
entry `"n"` with the value 9 leaves the key as it is and assigns the sentinel
of `U8`. -/
theorem duplicate_entry_decode_witness :
    ((⟨[0, 0, 0, 1, 0x6E, 5, 2, 1], 0⟩ : Buffer).readData_String hostLE =
        (ascii "n", ⟨[0, 0, 0, 1, 0x6E, 5, 2, 1], 5⟩) ∧
      (⟨[0, 0, 0, 1, 0x6E, 5, 2, 1], 5⟩ : Buffer).readData_U8 hostLE 0 =
        (Datatype.U16.Alias, ⟨[0, 0, 0, 1, 0x6E, 5, 2, 1], 6⟩) ∧
      (⟨[0, 0, 0, 1, 0x6E, 4, 9], 0⟩ : Buffer).readData_String hostLE =
        (ascii "n", ⟨[0, 0, 0, 1, 0x6E, 4, 9], 5⟩) ∧
      (⟨[0, 0, 0, 1, 0x6E, 4, 9], 5⟩ : Buffer).readData_U8 hostLE 0 =
        (Datatype.U8.Alias, ⟨[0, 0, 0, 1, 0x6E, 4, 9], 6⟩)) ∧
    (Key.deserializeEntryTracked hostLE
        ⟨rootName, 0, [⟨ascii "m", Value.u8 1⟩, ⟨ascii "n", Value.u16 7⟩], []⟩ Sentinels.new
        ⟨[0, 0, 0, 1, 0x6E, 5, 2, 1], 0⟩).2.1 =
      ⟨rootName, 0, [⟨ascii "m", Value.u8 1⟩, ⟨ascii "n", Value.u16 513⟩], []⟩ ∧
    ((Key.deserializeEntryTracked hostLE
        ⟨rootName, 0, [⟨ascii "m", Value.u8 1⟩, ⟨ascii "n", Value.u16 7⟩], []⟩ Sentinels.new
        ⟨[0, 0, 0, 1, 0x6E, 4, 9], 0⟩).1 = true ∧
      (Key.deserializeEntryTracked hostLE
        ⟨rootName, 0, [⟨ascii "m", Value.u8 1⟩, ⟨ascii "n", Value.u16 7⟩], []⟩ Sentinels.new
        ⟨[0, 0, 0, 1, 0x6E, 4, 9], 0⟩).2.1 =
        ⟨rootName, 0, [⟨ascii "m", Value.u8 1⟩, ⟨ascii "n", Value.u16 7⟩], []⟩ ∧
      (Key.deserializeEntryTracked hostLE
        ⟨rootName, 0, [⟨ascii "m", Value.u8 1⟩, ⟨ascii "n", Value.u16 7⟩], []⟩ Sentinels.new
        ⟨[0, 0, 0, 1, 0x6E, 4, 9], 0⟩).2.2.1 Datatype.U8 = Value.u8 9) :=
  ⟨⟨by decide, by decide, by decide, by decide⟩,
   by
    rw [(((duplicate_entry_decode hostLE
      ⟨rootName, 0, [⟨ascii "m", Value.u8 1⟩, ⟨ascii "n", Value.u16 7⟩], []⟩ Sentinels.new
      ⟨[0, 0, 0, 1, 0x6E, 5, 2, 1], 0⟩ ⟨[0, 0, 0, 1, 0x6E, 5, 2, 1], 5⟩
      ⟨[0, 0, 0, 1, 0x6E, 5, 2, 1], 6⟩ (ascii "n") Datatype.U16 (by decide) (by decide)).2.2.1
      1 ⟨ascii "n", Value.u16 7⟩ (by decide) (by decide) (by decide) rfl).1 (by decide)).1]
    decide,
   by
    rw [(((duplicate_entry_decode hostLE
      ⟨rootName, 0, [⟨ascii "m", Value.u8 1⟩, ⟨ascii "n", Value.u16 7⟩], []⟩ Sentinels.new
      ⟨[0, 0, 0, 1, 0x6E, 4, 9], 0⟩ ⟨[0, 0, 0, 1, 0x6E, 4, 9], 5⟩
      ⟨[0, 0, 0, 1, 0x6E, 4, 9], 6⟩ (ascii "n") Datatype.U8 (by decide) (by decide)).2.2.1
      1 ⟨ascii "n", Value.u16 7⟩ (by decide) (by decide) (by decide) rfl).2 (by decide)).1]
    exact ⟨rfl, rfl, by decide⟩⟩

/-! ## The decoding loop without nesting bound, on runs of complete records -/

theorem decodeLoop_append (next : Key → Buffer → Option (Bool × Key × Buffer)) (j m : Nat)
    (k k1 : Key) (b b1 : Buffer) (h : decodeLoop next j k b = some (true, k1, b1)) :
    decodeLoop next (j + m) k b = decodeLoop next m k1 b1 := by
  induction j generalizing k b with
  | zero =>
    simp only [decodeLoop, Option.some.injEq, Prod.mk.injEq, true_and] at h
    obtain ⟨rfl, rfl⟩ := h
    simp
  | succ j ih =>
    have e : j + 1 + m = (j + m) + 1 := by omega
    rw [e]
    simp only [decodeLoop] at h ⊢
    cases hn : next k b with
    | none => simp [hn] at h
    | some x =>
      obtain ⟨ok, k2, b2⟩ := x
      rw [hn] at h
      cases ok with
      | false => simp at h
      | true => exact ih k2 b2 h

theorem decodeLoop_fail_first (next : Key → Buffer → Option (Bool × Key × Buffer)) (m : Nat)
    (k kf : Key) (b bf : Buffer) (h : next k b = some (false, kf, bf)) :
    decodeLoop next (m + 1) k b = some (false, kf, bf) := by
  simp [decodeLoop, h]

/-- The loop over the total decoder, on a run of entry records. -/
theorem totalLoop_entries (host : Host) (es : List Entry) (k : Key) (b : Buffer)
    (tl : List Byte) (m : Nat)
    (hvalid : ∀ e ∈ es,
      e.m_name ≠ [] ∧ e.m_name.length < 2 ^ 32 ∧ e.m_data.stringSize < 2 ^ 32)
    (hnodup : ((k.m_entries ++ es).map (fun e => e.m_name)).Nodup)
    (h : b.rest = (es.map encEntry).flatten ++ tl) :
    decodeLoop (fun k b => some (Key.deserializeNextTotal host k b)) (es.length + m) k b =
      decodeLoop (fun k b => some (Key.deserializeNextTotal host k b)) m
        { k with m_entries := k.m_entries ++ es }
        (b.advance ((es.map encEntry).flatten).length) := by
  have h0 := decodeLoop_entries host 0 es k b tl 0 hvalid hnodup h
  rw [decodeLoop_zero] at h0
  exact decodeLoop_append _ _ m _ _ _ _ (decodeLoop_total host _ _ k b _ h0)

/-- The loop over the total decoder, on a run of records of well-formed keys:
the keys are appended as they are, when their instance ids are those their
positions give them. -/
theorem totalLoop_keys (host : Host) (cs : List Key) (k : Key) (b : Buffer)
    (tl : List Byte) (m : Nat)
    (hwf : ∀ c ∈ cs, Key.All Key.WellFormed c ∧ validKeyName c.m_name ∧
      c.m_name.length < 2 ^ 32)
    (hinst : InstanceOKList (k.m_keys ++ cs)) (h : b.rest = encKeys cs ++ tl) :
    decodeLoop (fun k b => some (Key.deserializeNextTotal host k b)) (cs.length + m) k b =
      decodeLoop (fun k b => some (Key.deserializeNextTotal host k b)) m
        { k with m_keys := k.m_keys ++ cs } (b.advance (encKeys cs).length) := by
  have hP : ∀ c ∈ cs, ∀ (k0 : Key) (b0 : Buffer) (tl0 : List Byte),
      InstanceOKList (k0.m_keys ++ [c]) → b0.rest = encKey c ++ tl0 →
      Key.deserializeNext host (Key.depthList cs) k0 b0 =
        some (true, { k0 with m_keys := k0.m_keys ++ [c] }, b0.advance (encKey c).length) := by
    intro c hc k0 b0 tl0 hi0 hb0
    exact deserializeNext_key host (sizeOf c) c (Nat.le_refl _) _ k0 b0 tl0
      (depth_le_of_mem cs c hc) (hwf c hc).1 (hwf c hc).2.1 (hwf c hc).2.2 hi0 hb0
  have h0 := decodeLoop_keys host (Key.depthList cs) cs hP k b tl 0 hinst h
  rw [decodeLoop_zero] at h0
  exact decodeLoop_append _ _ m _ _ _ _ (decodeLoop_total host _ _ k b _ h0)

/-! ## Claim C37: loading in append mode -/

theorem encKey_inst (c : Key) (i : Nat) : encKey { c with m_instance := i } = encKey c := by
  obtain ⟨n, j, es, ks⟩ := c
  show encKey ⟨n, i, es, ks⟩ = encKey ⟨n, j, es, ks⟩
  unfold encKey
  rfl

theorem encKeys_rankFrom (pre cs : List Key) : encKeys (rankFrom pre cs) = encKeys cs := by
  induction cs generalizing pre with
  | nil => rfl
  | cons c cs ih => simp only [rankFrom, encKeys, encKey_inst, ih]

theorem length_rankFrom (pre cs : List Key) : (rankFrom pre cs).length = cs.length := by
  induction cs generalizing pre with
  | nil => rfl
  | cons c cs ih => simp only [rankFrom, List.length_cons, ih]

theorem mem_rankFrom (pre cs : List Key) (x : Key) (hx : x ∈ rankFrom pre cs) :
    ∃ c ∈ cs, ∃ i, x = { c with m_instance := i } := by
  induction cs generalizing pre with
  | nil => simp [rankFrom] at hx
  | cons c cs ih =>
    simp only [rankFrom, List.mem_cons] at hx
    rcases hx with rfl | hx
    · exact ⟨c, by simp, _, rfl⟩
    · obtain ⟨c2, hc2, i, hi⟩ := ih _ hx
      exact ⟨c2, by simp [hc2], i, hi⟩

theorem wellFormed_inst (c : Key) (i : Nat) (h : Key.All Key.WellFormed c) :
    Key.All Key.WellFormed { c with m_instance := i } := by
  rw [all_iff] at h ⊢
  exact h

theorem countP_names (l1 l2 : List Key) (n : Str)
    (h : l1.map (fun c => c.m_name) = l2.map (fun c => c.m_name)) :
    l1.countP (fun c => decide (c.m_name = n)) = l2.countP (fun c => decide (c.m_name = n)) := by
  have e : ∀ l : List Key, l.countP (fun c => decide (c.m_name = n)) =
      (l.map (fun c => c.m_name)).countP (fun m => decide (m = n)) := by
    intro l
    rw [List.countP_map]
    rfl
  rw [e l1, e l2, h]

theorem instanceOK_rankFrom (cs pre pre2 : List Key)
    (hn : pre2.map (fun c => c.m_name) = pre.map (fun c => c.m_name))
    (h : InstanceOKList pre2) : InstanceOKList (pre2 ++ rankFrom pre cs) := by
  induction cs generalizing pre pre2 with
  | nil => simpa [rankFrom] using h
  | cons c cs ih =>
    simp only [rankFrom]
    have e : pre2 ++ { c with m_instance := pre.countP (fun x => decide (x.m_name = c.m_name)) } ::
        rankFrom (pre ++ [c]) cs =
        (pre2 ++ [{ c with m_instance := pre.countP (fun x => decide (x.m_name = c.m_name)) }]) ++
          rankFrom (pre ++ [c]) cs := by simp
    rw [e]
    apply ih
    · simp [hn]
    · rw [instanceOK_snoc]
      exact ⟨h, (countP_names pre2 pre c.m_name hn).symm⟩

theorem getElem?_rankFrom (cs pre : List Key) (i : Nat) (c : Key) (h : cs[i]? = some c) :
    (rankFrom pre cs)[i]? =
      some { c with m_instance :=
        (pre.countP (fun x => decide (x.m_name = c.m_name)) + rankBefore cs i c.m_name) } := by
  induction cs generalizing pre i with
  | nil => simp at h
  | cons c0 cs ih =>
    cases i with
    | zero =>
      simp only [List.getElem?_cons_zero, Option.some.injEq] at h
      subst h
      simp [rankFrom, rankBefore]
    | succ i =>
      simp only [List.getElem?_cons_succ] at h
      simp only [rankFrom, List.getElem?_cons_succ]
      rw [ih _ i h]
      simp only [rankBefore, List.take_succ_cons, List.countP_append, List.countP_cons,
        List.countP_nil]
      congr 2
      omega

theorem nodup_append_names (es1 es2 : List Entry)
    (h1 : (es1.map (fun e => e.m_name)).Nodup) (h2 : (es2.map (fun e => e.m_name)).Nodup)
    (hd : ∀ e ∈ es2, ∀ r ∈ es1, e.m_name ≠ r.m_name) :
    ((es1 ++ es2).map (fun e => e.m_name)).Nodup := by
  rw [List.map_append, List.nodup_append]
  refine ⟨h1, h2, ?_⟩
  intro n hn1 hn2
  obtain ⟨r, hr, rfl⟩ := List.mem_map.mp hn1
  obtain ⟨e, he, hen⟩ := List.mem_map.mp hn2
  exact hd e he r hr hen

/-- Loading the bytes of a well-formed tree `T` on top of the content of `R`. -/
theorem loadFromBuffer_append (host : Host) (R T : Key) (b : Buffer) (tl : List Byte)
    (hRn : (R.m_entries.map (fun e => e.m_name)).Nodup) (hRi : R.InstanceOK)
    (hT : Registry.WellFormed T)
    (hd : ∀ e ∈ T.m_entries, ∀ r ∈ R.m_entries, e.m_name ≠ r.m_name)
    (h : b.rest = encKey T ++ tl) :
    Registry.loadFromBuffer host R b true =
      (Status.OK,
        { R with m_entries := R.m_entries ++ T.m_entries,
                 m_keys := R.m_keys ++ rankFrom R.m_keys T.m_keys },
        b.advance (encKey T).length) := by
  obtain ⟨name, inst, es, ks⟩ := T
  obtain ⟨hroot, _, hwf⟩ := hT
  simp only at hroot hd
  subst hroot
  rw [all_iff] at hwf
  obtain ⟨⟨hE, hS, hI, hZ⟩, hsub⟩ := hwf
  simp only at hsub
  have hcount : es.length + ks.length < 2 ^ 32 := hZ.2.2
  rw [encKey_of_root inst es ks hcount] at h ⊢
  have h0 : b.rest = be32 (es.length + ks.length) ++
      ((es.map encEntry).flatten ++ (encKeys ks ++ tl)) := by
    rw [h]; simp only [List.append_assoc]
  have r1 := readData_U32_rest host b (es.length + ks.length) 0 _ hcount h0
  have h1 : (b.advance 4).rest = (es.map encEntry).flatten ++ (encKeys ks ++ tl) :=
    advance_rest b (be32 (es.length + ks.length)) _ h0
  have he := totalLoop_entries host es R (b.advance 4) _ ks.length
    (fun e he => ⟨hE.1 e he, (hZ.1 e he).1, (hZ.1 e he).2⟩)
    (nodup_append_names R.m_entries es hRn hE.2 hd) h1
  have h2 : ((b.advance 4).advance ((es.map encEntry).flatten).length).rest =
      encKeys (rankFrom R.m_keys ks) ++ tl := by
    rw [encKeys_rankFrom]
    exact advance_rest _ ((es.map encEntry).flatten) _ h1
  have hk := totalLoop_keys host (rankFrom R.m_keys ks)
    { R with m_entries := R.m_entries ++ es }
    ((b.advance 4).advance ((es.map encEntry).flatten).length) tl 0
    (fun c hc => by
      obtain ⟨c0, hc0, i, rfl⟩ := mem_rankFrom _ _ c hc
      exact ⟨wellFormed_inst c0 i (hsub c0 hc0), hS c0 hc0, hZ.2.1 c0 hc0⟩)
    (instanceOK_rankFrom ks R.m_keys R.m_keys rfl hRi) h2
  rw [length_rankFrom, Nat.add_zero, decodeLoop_zero, encKeys_rankFrom] at hk
  obtain ⟨r, hr, hl⟩ := loadFromBuffer_total host R b true
  simp only [Bool.true_eq_false, if_false, r1] at hr
  rw [he, hk] at hr
  cases hr
  rw [hl]
  simp only [if_true, advance_advance]
  have e : (be32 (es.length + ks.length) ++ ((es.map encEntry).flatten ++ encKeys ks)).length
      = 4 + ((es.map encEntry).flatten).length + (encKeys ks).length := by
    simp only [List.length_append, be32, List.length_cons, List.length_nil]
    omega
  rw [e]

/-- C37. Append mode. Let the entry names of the registry `R` be pairwise
distinct and its subkeys satisfy the instance-id invariant (both are
data-model invariants), and let the buffer hold, from the cursor on, the bytes
`saveToBuffer` writes for a tree `T` that satisfies the data-model invariants
and whose top-level entry names do not occur among the top-level entry names
of `R`. Then `loadFromBuffer` with `append = true` returns `OK`; afterwards
the entries of `R` are the old ones followed by the top-level entries of `T`
in order, and the subkeys of `R` are the old ones followed by the top-level
subkeys of `T` in order, with their contents, each with the instance id
"number of same-named subkeys of the old `R`, plus its id in `T`", which is
its rank among all same-named subkeys of `R`, the old ones first. With
`append = false` the old entries and subkeys are discarded: the registry
holds the entries and subkeys of `T` only. -/
theorem append_mode (hostS host : Host) (R T : Key) (b : Buffer) (tl : List Byte)
    (hRn : (R.m_entries.map (fun e => e.m_name)).Nodup) (hRi : R.InstanceOK)
    (hT : Registry.WellFormed T)
    (hd : ∀ e ∈ T.m_entries, ∀ r ∈ R.m_entries, e.m_name ≠ r.m_name)
    (h : b.rest = (Registry.saveToBuffer hostS T Buffer.empty).2.m_bytes ++ tl) :
    Registry.loadFromBuffer host R b true =
      (Status.OK,
        { R with m_entries := R.m_entries ++ T.m_entries,
                 m_keys := R.m_keys ++ rankFrom R.m_keys T.m_keys },
        b.advance (Registry.saveToBuffer hostS T Buffer.empty).2.m_bytes.length) ∧
    (rankFrom R.m_keys T.m_keys).length = T.m_keys.length ∧
    (∀ (i : Nat) (c : Key), T.m_keys[i]? = some c →
      (rankFrom R.m_keys T.m_keys)[i]? =
        some { c with m_instance :=
          (R.m_keys.countP (fun x => decide (x.m_name = c.m_name)) + c.m_instance) }) ∧
    InstanceOKList (R.m_keys ++ rankFrom R.m_keys T.m_keys) ∧
    Registry.loadFromBuffer host R b false =
      (Status.OK, { R with m_entries := T.m_entries, m_keys := T.m_keys },
        b.advance (Registry.saveToBuffer hostS T Buffer.empty).2.m_bytes.length) := by
  have hb : (Registry.saveToBuffer hostS T Buffer.empty).2.m_bytes = encKey T := by
    simp [Registry.saveToBuffer, key_serialize_eq, Buffer.empty]
  rw [hb] at h ⊢
  refine ⟨loadFromBuffer_append host R T b tl hRn hRi hT hd h, length_rankFrom _ _, ?_,
    instanceOK_rankFrom _ _ _ rfl hRi, loadFromBuffer_encKey host T R b tl hT h⟩
  intro i c hc
  rw [getElem?_rankFrom _ _ i c hc]
  have hI : InstanceOKList T.m_keys := ((all_iff _ T).mp hT.2.2).1.2.2.1
  rw [(instanceOK_iff_getElem? T.m_keys).mp hI i c hc]

/-- C37, for `sampleTree`, which holds the subkeys `A`, `C`, `A`, and the bytes
of a tree with one entry and two subkeys named `A`: the appended subkeys
receive the instance ids 2 and 3. -/
theorem append_mode_witness :
    ((sampleTree.m_entries.map (fun e => e.m_name)).Nodup ∧ sampleTree.InstanceOK ∧
      Registry.WellFormed
        ⟨rootName, 0, [⟨ascii "n", Value.u16 513⟩],
          [⟨ascii "A", 0, [], []⟩, ⟨ascii "A", 1, [⟨ascii "z", Value.u8 1⟩], []⟩]⟩) ∧
    (Registry.loadFromBuffer hostLE sampleTree
      ⟨(Registry.saveToBuffer hostBE
        ⟨rootName, 0, [⟨ascii "n", Value.u16 513⟩],
          [⟨ascii "A", 0, [], []⟩, ⟨ascii "A", 1, [⟨ascii "z", Value.u8 1⟩], []⟩]⟩
        Buffer.empty).2.m_bytes, 0⟩ true).2.1 =
      { sampleTree with
        m_entries := sampleTree.m_entries ++ [⟨ascii "n", Value.u16 513⟩],
        m_keys := sampleTree.m_keys ++
          [⟨ascii "A", 2, [], []⟩, ⟨ascii "A", 3, [⟨ascii "z", Value.u8 1⟩], []⟩] } :=
  ⟨⟨by decide, by decide, by decide⟩,
   by
    rw [(append_mode hostBE hostLE sampleTree
      ⟨rootName, 0, [⟨ascii "n", Value.u16 513⟩],
        [⟨ascii "A", 0, [], []⟩, ⟨ascii "A", 1, [⟨ascii "z", Value.u8 1⟩], []⟩]⟩
      ⟨(Registry.saveToBuffer hostBE
        ⟨rootName, 0, [⟨ascii "n", Value.u16 513⟩],
          [⟨ascii "A", 0, [], []⟩, ⟨ascii "A", 1, [⟨ascii "z", Value.u8 1⟩], []⟩]⟩
        Buffer.empty).2.m_bytes, 0⟩ [] (by decide) (by decide) (by decide) (by decide)
      (by simp [Buffer.rest])).1]
    decide⟩

/-! ## Claim C32: truncated streams -/

theorem next_short (host : Host) (k : Key) (b : Buffer) (h : b.rest.length < 4) :
    Key.deserializeNextTotal host k b = (false, k, b) := by
  have hr := readData_U32_short host b 0 h
  have n1 : (0 : Nat) ≠ G_ENTRY_HEADER := by decide
  have n2 : (0 : Nat) ≠ G_KEY_HEADER := by decide
  have e := deserializeNextTotal_unknown host k b (by rw [hr]; exact n1) (by rw [hr]; exact n2)
  rw [e, hr]

theorem inBounds_advance (b : Buffer) (X tl : List Byte) (h : b.rest = X ++ tl)
    (hb : b.m_read ≤ b.m_bytes.length) :
    (b.advance X.length).m_read ≤ (b.advance X.length).m_bytes.length := by
  have := rest_length b
  rw [h] at this
  simp only [List.length_append] at this
  simp only [Buffer.advance]
  omega

theorem inBounds_U8 (host : Host) (b : Buffer) (init : Nat) (hb : b.m_read ≤ b.m_bytes.length) :
    (b.readData_U8 host init).2.m_read ≤ (b.readData_U8 host init).2.m_bytes.length := by
  unfold Buffer.readData_U8
  split
  · rename_i hc
    simp only [Buffer.canRead, decide_eq_true_eq] at hc
    simp only
    omega
  · exact hb

theorem loadFromBuffer_later (host : Host) (R : Key) (b : Buffer) (a_append : Bool) :
    b.Later (Registry.loadFromBuffer host R b a_append).2.2 := by
  have l0 := readData_U32_later host b 0
  obtain ⟨r, hr, hl⟩ := decodeLoop_later
    (Key.deserializeNext host ((b.readData_U32 host 0).2.m_bytes.length + 1))
    (b.readData_U32 host 0).2.m_bytes 0
    (fun k0 b0 hB _ => deserializeNext_isSome host _ k0 b0 (by rw [hB]; omega))
    (b.readData_U32 host 0).1
    (if a_append = false then { R with m_entries := [], m_keys := [] } else R)
    (b.readData_U32 host 0).2 rfl (Nat.zero_le _)
  unfold Registry.loadFromBuffer
  simp only [hr]
  obtain ⟨ok, k1, b1⟩ := r
  cases ok <;> exact later_trans _ _ _ l0 hl

/-- An entry record that ends inside the length of its name is refused: the
length is not read, the name stays empty, and the cursor stays in the buffer. -/
theorem deserializeEntry_nameLength (host : Host) (k : Key) (b : Buffer)
    (h : b.rest.length < 4) (hb : b.m_read ≤ b.m_bytes.length) :
    (k.deserializeEntry host b).1 = false ∧
      (k.deserializeEntry host b).2.2.m_read ≤ (k.deserializeEntry host b).2.2.m_bytes.length := by
  have hr := readData_U32_short host b 0 h
  have hs : b.readData_String host = ([], b) := by
    simp [Buffer.readData_String, hr]
  have e : k.deserializeEntry host b = (false, k, (b.readData_U8 host 0).2) := by
    simp [Key.deserializeEntry, hs]
  rw [e]
  exact ⟨rfl, inBounds_U8 host b 0 hb⟩

/-- An entry record that ends directly behind its name is refused: the name is
read inside the buffer, the tag is not read and stays 0, and the cursor stands
at the end of the buffer. -/
theorem deserializeEntry_tag (host : Host) (k : Key) (b : Buffer) (name : Str)
    (hl : name.length < 2 ^ 32) (h : b.rest = encString name) :
    k.deserializeEntry host b = (false, k, b.advance (4 + name.length)) ∧
      (b.advance (4 + name.length)).m_read = b.m_bytes.length := by
  have r := readData_String_rest host b name [] hl (by simp [h])
  have hlen : b.m_bytes.length = b.m_read + (4 + name.length) := by
    have := rest_length b
    rw [h, encString_length name hl] at this
    omega
  have h8 : (b.advance (4 + name.length)).readData_U8 host 0 =
      (0, b.advance (4 + name.length)) := by
    have hc : (b.advance (4 + name.length)).canRead 1 = false := by
      simp only [Buffer.canRead, Buffer.advance, decide_eq_false_iff_not]
      omega
    simp [Buffer.readData_U8, hc]
  refine ⟨?_, ?_⟩
  · unfold Key.deserializeEntry
    simp only [r, h8]
    split
    · rfl
    · rfl
  · simp only [Buffer.advance]
    omega

theorem next_entry_of (host : Host) (k : Key) (b : Buffer) (u : List Byte)
    (h : b.rest = be32 G_ENTRY_HEADER ++ u) (hb : b.m_read ≤ b.m_bytes.length) :
    Key.deserializeNextTotal host k b = k.deserializeEntry host (b.advance 4) ∧
      (b.advance 4).rest = u ∧ (b.advance 4).m_read ≤ (b.advance 4).m_bytes.length := by
  have r1 := readData_U32_rest host b G_ENTRY_HEADER 0 u (by decide) h
  have h1 : (b.advance 4).rest = u := by
    have := advance_rest b (be32 G_ENTRY_HEADER) u h
    simpa [be32] using this
  have hi : (b.advance 4).m_read ≤ (b.advance 4).m_bytes.length := by
    have := inBounds_advance b (be32 G_ENTRY_HEADER) u h hb
    simpa [be32] using this
  have e := deserializeNextTotal_eq host k b
  rw [r1] at e
  simp only [if_true, Option.some.injEq] at e
  exact ⟨e, h1, hi⟩

/-- A subkey record that ends inside the length of its name is refused, and
the cursor stays behind the header. -/
theorem next_keyName_cut (host : Host) (k : Key) (b : Buffer) (u : List Byte)
    (hu : u.length < 4) (h : b.rest = be32 G_KEY_HEADER ++ u)
    (hb : b.m_read ≤ b.m_bytes.length) :
    Key.deserializeNextTotal host k b = (false, k, b.advance 4) ∧
      (b.advance 4).m_read ≤ (b.advance 4).m_bytes.length := by
  have r1 := readData_U32_rest host b G_KEY_HEADER 0 u (by decide) h
  have h1 : (b.advance 4).rest = u := by
    have := advance_rest b (be32 G_KEY_HEADER) u h
    simpa [be32] using this
  have hi : (b.advance 4).m_read ≤ (b.advance 4).m_bytes.length := by
    have := inBounds_advance b (be32 G_KEY_HEADER) u h hb
    simpa [be32] using this
  have hr := readData_U32_short host (b.advance 4) 0 (by rw [h1]; exact hu)
  have hs : (b.advance 4).readData_String host = ([], b.advance 4) := by
    simp [Buffer.readData_String, hr]
  have hk := deserializeNextTotal_key host k b _ r1
  rw [deserializeKey_reject host _ k _ (Or.inl (by rw [hs]))] at hk
  rw [hs, hr] at hk
  exact ⟨(Option.some.inj hk).symm, hi⟩

theorem next_key_nested (host : Host) (k : Key) (b : Buffer) (name : Str) (cnt : Nat)
    (q : List Byte) (hv : validKeyName name) (hl : name.length < 2 ^ 32) (hc : cnt < 2 ^ 32)
    (hin : ∀ (k0 : Key) (b0 : Buffer), k0.m_entries = [] → k0.m_keys = [] → b0.rest = q →
      b0.m_read ≤ b0.m_bytes.length →
      ∃ kf bf, decodeLoop (fun k b => some (Key.deserializeNextTotal host k b)) cnt k0 b0 =
        some (false, kf, bf) ∧ bf.m_read ≤ bf.m_bytes.length)
    (h : b.rest = be32 G_KEY_HEADER ++ (encString name ++ (be32 cnt ++ q)))
    (hb : b.m_read ≤ b.m_bytes.length) :
    (Key.deserializeNextTotal host k b).1 = false ∧
      (Key.deserializeNextTotal host k b).2.2.m_read ≤
        (Key.deserializeNextTotal host k b).2.2.m_bytes.length := by
  have r1 := readData_U32_rest host b G_KEY_HEADER 0 _ (by decide) h
  have h1 : (b.advance 4).rest = encString name ++ (be32 cnt ++ q) := by
    have := advance_rest b (be32 G_KEY_HEADER) _ h
    simpa [be32] using this
  have i1 : (b.advance 4).m_read ≤ (b.advance 4).m_bytes.length := by
    have := inBounds_advance b (be32 G_KEY_HEADER) _ h hb
    simpa [be32] using this
  have r2 := readData_String_rest host (b.advance 4) name _ hl h1
  have h2 : ((b.advance 4).advance (4 + name.length)).rest = be32 cnt ++ q := by
    have := advance_rest (b.advance 4) (encString name) _ h1
    rwa [encString_length name hl] at this
  have i2 : ((b.advance 4).advance (4 + name.length)).m_read ≤
      ((b.advance 4).advance (4 + name.length)).m_bytes.length := by
    have := inBounds_advance (b.advance 4) (encString name) _ h1 i1
    rwa [encString_length name hl] at this
  have r3 := readData_U32_rest host _ cnt 0 q hc h2
  have h3 : (((b.advance 4).advance (4 + name.length)).advance 4).rest = q := by
    have := advance_rest _ (be32 cnt) q h2
    simpa [be32] using this
  have i3 : (((b.advance 4).advance (4 + name.length)).advance 4).m_read ≤
      (((b.advance 4).advance (4 + name.length)).advance 4).m_bytes.length := by
    have := inBounds_advance _ (be32 cnt) q h2 i2
    simpa [be32] using this
  have hk := deserializeNextTotal_key host k b _ r1
  rw [deserializeKey_accept host _ k _ (by rw [r2]; exact hv.1) (by rw [r2]; exact hv.2.1)
    (by rw [r2]; exact hv.2.2)] at hk
  simp only [r2, r3] at hk
  obtain ⟨kf, bf, hf, hbf⟩ := hin (Key.new name
    (k.m_keys.countP (fun c => decide (c.m_name = name)))) _ rfl rfl h3 i3
  rw [hf] at hk
  simp only [Option.map_some', Option.some.injEq] at hk
  rw [← hk]
  exact ⟨rfl, hbf⟩

theorem encKeys_append (l r : List Key) : encKeys (l ++ r) = encKeys l ++ encKeys r := by
  induction l with
  | nil => simp [encKeys]
  | cons c l ih => simp [encKeys, ih]

/-- On a stream that is cut short at one of the places of `CutBody`, the loop
over the announced entities of the key fails, and the cursor it leaves is
inside the buffer or at its end. -/
theorem cutBody_fail (host : Host) (es : List Entry) (ks : List Key) (q : List Byte)
    (hq : CutBody es ks q) :
    ∀ (n : Str) (i : Nat), Key.All Key.WellFormed ⟨n, i, es, ks⟩ →
    ∀ (k : Key) (b : Buffer), k.m_entries = [] → k.m_keys = [] → b.rest = q →
      b.m_read ≤ b.m_bytes.length →
      ∃ kf bf, decodeLoop (fun k b => some (Key.deserializeNextTotal host k b))
        (es.length + ks.length) k b = some (false, kf, bf) ∧
        bf.m_read ≤ bf.m_bytes.length := by
  induction hq with
  | entryHeader es1 e es2 ks t ht _ =>
    intro n i hwf k b hke _ hb hin
    rw [all_iff] at hwf
    obtain ⟨⟨hE, _, _, hZ⟩, _⟩ := hwf
    have hnd : ((k.m_entries ++ es1).map (fun e => e.m_name)).Nodup := by
      rw [hke]
      have := hE.2
      rw [List.map_append, List.nodup_append] at this
      simpa using this.1
    have he := totalLoop_entries host es1 k b t (es2.length + ks.length + 1)
      (fun x hx => ⟨hE.1 x (by simp [hx]), (hZ.1 x (by simp [hx])).1, (hZ.1 x (by simp [hx])).2⟩)
      hnd hb
    have hr := advance_rest b _ t hb
    have hi := inBounds_advance b _ t hb hin
    have e1 : (es1 ++ e :: es2).length + ks.length = es1.length + (es2.length + ks.length + 1) := by
      simp; omega
    rw [e1, he]
    exact ⟨_, _, decodeLoop_fail_first _ _ _ _ _ _
      (by rw [next_short host _ _ (by rw [hr]; exact ht)]), hi⟩
  | entryNameLength es1 e es2 ks u hu _ =>
    intro n i hwf k b hke _ hb hin
    rw [all_iff] at hwf
    obtain ⟨⟨hE, _, _, hZ⟩, _⟩ := hwf
    have hnd : ((k.m_entries ++ es1).map (fun e => e.m_name)).Nodup := by
      rw [hke]
      have := hE.2
      rw [List.map_append, List.nodup_append] at this
      simpa using this.1
    have he := totalLoop_entries host es1 k b _ (es2.length + ks.length + 1)
      (fun x hx => ⟨hE.1 x (by simp [hx]), (hZ.1 x (by simp [hx])).1, (hZ.1 x (by simp [hx])).2⟩)
      hnd hb
    have hr := advance_rest b _ _ hb
    have hi := inBounds_advance b _ _ hb hin
    have e1 : (es1 ++ e :: es2).length + ks.length = es1.length + (es2.length + ks.length + 1) := by
      simp; omega
    rw [e1, he]
    obtain ⟨g1, g2, g3⟩ := next_entry_of host { k with m_entries := k.m_entries ++ es1 } _ u hr hi
    obtain ⟨f1, f2⟩ := deserializeEntry_nameLength host
      { k with m_entries := k.m_entries ++ es1 } _ (by rw [g2]; exact hu) g3
    rw [← g1] at f1 f2
    exact ⟨_, _, decodeLoop_fail_first _ _ _ _ _ _ (by rw [← f1]), f2⟩
  | entryTag es1 e es2 ks =>
    intro n i hwf k b hke _ hb hin
    rw [all_iff] at hwf
    obtain ⟨⟨hE, _, _, hZ⟩, _⟩ := hwf
    have hnd : ((k.m_entries ++ es1).map (fun e => e.m_name)).Nodup := by
      rw [hke]
      have := hE.2
      rw [List.map_append, List.nodup_append] at this
      simpa using this.1
    have he := totalLoop_entries host es1 k b _ (es2.length + ks.length + 1)
      (fun x hx => ⟨hE.1 x (by simp [hx]), (hZ.1 x (by simp [hx])).1, (hZ.1 x (by simp [hx])).2⟩)
      hnd hb
    have hr := advance_rest b _ _ hb
    have hi := inBounds_advance b _ _ hb hin
    have e1 : (es1 ++ e :: es2).length + ks.length = es1.length + (es2.length + ks.length + 1) := by
      simp; omega
    rw [e1, he]
    obtain ⟨g1, g2, _⟩ := next_entry_of host { k with m_entries := k.m_entries ++ es1 } _ _ hr hi
    obtain ⟨f1, f2⟩ := deserializeEntry_tag host { k with m_entries := k.m_entries ++ es1 } _
      e.m_name (hZ.1 e (by simp)).1 g2
    rw [f1] at g1
    refine ⟨_, _, decodeLoop_fail_first _ _ _ _ _ _ (by rw [g1]), ?_⟩
    rw [f2]
    exact Nat.le_refl _
  | keyHeader es ks1 c ks2 t ht _ =>
    intro n i hwf k b hke hkk hb hin
    rw [all_iff] at hwf
    obtain ⟨⟨hE, hS, hI, hZ⟩, hsub⟩ := hwf
    have he := totalLoop_entries host es k b _ (ks1.length + (ks2.length + 1))
      (fun x hx => ⟨hE.1 x hx, (hZ.1 x hx).1, (hZ.1 x hx).2⟩)
      (by rw [hke]; simpa using hE.2) hb
    have hr := advance_rest b _ _ hb
    have hi := inBounds_advance b _ _ hb hin
    have hk := totalLoop_keys host ks1 { k with m_entries := k.m_entries ++ es } _ t
      (ks2.length + 1)
      (fun x hx => ⟨hsub x (by simp [hx]), hS x (by simp [hx]), hZ.2.1 x (by simp [hx])⟩)
      (by
        simp only [hkk, List.nil_append]
        exact instanceOK_append_left ks1 (c :: ks2) hI)
      hr
    have hr2 := advance_rest _ _ _ hr
    have hi2 := inBounds_advance _ _ _ hr hi
    have e1 : es.length + (ks1 ++ c :: ks2).length = es.length + (ks1.length + (ks2.length + 1)) := by
      simp
    rw [e1, he, hk]
    exact ⟨_, _, decodeLoop_fail_first _ _ _ _ _ _
      (by rw [next_short host _ _ (by rw [hr2]; exact ht)]), hi2⟩
  | keyNameLength es ks1 c ks2 u hu _ =>
    intro n i hwf k b hke hkk hb hin
    rw [all_iff] at hwf
    obtain ⟨⟨hE, hS, hI, hZ⟩, hsub⟩ := hwf
    have he := totalLoop_entries host es k b _ (ks1.length + (ks2.length + 1))
      (fun x hx => ⟨hE.1 x hx, (hZ.1 x hx).1, (hZ.1 x hx).2⟩)
      (by rw [hke]; simpa using hE.2) hb
    have hr := advance_rest b _ _ hb
    have hi := inBounds_advance b _ _ hb hin
    have hk := totalLoop_keys host ks1 { k with m_entries := k.m_entries ++ es } _ _
      (ks2.length + 1)
      (fun x hx => ⟨hsub x (by simp [hx]), hS x (by simp [hx]), hZ.2.1 x (by simp [hx])⟩)
      (by
        simp only [hkk, List.nil_append]
        exact instanceOK_append_left ks1 (c :: ks2) hI)
      hr
    have hr2 := advance_rest _ _ _ hr
    have hi2 := inBounds_advance _ _ _ hr hi
    have e1 : es.length + (ks1 ++ c :: ks2).length = es.length + (ks1.length + (ks2.length + 1)) := by
      simp
    rw [e1, he, hk]
    obtain ⟨f1, f2⟩ := next_keyName_cut host
      { k with m_entries := k.m_entries ++ es, m_keys := k.m_keys ++ ks1 } _ u hu hr2 hi2
    exact ⟨_, _, decodeLoop_fail_first _ _ _ _ _ _ (by rw [f1]), f2⟩
  | nested es ks1 c ks2 q _ ih =>
    intro n i hwf k b hke hkk hb hin
    rw [all_iff] at hwf
    obtain ⟨⟨hE, hS, hI, hZ⟩, hsub⟩ := hwf
    have he := totalLoop_entries host es k b _ (ks1.length + (ks2.length + 1))
      (fun x hx => ⟨hE.1 x hx, (hZ.1 x hx).1, (hZ.1 x hx).2⟩)
      (by rw [hke]; simpa using hE.2) hb
    have hr := advance_rest b _ _ hb
    have hi := inBounds_advance b _ _ hb hin
    have hk := totalLoop_keys host ks1 { k with m_entries := k.m_entries ++ es } _ _
      (ks2.length + 1)
      (fun x hx => ⟨hsub x (by simp [hx]), hS x (by simp [hx]), hZ.2.1 x (by simp [hx])⟩)
      (by
        simp only [hkk, List.nil_append]
        exact instanceOK_append_left ks1 (c :: ks2) hI)
      hr
    have hr2 := advance_rest _ _ _ hr
    have hi2 := inBounds_advance _ _ _ hr hi
    have e1 : es.length + (ks1 ++ c :: ks2).length = es.length + (ks1.length + (ks2.length + 1)) := by
      simp
    rw [e1, he, hk]
    have hc := hsub c (by simp)
    have hcz : c.m_entries.length + c.m_keys.length < 2 ^ 32 := ((all_iff _ c).mp hc).1.2.2.2.2.2
    obtain ⟨f1, f2⟩ := next_key_nested host
      { k with m_entries := k.m_entries ++ es, m_keys := k.m_keys ++ ks1 } _ c.m_name
      (c.m_entries.length + c.m_keys.length) q (hS c (by simp)) (hZ.2.1 c (by simp)) hcz
      (fun k0 b0 h1 h2 h3 h4 =>
        ih c.m_name c.m_instance (by cases c; exact hc) k0 b0 h1 h2 h3 h4) hr2 hi2
    exact ⟨_, _, decodeLoop_fail_first _ _ _ _ _ _ (by rw [← f1]), f2⟩

theorem ne_nil_of_length_lt {α : Type} (t r full : List α) (n : Nat) (h : t ++ r = full)
    (ht : t.length < n) (hf : n ≤ full.length) : r ≠ [] := by
  intro hr
  subst hr
  rw [List.append_nil] at h
  subst h
  omega

/-- The bytes of `CutBody` are a strict prefix of the bytes of the entities. -/
theorem cutBody_strict (es : List Entry) (ks : List Key) (q : List Byte)
    (hq : CutBody es ks q) :
    ∀ (n : Str) (i : Nat), Key.All Key.WellFormed ⟨n, i, es, ks⟩ →
      ∃ r, r ≠ [] ∧ (es.map encEntry).flatten ++ encKeys ks = q ++ r := by
  induction hq with
  | entryHeader es1 e es2 ks t ht hpre =>
    intro n i _
    obtain ⟨r0, hr0⟩ := hpre
    have hne : r0 ≠ [] := ne_nil_of_length_lt t r0 _ 4 hr0 ht
      (by simp [encEntry, be32])
    refine ⟨r0 ++ ((es2.map encEntry).flatten ++ encKeys ks), by simp [hne], ?_⟩
    simp [← hr0]
  | entryNameLength es1 e es2 ks u _ hpre =>
    intro n i _
    obtain ⟨r0, hr0⟩ := hpre
    refine ⟨r0 ++ ([U8.ofNat e.getAlias] ++ (encValue e.m_data ++
      ((es2.map encEntry).flatten ++ encKeys ks))), by simp, ?_⟩
    simp [encEntry, encEntryBody, ← hr0]
  | entryTag es1 e es2 ks =>
    intro n i _
    refine ⟨[U8.ofNat e.getAlias] ++ (encValue e.m_data ++
      ((es2.map encEntry).flatten ++ encKeys ks)), by simp, ?_⟩
    simp [encEntry, encEntryBody]
  | keyHeader es ks1 c ks2 t ht hpre =>
    intro n i hwf
    rw [all_iff] at hwf
    obtain ⟨⟨_, hS, _, _⟩, hsub⟩ := hwf
    obtain ⟨r0, hr0⟩ := hpre
    have hcz : c.m_entries.length + c.m_keys.length < 2 ^ 32 :=
      ((all_iff _ c).mp (hsub c (by simp))).1.2.2.2.2.2
    have hlen : 4 ≤ (encKey c).length := by
      have := encKey_of_valid c.m_name c.m_instance c.m_entries c.m_keys (hS c (by simp)) hcz
      have e : (⟨c.m_name, c.m_instance, c.m_entries, c.m_keys⟩ : Key) = c := by cases c; rfl
      rw [e] at this
      rw [this]
      simp [be32]
    have hne : r0 ≠ [] := ne_nil_of_length_lt t r0 _ 4 hr0 ht hlen
    refine ⟨r0 ++ encKeys ks2, by simp [hne], ?_⟩
    simp [encKeys_append, encKeys, ← hr0]
  | keyNameLength es ks1 c ks2 u hu hpre =>
    intro n i hwf
    rw [all_iff] at hwf
    obtain ⟨⟨_, hS, _, hZ⟩, hsub⟩ := hwf
    obtain ⟨r0, hr0⟩ := hpre
    have hcz : c.m_entries.length + c.m_keys.length < 2 ^ 32 :=
      ((all_iff _ c).mp (hsub c (by simp))).1.2.2.2.2.2
    have hk := encKey_of_valid c.m_name c.m_instance c.m_entries c.m_keys (hS c (by simp)) hcz
    have e : (⟨c.m_name, c.m_instance, c.m_entries, c.m_keys⟩ : Key) = c := by cases c; rfl
    rw [e] at hk
    have hne : r0 ≠ [] := ne_nil_of_length_lt u r0 _ 4 hr0 hu
      (by rw [encString_length _ (hZ.2.1 c (by simp))]; omega)
    refine ⟨r0 ++ (be32 (c.m_entries.length + c.m_keys.length) ++
      ((c.m_entries.map encEntry).flatten ++ encKeys c.m_keys)) ++ encKeys ks2,
      by simp [hne], ?_⟩
    simp [encKeys_append, encKeys, hk, ← hr0]
  | nested es ks1 c ks2 q _ ih =>
    intro n i hwf
    rw [all_iff] at hwf
    obtain ⟨⟨_, hS, _, hZ⟩, hsub⟩ := hwf
    have hc := hsub c (by simp)
    have hcz : c.m_entries.length + c.m_keys.length < 2 ^ 32 := ((all_iff _ c).mp hc).1.2.2.2.2.2
    have hk := encKey_of_valid c.m_name c.m_instance c.m_entries c.m_keys (hS c (by simp)) hcz
    have e : (⟨c.m_name, c.m_instance, c.m_entries, c.m_keys⟩ : Key) = c := by cases c; rfl
    rw [e] at hk
    obtain ⟨r0, hne, hr0⟩ := ih c.m_name c.m_instance (by cases c; exact hc)
    refine ⟨r0 ++ encKeys ks2, by simp [hne], ?_⟩
    simp [encKeys_append, encKeys, hk, hr0]

/-- Streams that a load with `append = false` accepts although they are cut
short: the registry with the `U8` entry `"x"` is saved in 15 bytes, and the
first 3 of them, which end inside the root count, are loaded with the status
`OK` as an empty tree. Likewise the 28 bytes written for the registry with the
subkey
`"A"` that holds the entry `"x"`: the first 15 end inside the count of the
subkey and are loaded with the status `OK` as the subkey `"A"` without
content. And the 20 bytes written for the registry with the string entry
`"s"` of value `"hi"`: the first 17 end inside the length of the value and are
loaded with the status `OK` as the entry `"s"` with the empty value. -/
theorem truncated_stream_accepted :
    ((⟨rootName, 0, [⟨ascii "x", Value.u8 7⟩], []⟩ : Key).m_entries ≠ [] ∧
      (Registry.saveToBuffer hostLE ⟨rootName, 0, [⟨ascii "x", Value.u8 7⟩], []⟩
        Buffer.empty).2.m_bytes.length = 15 ∧
      Registry.loadFromBuffer hostLE Registry.new
        ⟨(Registry.saveToBuffer hostLE ⟨rootName, 0, [⟨ascii "x", Value.u8 7⟩], []⟩
          Buffer.empty).2.m_bytes.take 3, 0⟩ false =
        (Status.OK, Registry.new, ⟨[0, 0, 0], 0⟩)) ∧
    ((Registry.saveToBuffer hostLE
        ⟨rootName, 0, [], [⟨ascii "A", 0, [⟨ascii "x", Value.u8 7⟩], []⟩]⟩
        Buffer.empty).2.m_bytes.length = 28 ∧
      (Registry.loadFromBuffer hostLE Registry.new
        ⟨(Registry.saveToBuffer hostLE
          ⟨rootName, 0, [], [⟨ascii "A", 0, [⟨ascii "x", Value.u8 7⟩], []⟩]⟩
          Buffer.empty).2.m_bytes.take 15, 0⟩ false).1 = Status.OK ∧
      (Registry.loadFromBuffer hostLE Registry.new
        ⟨(Registry.saveToBuffer hostLE
          ⟨rootName, 0, [], [⟨ascii "A", 0, [⟨ascii "x", Value.u8 7⟩], []⟩]⟩
          Buffer.empty).2.m_bytes.take 15, 0⟩ false).2.1 =
        ⟨rootName, 0, [], [⟨ascii "A", 0, [], []⟩]⟩) ∧
    ((Registry.saveToBuffer hostLE
        ⟨rootName, 0, [⟨ascii "s", Value.string (ascii "hi")⟩], []⟩
        Buffer.empty).2.m_bytes.length = 20 ∧
      (Registry.loadFromBuffer hostLE Registry.new
        ⟨(Registry.saveToBuffer hostLE
          ⟨rootName, 0, [⟨ascii "s", Value.string (ascii "hi")⟩], []⟩
          Buffer.empty).2.m_bytes.take 17, 0⟩ false).1 = Status.OK ∧
      (Registry.loadFromBuffer hostLE Registry.new
        ⟨(Registry.saveToBuffer hostLE
          ⟨rootName, 0, [⟨ascii "s", Value.string (ascii "hi")⟩], []⟩
          Buffer.empty).2.m_bytes.take 17, 0⟩ false).2.1 =
        ⟨rootName, 0, [⟨ascii "s", Value.string []⟩], []⟩) := by
  decide

/-- C32, amended. Let `T` be a registry tree that satisfies the data-model
invariants, and let the stream consist of the root count of `T` and of the
bytes `q` of its entity records up to one of the places of `CutBody`: it ends
between two entity records or inside the 4-byte header of one, inside the
4-byte length of the name of an entry record or of a subkey record, or
directly behind the complete name of an entry record, before its tag, at any
nesting level. Such a stream is a strict prefix of the bytes `saveToBuffer`
writes for `T`, `T` has an entry or a subkey, and `loadFromBuffer` with
`append = false` fails on it with `FileParseError`; the bytes are left as they
are and the cursor ends inside the stream or at its end, so that every read
has been inside the buffer (only a read that runs over the end moves the
cursor beyond it). On a stream of fewer than 4 bytes, which ends inside the
root count, `loadFromBuffer` returns `OK` and leaves the registry without
entries and subkeys. Streams that end inside the bytes of a name or inside a
value are not among these. -/
theorem truncated_rejected (hostS host : Host) (T R : Key) (q : List Byte)
    (hT : Registry.WellFormed T) (hq : CutBody T.m_entries T.m_keys q) :
    (∃ r, r ≠ [] ∧
      (Registry.saveToBuffer hostS T Buffer.empty).2.m_bytes =
        (be32 (T.m_entries.length + T.m_keys.length) ++ q) ++ r) ∧
    (T.m_entries ≠ [] ∨ T.m_keys ≠ []) ∧
    (Registry.loadFromBuffer host R
      ⟨be32 (T.m_entries.length + T.m_keys.length) ++ q, 0⟩ false).1 = Status.FileParseError ∧
    ((Registry.loadFromBuffer host R
        ⟨be32 (T.m_entries.length + T.m_keys.length) ++ q, 0⟩ false).2.2.m_bytes =
        be32 (T.m_entries.length + T.m_keys.length) ++ q ∧
      (Registry.loadFromBuffer host R
        ⟨be32 (T.m_entries.length + T.m_keys.length) ++ q, 0⟩ false).2.2.m_read ≤
        (be32 (T.m_entries.length + T.m_keys.length) ++ q).length) ∧
    (∀ p : List Byte, p.length < 4 →
      Registry.loadFromBuffer host R ⟨p, 0⟩ false =
        (Status.OK, { R with m_entries := [], m_keys := [] }, ⟨p, 0⟩)) := by
  have hb : (Registry.saveToBuffer hostS T Buffer.empty).2.m_bytes = encKey T := by
    simp [Registry.saveToBuffer, key_serialize_eq, Buffer.empty]
  obtain ⟨name, inst, es, ks⟩ := T
  obtain ⟨hroot, _, hwf⟩ := hT
  simp only at hroot hq
  subst hroot
  have hcount : es.length + ks.length < 2 ^ 32 := ((all_iff _ _).mp hwf).1.2.2.2.2.2
  obtain ⟨r, hr, hl⟩ := loadFromBuffer_total host R
    ⟨be32 (es.length + ks.length) ++ q, 0⟩ false
  have r1 := readData_U32_rest host ⟨be32 (es.length + ks.length) ++ q, 0⟩
    (es.length + ks.length) 0 q hcount (by simp [Buffer.rest])
  have h1 : ((⟨be32 (es.length + ks.length) ++ q, 0⟩ : Buffer).advance 4).rest = q := by
    simp [Buffer.rest, Buffer.advance, be32]
  have i1 : ((⟨be32 (es.length + ks.length) ++ q, 0⟩ : Buffer).advance 4).m_read ≤
      ((⟨be32 (es.length + ks.length) ++ q, 0⟩ : Buffer).advance 4).m_bytes.length := by
    simp [Buffer.advance, be32]
  obtain ⟨kf, bf, hf, hbf⟩ := cutBody_fail host es ks q hq rootName inst hwf
    { R with m_entries := [], m_keys := [] } _ rfl rfl h1 i1
  simp only [if_true, r1] at hr
  rw [hf] at hr
  cases hr
  have hlater := loadFromBuffer_later host R ⟨be32 (es.length + ks.length) ++ q, 0⟩ false
  refine ⟨?_, ?_, ?_, ⟨hlater.1, ?_⟩, ?_⟩
  · obtain ⟨r, hr1, hr2⟩ := cutBody_strict es ks q hq rootName inst hwf
    refine ⟨r, hr1, ?_⟩
    rw [hb, encKey_of_root inst es ks hcount, hr2]
    simp
  · cases hq <;> simp
  · rw [hl]
    simp
  · have hm := hlater.1
    rw [hl] at hm ⊢
    simp only at hm ⊢
    rw [← hm]
    exact hbf
  · intro p hp
    have := loadFromBuffer_short host R ⟨p, 0⟩ false (by simpa [Buffer.rest] using hp)
    simpa using this

/-- C32, amended, on the registry with the entry `"x"` and the subkey `"A"`
that holds the entry `"y"`: the first 37 of the 39 bytes written end inside
the record of `"y"`, directly behind its name, and the cursor ends at 37. -/
theorem truncated_rejected_witness :
    (Registry.WellFormed
        ⟨rootName, 0, [⟨ascii "x", Value.u8 7⟩],
          [⟨ascii "A", 0, [⟨ascii "y", Value.u8 9⟩], []⟩]⟩ ∧
      CutBody [⟨ascii "x", Value.u8 7⟩] [⟨ascii "A", 0, [⟨ascii "y", Value.u8 9⟩], []⟩]
        (([(⟨ascii "x", Value.u8 7⟩ : Entry)].map encEntry).flatten ++ (encKeys [] ++
          (be32 G_KEY_HEADER ++ (encString (ascii "A") ++ (be32 (1 + 0) ++
            ((([] : List Entry).map encEntry).flatten ++
              (be32 G_ENTRY_HEADER ++ encString (ascii "y"))))))))) ∧
    (be32 (1 + 1) ++
        (([(⟨ascii "x", Value.u8 7⟩ : Entry)].map encEntry).flatten ++ (encKeys [] ++
          (be32 G_KEY_HEADER ++ (encString (ascii "A") ++ (be32 (1 + 0) ++
            ((([] : List Entry).map encEntry).flatten ++
              (be32 G_ENTRY_HEADER ++ encString (ascii "y"))))))))) =
      (Registry.saveToBuffer hostLE
        ⟨rootName, 0, [⟨ascii "x", Value.u8 7⟩],
          [⟨ascii "A", 0, [⟨ascii "y", Value.u8 9⟩], []⟩]⟩ Buffer.empty).2.m_bytes.take 37 ∧
    (Registry.saveToBuffer hostLE
        ⟨rootName, 0, [⟨ascii "x", Value.u8 7⟩],
          [⟨ascii "A", 0, [⟨ascii "y", Value.u8 9⟩], []⟩]⟩ Buffer.empty).2.m_bytes.length = 39 ∧
    (Registry.loadFromBuffer hostLE sampleTree
      ⟨be32 (1 + 1) ++
        (([(⟨ascii "x", Value.u8 7⟩ : Entry)].map encEntry).flatten ++ (encKeys [] ++
          (be32 G_KEY_HEADER ++ (encString (ascii "A") ++ (be32 (1 + 0) ++
            ((([] : List Entry).map encEntry).flatten ++
              (be32 G_ENTRY_HEADER ++ encString (ascii "y")))))))), 0⟩ false).1 =
      Status.FileParseError ∧
    (Registry.loadFromBuffer hostLE sampleTree
      ⟨be32 (1 + 1) ++
        (([(⟨ascii "x", Value.u8 7⟩ : Entry)].map encEntry).flatten ++ (encKeys [] ++
          (be32 G_KEY_HEADER ++ (encString (ascii "A") ++ (be32 (1 + 0) ++
            ((([] : List Entry).map encEntry).flatten ++
              (be32 G_ENTRY_HEADER ++ encString (ascii "y")))))))), 0⟩ false).2.2.m_read = 37 :=
  ⟨⟨by decide,
    CutBody.nested [⟨ascii "x", Value.u8 7⟩] [] ⟨ascii "A", 0, [⟨ascii "y", Value.u8 9⟩], []⟩ []
      _ (CutBody.entryTag [] ⟨ascii "y", Value.u8 9⟩ [] [])⟩,
   by decide, by decide,
   (truncated_rejected hostLE hostLE
      ⟨rootName, 0, [⟨ascii "x", Value.u8 7⟩], [⟨ascii "A", 0, [⟨ascii "y", Value.u8 9⟩], []⟩]⟩
      sampleTree _ (by decide)
      (CutBody.nested [⟨ascii "x", Value.u8 7⟩] []
        ⟨ascii "A", 0, [⟨ascii "y", Value.u8 9⟩], []⟩ [] _
        (CutBody.entryTag [] ⟨ascii "y", Value.u8 9⟩ [] []))).2.2.1,
   by decide⟩

/-! ## Claim C38: decoding terminates, and what it decodes is bounded by the buffer -/

theorem total_later (host : Host) (k : Key) (b : Buffer) :
    b.Later (Key.deserializeNextTotal host k b).2.2 := by
  obtain ⟨r, hr, hl⟩ := deserializeNext_isSome host b.m_bytes.length k b (by omega)
  rw [deserializeNextTotal_some] at hr
  rw [Option.some.inj hr]
  exact hl

theorem totalLoop_later (host : Host) (n : Nat) (k : Key) (b : Buffer) :
    ∃ r, decodeLoop (fun k b => some (Key.deserializeNextTotal host k b)) n k b = some r ∧
      b.Later r.2.2 :=
  decodeLoop_later _ b.m_bytes 0 (fun k0 b0 _ _ => ⟨_, rfl, total_later host k0 b0⟩) n k b rfl
    (Nat.zero_le _)

end Nelobin
